import Mathlib

/-!
# Terminalscope: tile-buffer video model and VT100 escape-sequence parser

A shallow embedding of `video.c` (cursor, margins, scrolling, erasing, printing)
and of the byte dispatcher and escape-sequence state machine of `terminal.c`.

Conventions of the embedding

* `int8_t` variables (`cx`, `cy`, `mtop`, `mbottom`) are `Int`; every place where
  the C code narrows an `int` expression to `int8_t` applies `int8_t` explicitly.
* Bytes (`char`, `uint8_t` cells and flags) are `Nat` bit patterns.
* `TILEMAP` is addressed by the flat byte offset from `&TILEMAP[0][0]`, so
  `TILEMAP[y][x]` is offset `y * TILES_WIDE + x`, exactly as C computes the address
  (column `TILES_WIDE` of row `y` aliases column `0` of row `y + 1`).  The map is
  total on `Int`: offsets outside the `(TILES_HIGH + 1) * TILES_WIDE` allocation
  are kept as ordinary memory, so no access is silently dropped.
* `paramstr` is the list of the `MAX_ESC_LEN + 1` bytes of the parameter buffer,
  `paramptr` is an offset into it (`none` is the null pointer).
-/

set_option linter.unnecessarySeqFocus false
set_option linter.unusedVariables false
set_option maxRecDepth 100000

namespace Terminalscope

/-! ## Constants and machine integers -/

/-- Screen width in tiles (`defs.h`). -/
@[simp] def TILES_WIDE : Int := 54

/-- Screen height in tiles (`defs.h`). -/
@[simp] def TILES_HIGH : Int := 24

/-- Capacity of the escape parameter buffer (`terminal.c`). -/
@[simp] def MAX_ESC_LEN : Nat := 48

/-- Parser modes (the anonymous `enum` of `terminal.c`). -/
@[simp] def NOT_IN_ESC : Nat := 0

/-- Parser mode: an ESC byte has been seen. -/
@[simp] def ESC_GOT_1B : Nat := 1

/-- Parser mode: collecting a CSI sequence. -/
@[simp] def ESC_CSI : Nat := 2

/-- Parser mode: one further byte of a non-CSI sequence is to be swallowed. -/
@[simp] def ESC_NONCSI : Nat := 3

/-- Narrowing of a C `int` to `int8_t` (two's complement, as avr-gcc does). -/
def int8_t (n : Int) : Int := (n + 128) % 256 - 128

/-- Narrowing of a C `int` to `uint8_t`. -/
def uint8_t (n : Int) : Int := n % 256

/-- Conversion of a C `int` to `size_t` (16 bits on AVR). -/
def size_t (n : Int) : Int := n % 65536

/-! ## Memory primitives on the tile map -/

/-- Flat offset of `TILEMAP[y][x]`. -/
def tile (y x : Int) : Int := y * TILES_WIDE + x

/-- Store of one byte. -/
def poke (m : Int → Nat) (k : Int) (b : Nat) : Int → Nat :=
  fun i => if i = k then b else m i

/-- The libc `memset(dst, val, n)`. -/
def memset (m : Int → Nat) (dst : Int) (val : Nat) (n : Int) : Int → Nat :=
  fun i => if dst ≤ i ∧ i < dst + n then val else m i

/-- The libc `memmove(dst, src, n)`: every destination byte receives the old source byte. -/
def memmove (m : Int → Nat) (dst src n : Int) : Int → Nat :=
  fun i => if dst ≤ i ∧ i < dst + n then m (i - dst + src) else m i

/-- The libc `strlen` of a string given as the bytes that start at its address:
the number of bytes before the first NUL. -/
def strlen : List Nat → Nat
  | [] => 0
  | c :: cs => if c = 0 then 0 else strlen cs + 1

/-- The libc `memcpy(dst, str, n)` from a string outside the tile map. -/
def memcpy (m : Int → Nat) (dst : Int) (str : List Nat) (n : Int) : Int → Nat :=
  fun i => if dst ≤ i ∧ i < dst + n then str.getD (i - dst).toNat 0 else m i

/-- The libc `strncpy(dst, str, n)`: copies the string and pads with NULs up to `n` bytes. -/
def strncpy (m : Int → Nat) (dst : Int) (str : List Nat) (n : Int) : Int → Nat :=
  fun i => if dst ≤ i ∧ i < dst + n then
      (if (i - dst).toNat < strlen str then str.getD (i - dst).toNat 0 else 0)
    else m i

/-! ## video.c -/

/-- The static variables of `video.c`. -/
structure Video where
  /-- The tile map, by flat byte offset. -/
  TILEMAP : Int → Nat
  /-- Cursor column. -/
  cx : Int
  /-- Cursor row. -/
  cy : Int
  /-- Cursor mask: 0 when hidden, 0x80 when shown. -/
  showcursor : Nat
  /-- Top margin. -/
  mtop : Int
  /-- Bottom margin. -/
  mbottom : Int
  /-- Screen reverse-video byte (0 or 0x80). -/
  revvideo : Nat

/-- `TILEMAP[cy][cx] ^= showcursor`. -/
def CURSOR_INVERT (v : Video) : Video :=
  { v with TILEMAP := (poke v.TILEMAP (tile v.cy v.cx)
      (v.TILEMAP (tile v.cy v.cx) ^^^ v.showcursor)) }

/-- Absolute positioning (`video_gotoxy`); it does not respect the margins. -/
def video_gotoxy (x y : Int) (v : Video) : Video :=
  let v := CURSOR_INVERT v
  let v := { v with cx := x }
  let v := if v.cx < 0 then { v with cx := 0 } else v
  let v := if v.cx ≥ TILES_WIDE then { v with cx := TILES_WIDE - 1 } else v
  let v := { v with cy := y }
  let v := if v.cy < 0 then { v with cy := 0 } else v
  let v := if v.cy ≥ TILES_HIGH then { v with cy := TILES_HIGH - 1 } else v
  CURSOR_INVERT v

/-- Margin setting (`video_set_margins`); the source ends with `video_gotoxy(mtop, 0)`. -/
def video_set_margins (top bottom : Int) (v : Video) : Video :=
  let top := if top < 0 then 0 else top
  let bottom := if bottom ≥ TILES_HIGH then TILES_HIGH - 1 else bottom
  let top2 := if top ≥ bottom then 0 else top
  let bottom2 := if top ≥ bottom then TILES_HIGH - 1 else bottom
  let v := { v with mtop := top2, mbottom := bottom2 }
  video_gotoxy v.mtop 0 v

/-- Full-screen margins (`video_reset_margins`). -/
def video_reset_margins (v : Video) : Video :=
  video_set_margins 0 (TILES_HIGH - 1) v

/-- Getter `video_top_margin`. -/
def video_top_margin (v : Video) : Int := v.mtop

/-- Getter `video_bottom_margin`. -/
def video_bottom_margin (v : Video) : Int := v.mbottom

/-- Screen reverse video (`video_set_reverse`). -/
def video_set_reverse (val : Nat) (v : Video) : Video :=
  { v with revvideo := if val ≠ 0 then 0x80 else 0 }

/-- The static `_video_scrollup`: one `memmove` and one `memset`. -/
def _video_scrollup (v : Video) : Video :=
  let m := memmove v.TILEMAP (tile v.mtop 0) (tile (v.mtop + 1) 0)
    (size_t ((v.mbottom - v.mtop) * TILES_WIDE))
  { v with TILEMAP := memset m (tile v.mbottom 0) v.revvideo (size_t TILES_WIDE) }

/-- The static `_video_scrolldown`. -/
def _video_scrolldown (v : Video) : Video :=
  let m := memmove v.TILEMAP (tile (v.mtop + 1) 0) (tile v.mtop 0)
    (size_t ((v.mbottom - v.mtop) * TILES_WIDE))
  { v with TILEMAP := memset m (tile v.mtop 0) v.revvideo (size_t TILES_WIDE) }

/-- Scroll the region up one line (`video_scrollup`). -/
def video_scrollup (v : Video) : Video :=
  CURSOR_INVERT (_video_scrollup (CURSOR_INVERT v))

/-- Scroll the region down one line (`video_scrolldown`). -/
def video_scrolldown (v : Video) : Video :=
  CURSOR_INVERT (_video_scrolldown (CURSOR_INVERT v))

/-- Cursor to the start of the line (`video_movesol`). -/
def video_movesol (v : Video) : Video :=
  let v := CURSOR_INVERT v
  let v := { v with cx := 0 }
  CURSOR_INVERT v

/-- Set the cursor column (`video_setx`). -/
def video_setx (x : Int) (v : Video) : Video :=
  let v := CURSOR_INVERT v
  let v := { v with cx := x }
  let v := if v.cx < 0 then { v with cx := 0 } else v
  let v := if v.cx ≥ TILES_WIDE then { v with cx := TILES_WIDE - 1 } else v
  CURSOR_INVERT v

/-- Relative horizontal move (`video_movex`); `cx += dx` narrows to `int8_t`. -/
def video_movex (dx : Int) (v : Video) : Video :=
  let v := CURSOR_INVERT v
  let v := { v with cx := int8_t (v.cx + dx) }
  let v := if v.cx < 0 then { v with cx := 0 } else v
  let v := if v.cx ≥ TILES_WIDE then { v with cx := TILES_WIDE - 1 } else v
  CURSOR_INVERT v

/-- Relative vertical move (`video_movey`); `cy += dy` narrows to `int8_t`. -/
def video_movey (dy : Int) (v : Video) : Video :=
  let v := CURSOR_INVERT v
  let v := { v with cy := int8_t (v.cy + dy) }
  let v := if v.cy < v.mtop then { v with cy := v.mtop } else v
  let v := if v.cy > v.mbottom then { v with cy := v.mbottom } else v
  CURSOR_INVERT v

/-- The static `_video_lfwd`: column 0 of the next line, scrolling past the bottom margin. -/
def _video_lfwd (v : Video) : Video :=
  let v := { v with cx := 0 }
  let v := { v with cy := int8_t (v.cy + 1) }
  if v.cy > v.mbottom then _video_scrollup { v with cy := v.mbottom } else v

/-- The static `_video_cfwd`: `if (++cx > TILES_WIDE) _video_lfwd();`. -/
def _video_cfwd (v : Video) : Video :=
  let v := { v with cx := int8_t (v.cx + 1) }
  if v.cx > TILES_WIDE then _video_lfwd v else v

/-- Cursor forward (`video_cfwd`). -/
def video_cfwd (v : Video) : Video :=
  CURSOR_INVERT (_video_cfwd (CURSOR_INVERT v))

/-- Cursor to the start of the next line (`video_lfwd`). -/
def video_lfwd (v : Video) : Video :=
  let v := CURSOR_INVERT v
  let v := { v with cx := 0 }
  let v := { v with cy := int8_t (v.cy + 1) }
  let v := if v.cy > v.mbottom then _video_scrollup { v with cy := v.mbottom } else v
  CURSOR_INVERT v

/-- Line feed keeping the column (`video_lf`). -/
def video_lf (v : Video) : Video :=
  let v := CURSOR_INVERT v
  let v := { v with cy := int8_t (v.cy + 1) }
  let v := if v.cy > v.mbottom then _video_scrollup { v with cy := v.mbottom } else v
  CURSOR_INVERT v

/-- The static `_video_lback`; the source tests `--cy < 0`. -/
def _video_lback (v : Video) : Video :=
  let v := { v with cx := TILES_WIDE - 1 }
  let v := { v with cy := int8_t (v.cy - 1) }
  if v.cy < 0 then { v with cx := 0, cy := v.mtop } else v

/-- Cursor to the end of the previous line (`video_lback`). -/
def video_lback (v : Video) : Video :=
  let v := CURSOR_INVERT v
  let v := { v with cx := TILES_WIDE - 1 }
  let v := { v with cy := int8_t (v.cy - 1) }
  let v := if v.cy < 0 then { v with cx := 0, cy := v.mtop } else v
  CURSOR_INVERT v

/-- Cursor back one column (`video_cback`). -/
def video_cback (v : Video) : Video :=
  let v := CURSOR_INVERT v
  let v := { v with cx := int8_t (v.cx - 1) }
  let v := if v.cx < 0 then _video_lback v else v
  CURSOR_INVERT v

/-- Getter `video_getx`. -/
def video_getx (v : Video) : Int := v.cx

/-- Getter `video_gety`. -/
def video_gety (v : Video) : Int := v.cy

/-- The source of `video_charat(x, y)` returns `TILEMAP[cy][cx]`. -/
def video_charat (_x _y : Int) (v : Video) : Nat := v.TILEMAP (tile v.cy v.cx)

/-- Clear the screen (`video_clrscr`); `video_reset_margins` runs between the two
cursor toggles and itself calls `video_gotoxy`. -/
def video_clrscr (v : Video) : Video :=
  let v := CURSOR_INVERT v
  let v := video_reset_margins v
  let v := { v with TILEMAP := memset v.TILEMAP 0 v.revvideo (size_t (TILES_WIDE * TILES_HIGH)) }
  let v := { v with cx := 0, cy := 0 }
  CURSOR_INVERT v

/-- Clear the current line (`video_clrline`). -/
def video_clrline (v : Video) : Video :=
  let v := CURSOR_INVERT v
  let v := { v with TILEMAP := memset v.TILEMAP (tile v.cy 0) v.revvideo (size_t TILES_WIDE) }
  let v := { v with cx := 0 }
  CURSOR_INVERT v

/-- Clear to the end of the line (`video_clreol`); the source has no cursor toggle here. -/
def video_clreol (v : Video) : Video :=
  { v with TILEMAP := memset v.TILEMAP (tile v.cy v.cx) v.revvideo (size_t (TILES_WIDE - v.cx)) }

/-- Erase in display (`video_erase`). -/
def video_erase (erasemode : Int) (v : Video) : Video :=
  let v := CURSOR_INVERT v
  let v :=
    if erasemode = 0 then
      { v with TILEMAP := (memset v.TILEMAP (tile v.cy v.cx) v.revvideo
          (size_t (TILES_WIDE * TILES_HIGH - (v.cy * TILES_WIDE + v.cx)))) }
    else if erasemode = 1 then
      { v with TILEMAP := memset v.TILEMAP 0 v.revvideo (size_t (v.cy * TILES_WIDE + v.cx + 1)) }
    else if erasemode = 2 then
      { v with TILEMAP := memset v.TILEMAP 0 v.revvideo (size_t (TILES_WIDE * TILES_HIGH)) }
    else v
  CURSOR_INVERT v

/-- Erase in line (`video_eraseline`). -/
def video_eraseline (erasemode : Int) (v : Video) : Video :=
  let v := CURSOR_INVERT v
  let v :=
    if erasemode = 0 then
      { v with TILEMAP := memset v.TILEMAP (tile v.cy v.cx) v.revvideo (size_t (TILES_WIDE - v.cx)) }
    else if erasemode = 1 then
      { v with TILEMAP := memset v.TILEMAP (tile v.cy 0) v.revvideo (size_t (v.cx + 1)) }
    else if erasemode = 2 then
      { v with TILEMAP := memset v.TILEMAP (tile v.cy 0) v.revvideo (size_t TILES_WIDE) }
    else v
  CURSOR_INVERT v

/-- Print one byte at a position (`video_putcxy`). -/
def video_putcxy (x y : Int) (c : Nat) (v : Video) : Video :=
  if x < 0 ∨ x ≥ TILES_WIDE then v
  else if y < 0 ∨ y ≥ TILES_HIGH then v
  else { v with TILEMAP := poke v.TILEMAP (tile y x) (c ^^^ v.revvideo) }

/-- The loop of `video_invert_range`: `count` cells from `start` get bit 0x80 toggled. -/
def invert_loop (m : Int → Nat) (start : Int) : Nat → (Int → Nat)
  | 0 => m
  | count + 1 => invert_loop (poke m start (m start ^^^ 0x80)) (start + 1) count

/-- Inverse video for a range (`video_invert_range`); `rangelen` is a `uint8_t`. -/
def video_invert_range (x y : Int) (rangelen : Int) (v : Video) : Video :=
  { v with TILEMAP := invert_loop v.TILEMAP (tile y x) (uint8_t rangelen).toNat }

/-- Print a string at a position (`video_putsxy` and its program-memory twin). -/
def video_putsxy (x y : Int) (str : List Nat) (v : Video) : Video :=
  if x < 0 ∨ x ≥ TILES_WIDE then v
  else if y < 0 ∨ y ≥ TILES_HIGH then v
  else
    let len : Int := strlen str
    let len := if len > TILES_WIDE - x then TILES_WIDE - x else len
    let v := { v with TILEMAP := memcpy v.TILEMAP (tile y x) str (size_t len) }
    if v.revvideo ≠ 0 then video_invert_range x y len v else v

/-- Print a string on a whole line (`video_putline` and its program-memory twin). -/
def video_putline (y : Int) (str : List Nat) (v : Video) : Video :=
  if y < 0 ∨ y ≥ TILES_HIGH then v
  else
    let v := { v with TILEMAP := strncpy v.TILEMAP (tile y 0) str (size_t TILES_WIDE) }
    if v.revvideo ≠ 0 then video_invert_range 0 y TILES_WIDE v else v

/-- Overwrite the cell under the cursor (`video_setc`). -/
def video_setc (c : Nat) (v : Video) : Video :=
  let v := CURSOR_INVERT v
  let v := { v with TILEMAP := poke v.TILEMAP (tile v.cy v.cx) (c ^^^ v.revvideo) }
  CURSOR_INVERT v

/-- The static `_video_putc`: carriage return and newline are interpreted. -/
def _video_putc (c : Nat) (v : Video) : Video :=
  let v := if v.cx ≥ TILES_WIDE then _video_lfwd v else v
  if c = 0x0D then { v with cx := 0 }
  else if c = 0x0A then _video_lfwd v
  else _video_cfwd { v with TILEMAP := poke v.TILEMAP (tile v.cy v.cx) (c ^^^ v.revvideo) }

/-- Print a character (`video_putc`). -/
def video_putc (c : Nat) (v : Video) : Video :=
  CURSOR_INVERT (_video_putc c (CURSOR_INVERT v))

/-- Print a character without interpreting it (`video_putc_raw`). -/
def video_putc_raw (c : Nat) (v : Video) : Video :=
  let v := CURSOR_INVERT v
  let v := if v.cx ≥ TILES_WIDE then _video_lfwd v else v
  let v := { v with TILEMAP := poke v.TILEMAP (tile v.cy v.cx) (c ^^^ v.revvideo) }
  let v := _video_cfwd v
  CURSOR_INVERT v

/-- The loop `while ((c = *str++)) _video_putc(c);` of `video_puts`. -/
def puts_loop : List Nat → Video → Video
  | [], v => v
  | c :: cs, v => if c = 0 then v else puts_loop cs (_video_putc c v)

/-- Print a string (`video_puts` and its program-memory twin). -/
def video_puts (str : List Nat) (v : Video) : Video :=
  CURSOR_INVERT (puts_loop str (CURSOR_INVERT v))

/-- Show the cursor (`video_show_cursor`). -/
def video_show_cursor (v : Video) : Video :=
  if v.showcursor = 0 then CURSOR_INVERT { v with showcursor := 0x80 } else v

/-- Hide the cursor (`video_hide_cursor`). -/
def video_hide_cursor (v : Video) : Video :=
  if v.showcursor ≠ 0 then { CURSOR_INVERT v with showcursor := 0 } else v

/-- Getter `video_cursor_visible`. -/
def video_cursor_visible (v : Video) : Nat := if v.showcursor ≠ 0 then 1 else 0

/-- Welcome screen (`video_welcome`): border, banner, cursor at row 3, cursor flag cleared. -/
def video_welcome (v : Video) : Video :=
  let v := video_clrscr v
  let v := (List.range 52).foldl
    (fun (w : Video) (j : Nat) => video_putcxy (j + 1) 2 0x12 (video_putcxy (j + 1) 0 0x12 w)) v
  let v := video_putcxy 0 1 0x19 v
  let v := video_putcxy (TILES_WIDE - 1) 1 0x19 v
  let v := video_putcxy 0 0 0x0D v
  let v := video_putcxy (TILES_WIDE - 1) 0 0x0C v
  let v := video_putcxy 0 2 0x0E v
  let v := video_putcxy (TILES_WIDE - 1) 2 0x0B v
  let v := video_putsxy 2 1 ("Terminalscope by Matt Sarnoff".toList.map Char.toNat) v
  let v := video_putsxy (TILES_WIDE - 18) 1 ("v0.6 Feb 13 2010".toList.map Char.toNat) v
  { v with cx := 0, cy := 3, showcursor := 0 }

/-! ## terminal.c -/

/-- The record `termstate_t` used by save and restore. -/
structure termstate_t where
  /-- Saved cursor column. -/
  cx : Int
  /-- Saved cursor row. -/
  cy : Int
  /-- Saved graphic-character-set flag. -/
  graphicchars : Nat
  /-- Saved SGR reverse-video attribute. -/
  revvideo : Nat

/-- The static variables of `terminal.c` that the dispatcher and the escape parser use,
together with the video state they act on. -/
structure Terminal where
  /-- The state of `video.c`. -/
  video : Video
  /-- Parser mode. -/
  in_esc : Nat
  /-- Parameter buffer, `MAX_ESC_LEN + 1` bytes. -/
  paramstr : List Nat
  /-- Read pointer into `paramstr`, as an offset; `none` is `NULL`. -/
  paramptr : Option Nat
  /-- Write index into `paramstr`. -/
  paramch : Nat
  /-- Configuration switch: escape processing enabled when nonzero. -/
  process_escseqs : Nat
  /-- Graphic-character-set flag (SO sets it, SI clears it). -/
  graphicchars : Nat
  /-- SGR reverse-video attribute (0 or 0x80), the `revvideo` of `terminal.c`. -/
  revvideo : Nat
  /-- Slot used by save and restore. -/
  savedstate : termstate_t

/-- The libc `strchr` on the bytes that start at the pointer: offset (counted from `p`)
of the first `ch`, searching up to the terminating NUL. -/
def strchr_from : List Nat → Nat → Nat → Option Nat
  | [], _, _ => none
  | c :: cs, ch, p => if c = ch then some p else if c = 0 then none else strchr_from cs ch (p + 1)

/-- The call `strchr(paramstr + p, ch)`, as an offset into the buffer. -/
def strchr (s : List Nat) (p : Nat) (ch : Nat) : Option Nat := strchr_from (s.drop p) ch p

/-- The libc `isspace` in the C locale. -/
def isspace (c : Nat) : Bool := c = 32 || (9 ≤ c && c ≤ 13)

/-- Digit accumulation of `atoi`. -/
def atoi_digits : List Nat → Int → Int
  | [], acc => acc
  | c :: cs, acc => if 48 ≤ c ∧ c ≤ 57 then atoi_digits cs (acc * 10 + ((c : Int) - 48)) else acc

/-- The libc `atoi` on the bytes that start at the pointer: leading white space,
an optional sign, then decimal digits. -/
def atoi (s : List Nat) : Int :=
  match s.dropWhile isspace with
  | 45 :: r => - atoi_digits r 0
  | 43 :: r => atoi_digits r 0
  | r => atoi_digits r 0

/-- Reset of the parameter buffer (`escseq_csi_start`). -/
def escseq_csi_start (t : Terminal) : Terminal :=
  { t with paramch := 0, paramstr := List.replicate (MAX_ESC_LEN + 1) 0, paramptr := some 0 }

/-- Next parameter (`escseq_get_param`): returns the value and the updated parser state. -/
def escseq_get_param (defaultval : Int) (t : Terminal) : Int × Terminal :=
  match t.paramptr with
  | none => (defaultval, t)
  | some startptr =>
    let t1 : Terminal :=
      match strchr t.paramstr startptr 0x3B with
      | some endptr => { t with paramstr := t.paramstr.set endptr 0, paramptr := some (endptr + 1) }
      | none => { t with paramptr := none }
    let val :=
      if t1.paramstr.getD startptr 0 ≠ 0 then uint8_t (atoi (t1.paramstr.drop startptr))
      else defaultval
    (val, t1)

/-- Save cursor and attributes (`save_term_state`). -/
def save_term_state (t : Terminal) : Terminal :=
  { t with savedstate :=
      { cx := video_getx t.video, cy := video_gety t.video,
        graphicchars := t.graphicchars, revvideo := t.revvideo } }

/-- Restore cursor and attributes (`restore_term_state`). -/
def restore_term_state (t : Terminal) : Terminal :=
  { t with video := video_gotoxy t.savedstate.cx t.savedstate.cy t.video,
           graphicchars := t.savedstate.graphicchars,
           revvideo := t.savedstate.revvideo }

/-- Terminal reset (`reset_term`). -/
def reset_term (t : Terminal) : Terminal :=
  save_term_state { t with graphicchars := 0, revvideo := 0, in_esc := 0 }

/-- Body of the loop of the `m` case: one attribute is read and applied. -/
def sgr_step (t : Terminal) : Terminal :=
  let r := escseq_get_param 0 t
  if r.1 = 0 ∨ r.1 = 27 then { r.2 with revvideo := 0 }
  else if r.1 = 7 then { r.2 with revvideo := 0x80 }
  else r.2

/-- The loop `while (paramptr) ...` of the `m` case, unrolled at most `fuel` times. -/
def sgr_loop : Nat → Terminal → Terminal
  | 0, t => t
  | fuel + 1, t =>
    match t.paramptr with
    | none => t
    | some _ => sgr_loop fuel (sgr_step t)

/-- The `switch (c)` of `escseq_process_csi`: the action selected by the terminator.
The loop of the `m` case gets one more unit of fuel than the buffer has bytes, which
always lets it run to its exit (`sgr_loop_exits`). -/
def csi_dispatch (c : Nat) (t : Terminal) : Terminal :=
  if c = 0x41 then
    let r := escseq_get_param 1 t
    { r.2 with video := video_movey (int8_t (- r.1)) r.2.video }
  else if c = 0x42 then
    let r := escseq_get_param 1 t
    { r.2 with video := video_movey (int8_t r.1) r.2.video }
  else if c = 0x43 then
    let r := escseq_get_param 1 t
    { r.2 with video := video_movex (int8_t r.1) r.2.video }
  else if c = 0x44 then
    let r := escseq_get_param 1 t
    { r.2 with video := video_movex (int8_t (- r.1)) r.2.video }
  else if c = 0x45 then
    let r := escseq_get_param 1 t
    { r.2 with video := video_movesol (video_movey (int8_t r.1) r.2.video) }
  else if c = 0x46 then
    let r := escseq_get_param 1 t
    { r.2 with video := video_movesol (video_movey (int8_t (- r.1)) r.2.video) }
  else if c = 0x47 then
    let r := escseq_get_param 1 t
    { r.2 with video := video_setx (int8_t (r.1 - 1)) r.2.video }
  else if c = 0x48 ∨ c = 0x66 then
    let ry := escseq_get_param 1 t
    let rx := escseq_get_param 1 ry.2
    { rx.2 with video := video_gotoxy (int8_t (rx.1 - 1)) (int8_t (ry.1 - 1)) rx.2.video }
  else if c = 0x4A then
    let r := escseq_get_param 0 t
    { r.2 with video := video_erase r.1 r.2.video }
  else if c = 0x4B then
    let r := escseq_get_param 0 t
    { r.2 with video := video_eraseline r.1 r.2.video }
  else if c = 0x6D then
    sgr_loop (t.paramstr.length + 1) t
  else if c = 0x72 then
    let rt := escseq_get_param 1 t
    let rb := escseq_get_param (uint8_t TILES_HIGH) rt.2
    { rb.2 with video := video_set_margins (int8_t (rt.1 - 1)) (int8_t (rb.1 - 1)) rb.2.video }
  else t

/-- Sequences that begin with `ESC [` (`escseq_process_csi`).  The byte `c` is a `char`;
only its bit pattern matters for the comparisons made here. -/
def escseq_process_csi (c : Nat) (t : Terminal) : Terminal :=
  if (0x30 ≤ c ∧ c ≤ 0x39) ∨ c = 0x3B ∨ c = 0x3F then
    if t.paramch ≥ MAX_ESC_LEN then { t with in_esc := NOT_IN_ESC }
    else { t with paramstr := t.paramstr.set t.paramch c, paramch := t.paramch + 1 }
  else
    { csi_dispatch c t with in_esc := NOT_IN_ESC }

/-- The shared body of the cases `E` (after `video_movesol`) and `D` of
`escseq_process_noncsi`: scroll at the bottom margin, else move down. -/
def esc_index (t : Terminal) : Terminal :=
  if video_gety t.video = video_bottom_margin t.video then
    { t with video := video_scrollup t.video }
  else { t with video := video_movey 1 t.video }

/-- The case `M` of `escseq_process_noncsi`: scroll at the top margin, else move up. -/
def esc_reverse_index (t : Terminal) : Terminal :=
  if video_gety t.video = video_top_margin t.video then
    { t with video := video_scrolldown t.video }
  else { t with video := video_movey (-1) t.video }

/-- Sequences that begin with `ESC` (`escseq_process_noncsi`). -/
def escseq_process_noncsi (c : Nat) (t : Terminal) : Terminal :=
  if c = 0x5B then
    { escseq_csi_start t with in_esc := ESC_CSI }
  else if c = 0x25 ∨ c = 0x23 ∨ c = 0x28 ∨ c = 0x29 then t
  else if c = 0x37 then
    { save_term_state t with in_esc := NOT_IN_ESC }
  else if c = 0x38 then
    { restore_term_state t with in_esc := NOT_IN_ESC }
  else if c = 0x45 then
    { esc_index { t with video := video_movesol t.video } with in_esc := NOT_IN_ESC }
  else if c = 0x44 then
    { esc_index t with in_esc := NOT_IN_ESC }
  else if c = 0x4D then
    { esc_reverse_index t with in_esc := NOT_IN_ESC }
  else if c = 0x63 then
    { reset_term { t with video := video_clrscr t.video } with in_esc := NOT_IN_ESC }
  else { t with in_esc := NOT_IN_ESC }

/-- Escape-sequence dispatcher (`escseq_process`). -/
def escseq_process (c : Nat) (t : Terminal) : Terminal :=
  if c = 0x18 ∨ c = 0x1A then { t with in_esc := NOT_IN_ESC }
  else if t.in_esc = ESC_CSI then escseq_process_csi c t
  else if t.in_esc = ESC_NONCSI then { t with in_esc := NOT_IN_ESC }
  else if t.in_esc = ESC_GOT_1B then escseq_process_noncsi c { t with in_esc := ESC_NONCSI }
  else t

/-- The `switch (c)` of `receive_char`: a nonzero byte received outside escape sequences. -/
def receive_idle (c : Nat) (t : Terminal) : Terminal :=
  if c = 0x07 then t
  else if c = 0x08 then { t with video := video_cback t.video }
  else if c = 0x0A ∨ c = 0x0B ∨ c = 0x0C then { t with video := video_lf t.video }
  else if c = 0x0D then { t with video := video_setx 0 t.video }
  else if c = 0x0E then { t with graphicchars := 1 }
  else if c = 0x0F then { t with graphicchars := 0 }
  else if c = 0x1B then { t with in_esc := ESC_GOT_1B }
  else if c = 0x7F then t
  else if c ≥ 0x20 then
    let c1 := if t.graphicchars ≠ 0 ∧ c ≥ 0x5F ∧ c ≤ 0x7E then c - 95 else c
    let c2 := c1 ||| t.revvideo
    { t with video := video_putc_raw c2 t.video }
  else t

/-- Byte sink of the terminal (`receive_char`). -/
def receive_char (c : Nat) (t : Terminal) : Terminal :=
  if t.process_escseqs = 0 then { t with video := video_putc_raw c t.video }
  else if c ≠ 0 then
    if t.in_esc ≠ 0 then escseq_process c t
    else receive_idle c t
  else t

/-- Feeding a sequence of bytes to `receive_char`, first byte first. -/
def feed (bytes : List Nat) (t : Terminal) : Terminal :=
  bytes.foldl (fun s c => receive_char c s) t

/-! ## Operation sequences, invariants and reference states -/

/-- One call made on the terminal: a byte given to `receive_char`, or one of the
cursor and print operations exported by `video.h`. -/
inductive Op where
  | receive_char (c : Nat)
  | video_set_margins (top bottom : Int)
  | video_reset_margins
  | video_set_reverse (val : Nat)
  | video_clrscr
  | video_clrline
  | video_clreol
  | video_erase (erasemode : Int)
  | video_eraseline (erasemode : Int)
  | video_setc (c : Nat)
  | video_putc (c : Nat)
  | video_putc_raw (c : Nat)
  | video_puts (str : List Nat)
  | video_putcxy (x y : Int) (c : Nat)
  | video_putsxy (x y : Int) (str : List Nat)
  | video_putline (y : Int) (str : List Nat)
  | video_gotoxy (x y : Int)
  | video_movex (dx : Int)
  | video_movey (dy : Int)
  | video_movesol
  | video_setx (x : Int)
  | video_cfwd
  | video_lfwd
  | video_lf
  | video_cback
  | video_lback
  | video_scrollup
  | video_scrolldown
  | video_show_cursor
  | video_hide_cursor
  | video_invert_range (x y : Int) (rangelen : Int)
  | video_welcome

/-- Effect of one call on the video state. -/
def Op.onVideo : Op → Video → Video
  | .receive_char _ => id
  | .video_set_margins top bottom => Terminalscope.video_set_margins top bottom
  | .video_reset_margins => Terminalscope.video_reset_margins
  | .video_set_reverse val => Terminalscope.video_set_reverse val
  | .video_clrscr => Terminalscope.video_clrscr
  | .video_clrline => Terminalscope.video_clrline
  | .video_clreol => Terminalscope.video_clreol
  | .video_erase m => Terminalscope.video_erase m
  | .video_eraseline m => Terminalscope.video_eraseline m
  | .video_setc c => Terminalscope.video_setc c
  | .video_putc c => Terminalscope.video_putc c
  | .video_putc_raw c => Terminalscope.video_putc_raw c
  | .video_puts str => Terminalscope.video_puts str
  | .video_putcxy x y c => Terminalscope.video_putcxy x y c
  | .video_putsxy x y str => Terminalscope.video_putsxy x y str
  | .video_putline y str => Terminalscope.video_putline y str
  | .video_gotoxy x y => Terminalscope.video_gotoxy x y
  | .video_movex dx => Terminalscope.video_movex dx
  | .video_movey dy => Terminalscope.video_movey dy
  | .video_movesol => Terminalscope.video_movesol
  | .video_setx x => Terminalscope.video_setx x
  | .video_cfwd => Terminalscope.video_cfwd
  | .video_lfwd => Terminalscope.video_lfwd
  | .video_lf => Terminalscope.video_lf
  | .video_cback => Terminalscope.video_cback
  | .video_lback => Terminalscope.video_lback
  | .video_scrollup => Terminalscope.video_scrollup
  | .video_scrolldown => Terminalscope.video_scrolldown
  | .video_show_cursor => Terminalscope.video_show_cursor
  | .video_hide_cursor => Terminalscope.video_hide_cursor
  | .video_invert_range x y n => Terminalscope.video_invert_range x y n
  | .video_welcome => Terminalscope.video_welcome

/-- Effect of one call on the terminal. -/
def Op.run (o : Op) (t : Terminal) : Terminal :=
  match o with
  | .receive_char c => Terminalscope.receive_char c t
  | o => { t with video := o.onVideo t.video }

/-- Effect of a sequence of calls, first call first. -/
def run_ops (ops : List Op) (t : Terminal) : Terminal :=
  ops.foldl (fun s o => o.run s) t

/-- Cursor and margin bounds that hold after initialisation: the column may equal
`TILES_WIDE` (a character was printed in the last column and the wrap is pending). -/
def Inv (v : Video) : Prop :=
  0 ≤ v.cx ∧ v.cx ≤ TILES_WIDE ∧ 0 ≤ v.cy ∧ v.cy ≤ TILES_HIGH - 1 ∧
  0 ≤ v.mtop ∧ v.mtop < v.mbottom ∧ v.mbottom ≤ TILES_HIGH - 1

/-- The video statics as the C runtime zero-initialises them. -/
def video_zero : Video :=
  { TILEMAP := fun _ => 0, cx := 0, cy := 0, showcursor := 0, mtop := 0, mbottom := 0,
    revvideo := 0 }

/-- The terminal after start-up: statics zeroed, escape processing enabled,
`video_clrscr` and `reset_term` run, cursor hidden. -/
def boot : Terminal :=
  reset_term
    { video := video_clrscr video_zero, in_esc := 0,
      paramstr := List.replicate (MAX_ESC_LEN + 1) 0, paramptr := none, paramch := 0,
      process_escseqs := 1, graphicchars := 0, revvideo := 0,
      savedstate := { cx := 0, cy := 0, graphicchars := 0, revvideo := 0 } }

/-- Rows `top .. bottom` of `new` are those of `old` scrolled up one line: every row `r`
of `top ≤ r < bottom` holds the old row `r + 1`, row `bottom` holds `fill`, and every
cell outside these rows is unchanged. -/
def ScrolledUp (old new : Int → Nat) (top bottom : Int) (fill : Nat) : Prop :=
  (∀ r x : Int, top ≤ r → r < bottom → 0 ≤ x → x < TILES_WIDE →
    new (tile r x) = old (tile (r + 1) x)) ∧
  (∀ x : Int, 0 ≤ x → x < TILES_WIDE → new (tile bottom x) = fill) ∧
  (∀ i : Int, (i < tile top 0 ∨ tile (bottom + 1) 0 ≤ i) → new i = old i)

/-- Rows `top .. bottom` of `new` are those of `old` scrolled down one line: every row
`r + 1` with `top ≤ r < bottom` holds the old row `r`, row `top` holds `fill`, and every
cell outside these rows is unchanged. -/
def ScrolledDown (old new : Int → Nat) (top bottom : Int) (fill : Nat) : Prop :=
  (∀ r x : Int, top ≤ r → r < bottom → 0 ≤ x → x < TILES_WIDE →
    new (tile (r + 1) x) = old (tile r x)) ∧
  (∀ x : Int, 0 ≤ x → x < TILES_WIDE → new (tile top x) = fill) ∧
  (∀ i : Int, (i < tile top 0 ∨ tile (bottom + 1) 0 ≤ i) → new i = old i)

/-- A sample video state: scroll region rows 2 to 5, cursor hidden at column 3 of row 4,
screen in reverse video, cell `i` holding `i mod 128`. -/
def demo_video : Video :=
  { TILEMAP := fun i => (i % 128).toNat, cx := 3, cy := 4, showcursor := 0, mtop := 2,
    mbottom := 5, revvideo := 0x80 }

/-- The sample video state in a terminal that is idle, with escape processing enabled. -/
def demo_term : Terminal := { boot with video := demo_video }

instance (v : Video) : Decidable (Inv v) := by
  unfold Inv
  infer_instance

/-- The bytes that `escseq_process_csi` stores: digits, `;` and `?`. -/
def is_param (c : Nat) : Prop := (0x30 ≤ c ∧ c ≤ 0x39) ∨ c = 0x3B ∨ c = 0x3F

instance (c : Nat) : Decidable (is_param c) := by
  unfold is_param
  infer_instance

/-- The decimal digits. -/
def is_digit (c : Nat) : Prop := 0x30 ≤ c ∧ c ≤ 0x39

instance (c : Nat) : Decidable (is_digit c) := by
  unfold is_digit
  infer_instance

/-- Successive stores `paramstr[i] = c, paramstr[i+1] = c', ...` of a list of bytes. -/
def store_params : List Nat → Nat → List Nat → List Nat
  | s, _, [] => s
  | s, i, c :: cs => store_params (s.set i c) (i + 1) cs

/-- The terminal after `ESC [` and the parameter bytes `ps` (which fit the buffer). -/
def csi_collected (ps : List Nat) (t : Terminal) : Terminal :=
  { t with in_esc := ESC_CSI, paramch := ps.length,
           paramstr := ps ++ List.replicate (MAX_ESC_LEN + 1 - ps.length) 0,
           paramptr := some 0 }

/-- Two terminals agree on everything a sequence can be observed to do: the whole video
state (cursor, buffer, margins, screen reverse video, cursor flag), the parser mode, the
attribute flags, the saved-state slot and the configuration switch.  The parameter buffer
and its two indices are left out. -/
def SameScreen (a b : Terminal) : Prop :=
  a.video = b.video ∧ a.in_esc = b.in_esc ∧ a.graphicchars = b.graphicchars ∧
  a.revvideo = b.revvideo ∧ a.savedstate = b.savedstate ∧
  a.process_escseqs = b.process_escseqs

/-- The byte that `receive_char` hands to `video_putc_raw` for a printable byte `c`:
the line-drawing remap when the graphic character set is on, then the SGR
reverse-video attribute OR-ed in. -/
def glyph (c : Nat) (t : Terminal) : Nat :=
  (if t.graphicchars ≠ 0 ∧ c ≥ 0x5F ∧ c ≤ 0x7E then c - 95 else c) ||| t.revvideo

/-- The bytes that the idle dispatcher prints: `c ≥ 0x20` other than DEL. -/
def is_printable (c : Nat) : Prop := 0x20 ≤ c ∧ c ≠ 0x7F

instance (c : Nat) : Decidable (is_printable c) := by
  unfold is_printable
  infer_instance

/-- The terminal after `ESC [ 1 ;` received from start-up: a CSI sequence in progress. -/
def mid_csi : Terminal := feed [0x1B, 0x5B, 0x31, 0x3B] boot

/-- Two tile maps agree on the visible cells, rows `0 .. TILES_HIGH - 1`. -/
def VisEq (a b : Int → Nat) : Prop :=
  ∀ i : Int, 0 ≤ i → i < TILES_WIDE * TILES_HIGH → a i = b i

/-- `a` is a video state with the cursor hidden, `b` one with the cursor flag set but the
mask not applied; they have the same cursor, margins and screen reverse video and agree
on the visible cells. -/
def Sim (a b : Video) : Prop :=
  a.cx = b.cx ∧ a.cy = b.cy ∧ a.mtop = b.mtop ∧ a.mbottom = b.mbottom ∧
  a.revvideo = b.revvideo ∧ a.showcursor = 0 ∧ b.showcursor = 0x80 ∧
  VisEq a.TILEMAP b.TILEMAP

/-- The hidden-cursor state `vh` and the shown-cursor state `vs` correspond: once the
cursor mask is removed from `vs`, the two agree (`Sim`). -/
def Rel (vh vs : Video) : Prop := Sim vh (CURSOR_INVERT vs)

/-- A video operation that keeps the bounds and the correspondence of the two runs. -/
def IsRelOp (F : Video → Video) : Prop :=
  ∀ vh vs : Video, Inv vh → Rel vh vs → Inv (F vh) ∧ Rel (F vh) (F vs)

/-- The part of the video state that the dispatcher reads: cursor and margins. -/
def SameCursor (v w : Video) : Prop :=
  v.cx = w.cx ∧ v.cy = w.cy ∧ v.mtop = w.mtop ∧ v.mbottom = w.mbottom

/-- On the terminal `t`, with any video state that has the cursor and margins of
`t.video`, the step `f` applies one fixed correspondence-keeping video operation and
sets the other fields to fixed values. -/
def Factors (f : Terminal → Terminal) (t : Terminal) : Prop :=
  ∃ (F : Video → Video) (t1 : Terminal), IsRelOp F ∧
    ∀ v : Video, SameCursor v t.video → f { t with video := v } = { t1 with video := F v }

/-- The hidden-cursor terminal `th` and the shown-cursor terminal `ts` correspond: they
differ in the video state only, the video states correspond, and the bounds hold. -/
def TRel (th ts : Terminal) : Prop :=
  ts = { th with video := ts.video } ∧ Rel th.video ts.video ∧ Inv th.video

/-- The bytes `A` × 55, `ESC [ H`, `A` × 54: sent after start-up they leave `A` in row 0
and in cell (1,0), and the cursor on row 0 in the pending-wrap column `TILES_WIDE`. -/
def pending_wrap_bytes : List Nat :=
  List.replicate 55 0x41 ++ [0x1B, 0x5B, 0x48] ++ List.replicate 54 0x41

/-- The ambient attribute fill value as the specification words it: the blank glyph 0
carrying the reverse-video bit that a printable byte written now would receive, that is,
stored as `receive_char` and `video_putc_raw` store a byte: the SGR reverse-video
attribute OR-ed in, then the screen reverse-video byte XOR-ed in. -/
def ambient_fill (t : Terminal) : Nat := (0 ||| t.revvideo) ^^^ t.video.revvideo

/-- The bytes of `ESC [ 2 J` followed by `ESC [ rs ; cs H`, for row digits `rs` and
column digits `cs`. -/
def erase_then_goto (rs cs : List Nat) : List Nat :=
  [0x1B, 0x5B, 0x32, 0x4A] ++ 0x1B :: 0x5B :: (rs ++ 0x3B :: cs ++ [0x48])

/-- The parameter bytes of a sequence with the given fields: the fields, each a run of
digits that may be empty, separated by `;`. -/
def join_fields : List (List Nat) → List Nat
  | [] => []
  | [f] => f
  | f :: g :: fs => f ++ 0x3B :: join_fields (g :: fs)

/-- The rendition step as the specification words it: the attribute values 0 and 27 set
reverse video off, 7 sets it on (0x80), every other value leaves it as it is. -/
def sgr_spec_step (rv : Nat) (attr : Int) : Nat :=
  if attr = 0 ∨ attr = 27 then 0 else if attr = 7 then 0x80 else rv

/-- The value that the parameter reader gives a field of digits: its decimal value as an
`uint8_t`, which is 0 for the empty field. -/
def field_value (f : List Nat) : Int := uint8_t (atoi_digits f 0)

/-- The decimal numeral of `n` as bytes, most significant digit first. -/
def decimal (n : Nat) : List Nat := (Nat.toDigits 10 n).map Char.toNat

/-- The bytes of one parameter of a sequence: nothing for an omitted parameter, the
decimal numeral otherwise. -/
def param_bytes : Option Nat → List Nat
  | none => []
  | some p => decimal p

/-- The value of one parameter as the specification words it: an omitted parameter of
the rendition sequence counts as 0. -/
def param_value : Option Nat → Int
  | none => 0
  | some p => p

/-- The first two statements of `video_putc_raw`: the cursor mask is removed and a pending
wrap is resolved.  The cursor of this state is the cell that the byte is written to. -/
def putc_target (v : Video) : Video :=
  let v := CURSOR_INVERT v
  if v.cx ≥ TILES_WIDE then _video_lfwd v else v

/-! ## terminal.c: the receive ring buffer -/

/-- The size `MAX_BUF` of the circular UART buffer of `terminal.c`. -/
@[simp] def MAX_BUF : Nat := 254

/-- The circular UART buffer of `terminal.c`: the array `buf` and the `uint8_t`
variables `bufhead`, `buftail` and `bufsize`. -/
structure RingBuf where
  /-- The array, by index. -/
  buf : Nat → Nat
  /-- Index of the oldest byte. -/
  bufhead : Nat
  /-- Index of the next free slot. -/
  buftail : Nat
  /-- Number of bytes held. -/
  bufsize : Nat

/-- Emptying the buffer (`buf_clear`). -/
def buf_clear (r : RingBuf) : RingBuf :=
  { r with bufsize := 0, bufhead := 0, buftail := 0 }

/-- Appending a byte (`buf_enqueue`); `++buftail` and `bufsize++` are `uint8_t`
increments. -/
def buf_enqueue (c : Nat) (r : RingBuf) : RingBuf :=
  if r.bufsize < MAX_BUF then
    let r := { r with buf := fun i => if i = r.buftail then c else r.buf i }
    let r := { r with buftail := (r.buftail + 1) % 256 }
    let r := if r.buftail ≥ MAX_BUF then { r with buftail := 0 } else r
    { r with bufsize := (r.bufsize + 1) % 256 }
  else r

/-- Removing the oldest byte (`buf_dequeue`): the byte returned and the buffer left;
`++bufhead` and `bufsize--` are `uint8_t` operations. -/
def buf_dequeue (r : RingBuf) : Nat × RingBuf :=
  if r.bufsize > 0 then
    let c := r.buf r.bufhead
    let r := { r with bufhead := (r.bufhead + 1) % 256 }
    let r := if r.bufhead ≥ MAX_BUF then { r with bufhead := 0 } else r
    (c, { r with bufsize := (r.bufsize + 255) % 256 })
  else (0, r)

/-- Number of bytes held (`buf_size`). -/
def buf_size (r : RingBuf) : Nat := r.bufsize

/-- The bytes held by the ring buffer, oldest first. -/
def ring_contents (r : RingBuf) : List Nat :=
  (List.range r.bufsize).map (fun i => r.buf ((r.bufhead + i) % MAX_BUF))

/-- Consistency of the ring buffer: the indices are inside the array, at most `MAX_BUF`
bytes are held, and the tail is `bufsize` slots after the head, modulo `MAX_BUF`. -/
def RingInv (r : RingBuf) : Prop :=
  r.bufhead < MAX_BUF ∧ r.buftail < MAX_BUF ∧ r.bufsize ≤ MAX_BUF ∧
  r.buftail = (r.bufhead + r.bufsize) % MAX_BUF

instance (r : RingBuf) : Decidable (RingInv r) := by
  unfold RingInv
  infer_instance

/-- The bounded queue as the specification words it: a byte is appended when fewer than
254 bytes are held and dropped otherwise. -/
def fifo_enqueue (c : Nat) (l : List Nat) : List Nat :=
  if l.length < 254 then l ++ [c] else l

/-- The bounded queue as the specification words it: the oldest byte is removed and
returned; on the empty queue 0 is returned and nothing changes. -/
def fifo_dequeue : List Nat → Nat × List Nat
  | [] => (0, [])
  | x :: xs => (x, xs)

/-- The ring buffer after `buf_clear` and the enqueueing of the bytes `bs`, first byte
first. -/
def ring_filled (bs : List Nat) (r : RingBuf) : RingBuf :=
  bs.foldl (fun s c => buf_enqueue c s) (buf_clear r)

/-- The loop `while (bufsize) receive_char(buf_dequeue());` of `main`, as the list of the
bytes handed to `receive_char`, run for at most `fuel` iterations. -/
def ring_drain : Nat → RingBuf → List Nat
  | 0, _ => []
  | fuel + 1, r =>
    if r.bufsize ≠ 0 then (buf_dequeue r).1 :: ring_drain fuel (buf_dequeue r).2 else []

/-! ## Further reference notions -/

/-- The byte `c` received in state `t` completes `ESC 7` or `ESC c`, the two sequences on
which `receive_char` reaches `save_term_state`. -/
def saves_state (c : Nat) (t : Terminal) : Prop :=
  t.process_escseqs ≠ 0 ∧ t.in_esc = ESC_GOT_1B ∧ (c = 0x37 ∨ c = 0x63)

instance (c : Nat) (t : Terminal) : Decidable (saves_state c t) := by
  unfold saves_state
  infer_instance

/-- No byte of the list, received in turn from state `t`, completes `ESC 7` or `ESC c`. -/
def no_save : List Nat → Terminal → Prop
  | [], _ => True
  | c :: cs, t => ¬ saves_state c t ∧ no_save cs (receive_char c t)

/-- Decision procedure for `no_save`. -/
def no_save_decide : (bs : List Nat) → (t : Terminal) → Decidable (no_save bs t)
  | [], _ => isTrue trivial
  | c :: cs, t =>
    match no_save_decide cs (receive_char c t) with
    | isTrue h =>
      if hs : saves_state c t then isFalse (fun hn => hn.1 hs) else isTrue ⟨hs, h⟩
    | isFalse h => isFalse (fun hn => h hn.2)

instance (bs : List Nat) (t : Terminal) : Decidable (no_save bs t) := no_save_decide bs t

/-- The screen reverse-video byte is one of the two values that `video_set_reverse`
stores. -/
def RevOk (v : Video) : Prop := v.revvideo = 0 ∨ v.revvideo = 0x80

/-- Size in bytes of the tile map, declared `char TILEMAP[TILES_HIGH+1][TILES_WIDE]`:
the offsets inside the array are `0 .. TILEMAP_SIZE - 1`. -/
def TILEMAP_SIZE : Int := (TILES_HIGH + 1) * TILES_WIDE

/-- The contents `m` inside the tile map and the contents `g` at every offset outside
it. -/
def graft (m g : Int → Nat) : Int → Nat :=
  fun i => if 0 ≤ i ∧ i < TILEMAP_SIZE then m i else g i

/-- The video state `v` with the memory outside the tile map replaced by `g`. -/
def with_outside (v : Video) (g : Int → Nat) : Video :=
  { v with TILEMAP := graft v.TILEMAP g }

/-- The terminal `t` with the memory outside the tile map replaced by `g`. -/
def term_outside (t : Terminal) (g : Int → Nat) : Terminal :=
  { t with video := with_outside t.video g }

/-! ## Theorems -/

/-! ### Basic facts about the memory primitives and the cursor toggle -/

@[simp] theorem CURSOR_INVERT_cx (v : Video) : (CURSOR_INVERT v).cx = v.cx := rfl
@[simp] theorem CURSOR_INVERT_cy (v : Video) : (CURSOR_INVERT v).cy = v.cy := rfl
@[simp] theorem CURSOR_INVERT_mtop (v : Video) : (CURSOR_INVERT v).mtop = v.mtop := rfl
@[simp] theorem CURSOR_INVERT_mbottom (v : Video) : (CURSOR_INVERT v).mbottom = v.mbottom := rfl
@[simp] theorem CURSOR_INVERT_showcursor (v : Video) :
    (CURSOR_INVERT v).showcursor = v.showcursor := rfl
@[simp] theorem CURSOR_INVERT_revvideo (v : Video) : (CURSOR_INVERT v).revvideo = v.revvideo := rfl

@[simp] theorem _video_scrollup_cx (v : Video) : (_video_scrollup v).cx = v.cx := rfl
@[simp] theorem _video_scrollup_cy (v : Video) : (_video_scrollup v).cy = v.cy := rfl
@[simp] theorem _video_scrollup_mtop (v : Video) : (_video_scrollup v).mtop = v.mtop := rfl
@[simp] theorem _video_scrollup_mbottom (v : Video) : (_video_scrollup v).mbottom = v.mbottom := rfl
@[simp] theorem _video_scrollup_showcursor (v : Video) :
    (_video_scrollup v).showcursor = v.showcursor := rfl
@[simp] theorem _video_scrollup_revvideo (v : Video) :
    (_video_scrollup v).revvideo = v.revvideo := rfl

@[simp] theorem _video_scrolldown_cx (v : Video) : (_video_scrolldown v).cx = v.cx := rfl
@[simp] theorem _video_scrolldown_cy (v : Video) : (_video_scrolldown v).cy = v.cy := rfl
@[simp] theorem _video_scrolldown_mtop (v : Video) : (_video_scrolldown v).mtop = v.mtop := rfl
@[simp] theorem _video_scrolldown_mbottom (v : Video) :
    (_video_scrolldown v).mbottom = v.mbottom := rfl
@[simp] theorem _video_scrolldown_showcursor (v : Video) :
    (_video_scrolldown v).showcursor = v.showcursor := rfl
@[simp] theorem _video_scrolldown_revvideo (v : Video) :
    (_video_scrolldown v).revvideo = v.revvideo := rfl

/-! ### Cursor and margin bounds are preserved by every operation -/

theorem video_gotoxy_inv (x y : Int) (v : Video) (h : Inv v) : Inv (video_gotoxy x y v) := by
  unfold Inv at *
  simp only [video_gotoxy]
  split_ifs <;> simp_all <;> omega

theorem video_gotoxy_fields (x y : Int) (v : Video) :
    0 ≤ (video_gotoxy x y v).cx ∧ (video_gotoxy x y v).cx ≤ TILES_WIDE - 1 ∧
    0 ≤ (video_gotoxy x y v).cy ∧ (video_gotoxy x y v).cy ≤ TILES_HIGH - 1 ∧
    (video_gotoxy x y v).mtop = v.mtop ∧ (video_gotoxy x y v).mbottom = v.mbottom ∧
    (video_gotoxy x y v).revvideo = v.revvideo ∧
    (video_gotoxy x y v).showcursor = v.showcursor := by
  simp only [video_gotoxy]
  split_ifs <;> simp_all <;> omega

theorem video_set_margins_margins (top bottom : Int) (v : Video) :
    0 ≤ (video_set_margins top bottom v).mtop ∧
    (video_set_margins top bottom v).mtop < (video_set_margins top bottom v).mbottom ∧
    (video_set_margins top bottom v).mbottom ≤ TILES_HIGH - 1 := by
  unfold video_set_margins
  simp only [(video_gotoxy_fields _ _ _).2.2.2.2.1, (video_gotoxy_fields _ _ _).2.2.2.2.2.1]
  simp only [TILES_HIGH]
  split_ifs <;> omega

theorem video_set_margins_inv (top bottom : Int) (v : Video) :
    Inv (video_set_margins top bottom v) := by
  have hm := video_set_margins_margins top bottom v
  have hc : 0 ≤ (video_set_margins top bottom v).cx ∧
      (video_set_margins top bottom v).cx ≤ TILES_WIDE - 1 ∧
      0 ≤ (video_set_margins top bottom v).cy ∧
      (video_set_margins top bottom v).cy ≤ TILES_HIGH - 1 := by
    unfold video_set_margins
    have := video_gotoxy_fields
    exact ⟨(this _ _ _).1, (this _ _ _).2.1, (this _ _ _).2.2.1, (this _ _ _).2.2.2.1⟩
  unfold Inv
  simp only [TILES_WIDE, TILES_HIGH] at *
  omega

theorem video_clrscr_inv (v : Video) : Inv (video_clrscr v) := by
  have h := video_set_margins_margins 0 (TILES_HIGH - 1) (CURSOR_INVERT v)
  unfold Inv
  simp only [video_clrscr, video_reset_margins, CURSOR_INVERT_cx, CURSOR_INVERT_cy,
    CURSOR_INVERT_mtop, CURSOR_INVERT_mbottom]
  simp only [TILES_WIDE, TILES_HIGH] at *
  omega

theorem video_movex_inv (dx : Int) (v : Video) (h : Inv v) : Inv (video_movex dx v) := by
  unfold Inv at *
  simp only [video_movex, int8_t]
  split_ifs <;> simp_all <;> omega

theorem video_movey_inv (dy : Int) (v : Video) (h : Inv v) : Inv (video_movey dy v) := by
  unfold Inv at *
  simp only [video_movey, int8_t]
  split_ifs <;> simp_all <;> omega

theorem video_setx_inv (x : Int) (v : Video) (h : Inv v) : Inv (video_setx x v) := by
  unfold Inv at *
  simp only [video_setx]
  split_ifs <;> simp_all <;> omega

theorem video_movesol_inv (v : Video) (h : Inv v) : Inv (video_movesol v) := by
  unfold Inv at *
  simp only [video_movesol]
  simp_all

theorem _video_lfwd_inv (v : Video) (h : Inv v) : Inv (_video_lfwd v) := by
  unfold Inv at *
  simp only [_video_lfwd, int8_t]
  split_ifs <;> simp_all <;> omega

theorem _video_cfwd_inv (v : Video) (h : Inv v) : Inv (_video_cfwd v) := by
  unfold Inv at *
  simp only [_video_cfwd, _video_lfwd, int8_t]
  split_ifs <;> simp_all <;> omega

/-- The bounds only read the cursor and the margins. -/
theorem Inv_congr (a b : Video) (h : Inv b) (h1 : a.cx = b.cx) (h2 : a.cy = b.cy)
    (h3 : a.mtop = b.mtop) (h4 : a.mbottom = b.mbottom) : Inv a := by
  unfold Inv at *
  rw [h1, h2, h3, h4]
  exact h

theorem CURSOR_INVERT_inv (v : Video) (h : Inv v) : Inv (CURSOR_INVERT v) :=
  Inv_congr _ v h rfl rfl rfl rfl

theorem poke_inv (v : Video) (m : Int → Nat) (h : Inv v) : Inv { v with TILEMAP := m } :=
  Inv_congr _ v h rfl rfl rfl rfl

theorem pending_wrap_inv (v : Video) (h : Inv v) :
    Inv (if v.cx ≥ TILES_WIDE then _video_lfwd v else v) := by
  split_ifs
  · exact _video_lfwd_inv v h
  · exact h

theorem _video_putc_inv (c : Nat) (v : Video) (h : Inv v) : Inv (_video_putc c v) := by
  have h1 := pending_wrap_inv v h
  unfold _video_putc
  generalize (if v.cx ≥ TILES_WIDE then _video_lfwd v else v) = w at h1
  show Inv (if c = 0x0D then { w with cx := 0 } else if c = 0x0A then _video_lfwd w
    else _video_cfwd { w with TILEMAP := poke w.TILEMAP (tile w.cy w.cx) (c ^^^ w.revvideo) })
  split_ifs
  · unfold Inv at *; simp_all
  · exact _video_lfwd_inv _ h1
  · exact _video_cfwd_inv _ (poke_inv _ _ h1)

theorem video_putc_raw_inv (c : Nat) (v : Video) (h : Inv v) : Inv (video_putc_raw c v) := by
  have h1 := pending_wrap_inv (CURSOR_INVERT v) (CURSOR_INVERT_inv v h)
  exact CURSOR_INVERT_inv _ (_video_cfwd_inv _ (poke_inv _ _ h1))

theorem video_putc_inv (c : Nat) (v : Video) (h : Inv v) : Inv (video_putc c v) :=
  CURSOR_INVERT_inv _ (_video_putc_inv c _ (CURSOR_INVERT_inv v h))

theorem puts_loop_inv (str : List Nat) (v : Video) (h : Inv v) : Inv (puts_loop str v) := by
  induction str generalizing v with
  | nil => exact h
  | cons c cs ih =>
    unfold puts_loop
    split_ifs
    · exact h
    · exact ih _ (_video_putc_inv c v h)

theorem video_puts_inv (str : List Nat) (v : Video) (h : Inv v) : Inv (video_puts str v) :=
  CURSOR_INVERT_inv _ (puts_loop_inv str _ (CURSOR_INVERT_inv v h))

theorem video_cfwd_inv (v : Video) (h : Inv v) : Inv (video_cfwd v) :=
  CURSOR_INVERT_inv _ (_video_cfwd_inv _ (CURSOR_INVERT_inv v h))

theorem video_lfwd_inv (v : Video) (h : Inv v) : Inv (video_lfwd v) :=
  CURSOR_INVERT_inv _ (_video_lfwd_inv _ (CURSOR_INVERT_inv v h))

theorem video_lf_inv (v : Video) (h : Inv v) : Inv (video_lf v) := by
  unfold Inv at *
  simp only [video_lf, int8_t]
  split_ifs <;> simp_all <;> omega

theorem _video_lback_inv (v : Video) (h : -1 ≤ v.cx ∧ v.cx ≤ TILES_WIDE ∧ 0 ≤ v.cy ∧
    v.cy ≤ TILES_HIGH - 1 ∧ 0 ≤ v.mtop ∧ v.mtop < v.mbottom ∧ v.mbottom ≤ TILES_HIGH - 1) :
    Inv (_video_lback v) := by
  unfold Inv
  simp only [_video_lback, int8_t]
  split_ifs <;> simp_all <;> omega

theorem video_lback_inv (v : Video) (h : Inv v) : Inv (video_lback v) := by
  unfold Inv at *
  simp only [video_lback, int8_t]
  split_ifs <;> simp_all <;> omega

theorem video_cback_inv (v : Video) (h : Inv v) : Inv (video_cback v) := by
  unfold Inv at *
  simp only [video_cback, _video_lback, int8_t]
  split_ifs <;> simp_all <;> omega

theorem video_scrollup_inv (v : Video) (h : Inv v) : Inv (video_scrollup v) :=
  Inv_congr _ v h rfl rfl rfl rfl

theorem video_scrolldown_inv (v : Video) (h : Inv v) : Inv (video_scrolldown v) :=
  Inv_congr _ v h rfl rfl rfl rfl

theorem video_clrline_inv (v : Video) (h : Inv v) : Inv (video_clrline v) := by
  unfold Inv at *
  simp only [video_clrline]
  simp_all

theorem video_clreol_inv (v : Video) (h : Inv v) : Inv (video_clreol v) :=
  Inv_congr _ v h rfl rfl rfl rfl

theorem video_erase_inv (m : Int) (v : Video) (h : Inv v) : Inv (video_erase m v) := by
  refine Inv_congr _ v h ?_ ?_ ?_ ?_ <;> simp only [video_erase] <;> split_ifs <;> rfl

theorem video_eraseline_inv (m : Int) (v : Video) (h : Inv v) : Inv (video_eraseline m v) := by
  refine Inv_congr _ v h ?_ ?_ ?_ ?_ <;> simp only [video_eraseline] <;> split_ifs <;> rfl

theorem video_setc_inv (c : Nat) (v : Video) (h : Inv v) : Inv (video_setc c v) :=
  Inv_congr _ v h rfl rfl rfl rfl

theorem video_putcxy_inv (x y : Int) (c : Nat) (v : Video) (h : Inv v) :
    Inv (video_putcxy x y c v) := by
  refine Inv_congr _ v h ?_ ?_ ?_ ?_ <;> simp only [video_putcxy] <;> split_ifs <;> rfl

theorem video_invert_range_inv (x y n : Int) (v : Video) (h : Inv v) :
    Inv (video_invert_range x y n v) :=
  Inv_congr _ v h rfl rfl rfl rfl

theorem video_putsxy_inv (x y : Int) (str : List Nat) (v : Video) (h : Inv v) :
    Inv (video_putsxy x y str v) := by
  refine Inv_congr _ v h ?_ ?_ ?_ ?_ <;> simp only [video_putsxy] <;> split_ifs <;> rfl

theorem video_putline_inv (y : Int) (str : List Nat) (v : Video) (h : Inv v) :
    Inv (video_putline y str v) := by
  refine Inv_congr _ v h ?_ ?_ ?_ ?_ <;> simp only [video_putline] <;> split_ifs <;> rfl

theorem video_show_cursor_inv (v : Video) (h : Inv v) : Inv (video_show_cursor v) := by
  refine Inv_congr _ v h ?_ ?_ ?_ ?_ <;> simp only [video_show_cursor] <;> split_ifs <;> rfl

theorem video_hide_cursor_inv (v : Video) (h : Inv v) : Inv (video_hide_cursor v) := by
  refine Inv_congr _ v h ?_ ?_ ?_ ?_ <;> simp only [video_hide_cursor] <;> split_ifs <;> rfl

theorem welcome_border_margins (l : List Nat) (v : Video) :
    (l.foldl (fun (w : Video) (j : Nat) =>
      video_putcxy (j + 1) 2 0x12 (video_putcxy (j + 1) 0 0x12 w)) v).mtop = v.mtop ∧
    (l.foldl (fun (w : Video) (j : Nat) =>
      video_putcxy (j + 1) 2 0x12 (video_putcxy (j + 1) 0 0x12 w)) v).mbottom = v.mbottom := by
  induction l generalizing v with
  | nil => exact ⟨rfl, rfl⟩
  | cons j js ih =>
    simp only [List.foldl_cons]
    rw [(ih _).1, (ih _).2]
    constructor <;> simp only [video_putcxy] <;> split_ifs <;> rfl

theorem video_putcxy_margins (x y : Int) (c : Nat) (v : Video) :
    (video_putcxy x y c v).mtop = v.mtop ∧ (video_putcxy x y c v).mbottom = v.mbottom := by
  constructor <;> simp only [video_putcxy] <;> split_ifs <;> rfl

theorem video_putsxy_margins (x y : Int) (str : List Nat) (v : Video) :
    (video_putsxy x y str v).mtop = v.mtop ∧ (video_putsxy x y str v).mbottom = v.mbottom := by
  constructor <;> simp only [video_putsxy] <;> split_ifs <;> rfl

theorem video_welcome_inv (v : Video) : Inv (video_welcome v) := by
  have h := video_clrscr_inv v
  unfold Inv at *
  simp only [video_welcome, (video_putsxy_margins _ _ _ _).1, (video_putsxy_margins _ _ _ _).2,
    (video_putcxy_margins _ _ _ _).1, (video_putcxy_margins _ _ _ _).2,
    (welcome_border_margins _ _).1, (welcome_border_margins _ _).2]
  simp only [TILES_WIDE, TILES_HIGH] at *
  omega

/-- Every exported video operation keeps the cursor and margin bounds. -/
theorem Op.onVideo_inv (o : Op) (v : Video) (h : Inv v) : Inv (o.onVideo v) := by
  cases o with
  | receive_char c => exact h
  | video_set_margins top bottom => exact video_set_margins_inv top bottom v
  | video_reset_margins => exact video_set_margins_inv _ _ v
  | video_set_reverse val => exact Inv_congr _ v h rfl rfl rfl rfl
  | video_clrscr => exact video_clrscr_inv v
  | video_clrline => exact video_clrline_inv v h
  | video_clreol => exact video_clreol_inv v h
  | video_erase m => exact video_erase_inv m v h
  | video_eraseline m => exact video_eraseline_inv m v h
  | video_setc c => exact video_setc_inv c v h
  | video_putc c => exact video_putc_inv c v h
  | video_putc_raw c => exact video_putc_raw_inv c v h
  | video_puts str => exact video_puts_inv str v h
  | video_putcxy x y c => exact video_putcxy_inv x y c v h
  | video_putsxy x y str => exact video_putsxy_inv x y str v h
  | video_putline y str => exact video_putline_inv y str v h
  | video_gotoxy x y => exact video_gotoxy_inv x y v h
  | video_movex dx => exact video_movex_inv dx v h
  | video_movey dy => exact video_movey_inv dy v h
  | video_movesol => exact video_movesol_inv v h
  | video_setx x => exact video_setx_inv x v h
  | video_cfwd => exact video_cfwd_inv v h
  | video_lfwd => exact video_lfwd_inv v h
  | video_lf => exact video_lf_inv v h
  | video_cback => exact video_cback_inv v h
  | video_lback => exact video_lback_inv v h
  | video_scrollup => exact video_scrollup_inv v h
  | video_scrolldown => exact video_scrolldown_inv v h
  | video_show_cursor => exact video_show_cursor_inv v h
  | video_hide_cursor => exact video_hide_cursor_inv v h
  | video_invert_range x y n => exact video_invert_range_inv x y n v h
  | video_welcome => exact video_welcome_inv v

/-! ### The parameter reader only touches the parameter buffer -/

/-- What `escseq_get_param` leaves alone: everything but `paramstr` and `paramptr`. -/
theorem escseq_get_param_frame (d : Int) (t : Terminal) :
    (escseq_get_param d t).2.video = t.video ∧
    (escseq_get_param d t).2.in_esc = t.in_esc ∧
    (escseq_get_param d t).2.paramch = t.paramch ∧
    (escseq_get_param d t).2.process_escseqs = t.process_escseqs ∧
    (escseq_get_param d t).2.graphicchars = t.graphicchars ∧
    (escseq_get_param d t).2.revvideo = t.revvideo ∧
    (escseq_get_param d t).2.savedstate = t.savedstate := by
  unfold escseq_get_param
  cases hp : t.paramptr with
  | none => simp
  | some p =>
    cases he : strchr t.paramstr p 0x3B with
    | none => simp [he]
    | some e => simp [he]

@[simp] theorem escseq_get_param_video (d : Int) (t : Terminal) :
    (escseq_get_param d t).2.video = t.video := (escseq_get_param_frame d t).1

/-- What one iteration of the graphic-rendition loop leaves alone. -/
theorem sgr_step_frame (t : Terminal) :
    (sgr_step t).video = t.video ∧
    (sgr_step t).in_esc = t.in_esc ∧
    (sgr_step t).paramch = t.paramch ∧
    (sgr_step t).process_escseqs = t.process_escseqs ∧
    (sgr_step t).graphicchars = t.graphicchars ∧
    (sgr_step t).savedstate = t.savedstate := by
  have hf := escseq_get_param_frame 0 t
  obtain ⟨h1, h2, h3, h4, h5, h6, h7⟩ := hf
  simp only [sgr_step]
  split_ifs <;> exact ⟨h1, h2, h3, h4, h5, h7⟩

/-- What the graphic-rendition loop leaves alone. -/
theorem sgr_loop_frame (fuel : Nat) (t : Terminal) :
    (sgr_loop fuel t).video = t.video ∧
    (sgr_loop fuel t).in_esc = t.in_esc ∧
    (sgr_loop fuel t).paramch = t.paramch ∧
    (sgr_loop fuel t).process_escseqs = t.process_escseqs ∧
    (sgr_loop fuel t).graphicchars = t.graphicchars ∧
    (sgr_loop fuel t).savedstate = t.savedstate := by
  induction fuel generalizing t with
  | zero => exact ⟨rfl, rfl, rfl, rfl, rfl, rfl⟩
  | succ n ih =>
    unfold sgr_loop
    cases hp : t.paramptr with
    | none => exact ⟨rfl, rfl, rfl, rfl, rfl, rfl⟩
    | some p =>
      obtain ⟨h1, h2, h3, h4, h5, h6⟩ := sgr_step_frame t
      obtain ⟨i1, i2, i3, i4, i5, i6⟩ := ih (sgr_step t)
      exact ⟨i1.trans h1, i2.trans h2, i3.trans h3, i4.trans h4, i5.trans h5, i6.trans h6⟩

@[simp] theorem sgr_loop_video (fuel : Nat) (t : Terminal) :
    (sgr_loop fuel t).video = t.video := (sgr_loop_frame fuel t).1

/-! ### The terminator switch, case by case -/

theorem csi_dispatch_A (t : Terminal) : csi_dispatch 0x41 t =
    { (escseq_get_param 1 t).2 with
      video := video_movey (int8_t (- (escseq_get_param 1 t).1)) (escseq_get_param 1 t).2.video } :=
  rfl

theorem csi_dispatch_B (t : Terminal) : csi_dispatch 0x42 t =
    { (escseq_get_param 1 t).2 with
      video := video_movey (int8_t (escseq_get_param 1 t).1) (escseq_get_param 1 t).2.video } :=
  rfl

theorem csi_dispatch_C (t : Terminal) : csi_dispatch 0x43 t =
    { (escseq_get_param 1 t).2 with
      video := video_movex (int8_t (escseq_get_param 1 t).1) (escseq_get_param 1 t).2.video } :=
  rfl

theorem csi_dispatch_D (t : Terminal) : csi_dispatch 0x44 t =
    { (escseq_get_param 1 t).2 with
      video := video_movex (int8_t (- (escseq_get_param 1 t).1)) (escseq_get_param 1 t).2.video } :=
  rfl

theorem csi_dispatch_E (t : Terminal) : csi_dispatch 0x45 t =
    { (escseq_get_param 1 t).2 with
      video := video_movesol
        (video_movey (int8_t (escseq_get_param 1 t).1) (escseq_get_param 1 t).2.video) } :=
  rfl

theorem csi_dispatch_F (t : Terminal) : csi_dispatch 0x46 t =
    { (escseq_get_param 1 t).2 with
      video := video_movesol
        (video_movey (int8_t (- (escseq_get_param 1 t).1)) (escseq_get_param 1 t).2.video) } :=
  rfl

theorem csi_dispatch_G (t : Terminal) : csi_dispatch 0x47 t =
    { (escseq_get_param 1 t).2 with
      video := video_setx (int8_t ((escseq_get_param 1 t).1 - 1)) (escseq_get_param 1 t).2.video } :=
  rfl

theorem csi_dispatch_H (c : Nat) (hc : c = 0x48 ∨ c = 0x66) (t : Terminal) : csi_dispatch c t =
    { (escseq_get_param 1 (escseq_get_param 1 t).2).2 with
      video := video_gotoxy (int8_t ((escseq_get_param 1 (escseq_get_param 1 t).2).1 - 1))
        (int8_t ((escseq_get_param 1 t).1 - 1)) (escseq_get_param 1 (escseq_get_param 1 t).2).2.video } := by
  rcases hc with rfl | rfl <;> rfl

theorem csi_dispatch_J (t : Terminal) : csi_dispatch 0x4A t =
    { (escseq_get_param 0 t).2 with
      video := video_erase (escseq_get_param 0 t).1 (escseq_get_param 0 t).2.video } :=
  rfl

theorem csi_dispatch_K (t : Terminal) : csi_dispatch 0x4B t =
    { (escseq_get_param 0 t).2 with
      video := video_eraseline (escseq_get_param 0 t).1 (escseq_get_param 0 t).2.video } :=
  rfl

theorem csi_dispatch_m (t : Terminal) : csi_dispatch 0x6D t = sgr_loop (t.paramstr.length + 1) t :=
  rfl

theorem csi_dispatch_r (t : Terminal) : csi_dispatch 0x72 t =
    { (escseq_get_param (uint8_t TILES_HIGH) (escseq_get_param 1 t).2).2 with
      video := video_set_margins (int8_t ((escseq_get_param 1 t).1 - 1))
        (int8_t ((escseq_get_param (uint8_t TILES_HIGH) (escseq_get_param 1 t).2).1 - 1))
        (escseq_get_param (uint8_t TILES_HIGH) (escseq_get_param 1 t).2).2.video } :=
  rfl

/-- A terminator outside the recognised set selects no action. -/
theorem csi_dispatch_unknown (c : Nat) (t : Terminal)
    (h : c ≠ 0x41 ∧ c ≠ 0x42 ∧ c ≠ 0x43 ∧ c ≠ 0x44 ∧ c ≠ 0x45 ∧ c ≠ 0x46 ∧ c ≠ 0x47 ∧
      c ≠ 0x48 ∧ c ≠ 0x66 ∧ c ≠ 0x4A ∧ c ≠ 0x4B ∧ c ≠ 0x6D ∧ c ≠ 0x72) :
    csi_dispatch c t = t := by
  obtain ⟨h1, h2, h3, h4, h5, h6, h7, h8, h9, h10, h11, h12, h13⟩ := h
  unfold csi_dispatch
  rw [if_neg h1, if_neg h2, if_neg h3, if_neg h4, if_neg h5, if_neg h6, if_neg h7,
    if_neg (by rintro (h | h) <;> contradiction), if_neg h10, if_neg h11, if_neg h12, if_neg h13]

/-- Case analysis on the terminator of a CSI sequence. -/
theorem csi_terminator_cases (c : Nat) :
    c = 0x41 ∨ c = 0x42 ∨ c = 0x43 ∨ c = 0x44 ∨ c = 0x45 ∨ c = 0x46 ∨ c = 0x47 ∨
    (c = 0x48 ∨ c = 0x66) ∨ c = 0x4A ∨ c = 0x4B ∨ c = 0x6D ∨ c = 0x72 ∨
    (c ≠ 0x41 ∧ c ≠ 0x42 ∧ c ≠ 0x43 ∧ c ≠ 0x44 ∧ c ≠ 0x45 ∧ c ≠ 0x46 ∧ c ≠ 0x47 ∧
      c ≠ 0x48 ∧ c ≠ 0x66 ∧ c ≠ 0x4A ∧ c ≠ 0x4B ∧ c ≠ 0x6D ∧ c ≠ 0x72) := by
  omega

/-! ### Cursor bounds along the byte dispatcher -/

theorem csi_dispatch_inv (c : Nat) (t : Terminal) (h : Inv t.video) :
    Inv (csi_dispatch c t).video := by
  rcases csi_terminator_cases c with
    rfl | rfl | rfl | rfl | rfl | rfl | rfl | hc | rfl | rfl | rfl | rfl | hc
  · rw [csi_dispatch_A]; exact video_movey_inv _ _ (by simpa using h)
  · rw [csi_dispatch_B]; exact video_movey_inv _ _ (by simpa using h)
  · rw [csi_dispatch_C]; exact video_movex_inv _ _ (by simpa using h)
  · rw [csi_dispatch_D]; exact video_movex_inv _ _ (by simpa using h)
  · rw [csi_dispatch_E]; exact video_movesol_inv _ (video_movey_inv _ _ (by simpa using h))
  · rw [csi_dispatch_F]; exact video_movesol_inv _ (video_movey_inv _ _ (by simpa using h))
  · rw [csi_dispatch_G]; exact video_setx_inv _ _ (by simpa using h)
  · rw [csi_dispatch_H c hc]; exact video_gotoxy_inv _ _ _ (by simpa using h)
  · rw [csi_dispatch_J]; exact video_erase_inv _ _ (by simpa using h)
  · rw [csi_dispatch_K]; exact video_eraseline_inv _ _ (by simpa using h)
  · rw [csi_dispatch_m]; simpa using h
  · rw [csi_dispatch_r]; exact video_set_margins_inv _ _ _
  · rw [csi_dispatch_unknown c t hc]; exact h

theorem escseq_process_csi_inv (c : Nat) (t : Terminal) (h : Inv t.video) :
    Inv (escseq_process_csi c t).video := by
  unfold escseq_process_csi
  split_ifs
  · exact h
  · exact h
  · exact csi_dispatch_inv c t h

theorem esc_index_inv (t : Terminal) (h : Inv t.video) : Inv (esc_index t).video := by
  unfold esc_index
  split_ifs
  · exact video_scrollup_inv _ h
  · exact video_movey_inv _ _ h

theorem esc_reverse_index_inv (t : Terminal) (h : Inv t.video) :
    Inv (esc_reverse_index t).video := by
  unfold esc_reverse_index
  split_ifs
  · exact video_scrolldown_inv _ h
  · exact video_movey_inv _ _ h

theorem escseq_process_noncsi_inv (c : Nat) (t : Terminal) (h : Inv t.video) :
    Inv (escseq_process_noncsi c t).video := by
  unfold escseq_process_noncsi
  split_ifs
  · exact h
  · exact h
  · exact h
  · exact video_gotoxy_inv _ _ _ h
  · exact esc_index_inv _ (video_movesol_inv _ h)
  · exact esc_index_inv _ h
  · exact esc_reverse_index_inv _ h
  · exact video_clrscr_inv _
  · exact h

theorem escseq_process_inv (c : Nat) (t : Terminal) (h : Inv t.video) :
    Inv (escseq_process c t).video := by
  unfold escseq_process
  split_ifs
  · exact h
  · exact escseq_process_csi_inv c t h
  · exact h
  · exact escseq_process_noncsi_inv c _ h
  · exact h

/-- A property of both branches holds of the conditional. -/
theorem ite_prop {α : Type} (P : α → Prop) {c : Prop} [Decidable c] {a b : α}
    (ha : c → P a) (hb : ¬ c → P b) : P (if c then a else b) := by
  by_cases h : c
  · rw [if_pos h]; exact ha h
  · rw [if_neg h]; exact hb h

theorem receive_idle_inv (c : Nat) (t : Terminal) (h : Inv t.video) :
    Inv (receive_idle c t).video := by
  unfold receive_idle
  refine ite_prop (fun s : Terminal => Inv s.video) (fun _ => h) (fun _ => ?_)
  refine ite_prop (fun s : Terminal => Inv s.video) (fun _ => video_cback_inv _ h) (fun _ => ?_)
  refine ite_prop (fun s : Terminal => Inv s.video) (fun _ => video_lf_inv _ h) (fun _ => ?_)
  refine ite_prop (fun s : Terminal => Inv s.video) (fun _ => video_setx_inv _ _ h) (fun _ => ?_)
  refine ite_prop (fun s : Terminal => Inv s.video) (fun _ => h) (fun _ => ?_)
  refine ite_prop (fun s : Terminal => Inv s.video) (fun _ => h) (fun _ => ?_)
  refine ite_prop (fun s : Terminal => Inv s.video) (fun _ => h) (fun _ => ?_)
  refine ite_prop (fun s : Terminal => Inv s.video) (fun _ => h) (fun _ => ?_)
  exact ite_prop (fun s : Terminal => Inv s.video) (fun _ => video_putc_raw_inv _ _ h) (fun _ => h)

theorem receive_char_inv (c : Nat) (t : Terminal) (h : Inv t.video) :
    Inv (receive_char c t).video := by
  unfold receive_char
  split_ifs
  · exact video_putc_raw_inv _ _ h
  · exact escseq_process_inv c t h
  · exact receive_idle_inv c t h
  · exact h

theorem Op.run_inv (o : Op) (t : Terminal) (h : Inv t.video) : Inv (o.run t).video := by
  cases o with
  | receive_char c => exact receive_char_inv c t h
  | video_set_margins top bottom => exact Op.onVideo_inv (Op.video_set_margins top bottom) t.video h
  | video_reset_margins => exact Op.onVideo_inv Op.video_reset_margins t.video h
  | video_set_reverse val => exact Op.onVideo_inv (Op.video_set_reverse val) t.video h
  | video_clrscr => exact Op.onVideo_inv Op.video_clrscr t.video h
  | video_clrline => exact Op.onVideo_inv Op.video_clrline t.video h
  | video_clreol => exact Op.onVideo_inv Op.video_clreol t.video h
  | video_erase m => exact Op.onVideo_inv (Op.video_erase m) t.video h
  | video_eraseline m => exact Op.onVideo_inv (Op.video_eraseline m) t.video h
  | video_setc c => exact Op.onVideo_inv (Op.video_setc c) t.video h
  | video_putc c => exact Op.onVideo_inv (Op.video_putc c) t.video h
  | video_putc_raw c => exact Op.onVideo_inv (Op.video_putc_raw c) t.video h
  | video_puts str => exact Op.onVideo_inv (Op.video_puts str) t.video h
  | video_putcxy x y c => exact Op.onVideo_inv (Op.video_putcxy x y c) t.video h
  | video_putsxy x y str => exact Op.onVideo_inv (Op.video_putsxy x y str) t.video h
  | video_putline y str => exact Op.onVideo_inv (Op.video_putline y str) t.video h
  | video_gotoxy x y => exact Op.onVideo_inv (Op.video_gotoxy x y) t.video h
  | video_movex dx => exact Op.onVideo_inv (Op.video_movex dx) t.video h
  | video_movey dy => exact Op.onVideo_inv (Op.video_movey dy) t.video h
  | video_movesol => exact Op.onVideo_inv Op.video_movesol t.video h
  | video_setx x => exact Op.onVideo_inv (Op.video_setx x) t.video h
  | video_cfwd => exact Op.onVideo_inv Op.video_cfwd t.video h
  | video_lfwd => exact Op.onVideo_inv Op.video_lfwd t.video h
  | video_lf => exact Op.onVideo_inv Op.video_lf t.video h
  | video_cback => exact Op.onVideo_inv Op.video_cback t.video h
  | video_lback => exact Op.onVideo_inv Op.video_lback t.video h
  | video_scrollup => exact Op.onVideo_inv Op.video_scrollup t.video h
  | video_scrolldown => exact Op.onVideo_inv Op.video_scrolldown t.video h
  | video_show_cursor => exact Op.onVideo_inv Op.video_show_cursor t.video h
  | video_hide_cursor => exact Op.onVideo_inv Op.video_hide_cursor t.video h
  | video_invert_range x y n => exact Op.onVideo_inv (Op.video_invert_range x y n) t.video h
  | video_welcome => exact Op.onVideo_inv Op.video_welcome t.video h

theorem run_ops_inv (ops : List Op) (t : Terminal) (h : Inv t.video) :
    Inv (run_ops ops t).video := by
  induction ops generalizing t with
  | nil => exact h
  | cons o os ih => exact ih _ (Op.run_inv o t h)

theorem feed_inv (bytes : List Nat) (t : Terminal) (h : Inv t.video) :
    Inv (feed bytes t).video := by
  induction bytes generalizing t with
  | nil => exact h
  | cons c cs ih => exact ih _ (receive_char_inv c t h)

/-- C1 (amended): in every state reached after `video_clrscr` by any sequence of bytes
given to `receive_char` and of calls to the `video_*` operations, the cursor column
satisfies `0 ≤ cx ≤ TILES_WIDE` (54, the pending-wrap column, included) and the cursor
row satisfies `0 ≤ cy ≤ TILES_HIGH - 1`. -/
theorem cursor_bounds_after_init (t0 : Terminal) (ops : List Op) :
    0 ≤ (run_ops ops { t0 with video := video_clrscr t0.video }).video.cx ∧
    (run_ops ops { t0 with video := video_clrscr t0.video }).video.cx ≤ TILES_WIDE ∧
    0 ≤ (run_ops ops { t0 with video := video_clrscr t0.video }).video.cy ∧
    (run_ops ops { t0 with video := video_clrscr t0.video }).video.cy ≤ TILES_HIGH - 1 := by
  have h := run_ops_inv ops { t0 with video := video_clrscr t0.video } (video_clrscr_inv _)
  exact ⟨h.1, h.2.1, h.2.2.1, h.2.2.2.1⟩

/-- C1 (counterexample): after initialisation, 54 printable bytes leave the cursor in
column 54, which is not at most `TILES_WIDE - 1 = 53`. -/
theorem cursor_column_reaches_width :
    (run_ops (List.replicate 54 (Op.receive_char 0x41))
      { boot with video := video_clrscr boot.video }).video.cx = 54 ∧
    ¬ ((run_ops (List.replicate 54 (Op.receive_char 0x41))
      { boot with video := video_clrscr boot.video }).video.cx ≤ TILES_WIDE - 1) := by
  decide

/-! ### The cursor toggle -/

@[simp] theorem poke_same (m : Int → Nat) (k : Int) : poke m k (m k) = m := by
  funext i
  unfold poke
  split_ifs with h
  · rw [h]
  · rfl

/-- With the cursor hidden the toggle changes nothing. -/
theorem CURSOR_INVERT_hidden (v : Video) (h : v.showcursor = 0) : CURSOR_INVERT v = v := by
  cases v with
  | mk m cx cy sc mt mb rv =>
    simp only at h
    subst h
    simp [CURSOR_INVERT]

/-- Toggling twice restores the state. -/
theorem CURSOR_INVERT_twice (v : Video) : CURSOR_INVERT (CURSOR_INVERT v) = v := by
  unfold CURSOR_INVERT
  have : poke (poke v.TILEMAP (tile v.cy v.cx) (v.TILEMAP (tile v.cy v.cx) ^^^ v.showcursor))
      (tile v.cy v.cx)
      (poke v.TILEMAP (tile v.cy v.cx) (v.TILEMAP (tile v.cy v.cx) ^^^ v.showcursor)
        (tile v.cy v.cx) ^^^ v.showcursor) = v.TILEMAP := by
    funext i
    unfold poke
    by_cases h : i = tile v.cy v.cx
    · simp [h, Nat.xor_assoc]
    · simp [h]
  simp only [this]

/-! ### Scrolling (C3) -/

theorem _video_scrollup_rows (v : Video)
    (hm : 0 ≤ v.mtop ∧ v.mtop < v.mbottom ∧ v.mbottom ≤ TILES_HIGH - 1) :
    ScrolledUp v.TILEMAP (_video_scrollup v).TILEMAP v.mtop v.mbottom v.revvideo := by
  obtain ⟨h0, h1, h2⟩ := hm
  simp only [TILES_HIGH, TILES_WIDE] at *
  refine ⟨?_, ?_, ?_⟩
  · intro r x hr1 hr2 hx1 hx2
    simp only [_video_scrollup, memset, memmove, tile, size_t, TILES_WIDE] at *
    rw [if_neg (by omega), if_pos (by omega)]
    congr 1
    omega
  · intro x hx1 hx2
    simp only [_video_scrollup, memset, memmove, tile, size_t, TILES_WIDE] at *
    rw [if_pos (by omega)]
  · intro i hi
    simp only [_video_scrollup, memset, memmove, tile, size_t, TILES_WIDE] at *
    rw [if_neg (by omega), if_neg (by omega)]

theorem _video_scrolldown_rows (v : Video)
    (hm : 0 ≤ v.mtop ∧ v.mtop < v.mbottom ∧ v.mbottom ≤ TILES_HIGH - 1) :
    ScrolledDown v.TILEMAP (_video_scrolldown v).TILEMAP v.mtop v.mbottom v.revvideo := by
  obtain ⟨h0, h1, h2⟩ := hm
  simp only [TILES_HIGH, TILES_WIDE] at *
  refine ⟨?_, ?_, ?_⟩
  · intro r x hr1 hr2 hx1 hx2
    simp only [_video_scrolldown, memset, memmove, tile, size_t, TILES_WIDE] at *
    rw [if_neg (by omega), if_pos (by omega)]
    congr 1
    omega
  · intro x hx1 hx2
    simp only [_video_scrolldown, memset, memmove, tile, size_t, TILES_WIDE] at *
    rw [if_pos (by omega)]
  · intro i hi
    simp only [_video_scrolldown, memset, memmove, tile, size_t, TILES_WIDE] at *
    rw [if_neg (by omega), if_neg (by omega)]

/-- C3: with the cursor hidden and a scroll region `0 ≤ mtop < mbottom ≤ TILES_HIGH - 1`,
`video_scrollup` makes every row `r` of `mtop ≤ r < mbottom` equal to the old row `r + 1`,
fills row `mbottom` with the screen reverse-video byte, leaves every cell outside the rows
`mtop .. mbottom` unchanged and keeps cursor and margins; `video_scrolldown` is the mirror:
row `r + 1` receives the old row `r`, row `mtop` is filled. -/
theorem video_scroll_spec (v : Video) (hhid : v.showcursor = 0)
    (hm : 0 ≤ v.mtop ∧ v.mtop < v.mbottom ∧ v.mbottom ≤ TILES_HIGH - 1) :
    (ScrolledUp v.TILEMAP (video_scrollup v).TILEMAP v.mtop v.mbottom v.revvideo ∧
      (video_scrollup v).cx = v.cx ∧ (video_scrollup v).cy = v.cy ∧
      (video_scrollup v).mtop = v.mtop ∧ (video_scrollup v).mbottom = v.mbottom) ∧
    (ScrolledDown v.TILEMAP (video_scrolldown v).TILEMAP v.mtop v.mbottom v.revvideo ∧
      (video_scrolldown v).cx = v.cx ∧ (video_scrolldown v).cy = v.cy ∧
      (video_scrolldown v).mtop = v.mtop ∧ (video_scrolldown v).mbottom = v.mbottom) := by
  have hup : video_scrollup v = _video_scrollup v := by
    unfold video_scrollup
    rw [CURSOR_INVERT_hidden v hhid]
    exact CURSOR_INVERT_hidden _ hhid
  have hdn : video_scrolldown v = _video_scrolldown v := by
    unfold video_scrolldown
    rw [CURSOR_INVERT_hidden v hhid]
    exact CURSOR_INVERT_hidden _ hhid
  rw [hup, hdn]
  exact ⟨⟨_video_scrollup_rows v hm, rfl, rfl, rfl, rfl⟩,
    ⟨_video_scrolldown_rows v hm, rfl, rfl, rfl, rfl⟩⟩

/-- C3 (witness): on the sample state (region rows 2 to 5) row 2 receives row 3 when
scrolling up, and row 2 is filled with 0x80 when scrolling down. -/
theorem video_scroll_spec_witness :
    demo_video.showcursor = 0 ∧
    (0 ≤ demo_video.mtop ∧ demo_video.mtop < demo_video.mbottom ∧
      demo_video.mbottom ≤ TILES_HIGH - 1) ∧
    (video_scrollup demo_video).TILEMAP (tile 2 7) = demo_video.TILEMAP (tile 3 7) ∧
    (video_scrolldown demo_video).TILEMAP (tile 2 7) = 0x80 :=
  ⟨rfl, by decide,
    (video_scroll_spec demo_video rfl (by decide)).1.1.1 2 7 (by decide) (by decide)
      (by decide) (by decide),
    (video_scroll_spec demo_video rfl (by decide)).2.1.2.1 7 (by decide) (by decide)⟩

/-! ### Line feed (C4) -/

theorem receive_char_idle (c : Nat) (t : Terminal) (hesc : t.process_escseqs ≠ 0)
    (hidle : t.in_esc = 0) (hc : c ≠ 0) : receive_char c t = receive_idle c t := by
  unfold receive_char
  rw [if_neg hesc, if_pos hc, if_neg (by simp [hidle])]

theorem receive_idle_lf (c : Nat) (t : Terminal) (hc : c = 0x0A ∨ c = 0x0B ∨ c = 0x0C) :
    receive_idle c t = { t with video := video_lf t.video } := by
  rcases hc with rfl | rfl | rfl <;> rfl

/-- C4: in idle mode with escape processing on, each of the bytes 0x0A, 0x0B, 0x0C acts
on the video state only, keeps the cursor column and increments the row; when the
incremented row exceeds the bottom margin the row is pinned at the bottom margin and
the region is scrolled up one line, otherwise the buffer is unchanged.  The buffer is
compared with the cursor mask removed (`CURSOR_INVERT`), which is the buffer itself when
the cursor is hidden. -/
theorem line_feed_spec (c : Nat) (t : Terminal) (hc : c = 0x0A ∨ c = 0x0B ∨ c = 0x0C)
    (hidle : t.in_esc = NOT_IN_ESC) (hesc : t.process_escseqs ≠ 0) (hinv : Inv t.video) :
    receive_char c t = { t with video := (receive_char c t).video } ∧
    (receive_char c t).video.cx = t.video.cx ∧
    (t.video.cy + 1 ≤ t.video.mbottom →
      (receive_char c t).video.cy = t.video.cy + 1 ∧
      (CURSOR_INVERT (receive_char c t).video).TILEMAP = (CURSOR_INVERT t.video).TILEMAP ∧
      (t.video.showcursor = 0 → (receive_char c t).video.TILEMAP = t.video.TILEMAP)) ∧
    (t.video.cy + 1 > t.video.mbottom →
      (receive_char c t).video.cy = t.video.mbottom ∧
      ScrolledUp (CURSOR_INVERT t.video).TILEMAP (CURSOR_INVERT (receive_char c t).video).TILEMAP
        t.video.mtop t.video.mbottom t.video.revvideo ∧
      (t.video.showcursor = 0 →
        ScrolledUp t.video.TILEMAP (receive_char c t).video.TILEMAP
          t.video.mtop t.video.mbottom t.video.revvideo)) := by
  have hc0 : c ≠ 0 := by omega
  rw [receive_char_idle c t hesc hidle hc0, receive_idle_lf c t hc]
  obtain ⟨h1, h2, h3, h4, h5, h6, h7⟩ := hinv
  simp only [TILES_WIDE, TILES_HIGH] at h1 h2 h3 h4 h5 h6 h7
  have hwrap : int8_t (t.video.cy + 1) = t.video.cy + 1 := by unfold int8_t; omega
  refine ⟨rfl, ?_, ?_, ?_⟩
  · simp only [video_lf]
    split_ifs <;> rfl
  · intro hle
    have hlf : video_lf t.video =
        CURSOR_INVERT { CURSOR_INVERT t.video with cy := t.video.cy + 1 } := by
      simp only [video_lf, CURSOR_INVERT_cy, CURSOR_INVERT_mbottom, hwrap]
      rw [if_neg (by omega)]
    refine ⟨?_, ?_, ?_⟩
    · rw [hlf]; rfl
    · rw [hlf, CURSOR_INVERT_twice]
    · intro hs
      rw [hlf, CURSOR_INVERT_hidden t.video hs,
        CURSOR_INVERT_hidden { t.video with cy := t.video.cy + 1 } hs]
  · intro hgt
    have hlf : video_lf t.video =
        CURSOR_INVERT (_video_scrollup { CURSOR_INVERT t.video with cy := t.video.mbottom }) := by
      simp only [video_lf, CURSOR_INVERT_cy, CURSOR_INVERT_mbottom, hwrap]
      rw [if_pos (by omega)]
    refine ⟨?_, ?_, ?_⟩
    · rw [hlf]; rfl
    · rw [hlf, CURSOR_INVERT_twice]
      exact _video_scrollup_rows { CURSOR_INVERT t.video with cy := t.video.mbottom }
        ⟨h5, h6, by simpa using h7⟩
    · intro hs
      rw [hlf, CURSOR_INVERT_hidden t.video hs,
        CURSOR_INVERT_hidden (_video_scrollup { t.video with cy := t.video.mbottom }) hs]
      exact _video_scrollup_rows { t.video with cy := t.video.mbottom }
        ⟨h5, h6, by simpa using h7⟩

/-- C4 (witness): on the sample terminal (cursor on row 4, bottom margin 5) a line feed
keeps column 3 and moves to row 5. -/
theorem line_feed_spec_witness :
    ((0x0A : Nat) = 0x0A ∨ (0x0A : Nat) = 0x0B ∨ (0x0A : Nat) = 0x0C) ∧
    demo_term.in_esc = NOT_IN_ESC ∧ demo_term.process_escseqs ≠ 0 ∧ Inv demo_term.video ∧
    (receive_char 0x0A demo_term).video.cx = 3 ∧
    (receive_char 0x0A demo_term).video.cy = 5 :=
  ⟨Or.inl rfl, rfl, by decide, by decide,
    (line_feed_spec 0x0A demo_term (Or.inl rfl) rfl (by decide) (by decide)).2.1,
    ((line_feed_spec 0x0A demo_term (Or.inl rfl) rfl (by decide) (by decide)).2.2.1
      (by decide)).1⟩

/-! ### Stepping the parser -/

theorem receive_char_in_esc (c : Nat) (t : Terminal) (hesc : t.process_escseqs ≠ 0)
    (hmode : t.in_esc ≠ 0) (hc : c ≠ 0) : receive_char c t = escseq_process c t := by
  unfold receive_char
  rw [if_neg hesc, if_pos hc, if_pos hmode]

theorem receive_idle_esc (t : Terminal) :
    receive_idle 0x1B t = { t with in_esc := ESC_GOT_1B } := rfl

theorem escseq_process_bracket (t : Terminal) (hmode : t.in_esc = ESC_GOT_1B) :
    escseq_process 0x5B t =
      { t with in_esc := ESC_CSI, paramch := 0,
               paramstr := List.replicate (MAX_ESC_LEN + 1) 0, paramptr := some 0 } := by
  unfold escseq_process
  rw [if_neg (by decide), if_neg (by rw [hmode]; decide), if_neg (by rw [hmode]; decide),
    if_pos hmode]
  rfl

/-- The bytes `ESC [` take an idle terminal into CSI mode with an empty parameter buffer. -/
theorem feed_csi_intro (t : Terminal) (hesc : t.process_escseqs ≠ 0)
    (hidle : t.in_esc = NOT_IN_ESC) :
    feed [0x1B, 0x5B] t =
      { t with in_esc := ESC_CSI, paramch := 0,
               paramstr := List.replicate (MAX_ESC_LEN + 1) 0, paramptr := some 0 } := by
  simp only [feed, List.foldl_cons, List.foldl_nil]
  rw [receive_char_idle 0x1B t hesc hidle (by decide), receive_idle_esc,
    receive_char_in_esc 0x5B { t with in_esc := ESC_GOT_1B } hesc (by simp) (by decide),
    escseq_process_bracket { t with in_esc := ESC_GOT_1B } rfl]

theorem escseq_process_csi_mode (c : Nat) (t : Terminal) (hmode : t.in_esc = ESC_CSI)
    (hc : c ≠ 0x18 ∧ c ≠ 0x1A) : escseq_process c t = escseq_process_csi c t := by
  unfold escseq_process
  rw [if_neg (by omega), if_pos hmode]

/-- A parameter byte that fits is stored. -/
theorem receive_char_store (c : Nat) (t : Terminal) (hesc : t.process_escseqs ≠ 0)
    (hmode : t.in_esc = ESC_CSI) (hc : is_param c) (hfit : t.paramch < MAX_ESC_LEN) :
    receive_char c t =
      { t with paramstr := t.paramstr.set t.paramch c, paramch := t.paramch + 1 } := by
  have hc' := hc
  unfold is_param at hc
  rw [receive_char_in_esc c t hesc (by rw [hmode]; decide) (by omega),
    escseq_process_csi_mode c t hmode (by omega)]
  unfold escseq_process_csi
  rw [if_pos hc, if_neg (by omega)]

/-- A parameter byte that does not fit aborts the sequence and is dropped. -/
theorem receive_char_overflow (c : Nat) (t : Terminal) (hesc : t.process_escseqs ≠ 0)
    (hmode : t.in_esc = ESC_CSI) (hc : is_param c) (hfull : MAX_ESC_LEN ≤ t.paramch) :
    receive_char c t = { t with in_esc := NOT_IN_ESC } := by
  unfold is_param at hc
  rw [receive_char_in_esc c t hesc (by rw [hmode]; decide) (by omega),
    escseq_process_csi_mode c t hmode (by omega)]
  unfold escseq_process_csi
  rw [if_pos hc, if_pos hfull]

/-- A terminator runs the selected action and returns the parser to idle. -/
theorem receive_char_terminator (c : Nat) (t : Terminal) (hesc : t.process_escseqs ≠ 0)
    (hmode : t.in_esc = ESC_CSI) (hc : ¬ is_param c) (hc0 : c ≠ 0)
    (hcan : c ≠ 0x18 ∧ c ≠ 0x1A) :
    receive_char c t = { csi_dispatch c t with in_esc := NOT_IN_ESC } := by
  unfold is_param at hc
  rw [receive_char_in_esc c t hesc (by rw [hmode]; decide) hc0,
    escseq_process_csi_mode c t hmode hcan]
  unfold escseq_process_csi
  rw [if_neg hc]

/-- Feeding parameter bytes that fit stores them one after the other. -/
theorem feed_params (ps : List Nat) (t : Terminal) (hesc : t.process_escseqs ≠ 0)
    (hmode : t.in_esc = ESC_CSI) (hps : ∀ c ∈ ps, is_param c)
    (hfit : t.paramch + ps.length ≤ MAX_ESC_LEN) :
    feed ps t =
      { t with paramstr := store_params t.paramstr t.paramch ps,
               paramch := t.paramch + ps.length } := by
  induction ps generalizing t with
  | nil => rfl
  | cons c cs ih =>
    have hc : is_param c := hps c (List.mem_cons_self _ _)
    have hcs : ∀ d ∈ cs, is_param d := fun d hd => hps d (List.mem_cons_of_mem _ hd)
    simp only [List.length_cons] at hfit
    have hstep := receive_char_store c t hesc hmode hc (by omega)
    show feed cs (receive_char c t) = _
    rw [hstep, ih { t with paramstr := t.paramstr.set t.paramch c, paramch := t.paramch + 1 }
      hesc hmode hcs (by simp only []; omega)]
    simp only [store_params, List.length_cons]
    congr 1
    omega

/-- Storing into a zeroed tail appends. -/
theorem store_params_append (pre ps : List Nat) (k : Nat) (hk : ps.length ≤ k) :
    store_params (pre ++ List.replicate k 0) pre.length ps =
      pre ++ ps ++ List.replicate (k - ps.length) 0 := by
  induction ps generalizing pre k with
  | nil => simp [store_params]
  | cons c cs ih =>
    simp only [List.length_cons] at hk
    obtain ⟨j, rfl⟩ : ∃ j, k = j + 1 := ⟨k - 1, by omega⟩
    have hset : (pre ++ List.replicate (j + 1) 0).set pre.length c =
        (pre ++ [c]) ++ List.replicate j 0 := by
      simp [List.replicate_succ]
    have hlen : pre.length + 1 = (pre ++ [c]).length := by simp
    simp only [store_params]
    rw [hset, hlen, ih (pre ++ [c]) j (by omega)]
    simp

/-- After `ESC [` and parameter bytes that fit, the buffer holds these bytes followed by NULs. -/
theorem feed_csi_params (ps : List Nat) (t : Terminal) (hesc : t.process_escseqs ≠ 0)
    (hidle : t.in_esc = NOT_IN_ESC) (hps : ∀ c ∈ ps, is_param c)
    (hfit : ps.length ≤ MAX_ESC_LEN) :
    feed (0x1B :: 0x5B :: ps) t =
      { t with in_esc := ESC_CSI, paramch := ps.length,
               paramstr := ps ++ List.replicate (MAX_ESC_LEN + 1 - ps.length) 0,
               paramptr := some 0 } := by
  have h1 : feed (0x1B :: 0x5B :: ps) t = feed ps (feed [0x1B, 0x5B] t) := rfl
  have h2 := feed_params ps
    { t with in_esc := ESC_CSI, paramch := 0, paramstr := List.replicate (MAX_ESC_LEN + 1) 0,
             paramptr := some 0 } hesc rfl hps (by simpa using hfit)
  rw [h1, feed_csi_intro t hesc hidle, h2]
  have := store_params_append [] ps (MAX_ESC_LEN + 1) (by simp only [MAX_ESC_LEN] at *; omega)
  simp only [List.nil_append, List.length_nil] at this
  simp only [this, Nat.zero_add]

theorem feed_append (xs ys : List Nat) (t : Terminal) :
    feed (xs ++ ys) t = feed ys (feed xs t) := by
  simp [feed, List.foldl_append]


/-- A complete CSI sequence: `ESC [`, parameter bytes that fit, and a terminator. -/
theorem feed_csi_sequence (ps : List Nat) (c : Nat) (t : Terminal)
    (hesc : t.process_escseqs ≠ 0) (hidle : t.in_esc = NOT_IN_ESC)
    (hps : ∀ d ∈ ps, is_param d) (hfit : ps.length ≤ MAX_ESC_LEN)
    (hc : ¬ is_param c) (hc0 : c ≠ 0) (hcan : c ≠ 0x18 ∧ c ≠ 0x1A) :
    feed (0x1B :: 0x5B :: (ps ++ [c])) t =
      { csi_dispatch c (csi_collected ps t) with in_esc := NOT_IN_ESC } := by
  have h1 : feed (0x1B :: 0x5B :: (ps ++ [c])) t =
      receive_char c (feed (0x1B :: 0x5B :: ps) t) := by
    rw [← List.cons_append, ← List.cons_append, feed_append]
    rfl
  rw [h1, feed_csi_params ps t hesc hidle hps hfit]
  exact receive_char_terminator c (csi_collected ps t) hesc rfl hc hc0 hcan

/-- No `;` is found in a run of digits followed by NULs. -/
theorem strchr_from_digits (ds : List Nat) (k p : Nat) (hds : ∀ d ∈ ds, is_digit d) :
    strchr_from (ds ++ List.replicate k 0) 0x3B p = none := by
  induction ds generalizing p with
  | nil =>
    cases k with
    | zero => rfl
    | succ j => rfl
  | cons d ds ih =>
    have hd : is_digit d := hds d (List.mem_cons_self _ _)
    unfold is_digit at hd
    simp only [List.cons_append, strchr_from]
    rw [if_neg (by omega), if_neg (by omega)]
    exact ih (p + 1) (fun e he => hds e (List.mem_cons_of_mem _ he))

theorem is_param_of_digit (c : Nat) (h : is_digit c) : is_param c := Or.inl h

theorem getD_zero_pad (ds : List Nat) (k : Nat) :
    (ds ++ List.replicate k 0).getD 0 0 = ds.getD 0 0 := by
  cases ds with
  | nil => cases k <;> rfl
  | cons d ds => rfl

theorem atoi_digits_pad (ds : List Nat) (k : Nat) (acc : Int) (hds : ∀ d ∈ ds, is_digit d) :
    atoi_digits (ds ++ List.replicate k 0) acc = atoi_digits ds acc := by
  induction ds generalizing acc with
  | nil => cases k <;> rfl
  | cons d ds ih =>
    have hd : is_digit d := hds d (List.mem_cons_self _ _)
    unfold is_digit at hd
    simp only [List.cons_append, atoi_digits]
    rw [if_pos hd, if_pos hd]
    exact ih _ (fun e he => hds e (List.mem_cons_of_mem _ he))

/-- On digits followed by NULs `atoi` returns the decimal value of the digits. -/
theorem atoi_pad (ds : List Nat) (k : Nat) (hds : ∀ d ∈ ds, is_digit d) :
    atoi (ds ++ List.replicate k 0) = atoi_digits ds 0 := by
  cases ds with
  | nil => cases k <;> rfl
  | cons d ds =>
    have hd : is_digit d := hds d (List.mem_cons_self _ _)
    unfold is_digit at hd
    have hsp : isspace d = false := by
      unfold isspace
      simp
      omega
    unfold atoi
    simp only [List.cons_append, List.dropWhile_cons, hsp]
    split
    · rename_i r heq
      simp at heq
      omega
    · rename_i r heq
      simp at heq
      omega
    · exact atoi_digits_pad (d :: ds) k 0 hds

/-- `ESC [ ; ds H`: the row defaults to 1, the column is read from the digits `ds`. -/
theorem csi_dispatch_H_semicolon (ds : List Nat) (t : Terminal)
    (hds : ∀ d ∈ ds, is_digit d) (hfit : ds.length + 1 ≤ MAX_ESC_LEN) :
    (csi_dispatch 0x48 (csi_collected (0x3B :: ds) t)).video =
      video_gotoxy
        (int8_t ((if (ds ++ List.replicate (MAX_ESC_LEN - ds.length) 0).getD 0 0 ≠ 0 then
          uint8_t (atoi (ds ++ List.replicate (MAX_ESC_LEN - ds.length) 0)) else 1) - 1))
        (int8_t (1 - 1)) t.video := by
  rw [csi_dispatch_H 0x48 (Or.inl rfl)]
  have hk : MAX_ESC_LEN + 1 - (ds.length + 1) = MAX_ESC_LEN - ds.length := by omega
  have h1 : escseq_get_param 1 (csi_collected (0x3B :: ds) t) =
      (1, { csi_collected (0x3B :: ds) t with
            paramstr := 0 :: (ds ++ List.replicate (MAX_ESC_LEN - ds.length) 0),
            paramptr := some 1 }) := by
    simp [escseq_get_param, csi_collected, strchr, strchr_from, hk]
  rw [h1]
  have h2 := strchr_from_digits ds (MAX_ESC_LEN - ds.length) 1 hds
  simp only [MAX_ESC_LEN] at h2
  simp [escseq_get_param, csi_collected, strchr, h2, hk]

/-- `ESC [ 1 ; ds H`: the row is read as 1, the column is read from the digits `ds`. -/
theorem csi_dispatch_H_one_semicolon (ds : List Nat) (t : Terminal)
    (hds : ∀ d ∈ ds, is_digit d) (hfit : ds.length + 2 ≤ MAX_ESC_LEN) :
    (csi_dispatch 0x48 (csi_collected (0x31 :: 0x3B :: ds) t)).video =
      video_gotoxy
        (int8_t ((if (ds ++ List.replicate (MAX_ESC_LEN - 1 - ds.length) 0).getD 0 0 ≠ 0 then
          uint8_t (atoi (ds ++ List.replicate (MAX_ESC_LEN - 1 - ds.length) 0)) else 1) - 1))
        (int8_t (1 - 1)) t.video := by
  rw [csi_dispatch_H 0x48 (Or.inl rfl)]
  have hk : MAX_ESC_LEN + 1 - (ds.length + 1 + 1) = MAX_ESC_LEN - 1 - ds.length := by omega
  have h1 : escseq_get_param 1 (csi_collected (0x31 :: 0x3B :: ds) t) =
      (1, { csi_collected (0x31 :: 0x3B :: ds) t with
            paramstr := 0x31 :: 0 :: (ds ++ List.replicate (MAX_ESC_LEN - 1 - ds.length) 0),
            paramptr := some 2 }) := by
    simp [escseq_get_param, csi_collected, strchr, strchr_from, hk, atoi, atoi_digits, isspace,
      uint8_t]
  rw [h1]
  have h2 := strchr_from_digits ds (MAX_ESC_LEN - 1 - ds.length) 2 hds
  simp only [MAX_ESC_LEN] at h2
  simp [escseq_get_param, csi_collected, strchr, h2, hk]

/-- What the terminator switch leaves alone. -/
theorem csi_dispatch_frame (c : Nat) (t : Terminal) :
    (csi_dispatch c t).in_esc = t.in_esc ∧
    (csi_dispatch c t).paramch = t.paramch ∧
    (csi_dispatch c t).process_escseqs = t.process_escseqs ∧
    (csi_dispatch c t).graphicchars = t.graphicchars ∧
    (csi_dispatch c t).savedstate = t.savedstate ∧
    (c ≠ 0x6D → (csi_dispatch c t).revvideo = t.revvideo) := by
  have g := escseq_get_param_frame
  have s := sgr_loop_frame (t.paramstr.length + 1) t
  rcases csi_terminator_cases c with
    rfl | rfl | rfl | rfl | rfl | rfl | rfl | hc | rfl | rfl | rfl | rfl | hc
  · rw [csi_dispatch_A]; simp [g]
  · rw [csi_dispatch_B]; simp [g]
  · rw [csi_dispatch_C]; simp [g]
  · rw [csi_dispatch_D]; simp [g]
  · rw [csi_dispatch_E]; simp [g]
  · rw [csi_dispatch_F]; simp [g]
  · rw [csi_dispatch_G]; simp [g]
  · rw [csi_dispatch_H c hc]
    refine ⟨?_, ?_, ?_, ?_, ?_, fun _ => ?_⟩ <;> simp [g]
  · rw [csi_dispatch_J]; simp [g]
  · rw [csi_dispatch_K]; simp [g]
  · rw [csi_dispatch_m]; exact ⟨s.2.1, s.2.2.1, s.2.2.2.1, s.2.2.2.2.1, s.2.2.2.2.2, by simp⟩
  · rw [csi_dispatch_r]; simp [g]
  · rw [csi_dispatch_unknown c t hc]; simp

/-- The sequence `ESC [ ; ds H` against `ESC [ 1 ; ds H`, for digits `ds` that fit. -/
theorem csi_H_semicolon_same (ds : List Nat) (t : Terminal) (hesc : t.process_escseqs ≠ 0)
    (hidle : t.in_esc = NOT_IN_ESC) (hds : ∀ d ∈ ds, is_digit d) (hfit : ds.length ≤ 46) :
    SameScreen (feed (0x1B :: 0x5B :: (0x3B :: ds ++ [0x48])) t)
      (feed (0x1B :: 0x5B :: (0x31 :: 0x3B :: ds ++ [0x48])) t) := by
  have hp1 : ∀ d ∈ 0x3B :: ds, is_param d := by
    intro d hd
    rcases List.mem_cons.1 hd with rfl | hd
    · exact Or.inr (Or.inl rfl)
    · exact is_param_of_digit d (hds d hd)
  have hp2 : ∀ d ∈ 0x31 :: 0x3B :: ds, is_param d := by
    intro d hd
    rcases List.mem_cons.1 hd with rfl | hd
    · exact Or.inl (by decide)
    · exact hp1 d hd
  rw [feed_csi_sequence (0x3B :: ds) 0x48 t hesc hidle hp1 (by simp; omega) (by decide)
      (by decide) (by decide),
    feed_csi_sequence (0x31 :: 0x3B :: ds) 0x48 t hesc hidle hp2 (by simp; omega) (by decide)
      (by decide) (by decide)]
  have f1 := csi_dispatch_frame 0x48 (csi_collected (0x3B :: ds) t)
  have f2 := csi_dispatch_frame 0x48 (csi_collected (0x31 :: 0x3B :: ds) t)
  have v1 := csi_dispatch_H_semicolon ds t hds (by simp; omega)
  have v2 := csi_dispatch_H_one_semicolon ds t hds (by simp; omega)
  have hk : MAX_ESC_LEN - ds.length = (MAX_ESC_LEN - 1 - ds.length) + 1 := by
    simp only [MAX_ESC_LEN]; omega
  refine ⟨?_, rfl, ?_, ?_, ?_, ?_⟩
  · show (csi_dispatch 0x48 (csi_collected (0x3B :: ds) t)).video =
      (csi_dispatch 0x48 (csi_collected (0x31 :: 0x3B :: ds) t)).video
    rw [v1, v2, getD_zero_pad, getD_zero_pad, atoi_pad ds _ hds, atoi_pad ds _ hds]
  · exact f1.2.2.2.1.trans f2.2.2.2.1.symm
  · exact (f1.2.2.2.2.2 (by decide)).trans (f2.2.2.2.2.2 (by decide)).symm
  · exact f1.2.2.2.2.1.trans f2.2.2.2.2.1.symm
  · exact f1.2.2.1.trans f2.2.2.1.symm

theorem csi_H_empty_video (t : Terminal) :
    (csi_dispatch 0x48 (csi_collected [] t)).video = video_gotoxy 0 0 t.video := by
  rw [csi_dispatch_H 0x48 (Or.inl rfl)]
  simp [escseq_get_param, csi_collected, strchr, strchr_from, List.replicate, int8_t]

theorem csi_H_one_one_video (t : Terminal) :
    (csi_dispatch 0x48 (csi_collected [0x31, 0x3B, 0x31] t)).video = video_gotoxy 0 0 t.video := by
  rw [csi_dispatch_H_one_semicolon [0x31] t (by decide) (by decide)]
  simp [atoi, atoi_digits, isspace, uint8_t, int8_t]

theorem csi_H_semicolon_five_video (t : Terminal) :
    (csi_dispatch 0x48 (csi_collected [0x3B, 0x35] t)).video = video_gotoxy 4 0 t.video := by
  rw [csi_dispatch_H_semicolon [0x35] t (by decide) (by decide)]
  simp [atoi, atoi_digits, isspace, uint8_t, int8_t]

/-- C5 (amended): from every idle terminal with escape processing on, `ESC [ H` yields the
same video state, parser mode, attribute flags and saved state as `ESC [ 1 ; 1 H`; for
every string `ds` of at most 46 decimal digits `ESC [ ; ds H` yields the same as
`ESC [ 1 ; ds H`; and `ESC [ ; 5 H` leaves the cursor on row 0, column 4. -/
theorem csi_H_defaults (t : Terminal) (hesc : t.process_escseqs ≠ 0)
    (hidle : t.in_esc = NOT_IN_ESC) :
    SameScreen (feed [0x1B, 0x5B, 0x48] t) (feed [0x1B, 0x5B, 0x31, 0x3B, 0x31, 0x48] t) ∧
    (∀ ds : List Nat, (∀ d ∈ ds, is_digit d) → ds.length ≤ 46 →
      SameScreen (feed (0x1B :: 0x5B :: (0x3B :: ds ++ [0x48])) t)
        (feed (0x1B :: 0x5B :: (0x31 :: 0x3B :: ds ++ [0x48])) t)) ∧
    (feed [0x1B, 0x5B, 0x3B, 0x35, 0x48] t).video.cy = 0 ∧
    (feed [0x1B, 0x5B, 0x3B, 0x35, 0x48] t).video.cx = 4 := by
  have e1 := feed_csi_sequence [] 0x48 t hesc hidle (by simp) (by simp) (by decide)
    (by decide) (by decide)
  have e2 := feed_csi_sequence [0x31, 0x3B, 0x31] 0x48 t hesc hidle (by decide) (by simp)
    (by decide) (by decide) (by decide)
  have e3 := feed_csi_sequence [0x3B, 0x35] 0x48 t hesc hidle (by decide) (by simp)
    (by decide) (by decide) (by decide)
  simp only [List.nil_append, List.cons_append] at e1 e2 e3
  refine ⟨?_, fun ds hds hfit => csi_H_semicolon_same ds t hesc hidle hds hfit, ?_, ?_⟩
  · rw [e1, e2]
    have f1 := csi_dispatch_frame 0x48 (csi_collected [] t)
    have f2 := csi_dispatch_frame 0x48 (csi_collected [0x31, 0x3B, 0x31] t)
    refine ⟨?_, rfl, ?_, ?_, ?_, ?_⟩
    · exact (csi_H_empty_video t).trans (csi_H_one_one_video t).symm
    · exact f1.2.2.2.1.trans f2.2.2.2.1.symm
    · exact (f1.2.2.2.2.2 (by decide)).trans (f2.2.2.2.2.2 (by decide)).symm
    · exact f1.2.2.2.2.1.trans f2.2.2.2.2.1.symm
    · exact f1.2.2.1.trans f2.2.2.1.symm
  · rw [e3]
    show (csi_dispatch 0x48 (csi_collected [0x3B, 0x35] t)).video.cy = 0
    rw [csi_H_semicolon_five_video]
    rfl
  · rw [e3]
    show (csi_dispatch 0x48 (csi_collected [0x3B, 0x35] t)).video.cx = 4
    rw [csi_H_semicolon_five_video]
    rfl

/-- C5 (witness): the start-up terminal is idle with escape processing on; there
`ESC [ ; 5 H` puts the cursor on row 0, column 4. -/
theorem csi_H_defaults_witness :
    boot.process_escseqs ≠ 0 ∧ boot.in_esc = NOT_IN_ESC ∧
    (feed [0x1B, 0x5B, 0x3B, 0x35, 0x48] boot).video.cy = 0 ∧
    (feed [0x1B, 0x5B, 0x3B, 0x35, 0x48] boot).video.cx = 4 :=
  ⟨by decide, rfl, (csi_H_defaults boot (by decide) rfl).2.2.1,
    (csi_H_defaults boot (by decide) rfl).2.2.2⟩

/-- C5 (counterexample): for n = 10^46 (47 digits) the two sequences differ: `ESC [ ; n H`
fits the buffer and moves the cursor to column 0, while in `ESC [ 1 ; n H` the 49th
parameter byte aborts the sequence, so `H` is printed and the cursor ends in column 1. -/
theorem csi_H_long_parameter_differs :
    (feed (0x1B :: 0x5B :: (0x3B :: (0x31 :: List.replicate 46 0x30) ++ [0x48])) boot).video.cx = 0 ∧
    (feed (0x1B :: 0x5B :: (0x31 :: 0x3B :: (0x31 :: List.replicate 46 0x30) ++ [0x48]))
      boot).video.cx = 1 ∧
    ¬ SameScreen
      (feed (0x1B :: 0x5B :: (0x3B :: (0x31 :: List.replicate 46 0x30) ++ [0x48])) boot)
      (feed (0x1B :: 0x5B :: (0x31 :: 0x3B :: (0x31 :: List.replicate 46 0x30) ++ [0x48])) boot) := by
  have h1 : (feed (0x1B :: 0x5B :: (0x3B :: (0x31 :: List.replicate 46 0x30) ++ [0x48]))
      boot).video.cx = 0 := by decide
  have h2 : (feed (0x1B :: 0x5B :: (0x31 :: 0x3B :: (0x31 :: List.replicate 46 0x30) ++ [0x48]))
      boot).video.cx = 1 := by decide
  refine ⟨h1, h2, fun h => ?_⟩
  have h3 := congrArg Video.cx h.1
  rw [h1, h2] at h3
  exact absurd h3 (by decide)

/-! ### Printable bytes in idle mode -/

theorem receive_idle_printable (c : Nat) (t : Terminal) (hc : is_printable c) :
    receive_idle c t = { t with video := video_putc_raw (glyph c t) t.video } := by
  obtain ⟨hlo, hdel⟩ := hc
  have hbel : c ≠ 0x07 := fun h => by omega
  have hbs : c ≠ 0x08 := fun h => by omega
  have hlf : ¬ (c = 0x0A ∨ c = 0x0B ∨ c = 0x0C) := fun h => by omega
  have hcr : c ≠ 0x0D := fun h => by omega
  have hso : c ≠ 0x0E := fun h => by omega
  have hsi : c ≠ 0x0F := fun h => by omega
  have hescb : c ≠ 0x1B := fun h => by omega
  unfold receive_idle
  rw [if_neg hbel, if_neg hbs, if_neg hlf, if_neg hcr, if_neg hso, if_neg hsi, if_neg hescb,
    if_neg hdel, if_pos hlo]
  rfl

/-- In idle mode a printable byte is written as a glyph; nothing but the video state changes. -/
theorem receive_char_printable (c : Nat) (t : Terminal) (hesc : t.process_escseqs ≠ 0)
    (hidle : t.in_esc = NOT_IN_ESC) (hc : is_printable c) :
    receive_char c t = { t with video := video_putc_raw (glyph c t) t.video } := by
  rw [receive_char_idle c t hesc hidle (by unfold is_printable at hc; omega),
    receive_idle_printable c t hc]

/-- A run of printable bytes leaves the parser idle and the attributes as they were. -/
theorem feed_printables (cs : List Nat) (t : Terminal) (hesc : t.process_escseqs ≠ 0)
    (hidle : t.in_esc = NOT_IN_ESC) (hcs : ∀ c ∈ cs, is_printable c) :
    (feed cs t).in_esc = NOT_IN_ESC ∧ (feed cs t).revvideo = t.revvideo ∧
    (feed cs t).graphicchars = t.graphicchars ∧
    (feed cs t).process_escseqs = t.process_escseqs := by
  induction cs generalizing t with
  | nil => exact ⟨hidle, rfl, rfl, rfl⟩
  | cons c cs ih =>
    have hc := hcs c (List.mem_cons_self _ _)
    have hstep : feed (c :: cs) t = feed cs (receive_char c t) := rfl
    rw [hstep, receive_char_printable c t hesc hidle hc]
    exact ih { t with video := video_putc_raw (glyph c t) t.video } hesc hidle
      (fun d hd => hcs d (List.mem_cons_of_mem _ hd))

theorem is_printable_of_digit (c : Nat) (h : is_digit c) : is_printable c := by
  unfold is_digit at h
  unfold is_printable
  omega

/-! ### Parameter buffer overflow (C7) -/

/-- C7: after `ESC [`, 51 digits and `m`, received by an idle terminal with escape
processing on, the parser is idle and the SGR reverse-video attribute is what it was
before; a printable byte received next is written as a glyph by `video_putc_raw` and
changes nothing but the video state. -/
theorem csi_overflow_aborts (t : Terminal) (ds : List Nat) (hesc : t.process_escseqs ≠ 0)
    (hidle : t.in_esc = NOT_IN_ESC) (hds : ∀ d ∈ ds, is_digit d) (hlen : ds.length = 51) :
    (feed (0x1B :: 0x5B :: (ds ++ [0x6D])) t).in_esc = NOT_IN_ESC ∧
    (feed (0x1B :: 0x5B :: (ds ++ [0x6D])) t).revvideo = t.revvideo ∧
    ∀ c : Nat, is_printable c →
      receive_char c (feed (0x1B :: 0x5B :: (ds ++ [0x6D])) t) =
        { feed (0x1B :: 0x5B :: (ds ++ [0x6D])) t with
          video := video_putc_raw (glyph c (feed (0x1B :: 0x5B :: (ds ++ [0x6D])) t))
            (feed (0x1B :: 0x5B :: (ds ++ [0x6D])) t).video } := by
  -- the first 48 digits are stored, the 49th aborts, the rest is printed
  have hsplit : ds = ds.take 48 ++ ds.drop 48 := (List.take_append_drop 48 ds).symm
  have htake : (ds.take 48).length = 48 := by simp [hlen]
  have hdrop : (ds.drop 48).length = 3 := by simp [hlen]
  obtain ⟨d49, rest, hrest⟩ : ∃ d r, ds.drop 48 = d :: r := by
    cases h : ds.drop 48 with
    | nil => rw [h] at hdrop; simp at hdrop
    | cons d r => exact ⟨d, r, rfl⟩
  have hd49 : is_digit d49 := by
    apply hds
    rw [hsplit, hrest]
    simp
  have hrestd : ∀ c ∈ rest ++ [0x6D], is_printable c := by
    intro c hc
    rcases List.mem_append.1 hc with h | h
    · apply is_printable_of_digit
      apply hds
      rw [hsplit, hrest]
      simp [h]
    · simp at h
      subst h
      decide
  have hfeed : feed (0x1B :: 0x5B :: (ds ++ [0x6D])) t =
      feed (rest ++ [0x6D]) (receive_char d49 (feed (0x1B :: 0x5B :: ds.take 48) t)) := by
    have : 0x1B :: 0x5B :: (ds ++ [0x6D]) =
        (0x1B :: 0x5B :: ds.take 48) ++ ([d49] ++ (rest ++ [0x6D])) := by
      conv_lhs => rw [hsplit, hrest]
      simp
    rw [this, feed_append, feed_append]
    rfl
  have h48 := feed_csi_params (ds.take 48) t hesc hidle
    (fun d hd => is_param_of_digit d (hds d (List.mem_of_mem_take hd))) (by simp [htake])
  have h49 := receive_char_overflow d49
    { t with in_esc := ESC_CSI, paramch := (ds.take 48).length,
             paramstr := ds.take 48 ++ List.replicate (MAX_ESC_LEN + 1 - (ds.take 48).length) 0,
             paramptr := some 0 } hesc rfl (is_param_of_digit d49 hd49) (by simp [htake])
  rw [h48, h49] at hfeed
  have hp := feed_printables (rest ++ [0x6D])
    { t with in_esc := NOT_IN_ESC, paramch := (ds.take 48).length,
             paramstr := ds.take 48 ++ List.replicate (MAX_ESC_LEN + 1 - (ds.take 48).length) 0,
             paramptr := some 0 } hesc rfl hrestd
  rw [← hfeed] at hp
  refine ⟨hp.1, hp.2.1, fun c hc => ?_⟩
  exact receive_char_printable c _ (by rw [hp.2.2.2]; exact hesc) hp.1 hc

/-- C7 (witness): 51 digits `7` and `m` sent to the start-up terminal leave it idle with
the reverse-video attribute still off. -/
theorem csi_overflow_aborts_witness :
    boot.process_escseqs ≠ 0 ∧ boot.in_esc = NOT_IN_ESC ∧
    (∀ d ∈ List.replicate 51 0x37, is_digit d) ∧ (List.replicate 51 0x37).length = 51 ∧
    (feed (0x1B :: 0x5B :: (List.replicate 51 0x37 ++ [0x6D])) boot).in_esc = NOT_IN_ESC ∧
    (feed (0x1B :: 0x5B :: (List.replicate 51 0x37 ++ [0x6D])) boot).revvideo = boot.revvideo :=
  ⟨by decide, rfl, by decide, by decide,
    (csi_overflow_aborts boot (List.replicate 51 0x37) (by decide) rfl (by decide)
      (by decide)).1,
    (csi_overflow_aborts boot (List.replicate 51 0x37) (by decide) rfl (by decide)
      (by decide)).2.1⟩

/-! ### CAN and SUB (C8) -/

theorem escseq_process_cancel (c : Nat) (t : Terminal) (hc : c = 0x18 ∨ c = 0x1A) :
    escseq_process c t = { t with in_esc := NOT_IN_ESC } := by
  unfold escseq_process
  rw [if_pos hc]

/-- C8: `escseq_process`, which receives every nonzero byte while the parser is not idle,
answers CAN (0x18) and SUB (0x1A) in every mode by setting the mode to idle and changing
nothing else; so, with escape processing on and the parser not idle, `receive_char` of
CAN or SUB only sets the mode to idle, and a printable byte received next is written at
the cursor as a glyph by `video_putc_raw` while the parameter buffer and its indices are
still what they were. -/
theorem cancel_aborts_sequence (c : Nat) (t : Terminal) (hc : c = 0x18 ∨ c = 0x1A) :
    escseq_process c t = { t with in_esc := NOT_IN_ESC } ∧
    (t.process_escseqs ≠ 0 → t.in_esc ≠ NOT_IN_ESC →
      receive_char c t = { t with in_esc := NOT_IN_ESC } ∧
      ∀ p : Nat, is_printable p →
        receive_char p (receive_char c t) =
          { t with in_esc := NOT_IN_ESC, video := video_putc_raw (glyph p t) t.video }) := by
  refine ⟨escseq_process_cancel c t hc, fun hesc hmode => ?_⟩
  have h1 : receive_char c t = { t with in_esc := NOT_IN_ESC } := by
    rw [receive_char_in_esc c t hesc hmode (by omega), escseq_process_cancel c t hc]
  refine ⟨h1, fun p hp => ?_⟩
  rw [h1, receive_char_printable p { t with in_esc := NOT_IN_ESC } hesc rfl hp]
  rfl

/-- C8 (witness): after `ESC [ 1 ;` the parser is in CSI mode; CAN returns it to idle and
changes nothing else. -/
theorem cancel_aborts_sequence_witness :
    ((0x18 : Nat) = 0x18 ∨ (0x18 : Nat) = 0x1A) ∧ mid_csi.process_escseqs ≠ 0 ∧
    mid_csi.in_esc = ESC_CSI ∧
    receive_char 0x18 mid_csi = { mid_csi with in_esc := NOT_IN_ESC } :=
  ⟨Or.inl rfl, by decide, by decide,
    ((cancel_aborts_sequence 0x18 mid_csi (Or.inl rfl)).2 (by decide) (by decide)).1⟩

/-! ### Unknown sequences (C9) -/

/-- C9: with escape processing on, in CSI mode every nonzero byte that is not a digit,
`;` or `?` leaves the parser idle, and when it is none of `A B C D E F G H f J K m r`
nothing but the parser mode changes; after ESC, every nonzero byte outside
`[ # % ( ) 7 8 E D M c` returns the parser to idle and changes nothing else. -/
theorem unknown_sequence_resyncs (c : Nat) (t : Terminal) (hesc : t.process_escseqs ≠ 0)
    (hc0 : c ≠ 0) :
    (t.in_esc = ESC_CSI → ¬ is_param c →
      (receive_char c t).in_esc = NOT_IN_ESC ∧
      ((c ≠ 0x41 ∧ c ≠ 0x42 ∧ c ≠ 0x43 ∧ c ≠ 0x44 ∧ c ≠ 0x45 ∧ c ≠ 0x46 ∧ c ≠ 0x47 ∧
          c ≠ 0x48 ∧ c ≠ 0x66 ∧ c ≠ 0x4A ∧ c ≠ 0x4B ∧ c ≠ 0x6D ∧ c ≠ 0x72) →
        receive_char c t = { t with in_esc := NOT_IN_ESC })) ∧
    (t.in_esc = ESC_GOT_1B →
      (c ≠ 0x5B ∧ c ≠ 0x23 ∧ c ≠ 0x25 ∧ c ≠ 0x28 ∧ c ≠ 0x29 ∧ c ≠ 0x37 ∧ c ≠ 0x38 ∧
        c ≠ 0x45 ∧ c ≠ 0x44 ∧ c ≠ 0x4D ∧ c ≠ 0x63) →
      receive_char c t = { t with in_esc := NOT_IN_ESC }) := by
  refine ⟨fun hmode hc => ?_, fun hmode hc => ?_⟩
  · rw [receive_char_in_esc c t hesc (by rw [hmode]; decide) hc0]
    by_cases hcan : c = 0x18 ∨ c = 0x1A
    · rw [escseq_process_cancel c t hcan]
      exact ⟨rfl, fun _ => rfl⟩
    · rw [escseq_process_csi_mode c t hmode (by omega)]
      unfold is_param at hc
      unfold escseq_process_csi
      rw [if_neg hc]
      refine ⟨rfl, fun hu => ?_⟩
      rw [csi_dispatch_unknown c t hu]
  · rw [receive_char_in_esc c t hesc (by rw [hmode]; decide) hc0]
    by_cases hcan : c = 0x18 ∨ c = 0x1A
    · rw [escseq_process_cancel c t hcan]
    · obtain ⟨h1, h2, h3, h4, h5, h6, h7, h8, h9, h10, h11⟩ := hc
      unfold escseq_process
      rw [if_neg hcan, if_neg (by rw [hmode]; decide), if_neg (by rw [hmode]; decide),
        if_pos hmode]
      unfold escseq_process_noncsi
      rw [if_neg h1, if_neg (by omega), if_neg h6, if_neg h7, if_neg h8, if_neg h9,
        if_neg h10, if_neg h11]

/-- C9 (witness): in CSI mode the unknown terminator `z` only returns the parser to idle. -/
theorem unknown_sequence_resyncs_witness :
    mid_csi.process_escseqs ≠ 0 ∧ (0x7A : Nat) ≠ 0 ∧ mid_csi.in_esc = ESC_CSI ∧
    ¬ is_param 0x7A ∧ receive_char 0x7A mid_csi = { mid_csi with in_esc := NOT_IN_ESC } :=
  ⟨by decide, by decide, by decide, by decide,
    ((unknown_sequence_resyncs 0x7A mid_csi (by decide) (by decide)).1 (by decide)
      (by decide)).2 (by decide)⟩

/-! ### Unsupported parametric non-CSI sequences (C10) -/

/-- C10 (amended): after ESC and one of `#`, `%`, `(`, `)` the parser is in non-CSI mode
and nothing else has changed; the next nonzero byte is discarded, changes nothing and
returns the parser to idle, so that the terminal is exactly as before the ESC and the
byte after it is dispatched as an ordinary idle-state byte; a zero byte is ignored and
leaves the parser in non-CSI mode. -/
theorem noncsi_swallows_one_byte (c : Nat) (t : Terminal)
    (hc : c = 0x23 ∨ c = 0x25 ∨ c = 0x28 ∨ c = 0x29) (hesc : t.process_escseqs ≠ 0)
    (hidle : t.in_esc = NOT_IN_ESC) :
    feed [0x1B, c] t = { t with in_esc := ESC_NONCSI } ∧
    (∀ d : Nat, d ≠ 0 → feed [0x1B, c, d] t = t) ∧
    (∀ d e : Nat, d ≠ 0 → feed [0x1B, c, d, e] t = receive_char e t) ∧
    feed [0x1B, c, 0] t = { t with in_esc := ESC_NONCSI } := by
  have h1 : feed [0x1B, c] t = { t with in_esc := ESC_NONCSI } := by
    simp only [feed, List.foldl_cons, List.foldl_nil]
    rw [receive_char_idle 0x1B t hesc hidle (by decide), receive_idle_esc,
      receive_char_in_esc c { t with in_esc := ESC_GOT_1B } hesc (by simp) (by omega)]
    unfold escseq_process
    rw [if_neg (by omega), if_neg (by simp), if_neg (by simp), if_pos rfl]
    unfold escseq_process_noncsi
    rw [if_neg (by omega), if_pos (by omega)]
  have h2 : ∀ d : Nat, d ≠ 0 → feed [0x1B, c, d] t = t := by
    intro d hd
    have hs : feed [0x1B, c, d] t = receive_char d (feed [0x1B, c] t) := rfl
    rw [hs, h1, receive_char_in_esc d { t with in_esc := ESC_NONCSI } hesc (by simp) hd]
    unfold escseq_process
    by_cases hcan : d = 0x18 ∨ d = 0x1A
    · rw [if_pos hcan]
      cases t
      simp only [NOT_IN_ESC] at hidle
      subst hidle
      rfl
    · rw [if_neg hcan, if_neg (by simp), if_pos rfl]
      cases t
      simp only [NOT_IN_ESC] at hidle
      subst hidle
      rfl
  refine ⟨h1, h2, fun d e hd => ?_, ?_⟩
  · have hs : feed [0x1B, c, d, e] t = receive_char e (feed [0x1B, c, d] t) := rfl
    rw [hs, h2 d hd]
  · have hs : feed [0x1B, c, 0] t = receive_char 0 (feed [0x1B, c] t) := rfl
    rw [hs, h1]
    unfold receive_char
    rw [if_neg hesc, if_neg (by simp)]

/-- C10 (witness): `ESC ( B` sent to the start-up terminal leaves it exactly as it was. -/
theorem noncsi_swallows_one_byte_witness :
    ((0x28 : Nat) = 0x23 ∨ (0x28 : Nat) = 0x25 ∨ (0x28 : Nat) = 0x28 ∨ (0x28 : Nat) = 0x29) ∧
    boot.process_escseqs ≠ 0 ∧ boot.in_esc = NOT_IN_ESC ∧
    feed [0x1B, 0x28, 0x42] boot = boot :=
  ⟨by decide, by decide, rfl,
    (noncsi_swallows_one_byte 0x28 boot (by decide) (by decide) rfl).2.1 0x42 (by decide)⟩

/-- C10 (counterexample): after `ESC (` the byte 0x00 does not return the parser to idle;
the parser stays in non-CSI mode and the `A` that follows is swallowed instead of being
printed (cell 0 stays blank, whereas `A` alone prints 0x41 there). -/
theorem noncsi_nul_not_swallowed :
    (feed [0x1B, 0x28, 0x00] boot).in_esc = ESC_NONCSI ∧
    (feed [0x1B, 0x28, 0x00] boot).in_esc ≠ NOT_IN_ESC ∧
    (feed [0x1B, 0x28, 0x00, 0x41] boot).video.TILEMAP 0 = 0 ∧
    (feed [0x41] boot).video.TILEMAP 0 = 0x41 := by
  decide

/-! ### The cursor mask leaves no ghost (C2) -/

theorem VisEq_poke (a b : Int → Nat) (k : Int) (x : Nat) (h : VisEq a b) :
    VisEq (poke a k x) (poke b k x) := by
  intro i h0 h1
  unfold poke
  split_ifs
  · rfl
  · exact h i h0 h1

theorem VisEq_memset (a b : Int → Nat) (d : Int) (x : Nat) (n : Int) (h : VisEq a b) :
    VisEq (memset a d x n) (memset b d x n) := by
  intro i h0 h1
  unfold memset
  split_ifs
  · rfl
  · exact h i h0 h1

theorem VisEq_memmove (a b : Int → Nat) (d s n : Int) (h : VisEq a b)
    (hs : 0 ≤ s ∧ s + n ≤ TILES_WIDE * TILES_HIGH) :
    VisEq (memmove a d s n) (memmove b d s n) := by
  intro i h0 h1
  unfold memmove
  split_ifs with hc
  · exact h _ (by omega) (by omega)
  · exact h i h0 h1

/-- An operation bracketed by two cursor toggles keeps the correspondence when its body
keeps the agreement of the unmasked states. -/
theorem Rel_wrap (g : Video → Video)
    (hg : ∀ a b : Video, Inv a → Sim a b → Sim (g a) (g b))
    (vh vs : Video) (hinv : Inv vh) (h : Rel vh vs) :
    Rel (CURSOR_INVERT (g (CURSOR_INVERT vh))) (CURSOR_INVERT (g (CURSOR_INVERT vs))) := by
  unfold Rel at *
  have h1 := hg vh (CURSOR_INVERT vs) hinv h
  rw [CURSOR_INVERT_twice, CURSOR_INVERT_hidden vh h.2.2.2.2.2.1,
    CURSOR_INVERT_hidden (g vh) h1.2.2.2.2.2.1]
  exact h1

theorem Sim_scalar (g : Video → Video) (a b : Video) (h : Sim a b)
    (h1 : (g a).cx = (g b).cx) (h2 : (g a).cy = (g b).cy) (h3 : (g a).mtop = (g b).mtop)
    (h4 : (g a).mbottom = (g b).mbottom) (h5 : (g a).revvideo = (g b).revvideo)
    (h6 : (g a).showcursor = a.showcursor) (h7 : (g b).showcursor = b.showcursor)
    (h8 : VisEq (g a).TILEMAP (g b).TILEMAP) : Sim (g a) (g b) :=
  ⟨h1, h2, h3, h4, h5, h6.trans h.2.2.2.2.2.1, h7.trans h.2.2.2.2.2.2.1, h8⟩

/-- Two corresponding states differ only in the cursor flag and in cells that are not visible. -/
theorem Sim_elim (P : Video → Video → Prop)
    (hP : ∀ (ma mb : Int → Nat) (x y t b : Int) (r : Nat), VisEq ma mb →
      P ⟨ma, x, y, 0, t, b, r⟩ ⟨mb, x, y, 0x80, t, b, r⟩)
    (a b : Video) (h : Sim a b) : P a b := by
  obtain ⟨ma, ax, ay, asc, at1, ab, ar⟩ := a
  obtain ⟨mb, bx, byy, bsc, bt, bb, br⟩ := b
  obtain ⟨e1, e2, e3, e4, e5, e6, e7, e8⟩ := h
  simp only at e1 e2 e3 e4 e5 e6 e7 e8
  subst e1 e2 e3 e4 e5 e6 e7
  exact hP _ _ _ _ _ _ _ e8

/-- `Rel_wrap` with the two states in the form given by `Sim_elim`. -/
theorem Rel_wrap_elim (g : Video → Video)
    (hg : ∀ (ma mb : Int → Nat) (x y t b : Int) (r : Nat), VisEq ma mb →
      Inv ⟨ma, x, y, 0, t, b, r⟩ → Sim (g ⟨ma, x, y, 0, t, b, r⟩) (g ⟨mb, x, y, 0x80, t, b, r⟩))
    (vh vs : Video) (hinv : Inv vh) (h : Rel vh vs) :
    Rel (CURSOR_INVERT (g (CURSOR_INVERT vh))) (CURSOR_INVERT (g (CURSOR_INVERT vs))) :=
  Rel_wrap g (fun a b ha hab =>
    Sim_elim (fun a b => Inv a → Sim (g a) (g b))
      (fun ma mb x y t b r e8 hi => hg ma mb x y t b r e8 hi) a b hab ha) vh vs hinv h

theorem video_setx_rel (x : Int) : IsRelOp (video_setx x) := by
  intro vh vs hinv h
  refine ⟨video_setx_inv x vh hinv, ?_⟩
  refine Rel_wrap_elim (fun v =>
    let v := { v with cx := x }
    let v := if v.cx < 0 then { v with cx := 0 } else v
    let v := if v.cx ≥ TILES_WIDE then { v with cx := TILES_WIDE - 1 } else v
    v) ?_ vh vs hinv h
  intro ma mb x y t b r e8 _
  simp only
  split_ifs <;> exact ⟨rfl, rfl, rfl, rfl, rfl, rfl, rfl, e8⟩

theorem video_movex_rel (dx : Int) : IsRelOp (video_movex dx) := by
  intro vh vs hinv h
  refine ⟨video_movex_inv dx vh hinv, ?_⟩
  refine Rel_wrap_elim (fun v =>
    let v := { v with cx := int8_t (v.cx + dx) }
    let v := if v.cx < 0 then { v with cx := 0 } else v
    let v := if v.cx ≥ TILES_WIDE then { v with cx := TILES_WIDE - 1 } else v
    v) ?_ vh vs hinv h
  intro ma mb x y t b r e8 _
  simp only
  split_ifs <;> exact ⟨rfl, rfl, rfl, rfl, rfl, rfl, rfl, e8⟩

theorem video_movey_rel (dy : Int) : IsRelOp (video_movey dy) := by
  intro vh vs hinv h
  refine ⟨video_movey_inv dy vh hinv, ?_⟩
  refine Rel_wrap_elim (fun v =>
    let v := { v with cy := int8_t (v.cy + dy) }
    let v := if v.cy < v.mtop then { v with cy := v.mtop } else v
    let v := if v.cy > v.mbottom then { v with cy := v.mbottom } else v
    v) ?_ vh vs hinv h
  intro ma mb x y t b r e8 _
  simp only
  split_ifs <;> exact ⟨rfl, rfl, rfl, rfl, rfl, rfl, rfl, e8⟩

theorem video_movesol_rel : IsRelOp video_movesol := by
  intro vh vs hinv h
  refine ⟨video_movesol_inv vh hinv, ?_⟩
  refine Rel_wrap (fun v => { v with cx := 0 }) ?_ vh vs hinv h
  intro a b _ hab
  obtain ⟨e1, e2, e3, e4, e5, e6, e7, e8⟩ := hab
  exact ⟨rfl, e2, e3, e4, e5, e6, e7, e8⟩

theorem _video_scrollup_sim (a b : Video)
    (hm : 0 ≤ a.mtop ∧ a.mtop < a.mbottom ∧ a.mbottom ≤ TILES_HIGH - 1) (h : Sim a b) :
    Sim (_video_scrollup a) (_video_scrollup b) := by
  revert hm
  refine Sim_elim (fun a b => 0 ≤ a.mtop ∧ a.mtop < a.mbottom ∧ a.mbottom ≤ TILES_HIGH - 1 →
    Sim (_video_scrollup a) (_video_scrollup b)) ?_ a b h
  intro ma mb x y t b r e8 hm
  refine ⟨rfl, rfl, rfl, rfl, rfl, rfl, rfl, ?_⟩
  simp only [_video_scrollup]
  refine VisEq_memset _ _ _ _ _ (VisEq_memmove _ _ _ _ _ e8 ?_)
  simp only [tile, size_t, TILES_WIDE, TILES_HIGH] at *
  have hn : (b - t) * 54 % 65536 = (b - t) * 54 := Int.emod_eq_of_lt (by omega) (by omega)
  rw [hn]
  omega

theorem _video_scrolldown_sim (a b : Video)
    (hm : 0 ≤ a.mtop ∧ a.mtop < a.mbottom ∧ a.mbottom ≤ TILES_HIGH - 1) (h : Sim a b) :
    Sim (_video_scrolldown a) (_video_scrolldown b) := by
  revert hm
  refine Sim_elim (fun a b => 0 ≤ a.mtop ∧ a.mtop < a.mbottom ∧ a.mbottom ≤ TILES_HIGH - 1 →
    Sim (_video_scrolldown a) (_video_scrolldown b)) ?_ a b h
  intro ma mb x y t b r e8 hm
  refine ⟨rfl, rfl, rfl, rfl, rfl, rfl, rfl, ?_⟩
  simp only [_video_scrolldown]
  refine VisEq_memset _ _ _ _ _ (VisEq_memmove _ _ _ _ _ e8 ?_)
  simp only [tile, size_t, TILES_WIDE, TILES_HIGH] at *
  have hn : (b - t) * 54 % 65536 = (b - t) * 54 := Int.emod_eq_of_lt (by omega) (by omega)
  rw [hn]
  omega

theorem Inv_margins (v : Video) (h : Inv v) :
    0 ≤ v.mtop ∧ v.mtop < v.mbottom ∧ v.mbottom ≤ TILES_HIGH - 1 :=
  ⟨h.2.2.2.2.1, h.2.2.2.2.2.1, h.2.2.2.2.2.2⟩

theorem video_scrollup_rel : IsRelOp video_scrollup := by
  intro vh vs hinv h
  exact ⟨video_scrollup_inv vh hinv,
    Rel_wrap _video_scrollup (fun a b ha hab => _video_scrollup_sim a b (Inv_margins a ha) hab)
      vh vs hinv h⟩

theorem video_scrolldown_rel : IsRelOp video_scrolldown := by
  intro vh vs hinv h
  exact ⟨video_scrolldown_inv vh hinv,
    Rel_wrap _video_scrolldown
      (fun a b ha hab => _video_scrolldown_sim a b (Inv_margins a ha) hab) vh vs hinv h⟩

theorem _video_lfwd_sim (a b : Video)
    (hm : 0 ≤ a.mtop ∧ a.mtop < a.mbottom ∧ a.mbottom ≤ TILES_HIGH - 1) (h : Sim a b) :
    Sim (_video_lfwd a) (_video_lfwd b) := by
  revert hm
  refine Sim_elim (fun a b => 0 ≤ a.mtop ∧ a.mtop < a.mbottom ∧ a.mbottom ≤ TILES_HIGH - 1 →
    Sim (_video_lfwd a) (_video_lfwd b)) ?_ a b h
  intro ma mb x y t b r e8 hm
  simp only [_video_lfwd]
  split_ifs
  · exact _video_scrollup_sim _ _ hm ⟨rfl, rfl, rfl, rfl, rfl, rfl, rfl, e8⟩
  · exact ⟨rfl, rfl, rfl, rfl, rfl, rfl, rfl, e8⟩

theorem _video_cfwd_sim (a b : Video)
    (hm : 0 ≤ a.mtop ∧ a.mtop < a.mbottom ∧ a.mbottom ≤ TILES_HIGH - 1) (h : Sim a b) :
    Sim (_video_cfwd a) (_video_cfwd b) := by
  revert hm
  refine Sim_elim (fun a b => 0 ≤ a.mtop ∧ a.mtop < a.mbottom ∧ a.mbottom ≤ TILES_HIGH - 1 →
    Sim (_video_cfwd a) (_video_cfwd b)) ?_ a b h
  intro ma mb x y t b r e8 hm
  simp only [_video_cfwd]
  split_ifs
  · exact _video_lfwd_sim _ _ hm ⟨rfl, rfl, rfl, rfl, rfl, rfl, rfl, e8⟩
  · exact ⟨rfl, rfl, rfl, rfl, rfl, rfl, rfl, e8⟩

theorem video_lf_rel : IsRelOp video_lf := by
  intro vh vs hinv h
  refine ⟨video_lf_inv vh hinv, ?_⟩
  refine Rel_wrap_elim (fun v =>
    let v := { v with cy := int8_t (v.cy + 1) }
    let v := if v.cy > v.mbottom then _video_scrollup { v with cy := v.mbottom } else v
    v) ?_ vh vs hinv h
  intro ma mb x y t b r e8 hi
  have hm := Inv_margins _ hi
  simp only
  split_ifs
  · exact _video_scrollup_sim _ _ hm ⟨rfl, rfl, rfl, rfl, rfl, rfl, rfl, e8⟩
  · exact ⟨rfl, rfl, rfl, rfl, rfl, rfl, rfl, e8⟩

theorem video_cback_rel : IsRelOp video_cback := by
  intro vh vs hinv h
  refine ⟨video_cback_inv vh hinv, ?_⟩
  refine Rel_wrap_elim (fun v =>
    let v := { v with cx := int8_t (v.cx - 1) }
    let v := if v.cx < 0 then _video_lback v else v
    v) ?_ vh vs hinv h
  intro ma mb x y t b r e8 _
  simp only [_video_lback]
  split_ifs <;> exact ⟨rfl, rfl, rfl, rfl, rfl, rfl, rfl, e8⟩

theorem pending_wrap_sim (a b : Video)
    (hm : 0 ≤ a.mtop ∧ a.mtop < a.mbottom ∧ a.mbottom ≤ TILES_HIGH - 1) (h : Sim a b) :
    Sim (if a.cx ≥ TILES_WIDE then _video_lfwd a else a)
      (if b.cx ≥ TILES_WIDE then _video_lfwd b else b) := by
  rw [← h.1]
  split_ifs
  · exact _video_lfwd_sim a b hm h
  · exact h

theorem poke_cursor_sim (x : Nat) (a b : Video) (h : Sim a b) :
    Sim { a with TILEMAP := poke a.TILEMAP (tile a.cy a.cx) (x ^^^ a.revvideo) }
      { b with TILEMAP := poke b.TILEMAP (tile b.cy b.cx) (x ^^^ b.revvideo) } := by
  obtain ⟨e1, e2, e3, e4, e5, e6, e7, e8⟩ := h
  refine ⟨e1, e2, e3, e4, e5, e6, e7, ?_⟩
  simp only [← e1, ← e2, ← e5]
  exact VisEq_poke _ _ _ _ e8

theorem video_putc_raw_rel (c : Nat) : IsRelOp (video_putc_raw c) := by
  intro vh vs hinv h
  refine ⟨video_putc_raw_inv c vh hinv, ?_⟩
  exact Rel_wrap (fun v =>
    _video_cfwd
      { (if v.cx ≥ TILES_WIDE then _video_lfwd v else v) with
        TILEMAP := poke (if v.cx ≥ TILES_WIDE then _video_lfwd v else v).TILEMAP
          (tile (if v.cx ≥ TILES_WIDE then _video_lfwd v else v).cy
            (if v.cx ≥ TILES_WIDE then _video_lfwd v else v).cx)
          (c ^^^ (if v.cx ≥ TILES_WIDE then _video_lfwd v else v).revvideo) })
    (fun a b ha hab =>
      _video_cfwd_sim _ _ (Inv_margins _ (pending_wrap_inv a ha))
        (poke_cursor_sim c _ _ (pending_wrap_sim a b (Inv_margins a ha) hab)))
    vh vs hinv h

theorem video_erase_rel (m : Int) : IsRelOp (video_erase m) := by
  intro vh vs hinv h
  refine ⟨video_erase_inv m vh hinv, ?_⟩
  refine Rel_wrap_elim (fun v =>
    if m = 0 then
      { v with TILEMAP := (memset v.TILEMAP (tile v.cy v.cx) v.revvideo
          (size_t (TILES_WIDE * TILES_HIGH - (v.cy * TILES_WIDE + v.cx)))) }
    else if m = 1 then
      { v with TILEMAP := memset v.TILEMAP 0 v.revvideo (size_t (v.cy * TILES_WIDE + v.cx + 1)) }
    else if m = 2 then
      { v with TILEMAP := memset v.TILEMAP 0 v.revvideo (size_t (TILES_WIDE * TILES_HIGH)) }
    else v) ?_ vh vs hinv h
  intro ma mb x y t b r e8 _
  simp only
  split_ifs
  · exact ⟨rfl, rfl, rfl, rfl, rfl, rfl, rfl, VisEq_memset _ _ _ _ _ e8⟩
  · exact ⟨rfl, rfl, rfl, rfl, rfl, rfl, rfl, VisEq_memset _ _ _ _ _ e8⟩
  · exact ⟨rfl, rfl, rfl, rfl, rfl, rfl, rfl, VisEq_memset _ _ _ _ _ e8⟩
  · exact ⟨rfl, rfl, rfl, rfl, rfl, rfl, rfl, e8⟩

theorem video_eraseline_rel (m : Int) : IsRelOp (video_eraseline m) := by
  intro vh vs hinv h
  refine ⟨video_eraseline_inv m vh hinv, ?_⟩
  refine Rel_wrap_elim (fun v =>
    if m = 0 then
      { v with TILEMAP := memset v.TILEMAP (tile v.cy v.cx) v.revvideo (size_t (TILES_WIDE - v.cx)) }
    else if m = 1 then
      { v with TILEMAP := memset v.TILEMAP (tile v.cy 0) v.revvideo (size_t (v.cx + 1)) }
    else if m = 2 then
      { v with TILEMAP := memset v.TILEMAP (tile v.cy 0) v.revvideo (size_t TILES_WIDE) }
    else v) ?_ vh vs hinv h
  intro ma mb x y t b r e8 _
  simp only
  split_ifs
  · exact ⟨rfl, rfl, rfl, rfl, rfl, rfl, rfl, VisEq_memset _ _ _ _ _ e8⟩
  · exact ⟨rfl, rfl, rfl, rfl, rfl, rfl, rfl, VisEq_memset _ _ _ _ _ e8⟩
  · exact ⟨rfl, rfl, rfl, rfl, rfl, rfl, rfl, VisEq_memset _ _ _ _ _ e8⟩
  · exact ⟨rfl, rfl, rfl, rfl, rfl, rfl, rfl, e8⟩

theorem IsRelOp_id : IsRelOp id := fun _ _ hinv h => ⟨hinv, h⟩

theorem IsRelOp_comp (F G : Video → Video) (hF : IsRelOp F) (hG : IsRelOp G) :
    IsRelOp (fun v => G (F v)) := fun vh vs hinv h =>
  hG (F vh) (F vs) (hF vh vs hinv h).1 (hF vh vs hinv h).2

/-- `Rel_wrap` for a body that needs no bounds. -/
theorem Rel_wrap_any (g : Video → Video)
    (hg : ∀ a b : Video, Sim a b → Sim (g a) (g b))
    (vh vs : Video) (h : Rel vh vs) :
    Rel (CURSOR_INVERT (g (CURSOR_INVERT vh))) (CURSOR_INVERT (g (CURSOR_INVERT vs))) := by
  unfold Rel at *
  have h1 := hg vh (CURSOR_INVERT vs) h
  rw [CURSOR_INVERT_twice, CURSOR_INVERT_hidden vh h.2.2.2.2.2.1,
    CURSOR_INVERT_hidden (g vh) h1.2.2.2.2.2.1]
  exact h1

/-- Absolute positioning keeps the correspondence whatever the margins are. -/
theorem video_gotoxy_rel_any (x y : Int) (vh vs : Video) (h : Rel vh vs) :
    Rel (video_gotoxy x y vh) (video_gotoxy x y vs) := by
  refine Rel_wrap_any (fun v =>
    let v := { v with cx := x }
    let v := if v.cx < 0 then { v with cx := 0 } else v
    let v := if v.cx ≥ TILES_WIDE then { v with cx := TILES_WIDE - 1 } else v
    let v := { v with cy := y }
    let v := if v.cy < 0 then { v with cy := 0 } else v
    let v := if v.cy ≥ TILES_HIGH then { v with cy := TILES_HIGH - 1 } else v
    v) ?_ vh vs h
  intro a b hab
  obtain ⟨e1, e2, e3, e4, e5, e6, e7, e8⟩ := hab
  unfold Sim
  simp only
  split_ifs <;> simp_all

theorem video_gotoxy_rel (x y : Int) : IsRelOp (video_gotoxy x y) :=
  fun vh vs hinv h => ⟨video_gotoxy_inv x y vh hinv, video_gotoxy_rel_any x y vh vs h⟩

theorem video_set_margins_rel (top bottom : Int) : IsRelOp (video_set_margins top bottom) := by
  intro vh vs hinv h
  refine ⟨video_set_margins_inv top bottom vh, ?_⟩
  unfold video_set_margins
  refine video_gotoxy_rel_any _ _ _ _ ?_
  obtain ⟨e1, e2, e3, e4, e5, e6, e7, e8⟩ := h
  exact ⟨e1, e2, rfl, rfl, e5, e6, e7, e8⟩

theorem video_reset_margins_fields (v : Video) :
    (video_reset_margins v).mtop = 0 ∧ (video_reset_margins v).mbottom = TILES_HIGH - 1 ∧
    (video_reset_margins v).revvideo = v.revvideo ∧
    (video_reset_margins v).showcursor = v.showcursor := by
  have h := video_gotoxy_fields
  unfold video_reset_margins video_set_margins
  simp only [(h _ _ _).2.2.2.2.1, (h _ _ _).2.2.2.2.2.1, (h _ _ _).2.2.2.2.2.2.1,
    (h _ _ _).2.2.2.2.2.2.2]
  simp

theorem video_clrscr_rel : IsRelOp video_clrscr := by
  intro vh vs hinv h
  refine ⟨video_clrscr_inv vh, ?_⟩
  have hh := video_reset_margins_fields (CURSOR_INVERT vh)
  have hs := video_reset_margins_fields (CURSOR_INVERT vs)
  obtain ⟨e1, e2, e3, e4, e5, e6, e7, e8⟩ := h
  have hid : video_clrscr vh =
      { video_reset_margins (CURSOR_INVERT vh) with
        TILEMAP := memset (video_reset_margins (CURSOR_INVERT vh)).TILEMAP 0
          (video_reset_margins (CURSOR_INVERT vh)).revvideo (size_t (TILES_WIDE * TILES_HIGH)),
        cx := 0, cy := 0 } := by
    unfold video_clrscr
    exact CURSOR_INVERT_hidden _ (hh.2.2.2.trans e6)
  unfold Rel
  rw [hid]
  unfold video_clrscr
  rw [CURSOR_INVERT_twice]
  refine ⟨rfl, rfl, hh.1.trans hs.1.symm, hh.2.1.trans hs.2.1.symm, ?_, hh.2.2.2.trans e6,
    hs.2.2.2.trans e7, ?_⟩
  · exact hh.2.2.1.trans (e5.trans hs.2.2.1.symm)
  · intro i h0 h1
    simp only [memset, size_t, TILES_WIDE, TILES_HIGH] at *
    rw [if_pos (by omega), if_pos (by omega)]
    exact hh.2.2.1.trans (e5.trans hs.2.2.1.symm)

/-! #### The dispatcher applies the same video operation in both runs -/

theorem escseq_get_param_swap (d : Int) (t : Terminal) (v : Video) :
    escseq_get_param d { t with video := v } =
      ((escseq_get_param d t).1, { (escseq_get_param d t).2 with video := v }) := by
  unfold escseq_get_param
  cases hp : t.paramptr with
  | none => simp [hp]
  | some p =>
    cases he : strchr t.paramstr p 0x3B with
    | none => simp [hp, he]
    | some e => simp [hp, he]

theorem sgr_step_swap (t : Terminal) (v : Video) :
    sgr_step { t with video := v } = { sgr_step t with video := v } := by
  simp only [sgr_step, escseq_get_param_swap]
  split_ifs <;> rfl

theorem sgr_loop_swap (fuel : Nat) (t : Terminal) (v : Video) :
    sgr_loop fuel { t with video := v } = { sgr_loop fuel t with video := v } := by
  induction fuel generalizing t with
  | zero => rfl
  | succ n ih =>
    unfold sgr_loop
    rw [sgr_step_swap]
    cases hp : t.paramptr with
    | none => simp [hp]
    | some p =>
      simp only [hp]
      exact ih (sgr_step t)

theorem csi_dispatch_factors (c : Nat) (t : Terminal) : Factors (csi_dispatch c) t := by
  rcases csi_terminator_cases c with
    rfl | rfl | rfl | rfl | rfl | rfl | rfl | hc | rfl | rfl | rfl | rfl | hc
  · exact ⟨video_movey (int8_t (- (escseq_get_param 1 t).1)), (escseq_get_param 1 t).2,
      video_movey_rel _, fun v _ => by rw [csi_dispatch_A, escseq_get_param_swap]⟩
  · exact ⟨video_movey (int8_t (escseq_get_param 1 t).1), (escseq_get_param 1 t).2,
      video_movey_rel _, fun v _ => by rw [csi_dispatch_B, escseq_get_param_swap]⟩
  · exact ⟨video_movex (int8_t (escseq_get_param 1 t).1), (escseq_get_param 1 t).2,
      video_movex_rel _, fun v _ => by rw [csi_dispatch_C, escseq_get_param_swap]⟩
  · exact ⟨video_movex (int8_t (- (escseq_get_param 1 t).1)), (escseq_get_param 1 t).2,
      video_movex_rel _, fun v _ => by rw [csi_dispatch_D, escseq_get_param_swap]⟩
  · exact ⟨fun v => video_movesol (video_movey (int8_t (escseq_get_param 1 t).1) v),
      (escseq_get_param 1 t).2,
      IsRelOp_comp _ _ (video_movey_rel _) video_movesol_rel,
      fun v _ => by rw [csi_dispatch_E, escseq_get_param_swap]⟩
  · exact ⟨fun v => video_movesol (video_movey (int8_t (- (escseq_get_param 1 t).1)) v),
      (escseq_get_param 1 t).2,
      IsRelOp_comp _ _ (video_movey_rel _) video_movesol_rel,
      fun v _ => by rw [csi_dispatch_F, escseq_get_param_swap]⟩
  · exact ⟨video_setx (int8_t ((escseq_get_param 1 t).1 - 1)), (escseq_get_param 1 t).2,
      video_setx_rel _, fun v _ => by rw [csi_dispatch_G, escseq_get_param_swap]⟩
  · exact ⟨video_gotoxy (int8_t ((escseq_get_param 1 (escseq_get_param 1 t).2).1 - 1))
        (int8_t ((escseq_get_param 1 t).1 - 1)),
      (escseq_get_param 1 (escseq_get_param 1 t).2).2,
      video_gotoxy_rel _ _,
      fun v _ => by simp only [csi_dispatch_H c hc, escseq_get_param_swap]⟩
  · exact ⟨video_erase (escseq_get_param 0 t).1, (escseq_get_param 0 t).2,
      video_erase_rel _, fun v _ => by rw [csi_dispatch_J, escseq_get_param_swap]⟩
  · exact ⟨video_eraseline (escseq_get_param 0 t).1, (escseq_get_param 0 t).2,
      video_eraseline_rel _, fun v _ => by rw [csi_dispatch_K, escseq_get_param_swap]⟩
  · exact ⟨id, sgr_loop (t.paramstr.length + 1) t, IsRelOp_id,
      fun v _ => by rw [csi_dispatch_m]; exact sgr_loop_swap _ t v⟩
  · exact ⟨video_set_margins (int8_t ((escseq_get_param 1 t).1 - 1))
        (int8_t ((escseq_get_param (uint8_t TILES_HIGH) (escseq_get_param 1 t).2).1 - 1)),
      (escseq_get_param (uint8_t TILES_HIGH) (escseq_get_param 1 t).2).2,
      video_set_margins_rel _ _,
      fun v _ => by simp only [csi_dispatch_r, escseq_get_param_swap]⟩
  · exact ⟨id, t, IsRelOp_id, fun v _ => by rw [csi_dispatch_unknown c _ hc]; rfl⟩

theorem escseq_process_csi_factors (c : Nat) (t : Terminal) :
    Factors (escseq_process_csi c) t := by
  by_cases hp : (0x30 ≤ c ∧ c ≤ 0x39) ∨ c = 0x3B ∨ c = 0x3F
  · by_cases hfull : t.paramch ≥ MAX_ESC_LEN
    · refine ⟨id, { t with in_esc := NOT_IN_ESC }, IsRelOp_id, fun v _ => ?_⟩
      unfold escseq_process_csi
      rw [if_pos hp, if_pos hfull]
      rfl
    · refine ⟨id, { t with paramstr := t.paramstr.set t.paramch c, paramch := t.paramch + 1 },
        IsRelOp_id, fun v _ => ?_⟩
      unfold escseq_process_csi
      rw [if_pos hp, if_neg hfull]
      rfl
  · obtain ⟨F, t1, hF, hfac⟩ := csi_dispatch_factors c t
    refine ⟨F, { t1 with in_esc := NOT_IN_ESC }, hF, fun v hv => ?_⟩
    unfold escseq_process_csi
    rw [if_neg hp, hfac v hv]

theorem esc_index_factors (t : Terminal) : Factors esc_index t := by
  by_cases hb : t.video.cy = t.video.mbottom
  · refine ⟨video_scrollup, t, video_scrollup_rel, fun v hv => ?_⟩
    unfold esc_index video_gety video_bottom_margin
    rw [if_pos (by simp only []; rw [hv.2.1, hv.2.2.2]; exact hb)]
  · refine ⟨video_movey 1, t, video_movey_rel 1, fun v hv => ?_⟩
    unfold esc_index video_gety video_bottom_margin
    rw [if_neg (by simp only []; rw [hv.2.1, hv.2.2.2]; exact hb)]

theorem esc_reverse_index_factors (t : Terminal) : Factors esc_reverse_index t := by
  by_cases hb : t.video.cy = t.video.mtop
  · refine ⟨video_scrolldown, t, video_scrolldown_rel, fun v hv => ?_⟩
    unfold esc_reverse_index video_gety video_top_margin
    rw [if_pos (by simp only []; rw [hv.2.1, hv.2.2.1]; exact hb)]
  · refine ⟨video_movey (-1), t, video_movey_rel (-1), fun v hv => ?_⟩
    unfold esc_reverse_index video_gety video_top_margin
    rw [if_neg (by simp only []; rw [hv.2.1, hv.2.2.1]; exact hb)]

theorem escseq_process_noncsi_factors (c : Nat) (t : Terminal) :
    Factors (escseq_process_noncsi c) t := by
  by_cases h1 : c = 0x5B
  · refine ⟨id, { escseq_csi_start t with in_esc := ESC_CSI }, IsRelOp_id, fun v _ => ?_⟩
    unfold escseq_process_noncsi
    rw [if_pos h1]
    rfl
  by_cases h2 : c = 0x25 ∨ c = 0x23 ∨ c = 0x28 ∨ c = 0x29
  · refine ⟨id, t, IsRelOp_id, fun v _ => ?_⟩
    unfold escseq_process_noncsi
    rw [if_neg h1, if_pos h2]
    rfl
  by_cases h3 : c = 0x37
  · refine ⟨id, { save_term_state t with in_esc := NOT_IN_ESC }, IsRelOp_id, fun v hv => ?_⟩
    unfold escseq_process_noncsi
    rw [if_neg h1, if_neg h2, if_pos h3]
    unfold save_term_state video_getx video_gety
    simp only [hv.1, hv.2.1, id]
  by_cases h4 : c = 0x38
  · refine ⟨video_gotoxy t.savedstate.cx t.savedstate.cy,
      { restore_term_state t with in_esc := NOT_IN_ESC }, video_gotoxy_rel _ _, fun v _ => ?_⟩
    unfold escseq_process_noncsi
    rw [if_neg h1, if_neg h2, if_neg h3, if_pos h4]
    rfl
  by_cases h5 : c = 0x45
  · obtain ⟨F, t1, hF, hfac⟩ := esc_index_factors { t with video := video_movesol t.video }
    refine ⟨fun v => F (video_movesol v), { t1 with in_esc := NOT_IN_ESC },
      IsRelOp_comp _ _ video_movesol_rel hF, fun v hv => ?_⟩
    unfold escseq_process_noncsi
    rw [if_neg h1, if_neg h2, if_neg h3, if_neg h4, if_pos h5]
    have := hfac (video_movesol v) ⟨rfl, hv.2.1, hv.2.2.1, hv.2.2.2⟩
    simp only at this
    rw [this]
  by_cases h6 : c = 0x44
  · obtain ⟨F, t1, hF, hfac⟩ := esc_index_factors t
    refine ⟨F, { t1 with in_esc := NOT_IN_ESC }, hF, fun v hv => ?_⟩
    unfold escseq_process_noncsi
    rw [if_neg h1, if_neg h2, if_neg h3, if_neg h4, if_neg h5, if_pos h6, hfac v hv]
  by_cases h7 : c = 0x4D
  · obtain ⟨F, t1, hF, hfac⟩ := esc_reverse_index_factors t
    refine ⟨F, { t1 with in_esc := NOT_IN_ESC }, hF, fun v hv => ?_⟩
    unfold escseq_process_noncsi
    rw [if_neg h1, if_neg h2, if_neg h3, if_neg h4, if_neg h5, if_neg h6, if_pos h7, hfac v hv]
  by_cases h8 : c = 0x63
  · refine ⟨video_clrscr,
      { reset_term { t with video := video_clrscr t.video } with in_esc := NOT_IN_ESC },
      video_clrscr_rel, fun v _ => ?_⟩
    unfold escseq_process_noncsi
    rw [if_neg h1, if_neg h2, if_neg h3, if_neg h4, if_neg h5, if_neg h6, if_neg h7, if_pos h8]
    rfl
  · refine ⟨id, { t with in_esc := NOT_IN_ESC }, IsRelOp_id, fun v _ => ?_⟩
    unfold escseq_process_noncsi
    rw [if_neg h1, if_neg h2, if_neg h3, if_neg h4, if_neg h5, if_neg h6, if_neg h7, if_neg h8]
    rfl

theorem escseq_process_factors (c : Nat) (t : Terminal) : Factors (escseq_process c) t := by
  by_cases h1 : c = 0x18 ∨ c = 0x1A
  · refine ⟨id, { t with in_esc := NOT_IN_ESC }, IsRelOp_id, fun v _ => ?_⟩
    unfold escseq_process
    rw [if_pos h1]
    rfl
  by_cases h2 : t.in_esc = ESC_CSI
  · obtain ⟨F, t1, hF, hfac⟩ := escseq_process_csi_factors c t
    refine ⟨F, t1, hF, fun v hv => ?_⟩
    unfold escseq_process
    rw [if_neg h1, if_pos h2, hfac v hv]
  by_cases h3 : t.in_esc = ESC_NONCSI
  · refine ⟨id, { t with in_esc := NOT_IN_ESC }, IsRelOp_id, fun v _ => ?_⟩
    unfold escseq_process
    rw [if_neg h1, if_neg h2, if_pos h3]
    rfl
  by_cases h4 : t.in_esc = ESC_GOT_1B
  · obtain ⟨F, t1, hF, hfac⟩ := escseq_process_noncsi_factors c { t with in_esc := ESC_NONCSI }
    refine ⟨F, t1, hF, fun v hv => ?_⟩
    unfold escseq_process
    rw [if_neg h1, if_neg h2, if_neg h3, if_pos h4]
    exact hfac v hv
  · refine ⟨id, t, IsRelOp_id, fun v _ => ?_⟩
    unfold escseq_process
    rw [if_neg h1, if_neg h2, if_neg h3, if_neg h4]
    rfl

theorem receive_idle_factors (c : Nat) (t : Terminal) : Factors (receive_idle c) t := by
  by_cases h1 : c = 0x07
  · refine ⟨id, t, IsRelOp_id, fun v _ => ?_⟩
    unfold receive_idle
    rw [if_pos h1]
    rfl
  by_cases h2 : c = 0x08
  · refine ⟨video_cback, t, video_cback_rel, fun v _ => ?_⟩
    unfold receive_idle
    rw [if_neg h1, if_pos h2]
  by_cases h3 : c = 0x0A ∨ c = 0x0B ∨ c = 0x0C
  · refine ⟨video_lf, t, video_lf_rel, fun v _ => ?_⟩
    unfold receive_idle
    rw [if_neg h1, if_neg h2, if_pos h3]
  by_cases h4 : c = 0x0D
  · refine ⟨video_setx 0, t, video_setx_rel 0, fun v _ => ?_⟩
    unfold receive_idle
    rw [if_neg h1, if_neg h2, if_neg h3, if_pos h4]
  by_cases h5 : c = 0x0E
  · refine ⟨id, { t with graphicchars := 1 }, IsRelOp_id, fun v _ => ?_⟩
    unfold receive_idle
    rw [if_neg h1, if_neg h2, if_neg h3, if_neg h4, if_pos h5]
    rfl
  by_cases h6 : c = 0x0F
  · refine ⟨id, { t with graphicchars := 0 }, IsRelOp_id, fun v _ => ?_⟩
    unfold receive_idle
    rw [if_neg h1, if_neg h2, if_neg h3, if_neg h4, if_neg h5, if_pos h6]
    rfl
  by_cases h7 : c = 0x1B
  · refine ⟨id, { t with in_esc := ESC_GOT_1B }, IsRelOp_id, fun v _ => ?_⟩
    unfold receive_idle
    rw [if_neg h1, if_neg h2, if_neg h3, if_neg h4, if_neg h5, if_neg h6, if_pos h7]
    rfl
  by_cases h8 : c = 0x7F
  · refine ⟨id, t, IsRelOp_id, fun v _ => ?_⟩
    unfold receive_idle
    rw [if_neg h1, if_neg h2, if_neg h3, if_neg h4, if_neg h5, if_neg h6, if_neg h7, if_pos h8]
    rfl
  by_cases h9 : c ≥ 0x20
  · refine ⟨video_putc_raw (glyph c t), t, video_putc_raw_rel _, fun v _ => ?_⟩
    unfold receive_idle
    rw [if_neg h1, if_neg h2, if_neg h3, if_neg h4, if_neg h5, if_neg h6, if_neg h7, if_neg h8,
      if_pos h9]
    rfl
  · refine ⟨id, t, IsRelOp_id, fun v _ => ?_⟩
    unfold receive_idle
    rw [if_neg h1, if_neg h2, if_neg h3, if_neg h4, if_neg h5, if_neg h6, if_neg h7, if_neg h8,
      if_neg h9]
    rfl

theorem receive_char_factors (c : Nat) (t : Terminal) : Factors (receive_char c) t := by
  by_cases h1 : t.process_escseqs = 0
  · refine ⟨video_putc_raw c, t, video_putc_raw_rel c, fun v _ => ?_⟩
    unfold receive_char
    rw [if_pos h1]
  by_cases h2 : c ≠ 0
  · by_cases h3 : t.in_esc ≠ 0
    · obtain ⟨F, t1, hF, hfac⟩ := escseq_process_factors c t
      refine ⟨F, t1, hF, fun v hv => ?_⟩
      unfold receive_char
      rw [if_neg h1, if_pos h2, if_pos h3, hfac v hv]
    · obtain ⟨F, t1, hF, hfac⟩ := receive_idle_factors c t
      refine ⟨F, t1, hF, fun v hv => ?_⟩
      unfold receive_char
      rw [if_neg h1, if_pos h2, if_neg h3, hfac v hv]
  · refine ⟨id, t, IsRelOp_id, fun v _ => ?_⟩
    unfold receive_char
    rw [if_neg h1, if_neg h2]
    rfl

/-! #### The two runs stay in correspondence -/

theorem Rel_SameCursor (vh vs : Video) (h : Rel vh vs) : SameCursor vs vh :=
  ⟨h.1.symm, h.2.1.symm, h.2.2.1.symm, h.2.2.2.1.symm⟩

theorem receive_char_TRel (c : Nat) (th ts : Terminal) (h : TRel th ts) :
    TRel (receive_char c th) (receive_char c ts) := by
  obtain ⟨hts, hrel, hinv⟩ := h
  obtain ⟨F, t1, hF, hfac⟩ := receive_char_factors c th
  have e1 : receive_char c th = { t1 with video := F th.video } :=
    hfac th.video ⟨rfl, rfl, rfl, rfl⟩
  have e2 : receive_char c ts = { t1 with video := F ts.video } := by
    rw [hts]
    exact hfac ts.video (Rel_SameCursor _ _ hrel)
  rw [e1, e2]
  exact ⟨rfl, (hF th.video ts.video hinv hrel).2, (hF th.video ts.video hinv hrel).1⟩

theorem feed_TRel (bytes : List Nat) (th ts : Terminal) (h : TRel th ts) :
    TRel (feed bytes th) (feed bytes ts) := by
  induction bytes generalizing th ts with
  | nil => exact h
  | cons c cs ih => exact ih _ _ (receive_char_TRel c th ts h)

/-- Showing the cursor on a hidden-cursor terminal starts the correspondence. -/
theorem show_cursor_TRel (t : Terminal) (hhid : t.video.showcursor = 0) (hinv : Inv t.video) :
    TRel t { t with video := video_show_cursor t.video } := by
  refine ⟨rfl, ?_, hinv⟩
  show Rel t.video (video_show_cursor t.video)
  unfold video_show_cursor Rel
  rw [if_pos hhid, CURSOR_INVERT_twice]
  exact ⟨rfl, rfl, rfl, rfl, rfl, hhid, rfl, fun i _ _ => rfl⟩

/-- What the correspondence says cell by cell. -/
theorem Rel_cells (vh vs : Video) (h : Rel vh vs) (i : Int) (h0 : 0 ≤ i)
    (h1 : i < TILES_WIDE * TILES_HIGH) :
    vs.TILEMAP i = vh.TILEMAP i ^^^ (if i = tile vh.cy vh.cx then 0x80 else 0) := by
  obtain ⟨e1, e2, e3, e4, e5, e6, e7, e8⟩ := h
  have hi := e8 i h0 h1
  simp only [CURSOR_INVERT_cx, CURSOR_INVERT_cy, CURSOR_INVERT_showcursor] at e1 e2 e7
  simp only [CURSOR_INVERT, poke, e7, ← e1, ← e2] at hi
  by_cases hk : i = tile vh.cy vh.cx
  · rw [if_pos hk] at hi ⊢
    rw [hi, ← hk, Nat.xor_assoc, Nat.xor_self, Nat.xor_zero]
  · rw [if_neg hk] at hi ⊢
    rw [hi, Nat.xor_zero]

/-- C2: for every sequence of bytes given to `receive_char`, starting from a state with
the cursor hidden and cursor and margins in range, the run in which the cursor is first
shown (`video_show_cursor`) ends with the same cursor position, margins, screen reverse
video, attribute flags, parser mode and saved state as the run with the cursor hidden, and
every visible cell (flat offset below `TILES_WIDE * TILES_HIGH`) equals the hidden run's
cell, with bit 0x80 toggled exactly at the offset `cy * TILES_WIDE + cx` of the final
cursor. -/
theorem no_cursor_ghost (t : Terminal) (bytes : List Nat) (hhid : t.video.showcursor = 0)
    (hinv : Inv t.video) :
    (feed bytes { t with video := video_show_cursor t.video }).video.cx =
      (feed bytes t).video.cx ∧
    (feed bytes { t with video := video_show_cursor t.video }).video.cy =
      (feed bytes t).video.cy ∧
    (feed bytes { t with video := video_show_cursor t.video }).video.mtop =
      (feed bytes t).video.mtop ∧
    (feed bytes { t with video := video_show_cursor t.video }).video.mbottom =
      (feed bytes t).video.mbottom ∧
    (feed bytes { t with video := video_show_cursor t.video }).video.revvideo =
      (feed bytes t).video.revvideo ∧
    (feed bytes { t with video := video_show_cursor t.video }).graphicchars =
      (feed bytes t).graphicchars ∧
    (feed bytes { t with video := video_show_cursor t.video }).revvideo =
      (feed bytes t).revvideo ∧
    (feed bytes { t with video := video_show_cursor t.video }).in_esc =
      (feed bytes t).in_esc ∧
    (feed bytes { t with video := video_show_cursor t.video }).savedstate =
      (feed bytes t).savedstate ∧
    ∀ i : Int, 0 ≤ i → i < TILES_WIDE * TILES_HIGH →
      (feed bytes { t with video := video_show_cursor t.video }).video.TILEMAP i =
        (feed bytes t).video.TILEMAP i ^^^
          (if i = tile (feed bytes t).video.cy (feed bytes t).video.cx then 0x80 else 0) := by
  obtain ⟨hts, hrel, _⟩ := feed_TRel bytes t _ (show_cursor_TRel t hhid hinv)
  generalize feed bytes { t with video := video_show_cursor t.video } = s at hts hrel
  generalize feed bytes t = h at hts hrel
  have hc := Rel_SameCursor _ _ hrel
  refine ⟨hc.1, hc.2.1, hc.2.2.1, hc.2.2.2, hrel.2.2.2.2.1.symm, ?_, ?_, ?_, ?_,
    fun i h0 h1 => Rel_cells _ _ hrel i h0 h1⟩
  · rw [hts]
  · rw [hts]
  · rw [hts]
  · rw [hts]

/-- C2 (witness): from the sample terminal (cursor hidden at column 3 of row 4) the bytes
`A`, LF, `ESC [ 2 J` leave, in the shown-cursor run, cell 0 as in the hidden-cursor run and
the cell under the final cursor with bit 0x80 toggled. -/
theorem no_cursor_ghost_witness :
    demo_term.video.showcursor = 0 ∧ Inv demo_term.video ∧
    (feed [0x41, 0x0A, 0x1B, 0x5B, 0x32, 0x4A]
      { demo_term with video := video_show_cursor demo_term.video }).video.TILEMAP 0 =
      (feed [0x41, 0x0A, 0x1B, 0x5B, 0x32, 0x4A] demo_term).video.TILEMAP 0 ^^^
        (if (0 : Int) = tile (feed [0x41, 0x0A, 0x1B, 0x5B, 0x32, 0x4A] demo_term).video.cy
          (feed [0x41, 0x0A, 0x1B, 0x5B, 0x32, 0x4A] demo_term).video.cx then 0x80 else 0) :=
  ⟨rfl, by decide,
    (no_cursor_ghost demo_term [0x41, 0x0A, 0x1B, 0x5B, 0x32, 0x4A] rfl (by decide)).2.2.2.2.2.2.2.2.2
      0 (by decide) (by decide)⟩

/-! ### Absolute positioning with a large parameter (C6) -/

/-- C6 (evaluation at the failing input): `ESC [ 1 ; 200 H` sent to the start-up terminal
leaves the cursor in column 0 of row 0: the column parameter 200 gives `x - 1 = 199`, which
is narrowed to the `int8_t` value -57 on the call of `video_gotoxy` and then clamped to 0,
not to `min 200 TILES_WIDE - 1 = 53`. -/
theorem csi_H_column_200_wraps :
    (feed [0x1B, 0x5B, 0x31, 0x3B, 0x32, 0x30, 0x30, 0x48] boot).video.cx = 0 ∧
    (feed [0x1B, 0x5B, 0x31, 0x3B, 0x32, 0x30, 0x30, 0x48] boot).video.cy = 0 ∧
    int8_t (200 - 1) = -57 ∧
    (feed [0x1B, 0x5B, 0x31, 0x3B, 0x32, 0x30, 0x30, 0x48] boot).video.cx ≠
      min 200 TILES_WIDE - 1 := by
  decide

/-! ### The graphic-rendition loop runs to its exit -/

theorem strchr_from_bounds (l : List Nat) (ch p e : Nat) (h : strchr_from l ch p = some e) :
    p ≤ e ∧ e < p + l.length := by
  induction l generalizing p with
  | nil => simp [strchr_from] at h
  | cons c cs ih =>
    unfold strchr_from at h
    split_ifs at h with h1 h2
    · simp only [Option.some.injEq] at h
      simp only [List.length_cons]
      omega
    · have := ih (p + 1) h
      simp only [List.length_cons]
      omega

theorem strchr_bounds (s : List Nat) (p e : Nat) (h : strchr s p 0x3B = some e) :
    p ≤ e ∧ e < s.length := by
  unfold strchr at h
  have hb := strchr_from_bounds _ _ _ _ h
  simp only [List.length_drop] at hb
  omega

/-- One iteration either clears the read pointer or advances it, inside the buffer,
and keeps the length of the buffer. -/
theorem sgr_step_progress (t : Terminal) (p : Nat) (hp : t.paramptr = some p) :
    (sgr_step t).paramstr.length = t.paramstr.length ∧
    ((sgr_step t).paramptr = none ∨
      ∃ q, (sgr_step t).paramptr = some q ∧ p < q ∧ q ≤ t.paramstr.length) := by
  have hstep : (sgr_step t).paramstr = (escseq_get_param 0 t).2.paramstr ∧
      (sgr_step t).paramptr = (escseq_get_param 0 t).2.paramptr := by
    simp only [sgr_step]
    split_ifs <;> exact ⟨rfl, rfl⟩
  rw [hstep.1, hstep.2]
  unfold escseq_get_param
  cases he : strchr t.paramstr p 0x3B with
  | none => simp [hp, he]
  | some e =>
    have hb := strchr_bounds _ _ _ he
    simp [hp, he]
    omega

/-- With fuel for one iteration more than the bytes left, the loop ends with a null read
pointer, that is, at the exit of `while (paramptr)`. -/
theorem sgr_loop_exits_from (fuel : Nat) (t : Terminal)
    (h : ∀ p, t.paramptr = some p → t.paramstr.length - p < fuel) :
    (sgr_loop fuel t).paramptr = none := by
  induction fuel generalizing t with
  | zero =>
    cases hp : t.paramptr with
    | none => simpa [sgr_loop] using hp
    | some p => exact absurd (h p hp) (by omega)
  | succ n ih =>
    unfold sgr_loop
    cases hp : t.paramptr with
    | none => simpa using hp
    | some p =>
      simp only
      obtain ⟨hlen, hnext⟩ := sgr_step_progress t p hp
      apply ih
      intro q hq
      rcases hnext with hnone | ⟨q', hq', hlt, hle⟩
      · rw [hnone] at hq
        exact absurd hq (by simp)
      · rw [hq'] at hq
        simp only [Option.some.injEq] at hq
        subst hq
        have := h p hp
        rw [hlen]
        omega

/-- The fuel given by `csi_dispatch` always lets the loop of the `m` case reach its exit. -/
theorem sgr_loop_exits (t : Terminal) :
    (sgr_loop (t.paramstr.length + 1) t).paramptr = none :=
  sgr_loop_exits_from _ t (fun p _ => by omega)

/-! ### Setting the margins (C11 to C14) -/

/-- An absolute move to a cell of the screen ends on that cell. -/
theorem video_gotoxy_cursor (x y : Int) (v : Video) (hx : 0 ≤ x ∧ x < TILES_WIDE)
    (hy : 0 ≤ y ∧ y < TILES_HIGH) :
    (video_gotoxy x y v).cx = x ∧ (video_gotoxy x y v).cy = y := by
  simp only [video_gotoxy]
  split_ifs <;> simp_all <;> omega

/-- The call `video_set_margins(top, bottom)` is the store of the sanitised margins
followed by `video_gotoxy(mtop, 0)`. -/
theorem video_set_margins_eq (top bottom : Int) (v : Video) :
    video_set_margins top bottom v =
      video_gotoxy (video_set_margins top bottom v).mtop 0
        { v with mtop := (video_set_margins top bottom v).mtop,
                 mbottom := (video_set_margins top bottom v).mbottom } := by
  have hf := video_gotoxy_fields
  unfold video_set_margins
  simp only [(hf _ _ _).2.2.2.2.1, (hf _ _ _).2.2.2.2.2.1]

/-- After `video_set_margins` the cursor column is the resulting top margin and the cursor
row is 0: the call `video_gotoxy(mtop, 0)` takes the column first. -/
theorem video_set_margins_cursor (top bottom : Int) (v : Video) :
    (video_set_margins top bottom v).cx = (video_set_margins top bottom v).mtop ∧
    (video_set_margins top bottom v).cy = 0 := by
  have hm := video_set_margins_margins top bottom v
  have he := video_set_margins_eq top bottom v
  have hc := video_gotoxy_cursor (video_set_margins top bottom v).mtop 0
    { v with mtop := (video_set_margins top bottom v).mtop,
             mbottom := (video_set_margins top bottom v).mbottom }
    (by simp only [TILES_WIDE, TILES_HIGH] at *; omega) (by simp)
  rw [← he] at hc
  exact hc

/-- The margins stored by `video_set_margins`: each bound is clamped on its own, and the
pair is replaced by the full screen when the clamped top is not above the clamped bottom. -/
theorem video_set_margins_stored (top bottom : Int) (v : Video) :
    (video_set_margins top bottom v).mtop =
      (if max top 0 < min bottom (TILES_HIGH - 1) then max top 0 else 0) ∧
    (video_set_margins top bottom v).mbottom =
      (if max top 0 < min bottom (TILES_HIGH - 1) then min bottom (TILES_HIGH - 1)
       else TILES_HIGH - 1) := by
  have hf := video_gotoxy_fields
  unfold video_set_margins
  simp only [(hf _ _ _).2.2.2.2.1, (hf _ _ _).2.2.2.2.2.1]
  simp only [TILES_HIGH]
  have h1 : max top 0 = if top < 0 then 0 else top := by
    split_ifs <;> omega
  have h2 : min bottom (24 - 1) = if bottom ≥ 24 then 24 - 1 else bottom := by
    split_ifs <;> omega
  simp only [h1, h2]
  split_ifs <;> omega

/-- C11 (evaluation at the failing input): `video_set_margins(5, 10)` stores the margins
5 and 10 and leaves the cursor in column 5 of row 0, not in column 0 of row 5; the same
state is reached from start-up by `ESC [ 6 ; 1 1 r`.  In general the cursor column after
`video_set_margins` equals the resulting top margin and the cursor row is 0. -/
theorem set_margins_cursor_transposed :
    (video_set_margins 5 10 video_zero).cx = 5 ∧
    (video_set_margins 5 10 video_zero).cy = 0 ∧
    video_top_margin (video_set_margins 5 10 video_zero) = 5 ∧
    (feed [0x1B, 0x5B, 0x36, 0x3B, 0x31, 0x31, 0x72] boot).video.cx = 5 ∧
    (feed [0x1B, 0x5B, 0x36, 0x3B, 0x31, 0x31, 0x72] boot).video.cy = 0 ∧
    video_top_margin (feed [0x1B, 0x5B, 0x36, 0x3B, 0x31, 0x31, 0x72] boot).video = 5 ∧
    (∀ (top bottom : Int) (v : Video),
      (video_set_margins top bottom v).cx = video_top_margin (video_set_margins top bottom v) ∧
      (video_set_margins top bottom v).cy = 0) := by
  refine ⟨by decide, by decide, by decide, by decide, by decide, by decide, ?_⟩
  intro top bottom v
  exact video_set_margins_cursor top bottom v

/-- C12 (counterexample): the pair `(-1, 10)` is out of range (`top < 0`), yet
`video_set_margins(-1, 10)` stores the margins 0 and 10, not the full screen 0 and 23;
`ESC [ 0 ; 1 1 r` makes this call from start-up.  Likewise `(3, 30)` gives 3 and 23. -/
theorem set_margins_negative_top_no_reset :
    video_top_margin (video_set_margins (-1) 10 video_zero) = 0 ∧
    video_bottom_margin (video_set_margins (-1) 10 video_zero) = 10 ∧
    video_bottom_margin (video_set_margins (-1) 10 video_zero) ≠ TILES_HIGH - 1 ∧
    video_bottom_margin (feed [0x1B, 0x5B, 0x30, 0x3B, 0x31, 0x31, 0x72] boot).video = 10 ∧
    video_top_margin (video_set_margins 3 30 video_zero) = 3 ∧
    video_bottom_margin (video_set_margins 3 30 video_zero) = 23 := by
  decide

/-- C12 (amended): `video_set_margins(top, bottom)` clamps each bound on its own, a
negative `top` to 0 and a `bottom` of `TILES_HIGH` or more to `TILES_HIGH - 1`; when the
clamped top is below the clamped bottom that pair is stored, otherwise the margins are
the full screen, 0 and `TILES_HIGH - 1`.  In particular a pair with
`0 ≤ top < bottom < TILES_HIGH` is stored unchanged. -/
theorem set_margins_clamps_each_bound (top bottom : Int) (v : Video) :
    video_top_margin (video_set_margins top bottom v) =
      (if max top 0 < min bottom (TILES_HIGH - 1) then max top 0 else 0) ∧
    video_bottom_margin (video_set_margins top bottom v) =
      (if max top 0 < min bottom (TILES_HIGH - 1) then min bottom (TILES_HIGH - 1)
       else TILES_HIGH - 1) ∧
    (0 ≤ top → top < bottom → bottom < TILES_HIGH →
      video_top_margin (video_set_margins top bottom v) = top ∧
      video_bottom_margin (video_set_margins top bottom v) = bottom) := by
  have h := video_set_margins_stored top bottom v
  refine ⟨h.1, h.2, ?_⟩
  intro h0 h1 h2
  unfold video_top_margin video_bottom_margin
  rw [h.1, h.2]
  simp only [TILES_HIGH] at *
  have e1 : max top 0 = top := max_eq_left h0
  have e2 : min bottom (24 - 1) = bottom := min_eq_left (by omega)
  simp only [e1, e2, if_pos h1, and_self]

/-- C12 (witness): the pair (2, 5) satisfies `0 ≤ top < bottom < TILES_HIGH`; on the
sample state `video_set_margins(2, 5)` stores 2 and 5. -/
theorem set_margins_clamps_each_bound_witness :
    video_top_margin (video_set_margins 2 5 demo_video) = 2 ∧
    video_bottom_margin (video_set_margins 2 5 demo_video) = 5 :=
  (set_margins_clamps_each_bound 2 5 demo_video).2.2 (by decide) (by decide) (by decide)

/-- A pair with `top ≥ bottom` given to `video_set_margins` resets the margins to the
full screen and moves the cursor to column 0 of row 0. -/
theorem video_set_margins_inverted (top bottom : Int) (v : Video) (h : bottom ≤ top) :
    (video_set_margins top bottom v).mtop = 0 ∧
    (video_set_margins top bottom v).mbottom = TILES_HIGH - 1 ∧
    (video_set_margins top bottom v).cx = 0 ∧
    (video_set_margins top bottom v).cy = 0 := by
  have hs := video_set_margins_stored top bottom v
  have hc := video_set_margins_cursor top bottom v
  have hn : ¬ max top 0 < min bottom (TILES_HIGH - 1) := by
    have a1 : top ≤ max top 0 := le_max_left _ _
    have a2 : min bottom (TILES_HIGH - 1) ≤ bottom := min_le_left _ _
    omega
  rw [if_neg hn] at hs
  rw [if_neg hn] at hs
  exact ⟨hs.1, hs.2, hc.1.trans hs.1, hc.2⟩

/-- C13 (evaluation at the failing input): the direct call `video_set_margins(5, 3)`
resets the margins to 0 and 23 and puts the cursor at column 0 of row 0, and so does every
direct call with `top ≥ bottom`; but `ESC [ 2 0 0 ; 1 0 r` (t = 200 ≥ b = 10) sent to the
start-up terminal leaves the margins 0 and 9: `t - 1 = 199` is narrowed to the `int8_t`
value -57 on the call, which the function clamps to 0, and 0 is below 9. -/
theorem csi_r_top_200_not_reset :
    (∀ (top bottom : Int) (v : Video), bottom ≤ top →
      video_top_margin (video_set_margins top bottom v) = 0 ∧
      video_bottom_margin (video_set_margins top bottom v) = TILES_HIGH - 1 ∧
      (video_set_margins top bottom v).cx = 0 ∧ (video_set_margins top bottom v).cy = 0) ∧
    video_top_margin (video_set_margins 5 3 video_zero) = 0 ∧
    video_bottom_margin (video_set_margins 5 3 video_zero) = 23 ∧
    int8_t (200 - 1) = -57 ∧
    video_top_margin
      (feed [0x1B, 0x5B, 0x32, 0x30, 0x30, 0x3B, 0x31, 0x30, 0x72] boot).video = 0 ∧
    video_bottom_margin
      (feed [0x1B, 0x5B, 0x32, 0x30, 0x30, 0x3B, 0x31, 0x30, 0x72] boot).video = 9 ∧
    video_bottom_margin
      (feed [0x1B, 0x5B, 0x32, 0x30, 0x30, 0x3B, 0x31, 0x30, 0x72] boot).video ≠
        TILES_HIGH - 1 := by
  refine ⟨?_, by decide, by decide, by decide, by decide, by decide, by decide⟩
  intro top bottom v h
  exact video_set_margins_inverted top bottom v h

/-- C14: after `video_set_margins(top, bottom)` with any arguments whatever the margins
satisfy `0 ≤ top < bottom ≤ TILES_HIGH - 1`, and so they do in every state reached after
`video_clrscr` by any sequence of bytes given to `receive_char` and of calls to the
`video_*` operations, whatever the parameters of an `ESC [ t ; b r` among them. -/
theorem margins_invariant (top bottom : Int) (v : Video) (t0 : Terminal) (ops : List Op)
    (bytes : List Nat) :
    (0 ≤ video_top_margin (video_set_margins top bottom v) ∧
     video_top_margin (video_set_margins top bottom v) <
       video_bottom_margin (video_set_margins top bottom v) ∧
     video_bottom_margin (video_set_margins top bottom v) ≤ TILES_HIGH - 1) ∧
    (0 ≤ video_top_margin (run_ops ops { t0 with video := video_clrscr t0.video }).video ∧
     video_top_margin (run_ops ops { t0 with video := video_clrscr t0.video }).video <
       video_bottom_margin (run_ops ops { t0 with video := video_clrscr t0.video }).video ∧
     video_bottom_margin (run_ops ops { t0 with video := video_clrscr t0.video }).video ≤
       TILES_HIGH - 1) ∧
    (0 ≤ video_top_margin (feed bytes { t0 with video := video_clrscr t0.video }).video ∧
     video_top_margin (feed bytes { t0 with video := video_clrscr t0.video }).video <
       video_bottom_margin (feed bytes { t0 with video := video_clrscr t0.video }).video ∧
     video_bottom_margin (feed bytes { t0 with video := video_clrscr t0.video }).video ≤
       TILES_HIGH - 1) := by
  have h1 := video_set_margins_margins top bottom v
  have h2 := run_ops_inv ops { t0 with video := video_clrscr t0.video } (video_clrscr_inv _)
  have h3 := feed_inv bytes { t0 with video := video_clrscr t0.video } (video_clrscr_inv _)
  unfold Inv at h2 h3
  unfold video_top_margin video_bottom_margin
  exact ⟨h1, ⟨h2.2.2.2.2.1, h2.2.2.2.2.2.1, h2.2.2.2.2.2.2⟩,
    ⟨h3.2.2.2.2.1, h3.2.2.2.2.2.1, h3.2.2.2.2.2.2⟩⟩

/-! ### Relative vertical moves (C15) -/

/-- While `cy + dy` fits an `int8_t`, `video_movey(dy)`, for an `int8_t` value `dy`,
clamps the row to the scroll region and, with the cursor hidden, changes nothing else. -/
theorem video_movey_no_overflow (dy : Int) (v : Video) (hdy : -128 ≤ dy ∧ dy ≤ 127)
    (hs : v.showcursor = 0) (hm : v.mtop ≤ v.mbottom) (hlo : -128 ≤ v.cy + dy)
    (hhi : v.cy + dy ≤ 127) :
    video_movey dy v = { v with cy := max v.mtop (min v.mbottom (v.cy + dy)) } := by
  have e : int8_t (v.cy + dy) = v.cy + dy := by
    unfold int8_t
    omega
  have hc : ∀ w : Video, w.showcursor = 0 → CURSOR_INVERT w = w := CURSOR_INVERT_hidden
  simp only [video_movey, hc v hs, e]
  by_cases h1 : v.cy + dy < v.mtop
  · have e1 : max v.mtop (min v.mbottom (v.cy + dy)) = v.mtop := by
      rw [min_eq_right (by omega), max_eq_left (by omega)]
    rw [if_pos h1, e1]
    simp only [if_neg (not_lt.2 hm)]
    exact hc _ hs
  · rw [if_neg h1]
    by_cases h2 : v.cy + dy > v.mbottom
    · have e2 : max v.mtop (min v.mbottom (v.cy + dy)) = v.mbottom := by
        rw [min_eq_left (by omega), max_eq_right (by omega)]
      rw [if_pos h2, e2]
      exact hc _ hs
    · have e3 : max v.mtop (min v.mbottom (v.cy + dy)) = v.cy + dy := by
        rw [min_eq_right (by omega), max_eq_right (by omega)]
      rw [if_neg h2, e3]
      exact hc _ hs

/-- C15 (evaluation at the failing input): with the cursor hidden on row 23 of the
full-screen region (reached from start-up by `ESC [ 2 4 ; 1 H`), `video_movey(127)`, made
by `ESC [ 1 2 7 B`, leaves the cursor on row 0: the sum `23 + 127 = 150` is narrowed to the
`int8_t` value -106 by `cy += dy` and then clamped to the top margin, while the clamp of
the unbounded sum to the region is row 23.  Whenever `cy + dy` stays within -128..127 the
row is `max top (min bottom (cy + dy))` and column and buffer are unchanged. -/
theorem movey_down_127_lands_on_top :
    (feed [0x1B, 0x5B, 0x32, 0x34, 0x3B, 0x31, 0x48] boot).video.cy = 23 ∧
    video_top_margin (feed [0x1B, 0x5B, 0x32, 0x34, 0x3B, 0x31, 0x48] boot).video = 0 ∧
    video_bottom_margin (feed [0x1B, 0x5B, 0x32, 0x34, 0x3B, 0x31, 0x48] boot).video = 23 ∧
    (video_movey 127 (feed [0x1B, 0x5B, 0x32, 0x34, 0x3B, 0x31, 0x48] boot).video).cy = 0 ∧
    (feed [0x1B, 0x5B, 0x32, 0x34, 0x3B, 0x31, 0x48, 0x1B, 0x5B, 0x31, 0x32, 0x37, 0x42]
      boot).video.cy = 0 ∧
    int8_t (23 + 127) = -106 ∧
    max (0 : Int) (min 23 (23 + 127)) = 23 ∧
    (∀ (dy : Int) (v : Video), -128 ≤ dy ∧ dy ≤ 127 → v.showcursor = 0 →
      v.mtop ≤ v.mbottom → -128 ≤ v.cy + dy → v.cy + dy ≤ 127 →
      video_movey dy v = { v with cy := max v.mtop (min v.mbottom (v.cy + dy)) }) := by
  refine ⟨by decide, by decide, by decide, by decide, by decide, by decide, by decide, ?_⟩
  intro dy v hdy hs hm hlo hhi
  exact video_movey_no_overflow dy v hdy hs hm hlo hhi

/-! ### Erase in display (C17) -/

/-- Flat offsets follow the row-major order of the cells. -/
theorem tile_row_major (r x r1 x1 : Int) (hx : 0 ≤ x ∧ x < TILES_WIDE)
    (hx1 : 0 ≤ x1 ∧ x1 < TILES_WIDE) :
    tile r x ≤ tile r1 x1 ↔ (r < r1 ∨ (r = r1 ∧ x ≤ x1)) := by
  simp only [tile, TILES_WIDE] at *
  omega

/-- With the cursor hidden the two cursor toggles of `video_erase` change nothing. -/
theorem video_erase_hidden (mode : Int) (v : Video) (hs : v.showcursor = 0) :
    video_erase mode v =
      if mode = 0 then
        { v with TILEMAP := (memset v.TILEMAP (tile v.cy v.cx) v.revvideo
            (size_t (TILES_WIDE * TILES_HIGH - (v.cy * TILES_WIDE + v.cx)))) }
      else if mode = 1 then
        { v with TILEMAP := memset v.TILEMAP 0 v.revvideo (size_t (v.cy * TILES_WIDE + v.cx + 1)) }
      else if mode = 2 then
        { v with TILEMAP := memset v.TILEMAP 0 v.revvideo (size_t (TILES_WIDE * TILES_HIGH)) }
      else v := by
  simp only [video_erase, CURSOR_INVERT_hidden v hs]
  split_ifs
  · exact CURSOR_INVERT_hidden _ hs
  · exact CURSOR_INVERT_hidden _ hs
  · exact CURSOR_INVERT_hidden _ hs
  · exact CURSOR_INVERT_hidden _ hs

/-- C17: `video_erase(mode)`, for a `uint8_t` value `mode`, with the cursor hidden at
column `cx` (0 to `TILES_WIDE`) of row `cy`.  Cells are named by flat offset, which is their row-major rank (`tile_row_major`),
and the fill byte is the screen reverse-video byte.  Mode 0 fills the offsets from the
cursor cell through the last cell of row `TILES_HIGH - 1`, mode 1 those from cell (0,0)
through the cursor cell, mode 2 the `TILES_HIGH * TILES_WIDE` visible cells; every other
offset keeps its byte, every other mode leaves the state as it was, and cursor, margins
and flags are unchanged in all cases. -/
theorem video_erase_spec (mode : Int) (v : Video) (hmode : 0 ≤ mode ∧ mode ≤ 255)
    (hs : v.showcursor = 0) (hx : 0 ≤ v.cx ∧ v.cx ≤ TILES_WIDE)
    (hy : 0 ≤ v.cy ∧ v.cy ≤ TILES_HIGH - 1) :
    (video_erase mode v).cx = v.cx ∧ (video_erase mode v).cy = v.cy ∧
    (video_erase mode v).mtop = v.mtop ∧ (video_erase mode v).mbottom = v.mbottom ∧
    (video_erase mode v).revvideo = v.revvideo ∧
    (video_erase mode v).showcursor = v.showcursor ∧
    (mode = 0 → ∀ i : Int, (video_erase mode v).TILEMAP i =
      if tile v.cy v.cx ≤ i ∧ i < TILES_HIGH * TILES_WIDE then v.revvideo else v.TILEMAP i) ∧
    (mode = 1 → ∀ i : Int, (video_erase mode v).TILEMAP i =
      if 0 ≤ i ∧ i ≤ tile v.cy v.cx then v.revvideo else v.TILEMAP i) ∧
    (mode = 2 → ∀ i : Int, (video_erase mode v).TILEMAP i =
      if 0 ≤ i ∧ i < TILES_HIGH * TILES_WIDE then v.revvideo else v.TILEMAP i) ∧
    (mode ≠ 0 → mode ≠ 1 → mode ≠ 2 → video_erase mode v = v) := by
  have s0 : size_t (TILES_WIDE * TILES_HIGH - (v.cy * TILES_WIDE + v.cx)) =
      TILES_WIDE * TILES_HIGH - (v.cy * TILES_WIDE + v.cx) := by
    simp only [TILES_WIDE, TILES_HIGH] at *
    exact Int.emod_eq_of_lt (by omega) (by omega)
  have s1 : size_t (v.cy * TILES_WIDE + v.cx + 1) = v.cy * TILES_WIDE + v.cx + 1 := by
    simp only [TILES_WIDE, TILES_HIGH] at *
    exact Int.emod_eq_of_lt (by omega) (by omega)
  have s2 : size_t (TILES_WIDE * TILES_HIGH) = TILES_WIDE * TILES_HIGH := by decide
  by_cases m0 : mode = 0
  · subst m0
    rw [video_erase_hidden 0 v hs, if_pos rfl, s0]
    refine ⟨rfl, rfl, rfl, rfl, rfl, rfl, ?_, ?_, ?_, ?_⟩
    · intro _ i
      simp only [memset, tile, TILES_WIDE, TILES_HIGH]
      by_cases hi : v.cy * 54 + v.cx ≤ i ∧ i < 24 * 54
      · rw [if_pos hi, if_pos (by omega)]
      · rw [if_neg hi, if_neg (by omega)]
    · intro h; exact absurd h (by decide)
    · intro h; exact absurd h (by decide)
    · intro h; exact absurd rfl h
  · by_cases m1 : mode = 1
    · subst m1
      rw [video_erase_hidden 1 v hs, if_neg m0, if_pos rfl, s1]
      refine ⟨rfl, rfl, rfl, rfl, rfl, rfl, ?_, ?_, ?_, ?_⟩
      · intro h; exact absurd h m0
      · intro _ i
        simp only [memset, tile, TILES_WIDE, TILES_HIGH]
        by_cases hi : 0 ≤ i ∧ i ≤ v.cy * 54 + v.cx
        · rw [if_pos hi, if_pos (by omega)]
        · rw [if_neg hi, if_neg (by omega)]
      · intro h; exact absurd h (by decide)
      · intro _ h; exact absurd rfl h
    · by_cases m2 : mode = 2
      · subst m2
        rw [video_erase_hidden 2 v hs, if_neg m0, if_neg m1, if_pos rfl, s2]
        refine ⟨rfl, rfl, rfl, rfl, rfl, rfl, ?_, ?_, ?_, ?_⟩
        · intro h; exact absurd h m0
        · intro h; exact absurd h m1
        · intro _ i
          simp only [memset, TILES_WIDE, TILES_HIGH]
          by_cases hi : 0 ≤ i ∧ i < 24 * 54
          · rw [if_pos hi, if_pos (by omega)]
          · rw [if_neg hi, if_neg (by omega)]
        · intro _ _ h; exact absurd rfl h
      · have e : video_erase mode v = v := by
          rw [video_erase_hidden mode v hs, if_neg m0, if_neg m1, if_neg m2]
        rw [e]
        exact ⟨rfl, rfl, rfl, rfl, rfl, rfl, fun h => absurd h m0, fun h => absurd h m1,
          fun h => absurd h m2, fun _ _ _ => rfl⟩

/-- C17 (witness): the sample state has the cursor hidden at column 3 of row 4; mode 0
fills the offsets from `tile 4 3` to the end of the screen with 0x80 and leaves the
cursor where it was. -/
theorem video_erase_spec_witness :
    (∀ i : Int, (video_erase 0 demo_video).TILEMAP i =
      if tile demo_video.cy demo_video.cx ≤ i ∧ i < TILES_HIGH * TILES_WIDE
      then demo_video.revvideo else demo_video.TILEMAP i) ∧
    (video_erase 0 demo_video).cx = 3 ∧ (video_erase 0 demo_video).cy = 4 :=
  have h := video_erase_spec 0 demo_video (by decide) (by decide) (by decide) (by decide)
  ⟨h.2.2.2.2.2.2.1 rfl, h.1, h.2.1⟩

/-! ### Erase in line (C18) -/

/-- With the cursor hidden the two cursor toggles of `video_eraseline` change nothing. -/
theorem video_eraseline_hidden (mode : Int) (v : Video) (hs : v.showcursor = 0) :
    video_eraseline mode v =
      if mode = 0 then
        { v with TILEMAP := (memset v.TILEMAP (tile v.cy v.cx) v.revvideo
            (size_t (TILES_WIDE - v.cx))) }
      else if mode = 1 then
        { v with TILEMAP := memset v.TILEMAP (tile v.cy 0) v.revvideo (size_t (v.cx + 1)) }
      else if mode = 2 then
        { v with TILEMAP := memset v.TILEMAP (tile v.cy 0) v.revvideo (size_t TILES_WIDE) }
      else v := by
  simp only [video_eraseline, CURSOR_INVERT_hidden v hs]
  split_ifs
  · exact CURSOR_INVERT_hidden _ hs
  · exact CURSOR_INVERT_hidden _ hs
  · exact CURSOR_INVERT_hidden _ hs
  · exact CURSOR_INVERT_hidden _ hs

/-- The cells written by `video_eraseline` with the cursor hidden at a column from 0 to
`TILES_WIDE`: mode 0 fills the offsets of columns `cx` to `TILES_WIDE - 1` of row `cy`,
mode 2 those of the whole row, and mode 1 the `cx + 1` offsets that start at column 0 of
row `cy`, the last of which is `tile cy cx`. -/
theorem video_eraseline_cells (v : Video) (hs : v.showcursor = 0)
    (hx : 0 ≤ v.cx ∧ v.cx ≤ TILES_WIDE) (i : Int) :
    (video_eraseline 0 v).TILEMAP i =
      (if tile v.cy v.cx ≤ i ∧ i < tile v.cy TILES_WIDE then v.revvideo else v.TILEMAP i) ∧
    (video_eraseline 1 v).TILEMAP i =
      (if tile v.cy 0 ≤ i ∧ i ≤ tile v.cy v.cx then v.revvideo else v.TILEMAP i) ∧
    (video_eraseline 2 v).TILEMAP i =
      (if tile v.cy 0 ≤ i ∧ i < tile v.cy TILES_WIDE then v.revvideo else v.TILEMAP i) := by
  have s0 : size_t (TILES_WIDE - v.cx) = TILES_WIDE - v.cx := by
    simp only [TILES_WIDE] at *
    exact Int.emod_eq_of_lt (by omega) (by omega)
  have s1 : size_t (v.cx + 1) = v.cx + 1 := by
    simp only [TILES_WIDE] at *
    exact Int.emod_eq_of_lt (by omega) (by omega)
  have s2 : size_t TILES_WIDE = TILES_WIDE := by decide
  have n10 : ¬ (1 : Int) = 0 := by decide
  have n20 : ¬ (2 : Int) = 0 := by decide
  have n21 : ¬ (2 : Int) = 1 := by decide
  have e0 := video_eraseline_hidden 0 v hs
  have e1 := video_eraseline_hidden 1 v hs
  have e2 := video_eraseline_hidden 2 v hs
  rw [if_pos rfl, s0] at e0
  rw [if_neg n10, if_pos rfl, s1] at e1
  rw [if_neg n20, if_neg n21, if_pos rfl, s2] at e2
  rw [e0, e1, e2]
  simp only [memset, tile, TILES_WIDE]
  refine ⟨?_, ?_, ?_⟩
  · by_cases hi : v.cy * 54 + v.cx ≤ i ∧ i < v.cy * 54 + 54
    · rw [if_pos hi, if_pos (by omega)]
    · rw [if_neg hi, if_neg (by omega)]
  · by_cases hi : v.cy * 54 + 0 ≤ i ∧ i ≤ v.cy * 54 + v.cx
    · rw [if_pos hi, if_pos (by omega)]
    · rw [if_neg hi, if_neg (by omega)]
  · by_cases hi : v.cy * 54 + 0 ≤ i ∧ i < v.cy * 54 + 54
    · rw [if_pos hi, if_pos (by omega)]
    · rw [if_neg hi, if_neg (by omega)]

/-- C18 (evaluation at the failing input): after start-up the bytes `A` × 55, `ESC [ H`,
`A` × 54 leave the cursor (hidden) on row 0 in the pending-wrap column `TILES_WIDE`, with
`A` in cell (1,0).  `video_eraseline(1)`, made by `ESC [ 1 K`, then clears cell (1,0),
which is outside row 0: it fills `cx + 1 = 55` cells from column 0 of the cursor row.
In general mode 1 fills the offsets `tile cy 0` to `tile cy cx`, and `tile cy TILES_WIDE`
is column 0 of the next row. -/
theorem eraseline_1_at_pending_wrap_leaves_row :
    (feed pending_wrap_bytes boot).video.cx = TILES_WIDE ∧
    (feed pending_wrap_bytes boot).video.cy = 0 ∧
    (feed pending_wrap_bytes boot).video.showcursor = 0 ∧
    (feed pending_wrap_bytes boot).video.TILEMAP (tile 1 0) = 0x41 ∧
    (video_eraseline 1 (feed pending_wrap_bytes boot).video).TILEMAP (tile 1 0) = 0 ∧
    (feed (pending_wrap_bytes ++ [0x1B, 0x5B, 0x31, 0x4B]) boot).video.TILEMAP (tile 1 0) = 0 ∧
    (feed (pending_wrap_bytes ++ [0x1B, 0x5B, 0x31, 0x4B]) boot).video.cx = TILES_WIDE ∧
    (∀ (v : Video) (i : Int), v.showcursor = 0 → 0 ≤ v.cx → v.cx ≤ TILES_WIDE →
      (video_eraseline 1 v).TILEMAP i =
        if tile v.cy 0 ≤ i ∧ i ≤ tile v.cy v.cx then v.revvideo else v.TILEMAP i) ∧
    (∀ y : Int, tile y TILES_WIDE = tile (y + 1) 0) := by
  refine ⟨by decide, by decide, by decide, by decide, by decide, by decide, by decide, ?_, ?_⟩
  · intro v i hs h0 h1
    exact (video_eraseline_cells v hs ⟨h0, h1⟩ i).2.1
  · intro y
    simp only [tile, TILES_WIDE]
    omega

/-! ### Defaults of the other sequences (C16) -/

/-- A parameter read from an empty buffer is the default of the caller. -/
theorem escseq_get_param_empty (d : Int) (t : Terminal) :
    (escseq_get_param d (csi_collected [] t)).1 = d := by
  simp [escseq_get_param, csi_collected, strchr, strchr_from, List.replicate]

/-- The parameter read from the buffer `1` is 1, whatever the default. -/
theorem escseq_get_param_one (d : Int) (t : Terminal) :
    (escseq_get_param d (csi_collected [0x31] t)).1 = 1 := by
  simp [escseq_get_param, csi_collected, strchr, strchr_from, List.replicate, atoi,
    atoi_digits, isspace, uint8_t]

/-- The parameter read from the buffer `0` is 0, whatever the default. -/
theorem escseq_get_param_nought (d : Int) (t : Terminal) :
    (escseq_get_param d (csi_collected [0x30] t)).1 = 0 := by
  simp [escseq_get_param, csi_collected, strchr, strchr_from, List.replicate, atoi,
    atoi_digits, isspace, uint8_t]

/-- Two sequences with the same terminator, not `m`, that make the same video state
leave the same observable terminal. -/
theorem csi_same_of_video (ps qs : List Nat) (c : Nat) (t : Terminal)
    (hesc : t.process_escseqs ≠ 0) (hidle : t.in_esc = NOT_IN_ESC)
    (hps : ∀ d ∈ ps, is_param d) (hpfit : ps.length ≤ MAX_ESC_LEN)
    (hqs : ∀ d ∈ qs, is_param d) (hqfit : qs.length ≤ MAX_ESC_LEN)
    (hc : ¬ is_param c) (hc0 : c ≠ 0) (hcan : c ≠ 0x18 ∧ c ≠ 0x1A) (hm : c ≠ 0x6D)
    (hv : (csi_dispatch c (csi_collected ps t)).video =
      (csi_dispatch c (csi_collected qs t)).video) :
    SameScreen (feed (0x1B :: 0x5B :: (ps ++ [c])) t) (feed (0x1B :: 0x5B :: (qs ++ [c])) t) := by
  rw [feed_csi_sequence ps c t hesc hidle hps hpfit hc hc0 hcan,
    feed_csi_sequence qs c t hesc hidle hqs hqfit hc hc0 hcan]
  have f1 := csi_dispatch_frame c (csi_collected ps t)
  have f2 := csi_dispatch_frame c (csi_collected qs t)
  refine ⟨hv, rfl, ?_, ?_, ?_, ?_⟩
  · exact f1.2.2.2.1.trans f2.2.2.2.1.symm
  · exact (f1.2.2.2.2.2 hm).trans (f2.2.2.2.2.2 hm).symm
  · exact f1.2.2.2.2.1.trans f2.2.2.2.2.1.symm
  · exact f1.2.2.1.trans f2.2.2.1.symm

/-- For the cursor moves `A` to `G` an empty buffer and the buffer `1` select the same
video operation. -/
theorem csi_move_default_video (c : Nat) (t : Terminal) (h1 : 0x41 ≤ c) (h2 : c ≤ 0x47) :
    (csi_dispatch c (csi_collected [] t)).video =
      (csi_dispatch c (csi_collected [0x31] t)).video := by
  have e := escseq_get_param_empty 1 t
  have o := escseq_get_param_one 1 t
  have hcases : c = 0x41 ∨ c = 0x42 ∨ c = 0x43 ∨ c = 0x44 ∨ c = 0x45 ∨ c = 0x46 ∨ c = 0x47 := by
    omega
  rcases hcases with rfl | rfl | rfl | rfl | rfl | rfl | rfl
  · rw [csi_dispatch_A, csi_dispatch_A]
    simp only [escseq_get_param_video, e, o]
    rfl
  · rw [csi_dispatch_B, csi_dispatch_B]
    simp only [escseq_get_param_video, e, o]
    rfl
  · rw [csi_dispatch_C, csi_dispatch_C]
    simp only [escseq_get_param_video, e, o]
    rfl
  · rw [csi_dispatch_D, csi_dispatch_D]
    simp only [escseq_get_param_video, e, o]
    rfl
  · rw [csi_dispatch_E, csi_dispatch_E]
    simp only [escseq_get_param_video, e, o]
    rfl
  · rw [csi_dispatch_F, csi_dispatch_F]
    simp only [escseq_get_param_video, e, o]
    rfl
  · rw [csi_dispatch_G, csi_dispatch_G]
    simp only [escseq_get_param_video, e, o]
    rfl

/-- For the erase sequences `J` and `K` an empty buffer and the buffer `0` select the same
video operation. -/
theorem csi_erase_default_video (t : Terminal) :
    (csi_dispatch 0x4A (csi_collected [] t)).video =
      (csi_dispatch 0x4A (csi_collected [0x30] t)).video ∧
    (csi_dispatch 0x4B (csi_collected [] t)).video =
      (csi_dispatch 0x4B (csi_collected [0x30] t)).video := by
  have e := escseq_get_param_empty 0 t
  have o := escseq_get_param_nought 0 t
  constructor
  · rw [csi_dispatch_J, csi_dispatch_J]
    simp only [escseq_get_param_video, e, o]
    rfl
  · rw [csi_dispatch_K, csi_dispatch_K]
    simp only [escseq_get_param_video, e, o]
    rfl

/-- The margin sequence `r` with an empty buffer and with the buffer `1;24` makes the call
`video_set_margins(0, 23)`. -/
theorem csi_r_default_video (t : Terminal) :
    (csi_dispatch 0x72 (csi_collected [] t)).video = video_set_margins 0 23 t.video ∧
    (csi_dispatch 0x72 (csi_collected [0x31, 0x3B, 0x32, 0x34] t)).video =
      video_set_margins 0 23 t.video := by
  constructor
  · rw [csi_dispatch_r]
    simp [escseq_get_param, csi_collected, strchr, strchr_from, List.replicate, int8_t, uint8_t]
  · rw [csi_dispatch_r]
    simp [escseq_get_param, csi_collected, strchr, strchr_from, List.replicate, int8_t, uint8_t,
      atoi, atoi_digits, isspace]

/-- C16: from every idle state with escape processing enabled, for each terminator `c`
of `A` to `G` the sequence `ESC [ c` leaves the same observable terminal (`SameScreen`:
video state, parser mode, attribute flags, saved state) as `ESC [ 1 c`; `ESC [ J` and
`ESC [ K` leave the same as `ESC [ 0 J` and `ESC [ 0 K`; and `ESC [ r` leaves the same as
`ESC [ 1 ; 2 4 r`, both making the call `video_set_margins(0, 23)`. -/
theorem csi_parameter_defaults (t : Terminal) (hesc : t.process_escseqs ≠ 0)
    (hidle : t.in_esc = NOT_IN_ESC) :
    (∀ c : Nat, 0x41 ≤ c → c ≤ 0x47 →
      SameScreen (feed [0x1B, 0x5B, c] t) (feed [0x1B, 0x5B, 0x31, c] t)) ∧
    SameScreen (feed [0x1B, 0x5B, 0x4A] t) (feed [0x1B, 0x5B, 0x30, 0x4A] t) ∧
    SameScreen (feed [0x1B, 0x5B, 0x4B] t) (feed [0x1B, 0x5B, 0x30, 0x4B] t) ∧
    SameScreen (feed [0x1B, 0x5B, 0x72] t)
      (feed [0x1B, 0x5B, 0x31, 0x3B, 0x32, 0x34, 0x72] t) ∧
    (feed [0x1B, 0x5B, 0x72] t).video = video_set_margins 0 (TILES_HIGH - 1) t.video := by
  have hnil : ∀ d ∈ ([] : List Nat), is_param d := fun d hd => absurd hd (List.not_mem_nil d)
  have hone : ∀ d ∈ [0x31], is_param d := by decide
  have hnought : ∀ d ∈ [0x30], is_param d := by decide
  have hlong : ∀ d ∈ [0x31, 0x3B, 0x32, 0x34], is_param d := by decide
  refine ⟨?_, ?_, ?_, ?_, ?_⟩
  · intro c h1 h2
    have hc : ¬ is_param c := by
      unfold is_param
      omega
    exact csi_same_of_video [] [0x31] c t hesc hidle hnil (by decide) hone (by decide) hc
      (by omega) (by omega) (by omega) (csi_move_default_video c t h1 h2)
  · exact csi_same_of_video [] [0x30] 0x4A t hesc hidle hnil (by decide) hnought (by decide)
      (by decide) (by decide) (by decide) (by decide) (csi_erase_default_video t).1
  · exact csi_same_of_video [] [0x30] 0x4B t hesc hidle hnil (by decide) hnought (by decide)
      (by decide) (by decide) (by decide) (by decide) (csi_erase_default_video t).2
  · exact csi_same_of_video [] [0x31, 0x3B, 0x32, 0x34] 0x72 t hesc hidle hnil (by decide)
      hlong (by decide) (by decide) (by decide) (by decide) (by decide)
      ((csi_r_default_video t).1.trans (csi_r_default_video t).2.symm)
  · have h := feed_csi_sequence [] 0x72 t hesc hidle hnil (by decide) (by decide) (by decide)
      (by decide)
    have e : feed [0x1B, 0x5B, 0x72] t = feed (0x1B :: 0x5B :: ([] ++ [0x72])) t := rfl
    rw [e, h]
    exact (csi_r_default_video t).1

/-- C16 (witness): the sample terminal is idle with escape processing on; there
`ESC [ B` and `ESC [ 1 B` agree, moving the cursor from row 4 to row 5, and `ESC [ r`
agrees with `ESC [ 1 ; 2 4 r`. -/
theorem csi_parameter_defaults_witness :
    SameScreen (feed [0x1B, 0x5B, 0x42] demo_term) (feed [0x1B, 0x5B, 0x31, 0x42] demo_term) ∧
    SameScreen (feed [0x1B, 0x5B, 0x72] demo_term)
      (feed [0x1B, 0x5B, 0x31, 0x3B, 0x32, 0x34, 0x72] demo_term) ∧
    (feed [0x1B, 0x5B, 0x42] demo_term).video.cy = 5 :=
  have h := csi_parameter_defaults demo_term (by decide) (by decide)
  ⟨h.1 0x42 (by decide) (by decide), h.2.2.2.1, by decide⟩

/-! ### Erase display, then an absolute move (C19) -/

/-- With the cursor hidden an absolute move leaves the buffer and the flags alone. -/
theorem video_gotoxy_hidden (x y : Int) (v : Video) (hs : v.showcursor = 0) :
    (video_gotoxy x y v).TILEMAP = v.TILEMAP ∧ (video_gotoxy x y v).revvideo = v.revvideo ∧
    (video_gotoxy x y v).showcursor = 0 := by
  have hf := video_gotoxy_fields x y v
  refine ⟨?_, hf.2.2.2.2.2.2.1, hf.2.2.2.2.2.2.2.trans hs⟩
  simp only [video_gotoxy, CURSOR_INVERT_hidden v hs]
  have key : ∀ w : Video, w.showcursor = 0 → (CURSOR_INVERT w).TILEMAP = w.TILEMAP :=
    fun w h => congrArg Video.TILEMAP (CURSOR_INVERT_hidden w h)
  split_ifs <;> exact key _ hs

/-- The sequence `ESC [ 2 J` makes the call `video_erase(2)`. -/
theorem csi_J_two_video (t : Terminal) :
    (csi_dispatch 0x4A (csi_collected [0x32] t)).video = video_erase 2 t.video := by
  rw [csi_dispatch_J]
  simp [escseq_get_param, csi_collected, strchr, strchr_from, List.replicate, atoi,
    atoi_digits, isspace, uint8_t]

/-- After `ESC [ 2 J` received in an idle state with the cursor hidden, every visible
cell holds the screen reverse-video byte; the parser is idle again and the flags are as
they were. -/
theorem feed_erase_display (t : Terminal) (hesc : t.process_escseqs ≠ 0)
    (hidle : t.in_esc = NOT_IN_ESC) (hs : t.video.showcursor = 0) :
    (∀ i : Int, 0 ≤ i → i < TILES_HIGH * TILES_WIDE →
      (feed [0x1B, 0x5B, 0x32, 0x4A] t).video.TILEMAP i = t.video.revvideo) ∧
    (feed [0x1B, 0x5B, 0x32, 0x4A] t).video.revvideo = t.video.revvideo ∧
    (feed [0x1B, 0x5B, 0x32, 0x4A] t).video.showcursor = 0 ∧
    (feed [0x1B, 0x5B, 0x32, 0x4A] t).in_esc = NOT_IN_ESC ∧
    (feed [0x1B, 0x5B, 0x32, 0x4A] t).process_escseqs = t.process_escseqs ∧
    (feed [0x1B, 0x5B, 0x32, 0x4A] t).revvideo = t.revvideo := by
  have e : feed [0x1B, 0x5B, 0x32, 0x4A] t = feed (0x1B :: 0x5B :: ([0x32] ++ [0x4A])) t := rfl
  have h := feed_csi_sequence [0x32] 0x4A t hesc hidle (by decide) (by decide) (by decide)
    (by decide) (by decide)
  have f := csi_dispatch_frame 0x4A (csi_collected [0x32] t)
  have hv : (feed [0x1B, 0x5B, 0x32, 0x4A] t).video = video_erase 2 t.video := by
    rw [e, h]
    exact csi_J_two_video t
  have he := video_erase_hidden 2 t.video hs
  rw [if_neg (by decide), if_neg (by decide), if_pos rfl] at he
  rw [hv, he, e, h]
  refine ⟨?_, rfl, hs, rfl, f.2.2.1, f.2.2.2.2.2 (by decide)⟩
  intro i h0 h1
  simp only [memset, size_t, TILES_WIDE, TILES_HIGH] at h1 ⊢
  rw [if_pos (by omega)]

/-- The video state after any `H` sequence is an absolute move of the state before. -/
theorem csi_H_video (t : Terminal) :
    ∃ x y : Int, (csi_dispatch 0x48 t).video = video_gotoxy x y t.video := by
  refine ⟨int8_t ((escseq_get_param 1 (escseq_get_param 1 t).2).1 - 1),
    int8_t ((escseq_get_param 1 t).1 - 1), ?_⟩
  rw [csi_dispatch_H 0x48 (Or.inl rfl)]
  simp only [escseq_get_param_video]

/-- C19 (counterexample): after start-up, `ESC [ 7 m` turns the SGR reverse-video
attribute on; `ESC [ 2 J` followed by `ESC [ 1 ; 1 H` then leaves 0 in cell (0,0), while
the ambient attribute fill value is 0x80 and a printable `A` written next is stored with
the reverse-video bit, as 0xC1. -/
theorem erase_ignores_sgr_attribute :
    (feed ([0x1B, 0x5B, 0x37, 0x6D] ++ erase_then_goto [0x31] [0x31]) boot).video.TILEMAP
      (tile 0 0) = 0 ∧
    ambient_fill (feed ([0x1B, 0x5B, 0x37, 0x6D] ++ erase_then_goto [0x31] [0x31]) boot)
      = 0x80 ∧
    (feed ([0x1B, 0x5B, 0x37, 0x6D] ++ erase_then_goto [0x31] [0x31] ++ [0x41])
      boot).video.TILEMAP (tile 0 0) = 0xC1 ∧
    (feed ([0x1B, 0x5B, 0x37, 0x6D] ++ erase_then_goto [0x31] [0x31]) boot).video.TILEMAP
      (tile 0 0) ≠
      ambient_fill (feed ([0x1B, 0x5B, 0x37, 0x6D] ++ erase_then_goto [0x31] [0x31]) boot) := by
  decide

/-- C19 (amended): from every idle terminal state with escape processing enabled and the
cursor hidden, after `ESC [ 2 J` followed by `ESC [ rs ; cs H`, for any row and column
digits that fit the parameter buffer, every cell of the visible buffer holds the screen
reverse-video byte of `video.c` (0, or 0x80 when the screen is in reverse video),
whatever the SGR reverse-video attribute, which is unchanged; when that attribute is off
this byte is the ambient attribute fill value. -/
theorem erase_display_then_goto (rs cs : List Nat) (t : Terminal)
    (hesc : t.process_escseqs ≠ 0) (hidle : t.in_esc = NOT_IN_ESC)
    (hs : t.video.showcursor = 0) (hrs : ∀ d ∈ rs, is_digit d) (hcs : ∀ d ∈ cs, is_digit d)
    (hfit : rs.length + 1 + cs.length ≤ MAX_ESC_LEN) :
    (∀ i : Int, 0 ≤ i → i < TILES_HIGH * TILES_WIDE →
      (feed (erase_then_goto rs cs) t).video.TILEMAP i = t.video.revvideo) ∧
    (feed (erase_then_goto rs cs) t).video.revvideo = t.video.revvideo ∧
    (feed (erase_then_goto rs cs) t).revvideo = t.revvideo ∧
    (t.revvideo = 0 → ∀ i : Int, 0 ≤ i → i < TILES_HIGH * TILES_WIDE →
      (feed (erase_then_goto rs cs) t).video.TILEMAP i =
        ambient_fill (feed (erase_then_goto rs cs) t)) := by
  obtain ⟨e1, e2, e3, e4, e5, e6⟩ := feed_erase_display t hesc hidle hs
  have hps : ∀ d ∈ rs ++ 0x3B :: cs, is_param d := by
    intro d hd
    rcases List.mem_append.1 hd with h | h
    · exact is_param_of_digit d (hrs d h)
    · rcases List.mem_cons.1 h with rfl | h
      · exact Or.inr (Or.inl rfl)
      · exact is_param_of_digit d (hcs d h)
  have hlen : (rs ++ 0x3B :: cs).length ≤ MAX_ESC_LEN := by
    simp only [List.length_append, List.length_cons]
    omega
  have hfeed : feed (erase_then_goto rs cs) t =
      { csi_dispatch 0x48 (csi_collected (rs ++ 0x3B :: cs) (feed [0x1B, 0x5B, 0x32, 0x4A] t))
        with in_esc := NOT_IN_ESC } := by
    unfold erase_then_goto
    rw [feed_append]
    exact feed_csi_sequence (rs ++ 0x3B :: cs) 0x48 (feed [0x1B, 0x5B, 0x32, 0x4A] t)
      (by rw [e5]; exact hesc) e4 hps hlen (by decide) (by decide) (by decide)
  obtain ⟨x, y, hxy⟩ :=
    csi_H_video (csi_collected (rs ++ 0x3B :: cs) (feed [0x1B, 0x5B, 0x32, 0x4A] t))
  have hg := video_gotoxy_hidden x y (feed [0x1B, 0x5B, 0x32, 0x4A] t).video e3
  have f := csi_dispatch_frame 0x48
    (csi_collected (rs ++ 0x3B :: cs) (feed [0x1B, 0x5B, 0x32, 0x4A] t))
  have hv : (feed (erase_then_goto rs cs) t).video =
      video_gotoxy x y (feed [0x1B, 0x5B, 0x32, 0x4A] t).video := by
    rw [hfeed]
    exact hxy
  have hr : (feed (erase_then_goto rs cs) t).revvideo = t.revvideo := by
    rw [hfeed]
    exact (f.2.2.2.2.2 (by decide)).trans e6
  have hcell : ∀ i : Int, 0 ≤ i → i < TILES_HIGH * TILES_WIDE →
      (feed (erase_then_goto rs cs) t).video.TILEMAP i = t.video.revvideo := by
    intro i h0 h1
    rw [hv, hg.1]
    exact e1 i h0 h1
  have hrev : (feed (erase_then_goto rs cs) t).video.revvideo = t.video.revvideo := by
    rw [hv, hg.2.1]
    exact e2
  refine ⟨hcell, hrev, hr, ?_⟩
  intro h0 i hi0 hi1
  rw [hcell i hi0 hi1]
  unfold ambient_fill
  rw [hr, hrev, h0]
  simp

/-- C19 (witness): on the sample terminal (screen in reverse video, cursor hidden)
`ESC [ 2 J` then `ESC [ 2 ; 3 H` leaves 0x80 in every visible cell and the cursor on
row 1. -/
theorem erase_display_then_goto_witness :
    (∀ i : Int, 0 ≤ i → i < TILES_HIGH * TILES_WIDE →
      (feed (erase_then_goto [0x32] [0x33]) demo_term).video.TILEMAP i = 0x80) ∧
    (feed (erase_then_goto [0x32] [0x33]) demo_term).video.cy = 1 :=
  ⟨(erase_display_then_goto [0x32] [0x33] demo_term (by decide) (by decide) (by decide)
      (by decide) (by decide) (by decide)).1, by decide⟩

/-! ### Graphic rendition with several parameters (C20) -/

/-- The search for `;` from the start of a field of digits stops at the separator. -/
theorem strchr_from_field (f rest : List Nat) (p : Nat) (hf : ∀ d ∈ f, is_digit d) :
    strchr_from (f ++ 0x3B :: rest) 0x3B p = some (p + f.length) := by
  induction f generalizing p with
  | nil => simp [strchr_from]
  | cons d ds ih =>
    have hd : is_digit d := hf d (List.mem_cons_self _ _)
    unfold is_digit at hd
    simp only [List.cons_append, strchr_from, List.length_cons]
    rw [if_neg (by omega), if_neg (by omega),
      show p + (ds.length + 1) = p + 1 + ds.length by omega]
    exact ih (p + 1) (fun e he => hf e (List.mem_cons_of_mem _ he))

/-- The search for `;` from the start of the last field runs into the NUL after it. -/
theorem strchr_from_last (f rest : List Nat) (p : Nat) (hf : ∀ d ∈ f, is_digit d) :
    strchr_from (f ++ 0 :: rest) 0x3B p = none := by
  induction f generalizing p with
  | nil => simp [strchr_from]
  | cons d ds ih =>
    have hd : is_digit d := hf d (List.mem_cons_self _ _)
    unfold is_digit at hd
    simp only [List.cons_append, strchr_from]
    rw [if_neg (by omega), if_neg (by omega)]
    exact ih (p + 1) (fun e he => hf e (List.mem_cons_of_mem _ he))

/-- Digit accumulation stops at the NUL that closes a field. -/
theorem atoi_digits_field (f rest : List Nat) (acc : Int) (hf : ∀ d ∈ f, is_digit d) :
    atoi_digits (f ++ 0 :: rest) acc = atoi_digits f acc := by
  induction f generalizing acc with
  | nil => simp [atoi_digits]
  | cons d ds ih =>
    have hd : is_digit d := hf d (List.mem_cons_self _ _)
    unfold is_digit at hd
    simp only [List.cons_append, atoi_digits]
    rw [if_pos hd, if_pos hd]
    exact ih _ (fun e he => hf e (List.mem_cons_of_mem _ he))

/-- On a field of digits closed by a NUL, `atoi` returns the decimal value of the field. -/
theorem atoi_field (f rest : List Nat) (hf : ∀ d ∈ f, is_digit d) :
    atoi (f ++ 0 :: rest) = atoi_digits f 0 := by
  cases f with
  | nil => simp [atoi, atoi_digits, isspace]
  | cons d ds =>
    have hd : is_digit d := hf d (List.mem_cons_self _ _)
    unfold is_digit at hd
    have hsp : isspace d = false := by
      unfold isspace
      simp
      omega
    have h45 : d ≠ 45 := by omega
    have h43 : d ≠ 43 := by omega
    have e := atoi_digits_field (d :: ds) rest 0 hf
    unfold atoi
    simp only [List.cons_append, List.dropWhile_cons, hsp] at e ⊢
    split
    · next r heq => exact absurd (List.cons.inj heq).1 h45
    · next r heq => exact absurd (List.cons.inj heq).1 h43
    · exact e

/-- Overwriting the element that follows a prefix. -/
theorem set_length_append (l r : List Nat) (a b : Nat) :
    (l ++ a :: r).set l.length b = l ++ b :: r := by
  induction l with
  | nil => rfl
  | cons x xs ih => simp only [List.cons_append, List.length_cons, List.set_cons_succ, ih]

/-- Reading the element that follows a prefix. -/
theorem getD_length_append (l r : List Nat) (x : Nat) :
    (l ++ r).getD l.length x = r.getD 0 x := by
  induction l with
  | nil => rfl
  | cons y ys ih => simpa using ih

/-- Dropping a prefix. -/
theorem drop_length_append (l r : List Nat) : (l ++ r).drop l.length = r := by
  induction l with
  | nil => rfl
  | cons y ys ih => simp

/-- The value read at the start of a field of digits closed by a NUL, with default 0. -/
theorem field_value_read (f rest : List Nat) (hf : ∀ d ∈ f, is_digit d) :
    (if (f ++ 0 :: rest).getD 0 0 ≠ 0 then uint8_t (atoi (f ++ 0 :: rest)) else 0) =
      field_value f := by
  unfold field_value
  cases f with
  | nil => simp [atoi_digits, uint8_t]
  | cons d ds =>
    have hd : is_digit d := hf d (List.mem_cons_self _ _)
    unfold is_digit at hd
    rw [atoi_field (d :: ds) rest hf]
    have h0 : ((d :: ds) ++ 0 :: rest).getD 0 0 ≠ 0 := by
      simp only [List.cons_append, List.getD_cons_zero]
      omega
    rw [if_pos h0]

/-- Reading a field that is followed by `;`: the separator is overwritten with a NUL and
the read pointer moves past it. -/
theorem escseq_get_param_field (pre f rest : List Nat) (t : Terminal)
    (hf : ∀ d ∈ f, is_digit d) (hstr : t.paramstr = pre ++ f ++ 0x3B :: rest)
    (hptr : t.paramptr = some pre.length) :
    escseq_get_param 0 t =
      (field_value f, { t with paramstr := pre ++ f ++ 0 :: rest,
                               paramptr := some (pre.length + f.length + 1) }) := by
  have h1 : strchr (pre ++ f ++ 0x3B :: rest) pre.length 0x3B =
      some (pre.length + f.length) := by
    unfold strchr
    rw [List.append_assoc, drop_length_append]
    exact strchr_from_field f rest pre.length hf
  have h2 : (pre ++ f ++ 0x3B :: rest).set (pre.length + f.length) 0 = pre ++ f ++ 0 :: rest := by
    have := set_length_append (pre ++ f) rest 0x3B 0
    rwa [List.length_append] at this
  have h3 : (pre ++ f ++ 0 :: rest).getD pre.length 0 = (f ++ 0 :: rest).getD 0 0 := by
    rw [List.append_assoc, getD_length_append]
  have h4 : (pre ++ f ++ 0 :: rest).drop pre.length = f ++ 0 :: rest := by
    rw [List.append_assoc, drop_length_append]
  unfold escseq_get_param
  simp only [hptr, h1, hstr, h2, h3, h4, field_value_read f rest hf]

/-- Reading the last field: the search for `;` fails and the read pointer becomes NULL. -/
theorem escseq_get_param_last (pre f rest : List Nat) (t : Terminal)
    (hf : ∀ d ∈ f, is_digit d) (hstr : t.paramstr = pre ++ f ++ 0 :: rest)
    (hptr : t.paramptr = some pre.length) :
    escseq_get_param 0 t = (field_value f, { t with paramptr := none }) := by
  have h1 : strchr t.paramstr pre.length 0x3B = none := by
    unfold strchr
    rw [hstr, List.append_assoc, drop_length_append]
    exact strchr_from_last f rest pre.length hf
  have h3 : t.paramstr.getD pre.length 0 = (f ++ 0 :: rest).getD 0 0 := by
    rw [hstr, List.append_assoc, getD_length_append]
  have h4 : t.paramstr.drop pre.length = f ++ 0 :: rest := by
    rw [hstr, List.append_assoc, drop_length_append]
  unfold escseq_get_param
  simp only [hptr, h1, h3, h4, field_value_read f rest hf]

/-- One iteration of the rendition loop applies the specification step to the value read. -/
theorem sgr_step_eq (t t1 : Terminal) (val : Int) (h : escseq_get_param 0 t = (val, t1)) :
    sgr_step t = { t1 with revvideo := sgr_spec_step t1.revvideo val } := by
  unfold sgr_step sgr_spec_step
  rw [h]
  simp only
  split_ifs <;> rfl

/-- The loop stops at once when the read pointer is NULL. -/
theorem sgr_loop_done (fuel : Nat) (t : Terminal) (h : t.paramptr = none) :
    sgr_loop fuel t = t := by
  cases fuel with
  | zero => rfl
  | succ n => simp only [sgr_loop, h]

/-- The rendition loop on a buffer that holds the fields `fields` from the read pointer
on: the attribute is the fold of the specification step over the field values. -/
theorem sgr_loop_fields (fields : List (List Nat)) (hne : fields ≠ [])
    (hdig : ∀ f ∈ fields, ∀ d ∈ f, is_digit d) (pre rest : List Nat) (t : Terminal)
    (fuel : Nat) (hstr : t.paramstr = pre ++ join_fields fields ++ 0 :: rest)
    (hptr : t.paramptr = some pre.length) (hfuel : fields.length ≤ fuel) :
    (sgr_loop fuel t).revvideo =
      fields.foldl (fun rv f => sgr_spec_step rv (field_value f)) t.revvideo := by
  induction fields generalizing pre t fuel with
  | nil => exact absurd rfl hne
  | cons f fs ih =>
    have hf : ∀ d ∈ f, is_digit d := hdig f (List.mem_cons_self _ _)
    cases fuel with
    | zero => simp at hfuel
    | succ n =>
      cases fs with
      | nil =>
        have hg := escseq_get_param_last pre f rest t hf hstr hptr
        simp only [sgr_loop, hptr, sgr_step_eq t _ _ hg, List.foldl_cons, List.foldl_nil]
        rw [sgr_loop_done n _ rfl]
      | cons g gs =>
        have hstr2 : t.paramstr = pre ++ f ++ 0x3B :: (join_fields (g :: gs) ++ 0 :: rest) := by
          rw [hstr]
          simp only [join_fields, List.append_assoc, List.cons_append]
        have hg := escseq_get_param_field pre f (join_fields (g :: gs) ++ 0 :: rest) t hf
          hstr2 hptr
        simp only [sgr_loop, hptr, sgr_step_eq t _ _ hg, List.foldl_cons]
        rw [ih (by simp) (fun f1 h1 => hdig f1 (List.mem_cons_of_mem _ h1))
          (pre ++ f ++ [0]) _ n (by simp only [List.append_assoc, List.cons_append,
            List.nil_append]) (by simp only [List.length_append, List.length_cons,
            List.length_nil]) (by simp only [List.length_cons] at hfuel ⊢; omega)]
        rfl

/-- The decimal numeral of a parameter of 0 to 255 consists of digits and is read back as
that parameter. -/
theorem field_value_decimal : ∀ p : Nat, p < 256 →
    (field_value (decimal p) = p ∧ ∀ d ∈ decimal p, is_digit d) := by
  decide

/-- The bytes of joined digit fields are parameter bytes. -/
theorem join_fields_params (fields : List (List Nat))
    (hdig : ∀ f ∈ fields, ∀ d ∈ f, is_digit d) : ∀ d ∈ join_fields fields, is_param d := by
  induction fields with
  | nil => intro d hd; exact absurd hd (List.not_mem_nil d)
  | cons f fs ih =>
    have hf : ∀ d ∈ f, is_digit d := hdig f (List.mem_cons_self _ _)
    cases fs with
    | nil => intro d hd; exact is_param_of_digit d (hf d hd)
    | cons g gs =>
      intro d hd
      simp only [join_fields] at hd
      rcases List.mem_append.1 hd with h | h
      · exact is_param_of_digit d (hf d h)
      · rcases List.mem_cons.1 h with rfl | h
        · exact Or.inr (Or.inl rfl)
        · exact ih (fun f1 h1 => hdig f1 (List.mem_cons_of_mem _ h1)) d h

/-- There are at most as many fields as joined bytes, plus one. -/
theorem join_fields_length (fields : List (List Nat)) :
    fields.length ≤ (join_fields fields).length + 1 := by
  induction fields with
  | nil => simp
  | cons f fs ih =>
    cases fs with
    | nil => simp
    | cons g gs =>
      simp only [join_fields, List.length_cons, List.length_append] at ih ⊢
      omega

/-- The sequence `ESC [ fields m`, for fields of digits (possibly empty) that fit the
parameter buffer: the SGR attribute is the fold of the specification step over the field
values, in order, and nothing else that can be observed changes. -/
theorem sgr_fields_in_order (fields : List (List Nat)) (t : Terminal)
    (hesc : t.process_escseqs ≠ 0) (hidle : t.in_esc = NOT_IN_ESC) (hne : fields ≠ [])
    (hdig : ∀ f ∈ fields, ∀ d ∈ f, is_digit d)
    (hfit : (join_fields fields).length ≤ MAX_ESC_LEN) :
    (feed (0x1B :: 0x5B :: (join_fields fields ++ [0x6D])) t).revvideo =
      fields.foldl (fun rv f => sgr_spec_step rv (field_value f)) t.revvideo ∧
    (feed (0x1B :: 0x5B :: (join_fields fields ++ [0x6D])) t).video = t.video ∧
    (feed (0x1B :: 0x5B :: (join_fields fields ++ [0x6D])) t).in_esc = NOT_IN_ESC ∧
    (feed (0x1B :: 0x5B :: (join_fields fields ++ [0x6D])) t).graphicchars = t.graphicchars ∧
    (feed (0x1B :: 0x5B :: (join_fields fields ++ [0x6D])) t).savedstate = t.savedstate := by
  rw [feed_csi_sequence (join_fields fields) 0x6D t hesc hidle (join_fields_params fields hdig)
    hfit (by decide) (by decide) (by decide), csi_dispatch_m]
  have fr := sgr_loop_frame ((csi_collected (join_fields fields) t).paramstr.length + 1)
    (csi_collected (join_fields fields) t)
  have hlen : (csi_collected (join_fields fields) t).paramstr.length = MAX_ESC_LEN + 1 := by
    simp only [csi_collected, List.length_append, List.length_replicate, MAX_ESC_LEN] at hfit ⊢
    omega
  have hk : MAX_ESC_LEN + 1 - (join_fields fields).length =
      (MAX_ESC_LEN - (join_fields fields).length) + 1 := by
    simp only [MAX_ESC_LEN] at hfit ⊢
    omega
  have hstr : (csi_collected (join_fields fields) t).paramstr =
      [] ++ join_fields fields ++
        0 :: List.replicate (MAX_ESC_LEN - (join_fields fields).length) 0 := by
    simp only [csi_collected, hk, List.replicate_succ, List.nil_append]
  have hl := join_fields_length fields
  have h := sgr_loop_fields fields hne hdig [] _ (csi_collected (join_fields fields) t)
    ((csi_collected (join_fields fields) t).paramstr.length + 1) hstr rfl
    (by rw [hlen]; simp only [MAX_ESC_LEN] at hfit ⊢; omega)
  exact ⟨h, fr.1, rfl, fr.2.2.2.2.1, fr.2.2.2.2.2⟩

/-- The bytes of a parameter of at most 255 are digits, and the reader gives them the
value of the parameter. -/
theorem param_bytes_digits (q : Option Nat) (hq : param_value q ≤ 255) :
    (∀ d ∈ param_bytes q, is_digit d) ∧ field_value (param_bytes q) = param_value q := by
  cases q with
  | none => exact ⟨fun d hd => absurd hd (List.not_mem_nil d), by decide⟩
  | some p =>
    have h := field_value_decimal p (by simp only [param_value] at hq; omega)
    exact ⟨h.2, h.1⟩

/-- Folding over the fields of a list of parameters is folding over the parameters. -/
theorem foldl_param_values (ps : List (Option Nat)) (hp : ∀ q ∈ ps, param_value q ≤ 255)
    (rv : Nat) :
    (ps.map param_bytes).foldl (fun rv f => sgr_spec_step rv (field_value f)) rv =
      ps.foldl (fun rv q => sgr_spec_step rv (param_value q)) rv := by
  induction ps generalizing rv with
  | nil => rfl
  | cons q qs ih =>
    have hq := param_bytes_digits q (hp q (List.mem_cons_self _ _))
    simp only [List.map_cons, List.foldl_cons, hq.2]
    exact ih (fun q1 h => hp q1 (List.mem_cons_of_mem _ h)) _

/-- C20: for every non-empty list of parameters, each a number of 0 to 255 or omitted,
whose bytes fit the parameter buffer, the sequence `ESC [ p1 ; ... ; pn m` received in an
idle state with escape processing enabled leaves the SGR reverse-video attribute equal to
the left-to-right fold of the specification step over the parameters, from its prior
value: 0 and 27 set it off, 7 sets it on (0x80), any other value keeps it, and an omitted
parameter counts as 0.  The video state (cursor, buffer, margins) is unchanged, and the
parser is idle afterwards. -/
theorem sgr_applied_in_order (ps : List (Option Nat)) (t : Terminal)
    (hesc : t.process_escseqs ≠ 0) (hidle : t.in_esc = NOT_IN_ESC) (hne : ps ≠ [])
    (hp : ∀ q ∈ ps, param_value q ≤ 255)
    (hfit : (join_fields (ps.map param_bytes)).length ≤ MAX_ESC_LEN) :
    (feed (0x1B :: 0x5B :: (join_fields (ps.map param_bytes) ++ [0x6D])) t).revvideo =
      ps.foldl (fun rv q => sgr_spec_step rv (param_value q)) t.revvideo ∧
    (feed (0x1B :: 0x5B :: (join_fields (ps.map param_bytes) ++ [0x6D])) t).video = t.video ∧
    (feed (0x1B :: 0x5B :: (join_fields (ps.map param_bytes) ++ [0x6D])) t).in_esc =
      NOT_IN_ESC ∧
    (feed (0x1B :: 0x5B :: (join_fields (ps.map param_bytes) ++ [0x6D])) t).graphicchars =
      t.graphicchars ∧
    (feed (0x1B :: 0x5B :: (join_fields (ps.map param_bytes) ++ [0x6D])) t).savedstate =
      t.savedstate := by
  have hdig : ∀ f ∈ ps.map param_bytes, ∀ d ∈ f, is_digit d := by
    intro f hf
    obtain ⟨q, hq, rfl⟩ := List.mem_map.1 hf
    exact (param_bytes_digits q (hp q hq)).1
  have hne2 : ps.map param_bytes ≠ [] := by
    intro h
    exact hne (List.map_eq_nil_iff.1 h)
  have h := sgr_fields_in_order (ps.map param_bytes) t hesc hidle hne2 hdig hfit
  rw [foldl_param_values ps hp] at h
  exact h

/-- C20 (witness): on the sample terminal the parameters 7, omitted, 27, 7, sent as
`ESC [ 7 ; ; 2 7 ; 7 m`, leave the attribute on (0x80) and the video state unchanged. -/
theorem sgr_applied_in_order_witness :
    (feed (0x1B :: 0x5B :: (join_fields ([some 7, none, some 27, some 7].map param_bytes) ++
      [0x6D])) demo_term).revvideo = 0x80 ∧
    join_fields ([some 7, none, some 27, some 7].map param_bytes) =
      [0x37, 0x3B, 0x3B, 0x32, 0x37, 0x3B, 0x37] ∧
    (feed (0x1B :: 0x5B :: (join_fields ([some 7, none, some 27, some 7].map param_bytes) ++
      [0x6D])) demo_term).video = demo_term.video :=
  have h := sgr_applied_in_order [some 7, none, some 27, some 7] demo_term (by decide)
    (by decide) (by decide) (by decide) (by decide)
  ⟨h.1.trans (by decide), by decide, h.2.1⟩

/-! ### Reading a cell (C28) -/

/-- C28 (evaluation at the failing input): after start-up and the byte `A`, cell (0,0)
holds `A` and the cursor is at column 1 of row 0; `video_charat(0, 0)` returns 0, the
byte of the cursor cell (0,1), not the byte of cell (0,0).  In general `video_charat`
returns the byte of the cursor cell whatever its arguments. -/
theorem charat_reads_cursor_cell :
    (feed [0x41] boot).video.TILEMAP (tile 0 0) = 0x41 ∧
    (feed [0x41] boot).video.cx = 1 ∧ (feed [0x41] boot).video.cy = 0 ∧
    video_charat 0 0 (feed [0x41] boot).video = 0 ∧
    video_charat 0 0 (feed [0x41] boot).video ≠ (feed [0x41] boot).video.TILEMAP (tile 0 0) ∧
    (∀ (x y : Int) (v : Video), video_charat x y v = v.TILEMAP (tile v.cy v.cx)) := by
  refine ⟨by decide, by decide, by decide, by decide, by decide, ?_⟩
  intro x y v
  rfl

/-! ### Backspace (C24) -/

/-- Backspace with the cursor hidden: the column decreases when it is positive; from
column 0 the cursor goes to the last column of the row above when the row is positive,
and to column 0 of the top-margin row when the row is 0.  The test is on row 0, not on
the top margin. -/
theorem video_cback_hidden (v : Video) (hs : v.showcursor = 0)
    (hx : 0 ≤ v.cx ∧ v.cx ≤ TILES_WIDE) (hy : 0 ≤ v.cy ∧ v.cy ≤ TILES_HIGH - 1) :
    (0 < v.cx → video_cback v = { v with cx := v.cx - 1 }) ∧
    (v.cx = 0 → 0 < v.cy → video_cback v = { v with cx := TILES_WIDE - 1, cy := v.cy - 1 }) ∧
    (v.cx = 0 → v.cy = 0 → video_cback v = { v with cx := 0, cy := v.mtop }) := by
  have key : ∀ w : Video, w.showcursor = 0 → CURSOR_INVERT w = w := CURSOR_INVERT_hidden
  simp only [TILES_WIDE, TILES_HIGH] at hx hy
  refine ⟨?_, ?_, ?_⟩
  · intro h
    have e : int8_t (v.cx - 1) = v.cx - 1 := by unfold int8_t; omega
    simp only [video_cback, key v hs, e]
    rw [if_neg (by omega)]
    exact key _ hs
  · intro h0 h1
    have e : int8_t (v.cx - 1) = -1 := by rw [h0]; decide
    have e2 : int8_t (v.cy - 1) = v.cy - 1 := by unfold int8_t; omega
    simp only [video_cback, key v hs, e, _video_lback, e2]
    rw [if_pos (by decide), if_neg (by omega)]
    exact key _ hs
  · intro h0 h1
    have e : int8_t (v.cx - 1) = -1 := by rw [h0]; decide
    have e2 : int8_t (v.cy - 1) = -1 := by rw [h1]; decide
    simp only [video_cback, key v hs, e, _video_lback, e2]
    rw [if_pos (by decide), if_pos (by decide)]
    exact key _ hs

/-- C24 (evaluation at the failing input): after start-up, `ESC [ 6 ; 1 1 r` sets the
margins 5 and 10 and `ESC [ 6 ; 1 H` puts the cursor at column 0 of row 5, the top-margin
row.  The byte 0x08 then moves the cursor to column 53 of row 4, above the top margin,
instead of keeping it at column 0 of row 5.  With the cursor hidden the buffer is never
changed; the column decreases when positive, and from column 0 of a row other than 0
the cursor goes to the last column of the row above. -/
theorem backspace_leaves_scroll_region :
    video_top_margin
      (feed [0x1B, 0x5B, 0x36, 0x3B, 0x31, 0x31, 0x72, 0x1B, 0x5B, 0x36, 0x3B, 0x31, 0x48]
        boot).video = 5 ∧
    (feed [0x1B, 0x5B, 0x36, 0x3B, 0x31, 0x31, 0x72, 0x1B, 0x5B, 0x36, 0x3B, 0x31, 0x48]
      boot).video.cx = 0 ∧
    (feed [0x1B, 0x5B, 0x36, 0x3B, 0x31, 0x31, 0x72, 0x1B, 0x5B, 0x36, 0x3B, 0x31, 0x48]
      boot).video.cy = 5 ∧
    (feed [0x1B, 0x5B, 0x36, 0x3B, 0x31, 0x31, 0x72, 0x1B, 0x5B, 0x36, 0x3B, 0x31, 0x48, 0x08]
      boot).video.cx = 53 ∧
    (feed [0x1B, 0x5B, 0x36, 0x3B, 0x31, 0x31, 0x72, 0x1B, 0x5B, 0x36, 0x3B, 0x31, 0x48, 0x08]
      boot).video.cy = 4 ∧
    (video_cback
      (feed [0x1B, 0x5B, 0x36, 0x3B, 0x31, 0x31, 0x72, 0x1B, 0x5B, 0x36, 0x3B, 0x31, 0x48]
        boot).video).cy = 4 ∧
    (∀ v : Video, v.showcursor = 0 → 0 ≤ v.cx ∧ v.cx ≤ TILES_WIDE →
      0 ≤ v.cy ∧ v.cy ≤ TILES_HIGH - 1 →
      (video_cback v).TILEMAP = v.TILEMAP ∧
      (0 < v.cx → (video_cback v).cx = v.cx - 1 ∧ (video_cback v).cy = v.cy) ∧
      (v.cx = 0 → 0 < v.cy →
        (video_cback v).cx = TILES_WIDE - 1 ∧ (video_cback v).cy = v.cy - 1)) := by
  refine ⟨by decide, by decide, by decide, by decide, by decide, by decide, ?_⟩
  intro v hs hx hy
  obtain ⟨h1, h2, h3⟩ := video_cback_hidden v hs hx hy
  refine ⟨?_, ?_, ?_⟩
  · rcases lt_or_eq_of_le hx.1 with hpos | hz
    · rw [h1 hpos]
    · rcases lt_or_eq_of_le hy.1 with hyp | hyz
      · rw [h2 hz.symm hyp]
      · rw [h3 hz.symm hyz.symm]
  · intro hpos
    rw [h1 hpos]
    exact ⟨rfl, rfl⟩
  · intro hz hyp
    rw [h2 hz hyp]
    exact ⟨rfl, rfl⟩

/-! ### Sequences of two bytes, `ESC` and a final byte -/

/-- The bytes `ESC c` received in an idle state reach the non-CSI switch with `c`. -/
theorem feed_esc (c : Nat) (t : Terminal) (hesc : t.process_escseqs ≠ 0)
    (hidle : t.in_esc = NOT_IN_ESC) (hc0 : c ≠ 0) (hcan : c ≠ 0x18 ∧ c ≠ 0x1A) :
    feed [0x1B, c] t = escseq_process_noncsi c { t with in_esc := ESC_NONCSI } := by
  have h1 : feed [0x1B, c] t = receive_char c (receive_char 0x1B t) := rfl
  have hcan2 : ¬ (c = 0x18 ∨ c = 0x1A) := by omega
  rw [h1, receive_char_idle 0x1B t hesc hidle (by decide), receive_idle_esc,
    receive_char_in_esc c { t with in_esc := ESC_GOT_1B } hesc (by simp) hc0]
  unfold escseq_process
  simp [hcan2]

theorem escseq_process_noncsi_save (t : Terminal) :
    escseq_process_noncsi 0x37 t = { save_term_state t with in_esc := NOT_IN_ESC } := rfl

theorem escseq_process_noncsi_restore (t : Terminal) :
    escseq_process_noncsi 0x38 t = { restore_term_state t with in_esc := NOT_IN_ESC } := rfl

theorem escseq_process_noncsi_reset (t : Terminal) :
    escseq_process_noncsi 0x63 t =
      { reset_term { t with video := video_clrscr t.video } with in_esc := NOT_IN_ESC } := rfl

/-- With the cursor hidden an absolute move to a cell of the screen only sets the cursor. -/
theorem video_gotoxy_hidden_eq (x y : Int) (v : Video) (hs : v.showcursor = 0)
    (hx : 0 ≤ x ∧ x < TILES_WIDE) (hy : 0 ≤ y ∧ y < TILES_HIGH) :
    video_gotoxy x y v = { v with cx := x, cy := y } := by
  have a := video_gotoxy_cursor x y v hx hy
  have b := video_gotoxy_fields x y v
  have c := video_gotoxy_hidden x y v hs
  generalize video_gotoxy x y v = w at a b c
  cases w
  cases v
  simp only at a b c hs
  simp only [Video.mk.injEq]
  exact ⟨c.1, a.1, a.2, c.2.2.trans hs.symm, b.2.2.2.2.1, b.2.2.2.2.2.1, c.2.1⟩

/-- With the cursor hidden `video_clrscr` fills the visible cells, homes the cursor and
sets the full-screen margins. -/
theorem video_clrscr_hidden (v : Video) (hs : v.showcursor = 0) :
    video_clrscr v =
      { v with TILEMAP := memset v.TILEMAP 0 v.revvideo (size_t (TILES_WIDE * TILES_HIGH)),
               cx := 0, cy := 0, mtop := 0, mbottom := TILES_HIGH - 1 } := by
  have key : ∀ w : Video, w.showcursor = 0 → CURSOR_INVERT w = w := CURSOR_INVERT_hidden
  have hm : video_reset_margins v =
      { v with cx := 0, cy := 0, mtop := 0, mbottom := TILES_HIGH - 1 } := by
    have e : video_reset_margins v =
        video_gotoxy 0 0 { v with mtop := 0, mbottom := TILES_HIGH - 1 } := by
      simp [video_reset_margins, video_set_margins]
    rw [e]
    exact video_gotoxy_hidden_eq 0 0 { v with mtop := 0, mbottom := TILES_HIGH - 1 } hs
      (by decide) (by decide)
  simp only [video_clrscr, key v hs, hm]
  exact key _ hs

/-! ### Full reset (C30) -/

/-- The terminal after `ESC c` received in an idle state. -/
theorem feed_reset (t : Terminal) (hesc : t.process_escseqs ≠ 0)
    (hidle : t.in_esc = NOT_IN_ESC) :
    feed [0x1B, 0x63] t =
      { t with video := video_clrscr t.video, in_esc := NOT_IN_ESC, graphicchars := 0,
               revvideo := 0,
               savedstate := { cx := (video_clrscr t.video).cx, cy := (video_clrscr t.video).cy,
                               graphicchars := 0, revvideo := 0 } } := by
  rw [feed_esc 0x63 t hesc hidle (by decide) (by decide), escseq_process_noncsi_reset]
  rfl

/-- C30: from every idle state with escape processing enabled and the cursor hidden,
after `ESC c` the parser is idle, the cursor is at column 0 of row 0, the margins are 0
and `TILES_HIGH - 1`, every visible cell holds the screen reverse-video byte, both
attribute flags are 0 and the saved-state slot holds cursor (0,0) with both flags 0; an
`ESC 8` that follows leaves the cursor at the origin with both flags 0. -/
theorem full_reset_spec (t : Terminal) (hesc : t.process_escseqs ≠ 0)
    (hidle : t.in_esc = NOT_IN_ESC) (hs : t.video.showcursor = 0) :
    (feed [0x1B, 0x63] t).in_esc = NOT_IN_ESC ∧
    (feed [0x1B, 0x63] t).video.cx = 0 ∧ (feed [0x1B, 0x63] t).video.cy = 0 ∧
    video_top_margin (feed [0x1B, 0x63] t).video = 0 ∧
    video_bottom_margin (feed [0x1B, 0x63] t).video = TILES_HIGH - 1 ∧
    (∀ i : Int, 0 ≤ i → i < TILES_HIGH * TILES_WIDE →
      (feed [0x1B, 0x63] t).video.TILEMAP i = t.video.revvideo) ∧
    (feed [0x1B, 0x63] t).video.revvideo = t.video.revvideo ∧
    (feed [0x1B, 0x63] t).graphicchars = 0 ∧ (feed [0x1B, 0x63] t).revvideo = 0 ∧
    (feed [0x1B, 0x63] t).savedstate = { cx := 0, cy := 0, graphicchars := 0, revvideo := 0 } ∧
    (feed [0x1B, 0x63, 0x1B, 0x38] t).video.cx = 0 ∧
    (feed [0x1B, 0x63, 0x1B, 0x38] t).video.cy = 0 ∧
    (feed [0x1B, 0x63, 0x1B, 0x38] t).graphicchars = 0 ∧
    (feed [0x1B, 0x63, 0x1B, 0x38] t).revvideo = 0 ∧
    (feed [0x1B, 0x63, 0x1B, 0x38] t).in_esc = NOT_IN_ESC := by
  have hr := feed_reset t hesc hidle
  have hc := video_clrscr_hidden t.video hs
  have h2 : feed [0x1B, 0x63, 0x1B, 0x38] t = feed [0x1B, 0x38] (feed [0x1B, 0x63] t) :=
    feed_append [0x1B, 0x63] [0x1B, 0x38] t
  have h3 := feed_esc 0x38 (feed [0x1B, 0x63] t) (by rw [hr]; exact hesc) (by rw [hr])
    (by decide) (by decide)
  rw [escseq_process_noncsi_restore] at h3
  have hg := video_gotoxy_cursor 0 0 (video_clrscr t.video) (by decide) (by decide)
  rw [h2, h3, hr, hc]
  refine ⟨rfl, rfl, rfl, rfl, rfl, ?_, rfl, rfl, rfl, rfl, ?_, ?_, rfl, rfl, rfl⟩
  · intro i h0 h1
    simp only [memset, size_t, TILES_WIDE, TILES_HIGH] at h1 ⊢
    rw [if_pos (by omega)]
  · rw [← hc]
    exact hg.1
  · rw [← hc]
    exact hg.2

/-- C30 (witness): the sample terminal is idle with the cursor hidden at column 3 of row
4, margins 2 and 5; after `ESC c` the cursor is at the origin and the margins are 0 and
23. -/
theorem full_reset_spec_witness :
    (feed [0x1B, 0x63] demo_term).video.cx = 0 ∧ (feed [0x1B, 0x63] demo_term).video.cy = 0 ∧
    video_top_margin (feed [0x1B, 0x63] demo_term).video = 0 ∧
    video_bottom_margin (feed [0x1B, 0x63] demo_term).video = TILES_HIGH - 1 ∧
    demo_term.video.cy = 4 :=
  have h := full_reset_spec demo_term (by decide) (by decide) (by decide)
  ⟨h.2.1, h.2.2.1, h.2.2.2.1, h.2.2.2.2.1, by decide⟩

/-! ### Scrolling up, then down (C25) -/

/-- The static scroll up followed by the static scroll down restores every cell outside
the top row of the region. -/
theorem _video_scroll_up_down (u : Video)
    (hm : 0 ≤ u.mtop ∧ u.mtop < u.mbottom ∧ u.mbottom ≤ TILES_HIGH - 1) (i : Int)
    (hi : ¬ (tile u.mtop 0 ≤ i ∧ i < tile (u.mtop + 1) 0)) :
    (_video_scrolldown (_video_scrollup u)).TILEMAP i = u.TILEMAP i := by
  have hn : size_t ((u.mbottom - u.mtop) * TILES_WIDE) = (u.mbottom - u.mtop) * TILES_WIDE := by
    simp only [TILES_WIDE, TILES_HIGH, size_t] at hm ⊢
    exact Int.emod_eq_of_lt (by omega) (by omega)
  have hw : size_t TILES_WIDE = TILES_WIDE := by decide
  simp only [_video_scrolldown, _video_scrollup, hn, hw]
  simp only [memset, memmove, tile, TILES_WIDE, TILES_HIGH] at hm hi ⊢
  rw [if_neg (by omega)]
  by_cases h1 : (u.mtop + 1) * 54 + 0 ≤ i ∧ i < (u.mtop + 1) * 54 + 0 + (u.mbottom - u.mtop) * 54
  · rw [if_pos h1, if_neg (by omega), if_pos (by omega)]
    congr 1
    omega
  · rw [if_neg h1, if_neg (by omega), if_neg (by omega)]

/-- C25: for every buffer, cursor and cursor flag, and every scroll region with
`0 ≤ top < bottom ≤ TILES_HIGH - 1`, `video_scrollup` followed by `video_scrolldown`
leaves every cell of every row other than row `top` as it was: the rows outside the
region, the rows `top + 1` to `bottom - 1`, and row `bottom` too.  Cursor and margins are
unchanged, and with the cursor hidden row `top` holds the fill byte. -/
theorem scroll_round_trip (v : Video)
    (hm : 0 ≤ v.mtop ∧ v.mtop < v.mbottom ∧ v.mbottom ≤ TILES_HIGH - 1) :
    (∀ r x : Int, r ≠ v.mtop → 0 ≤ x → x < TILES_WIDE →
      (video_scrolldown (video_scrollup v)).TILEMAP (tile r x) = v.TILEMAP (tile r x)) ∧
    (video_scrolldown (video_scrollup v)).cx = v.cx ∧
    (video_scrolldown (video_scrollup v)).cy = v.cy ∧
    (video_scrolldown (video_scrollup v)).mtop = v.mtop ∧
    (video_scrolldown (video_scrollup v)).mbottom = v.mbottom ∧
    (v.showcursor = 0 → ∀ x : Int, 0 ≤ x → x < TILES_WIDE →
      (video_scrolldown (video_scrollup v)).TILEMAP (tile v.mtop x) = v.revvideo) := by
  have e : video_scrolldown (video_scrollup v) =
      CURSOR_INVERT (_video_scrolldown (_video_scrollup (CURSOR_INVERT v))) := by
    unfold video_scrolldown video_scrollup
    rw [CURSOR_INVERT_twice]
  refine ⟨?_, ?_, ?_, ?_, ?_, ?_⟩
  · intro r x hr hx0 hx1
    have hv : v = CURSOR_INVERT (CURSOR_INVERT v) := (CURSOR_INVERT_twice v).symm
    have hum : 0 ≤ (CURSOR_INVERT v).mtop ∧ (CURSOR_INVERT v).mtop < (CURSOR_INVERT v).mbottom ∧
        (CURSOR_INVERT v).mbottom ≤ TILES_HIGH - 1 := hm
    have hrow : ∀ i : Int, ¬ (tile (CURSOR_INVERT v).mtop 0 ≤ i ∧
        i < tile ((CURSOR_INVERT v).mtop + 1) 0) →
        (_video_scrolldown (_video_scrollup (CURSOR_INVERT v))).TILEMAP i =
          (CURSOR_INVERT v).TILEMAP i :=
      fun i hi => _video_scroll_up_down (CURSOR_INVERT v) hum i hi
    have hr2 : (CURSOR_INVERT v).mtop = v.mtop := rfl
    have hk : (CURSOR_INVERT v).cx = v.cx ∧ (CURSOR_INVERT v).cy = v.cy ∧
        (CURSOR_INVERT v).showcursor = v.showcursor := ⟨rfl, rfl, rfl⟩
    rw [e]
    nth_rewrite 2 [hv]
    generalize CURSOR_INVERT v = u at hrow hr2 hk
    have hnot : ¬ (tile u.mtop 0 ≤ tile r x ∧ tile r x < tile (u.mtop + 1) 0) := by
      rw [hr2]
      simp only [tile, TILES_WIDE] at hx1 ⊢
      omega
    have h1 := hrow (tile r x) hnot
    simp only [CURSOR_INVERT, poke, _video_scrolldown_cx, _video_scrolldown_cy,
      _video_scrollup_cx, _video_scrollup_cy, _video_scrolldown_showcursor,
      _video_scrollup_showcursor]
    by_cases hc : tile r x = tile u.cy u.cx
    · rw [if_pos hc, if_pos hc, ← hc, h1]
    · rw [if_neg hc, if_neg hc, h1]
  · rw [e]; rfl
  · rw [e]; rfl
  · rw [e]; rfl
  · rw [e]; rfl
  · intro hs x hx0 hx1
    have hw : size_t TILES_WIDE = TILES_WIDE := by decide
    have hs2 : (_video_scrolldown (_video_scrollup v)).showcursor = 0 := hs
    rw [e, CURSOR_INVERT_hidden v hs,
      CURSOR_INVERT_hidden (_video_scrolldown (_video_scrollup v)) hs2]
    simp only [_video_scrolldown, _video_scrollup_mtop, _video_scrollup_revvideo, hw]
    simp only [memset, tile, TILES_WIDE] at hx1 ⊢
    rw [if_pos (by omega)]

/-- C25 (witness): on the sample state (region rows 2 to 5) the cells of rows 3 and 5 and
of row 7, outside the region, are as before after scrolling up and then down. -/
theorem scroll_round_trip_witness :
    (video_scrolldown (video_scrollup demo_video)).TILEMAP (tile 3 10) =
      demo_video.TILEMAP (tile 3 10) ∧
    (video_scrolldown (video_scrollup demo_video)).TILEMAP (tile 5 0) =
      demo_video.TILEMAP (tile 5 0) ∧
    (video_scrolldown (video_scrollup demo_video)).TILEMAP (tile 7 53) =
      demo_video.TILEMAP (tile 7 53) ∧
    (video_scrolldown (video_scrollup demo_video)).TILEMAP (tile 2 0) = 0x80 ∧
    demo_video.TILEMAP (tile 2 0) = 108 :=
  have h := scroll_round_trip demo_video (by decide)
  ⟨h.1 3 10 (by decide) (by decide) (by decide), h.1 5 0 (by decide) (by decide) (by decide),
    h.1 7 53 (by decide) (by decide) (by decide), by decide, by decide⟩

/-! ### Writing one byte (C22, C23) -/

/-- The cell written by `video_putc_raw`: the cursor cell when no wrap is pending,
otherwise column 0 of the next row, or of the bottom-margin row after a scroll. -/
theorem putc_target_cases (v : Video) (hinv : Inv v) :
    0 ≤ (putc_target v).cx ∧ (putc_target v).cx ≤ TILES_WIDE - 1 ∧
    (putc_target v).revvideo = v.revvideo ∧ (putc_target v).showcursor = v.showcursor ∧
    (putc_target v).mtop = v.mtop ∧ (putc_target v).mbottom = v.mbottom ∧
    (v.cx < TILES_WIDE → putc_target v = CURSOR_INVERT v) ∧
    (TILES_WIDE ≤ v.cx → v.cy + 1 ≤ v.mbottom →
      putc_target v = { CURSOR_INVERT v with cx := 0, cy := v.cy + 1 }) ∧
    (TILES_WIDE ≤ v.cx → v.mbottom < v.cy + 1 →
      putc_target v = _video_scrollup { CURSOR_INVERT v with cx := 0, cy := v.mbottom }) := by
  unfold Inv at hinv
  simp only [TILES_WIDE, TILES_HIGH] at hinv ⊢
  have e : int8_t (v.cy + 1) = v.cy + 1 := by unfold int8_t; omega
  by_cases hw : v.cx ≥ 54
  · by_cases hb : v.cy + 1 > v.mbottom
    · have h : putc_target v =
          _video_scrollup { CURSOR_INVERT v with cx := 0, cy := v.mbottom } := by
        simp only [putc_target, _video_lfwd, CURSOR_INVERT_cx, CURSOR_INVERT_cy,
          CURSOR_INVERT_mbottom, TILES_WIDE, e]
        rw [if_pos hw, if_pos hb]
      rw [h]
      refine ⟨le_refl _, show (0 : Int) ≤ 54 - 1 by decide, rfl, rfl, rfl, rfl, ?_, ?_, ?_⟩
      · intro h1; omega
      · intro _ h2; omega
      · intro _ _; rfl
    · have h : putc_target v = { CURSOR_INVERT v with cx := 0, cy := v.cy + 1 } := by
        simp only [putc_target, _video_lfwd, CURSOR_INVERT_cx, CURSOR_INVERT_cy,
          CURSOR_INVERT_mbottom, TILES_WIDE, e]
        rw [if_pos hw, if_neg hb]
      rw [h]
      refine ⟨le_refl _, show (0 : Int) ≤ 54 - 1 by decide, rfl, rfl, rfl, rfl, ?_, ?_, ?_⟩
      · intro h1; omega
      · intro _ _; rfl
      · intro _ h2; omega
  · have h : putc_target v = CURSOR_INVERT v := by
      simp only [putc_target, CURSOR_INVERT_cx, TILES_WIDE]
      rw [if_neg hw]
    rw [h]
    refine ⟨hinv.1, by simp only [CURSOR_INVERT_cx]; omega, rfl, rfl, rfl, rfl, ?_, ?_, ?_⟩
    · intro _; rfl
    · intro h1; omega
    · intro h1; omega

/-- With the cursor mask removed, the state after `video_putc_raw(b)` is the write
target with the byte `b ^ revvideo` stored in its cursor cell and the column advanced. -/
theorem video_putc_raw_content (b : Nat) (v : Video) (hinv : Inv v) :
    CURSOR_INVERT (video_putc_raw b v) =
      { putc_target v with
        TILEMAP := poke (putc_target v).TILEMAP (tile (putc_target v).cy (putc_target v).cx)
          (b ^^^ v.revvideo),
        cx := (putc_target v).cx + 1 } := by
  obtain ⟨h0, h1, hr, _, _, _, _, _, _⟩ := putc_target_cases v hinv
  have e : video_putc_raw b v = CURSOR_INVERT (_video_cfwd
      { putc_target v with
        TILEMAP := poke (putc_target v).TILEMAP (tile (putc_target v).cy (putc_target v).cx)
          (b ^^^ (putc_target v).revvideo) }) := rfl
  rw [e, CURSOR_INVERT_twice, hr]
  simp only [TILES_WIDE] at h1
  have e8 : int8_t ((putc_target v).cx + 1) = (putc_target v).cx + 1 := by
    unfold int8_t
    omega
  simp only [_video_cfwd, e8, TILES_WIDE]
  rw [if_neg (by omega)]

/-- What `video_putc_raw(b)` does, read off the buffer itself: the target cell holds
`b ^ revvideo`, the cursor is one column past the target, margins and flags are as
before, and with the cursor mask removed every other cell is as in the target state. -/
theorem video_putc_raw_spec (b : Nat) (v : Video) (hinv : Inv v) :
    (video_putc_raw b v).TILEMAP (tile (putc_target v).cy (putc_target v).cx) =
      b ^^^ v.revvideo ∧
    (video_putc_raw b v).cx = (putc_target v).cx + 1 ∧
    (video_putc_raw b v).cy = (putc_target v).cy ∧
    (video_putc_raw b v).mtop = v.mtop ∧ (video_putc_raw b v).mbottom = v.mbottom ∧
    (video_putc_raw b v).revvideo = v.revvideo ∧
    (video_putc_raw b v).showcursor = v.showcursor ∧
    (∀ i : Int, i ≠ tile (putc_target v).cy (putc_target v).cx →
      (CURSOR_INVERT (video_putc_raw b v)).TILEMAP i = (putc_target v).TILEMAP i) := by
  have hc := video_putc_raw_content b v hinv
  obtain ⟨_, _, hr, hsc, hmt, hmb, _, _, _⟩ := putc_target_cases v hinv
  have hfld : (video_putc_raw b v).cx = (CURSOR_INVERT (video_putc_raw b v)).cx ∧
      (video_putc_raw b v).cy = (CURSOR_INVERT (video_putc_raw b v)).cy ∧
      (video_putc_raw b v).mtop = (CURSOR_INVERT (video_putc_raw b v)).mtop ∧
      (video_putc_raw b v).mbottom = (CURSOR_INVERT (video_putc_raw b v)).mbottom ∧
      (video_putc_raw b v).revvideo = (CURSOR_INVERT (video_putc_raw b v)).revvideo ∧
      (video_putc_raw b v).showcursor = (CURSOR_INVERT (video_putc_raw b v)).showcursor :=
    ⟨rfl, rfl, rfl, rfl, rfl, rfl⟩
  have hback : video_putc_raw b v = CURSOR_INVERT (CURSOR_INVERT (video_putc_raw b v)) :=
    (CURSOR_INVERT_twice _).symm
  obtain ⟨f1, f2, f3, f4, f5, f6⟩ := hfld
  rw [hc] at f1 f2 f3 f4 f5 f6
  refine ⟨?_, f1, f2, f3.trans hmt, f4.trans hmb, f5.trans hr, f6.trans hsc, ?_⟩
  · rw [hback, hc]
    have hk : tile (putc_target v).cy (putc_target v).cx ≠
        tile (putc_target v).cy ((putc_target v).cx + 1) := by
      simp only [tile]
      omega
    simp only [CURSOR_INVERT, poke, if_neg hk, if_true]
  · intro i hi
    rw [hc]
    simp only [poke]
    rw [if_neg hi]

/-- The target of a write: the cursor cell, or after a pending wrap column 0 of the next
row, pinned at the bottom margin; the buffer of the target state is the buffer with the
cursor mask removed unless the wrap scrolls. -/
theorem putc_target_cursor (v : Video) (hinv : Inv v) :
    (v.cx < TILES_WIDE →
      (putc_target v).cx = v.cx ∧ (putc_target v).cy = v.cy ∧
      (putc_target v).TILEMAP = (CURSOR_INVERT v).TILEMAP) ∧
    (TILES_WIDE ≤ v.cx →
      (putc_target v).cx = 0 ∧ (putc_target v).cy = min (v.cy + 1) v.mbottom ∧
      (v.cy + 1 ≤ v.mbottom → (putc_target v).TILEMAP = (CURSOR_INVERT v).TILEMAP)) := by
  obtain ⟨_, _, _, _, _, _, h1, h2, h3⟩ := putc_target_cases v hinv
  constructor
  · intro h
    rw [h1 h]
    exact ⟨rfl, rfl, rfl⟩
  · intro h
    by_cases hb : v.cy + 1 ≤ v.mbottom
    · rw [h2 h hb, min_eq_left hb]
      exact ⟨rfl, rfl, fun _ => rfl⟩
    · rw [h3 h (by omega), min_eq_right (by omega)]
      exact ⟨rfl, rfl, fun hc => absurd hc hb⟩

/-- C22: with escape processing disabled, in every state whose cursor and margins are in
range, `receive_char(c)` for any byte `c` is `video_putc_raw(c)`: the byte
`c ^ revvideo` (screen reverse-video byte) is stored in the target cell, which is the
cursor cell, or column 0 of the next row (pinned at the bottom margin) when a wrap was
pending; the cursor ends one column past the target; parser mode, graphic-character-set
flag, SGR reverse-video flag and margins are unchanged. -/
theorem raw_mode_prints_every_byte (c : Nat) (t : Terminal) (hc : c < 256)
    (hoff : t.process_escseqs = 0) (hinv : Inv t.video) :
    receive_char c t = { t with video := video_putc_raw c t.video } ∧
    (receive_char c t).video.TILEMAP
      (tile (putc_target t.video).cy (putc_target t.video).cx) = c ^^^ t.video.revvideo ∧
    (receive_char c t).video.cx = (putc_target t.video).cx + 1 ∧
    (receive_char c t).video.cy = (putc_target t.video).cy ∧
    (t.video.cx < TILES_WIDE →
      (putc_target t.video).cx = t.video.cx ∧ (putc_target t.video).cy = t.video.cy) ∧
    (TILES_WIDE ≤ t.video.cx →
      (putc_target t.video).cx = 0 ∧
      (putc_target t.video).cy = min (t.video.cy + 1) t.video.mbottom) ∧
    (receive_char c t).in_esc = t.in_esc ∧
    (receive_char c t).graphicchars = t.graphicchars ∧
    (receive_char c t).revvideo = t.revvideo ∧
    video_top_margin (receive_char c t).video = video_top_margin t.video ∧
    video_bottom_margin (receive_char c t).video = video_bottom_margin t.video := by
  have e : receive_char c t = { t with video := video_putc_raw c t.video } := by
    unfold receive_char
    rw [if_pos hoff]
  obtain ⟨s1, s2, s3, s4, s5, _, _, _⟩ := video_putc_raw_spec c t.video hinv
  obtain ⟨p1, p2⟩ := putc_target_cursor t.video hinv
  rw [e]
  exact ⟨rfl, s1, s2, s3, fun h => ⟨(p1 h).1, (p1 h).2.1⟩, fun h => ⟨(p2 h).1, (p2 h).2.1⟩,
    rfl, rfl, rfl, s4, s5⟩

/-- C22 (witness): with escape processing disabled on the start-up screen, the byte 0x1B
is stored in cell (0,0) and the cursor advances to column 1; the parser stays idle. -/
theorem raw_mode_prints_every_byte_witness :
    (receive_char 0x1B { boot with process_escseqs := 0 }).video.TILEMAP (tile 0 0) = 0x1B ∧
    (receive_char 0x1B { boot with process_escseqs := 0 }).video.cx = 1 ∧
    (receive_char 0x1B { boot with process_escseqs := 0 }).in_esc = NOT_IN_ESC :=
  have h := raw_mode_prints_every_byte 0x1B { boot with process_escseqs := 0 } (by decide)
    (by decide) (by decide)
  ⟨by decide, h.2.2.1.trans (by decide), h.2.2.2.2.2.2.1.trans (by decide)⟩

/-- C23: in idle mode with escape processing on, in every state whose cursor and margins
are in range, a byte `c ≥ 0x20` other than 0x7F is written as `(g ||| r) ^^^ s`, with
`g = c - 95` when the graphic-character-set flag is set and `0x5F ≤ c ≤ 0x7E` and `g = c`
otherwise, `r` the SGR reverse-video flag and `s` the screen reverse-video byte.  The
byte goes to the target cell (the cursor cell, or column 0 of the next row, pinned at the
bottom margin, when a wrap was pending) and the cursor ends one column past it.  Unless
the pending wrap scrolls, no other cell changes, the buffers being compared with the
cursor mask removed (`CURSOR_INVERT`), which is the buffer itself when the cursor is
hidden.  Parser mode, attribute flags and margins are unchanged. -/
theorem printable_byte_written (c : Nat) (t : Terminal) (hc : is_printable c)
    (hesc : t.process_escseqs ≠ 0) (hidle : t.in_esc = NOT_IN_ESC) (hinv : Inv t.video) :
    (receive_char c t).video.TILEMAP
        (tile (putc_target t.video).cy (putc_target t.video).cx) =
      ((if t.graphicchars ≠ 0 ∧ 0x5F ≤ c ∧ c ≤ 0x7E then c - 95 else c) ||| t.revvideo) ^^^
        t.video.revvideo ∧
    (receive_char c t).video.cx = (putc_target t.video).cx + 1 ∧
    (receive_char c t).video.cy = (putc_target t.video).cy ∧
    (t.video.cx < TILES_WIDE →
      (putc_target t.video).cx = t.video.cx ∧ (putc_target t.video).cy = t.video.cy) ∧
    (TILES_WIDE ≤ t.video.cx →
      (putc_target t.video).cx = 0 ∧
      (putc_target t.video).cy = min (t.video.cy + 1) t.video.mbottom) ∧
    (¬ (TILES_WIDE ≤ t.video.cx ∧ t.video.mbottom < t.video.cy + 1) →
      ∀ i : Int, i ≠ tile (putc_target t.video).cy (putc_target t.video).cx →
        (CURSOR_INVERT (receive_char c t).video).TILEMAP i = (CURSOR_INVERT t.video).TILEMAP i) ∧
    (t.video.showcursor = 0 →
      ¬ (TILES_WIDE ≤ t.video.cx ∧ t.video.mbottom < t.video.cy + 1) →
      ∀ i : Int, i ≠ tile (putc_target t.video).cy (putc_target t.video).cx →
        (receive_char c t).video.TILEMAP i = t.video.TILEMAP i) ∧
    (receive_char c t).in_esc = t.in_esc ∧
    (receive_char c t).graphicchars = t.graphicchars ∧
    (receive_char c t).revvideo = t.revvideo ∧
    video_top_margin (receive_char c t).video = video_top_margin t.video ∧
    video_bottom_margin (receive_char c t).video = video_bottom_margin t.video := by
  have e := receive_char_printable c t hesc hidle hc
  obtain ⟨s1, s2, s3, s4, s5, _, s7, s8⟩ := video_putc_raw_spec (glyph c t) t.video hinv
  obtain ⟨p1, p2⟩ := putc_target_cursor t.video hinv
  have hg : glyph c t =
      (if t.graphicchars ≠ 0 ∧ 0x5F ≤ c ∧ c ≤ 0x7E then c - 95 else c) ||| t.revvideo := rfl
  have hcells : ¬ (TILES_WIDE ≤ t.video.cx ∧ t.video.mbottom < t.video.cy + 1) →
      ∀ i : Int, i ≠ tile (putc_target t.video).cy (putc_target t.video).cx →
        (CURSOR_INVERT (video_putc_raw (glyph c t) t.video)).TILEMAP i =
          (CURSOR_INVERT t.video).TILEMAP i := by
    intro hns i hi
    rw [s8 i hi]
    by_cases hw : t.video.cx < TILES_WIDE
    · rw [(p1 hw).2.2]
    · rw [(p2 (by omega)).2.2 (by omega)]
  rw [e]
  rw [hg] at s1
  refine ⟨s1, s2, s3, fun h => ⟨(p1 h).1, (p1 h).2.1⟩, fun h => ⟨(p2 h).1, (p2 h).2.1⟩,
    hcells, ?_, rfl, rfl, rfl, s4, s5⟩
  intro hs hns i hi
  have h1 := hcells hns i hi
  have hs2 : (video_putc_raw (glyph c t) t.video).showcursor = 0 := s7.trans hs
  rw [CURSOR_INVERT_hidden t.video hs,
    CURSOR_INVERT_hidden (video_putc_raw (glyph c t) t.video) hs2] at h1
  exact h1

/-- C23 (witness): on the sample terminal with the graphic character set on and the SGR
attribute on, the byte `q` (0x71) is stored in the cursor cell (4,3) as
`((0x71 - 95) ||| 0x80) ^^^ 0x80 = 0x12`, and the cursor advances to column 4. -/
theorem printable_byte_written_witness :
    (receive_char 0x71 { demo_term with graphicchars := 1, revvideo := 0x80 }).video.TILEMAP
      (tile 4 3) = 0x12 ∧
    (receive_char 0x71 { demo_term with graphicchars := 1, revvideo := 0x80 }).video.cx = 4 ∧
    (receive_char 0x71 { demo_term with graphicchars := 1, revvideo := 0x80 }).video.cy = 4 :=
  have h := printable_byte_written 0x71 { demo_term with graphicchars := 1, revvideo := 0x80 }
    (by decide) (by decide) (by decide) (by decide)
  ⟨by decide, h.2.1.trans (by decide), h.2.2.1.trans (by decide)⟩

/-! ### Printing a string at a position (C29) -/

/-- The loop of `video_invert_range` toggles bit 0x80 of `n` consecutive cells. -/
theorem invert_loop_apply (n : Nat) (m : Int → Nat) (start i : Int) :
    invert_loop m start n i =
      if start ≤ i ∧ i < start + n then m i ^^^ 0x80 else m i := by
  induction n generalizing m start with
  | zero =>
    simp only [invert_loop]
    rw [if_neg]
    push_cast
    omega
  | succ k ih =>
    simp only [invert_loop, ih, poke]
    push_cast
    by_cases h1 : i = start
    · subst h1
      rw [if_neg (by omega), if_pos rfl, if_pos (by omega)]
    · by_cases h2 : start + 1 ≤ i ∧ i < start + 1 + (k : Int)
      · rw [if_pos h2, if_neg h1, if_pos (by omega)]
      · rw [if_neg h2, if_neg h1, if_neg (by omega)]

/-- C29: `video_putsxy(x, y, s)` with the screen reverse-video byte 0 or 0x80 (as it is in
every reachable state, `run_ops_revok`) and a string whose length fits the `int` that
holds it.  When `x` is outside `[0, TILES_WIDE)` or `y`
outside `[0, TILES_HIGH)` the state is unchanged.  Otherwise the cells of row `y` at
columns `x` to `x + min (strlen s) (TILES_WIDE - x) - 1` receive the bytes of `s`, each
XOR-ed with the screen reverse-video byte, every other offset keeps its byte, the run
written ends within row `y`, and cursor, margins and flags are unchanged. -/
theorem video_putsxy_clips (x y : Int) (s : List Nat) (v : Video)
    (hrev : v.revvideo = 0 ∨ v.revvideo = 0x80) (hlen : strlen s ≤ 32767) :
    ((x < 0 ∨ TILES_WIDE ≤ x ∨ y < 0 ∨ TILES_HIGH ≤ y) → video_putsxy x y s v = v) ∧
    (0 ≤ x → x < TILES_WIDE → 0 ≤ y → y < TILES_HIGH →
      (∀ i : Int, (video_putsxy x y s v).TILEMAP i =
        if tile y x ≤ i ∧ i < tile y x + min (strlen s : Int) (TILES_WIDE - x)
        then s.getD (i - tile y x).toNat 0 ^^^ v.revvideo else v.TILEMAP i) ∧
      tile y x + min (strlen s : Int) (TILES_WIDE - x) ≤ tile y TILES_WIDE) ∧
    (video_putsxy x y s v).cx = v.cx ∧ (video_putsxy x y s v).cy = v.cy ∧
    (video_putsxy x y s v).mtop = v.mtop ∧ (video_putsxy x y s v).mbottom = v.mbottom ∧
    (video_putsxy x y s v).revvideo = v.revvideo ∧
    (video_putsxy x y s v).showcursor = v.showcursor := by
  have hfr : (video_putsxy x y s v).cx = v.cx ∧ (video_putsxy x y s v).cy = v.cy ∧
      (video_putsxy x y s v).mtop = v.mtop ∧ (video_putsxy x y s v).mbottom = v.mbottom ∧
      (video_putsxy x y s v).revvideo = v.revvideo ∧
      (video_putsxy x y s v).showcursor = v.showcursor := by
    refine ⟨?_, ?_, ?_, ?_, ?_, ?_⟩ <;> simp only [video_putsxy] <;> split_ifs <;> rfl
  refine ⟨?_, ?_, hfr⟩
  · intro h
    simp only [video_putsxy, TILES_WIDE, TILES_HIGH] at h ⊢
    by_cases hx : x < 0 ∨ x ≥ 54
    · rw [if_pos hx]
    · rw [if_neg hx, if_pos (by omega)]
  · intro hx0 hx1 hy0 hy1
    simp only [TILES_WIDE, TILES_HIGH] at hx1 hy1
    have hl0 : (0 : Int) ≤ (strlen s : Int) := Int.ofNat_nonneg _
    constructor
    · intro i
      have hmin : min (strlen s : Int) (TILES_WIDE - x) =
          if (strlen s : Int) > TILES_WIDE - x then TILES_WIDE - x else (strlen s : Int) := by
        split_ifs with h
        · exact min_eq_right (le_of_lt h)
        · exact min_eq_left (not_lt.1 h)
      rw [hmin]
      simp only [video_putsxy, TILES_WIDE, TILES_HIGH]
      rw [if_neg (by omega), if_neg (by omega)]
      generalize hL : (if (strlen s : Int) > 54 - x then 54 - x else (strlen s : Int)) = L
      have hLb : 0 ≤ L ∧ L ≤ 54 := by
        rw [← hL]
        split_ifs <;> omega
      have hsz : size_t L = L := by
        unfold size_t
        exact Int.emod_eq_of_lt (by omega) (by omega)
      have hu8 : ((uint8_t L).toNat : Int) = L := by
        unfold uint8_t
        rw [Int.emod_eq_of_lt (by omega) (by omega)]
        exact Int.toNat_of_nonneg hLb.1
      rcases hrev with h0 | h80
      · simp only [h0, ne_eq, not_true_eq_false, if_false, memcpy, hsz, Nat.xor_zero]
      · simp only [h80, ne_eq, video_invert_range, memcpy, hsz]
        rw [if_pos (by decide)]
        show invert_loop _ _ _ i = _
        rw [invert_loop_apply, hu8]
        by_cases hi : tile y x ≤ i ∧ i < tile y x + L
        · rw [if_pos hi, if_pos hi]
          simp only [memcpy]
          rw [if_pos hi]
        · rw [if_neg hi, if_neg hi]
          simp only [memcpy]
          rw [if_neg hi]
    · simp only [tile, TILES_WIDE]
      have := min_le_right (strlen s : Int) (54 - x)
      omega

/-- C29 (witness): on the sample state (screen in reverse video) the eight bytes
`ABCDEFGH` printed at column 50 of row 1 are clipped to four cells: cell (1,53) receives
`D ^ 0x80` and cell (2,0) keeps its byte. -/
theorem video_putsxy_clips_witness :
    (∀ i : Int,
      (video_putsxy 50 1 [0x41, 0x42, 0x43, 0x44, 0x45, 0x46, 0x47, 0x48] demo_video).TILEMAP i =
        if tile 1 50 ≤ i ∧ i < tile 1 50 +
            min (strlen [0x41, 0x42, 0x43, 0x44, 0x45, 0x46, 0x47, 0x48] : Int) (TILES_WIDE - 50)
        then [0x41, 0x42, 0x43, 0x44, 0x45, 0x46, 0x47, 0x48].getD (i - tile 1 50).toNat 0 ^^^
          demo_video.revvideo
        else demo_video.TILEMAP i) ∧
    (video_putsxy 50 1 [0x41, 0x42, 0x43, 0x44, 0x45, 0x46, 0x47, 0x48] demo_video).TILEMAP
      (tile 1 53) = 0xC4 ∧
    (video_putsxy 50 1 [0x41, 0x42, 0x43, 0x44, 0x45, 0x46, 0x47, 0x48] demo_video).TILEMAP
      (tile 2 0) = demo_video.TILEMAP (tile 2 0) :=
  have h := video_putsxy_clips 50 1 [0x41, 0x42, 0x43, 0x44, 0x45, 0x46, 0x47, 0x48] demo_video
    (by decide) (by decide)
  ⟨(h.2.1 (by decide) (by decide) (by decide) (by decide)).1, by decide, by decide⟩

/-! ### Printing the same string twice (C26) -/

/-- A printable byte that is neither CR nor LF, printed where no wrap is pending, is
stored in the cursor cell and the column advances. -/
theorem _video_putc_plain (c : Nat) (v : Video) (hc : c ≠ 0x0D ∧ c ≠ 0x0A)
    (hx : 0 ≤ v.cx ∧ v.cx < TILES_WIDE) :
    _video_putc c v =
      { v with TILEMAP := poke v.TILEMAP (tile v.cy v.cx) (c ^^^ v.revvideo),
               cx := v.cx + 1 } := by
  simp only [TILES_WIDE] at hx
  have e : int8_t (v.cx + 1) = v.cx + 1 := by unfold int8_t; omega
  have hw : ¬ v.cx ≥ 54 := by omega
  have hn : ¬ v.cx + 1 > 54 := by omega
  simp only [_video_putc, TILES_WIDE, _video_cfwd, if_neg hw, if_neg hc.1, if_neg hc.2, e,
    if_neg hn]

/-- The loop of `video_puts` on a string without NUL, CR or LF that fits the rest of the
row: the bytes are stored from the cursor cell on and the column advances by the length. -/
theorem puts_loop_line (s : List Nat) (v : Video)
    (hs : ∀ c ∈ s, c ≠ 0 ∧ c ≠ 0x0D ∧ c ≠ 0x0A) (hx : 0 ≤ v.cx)
    (hfit : v.cx + s.length ≤ TILES_WIDE) :
    puts_loop s v =
      { v with
        TILEMAP := (fun i =>
          if tile v.cy v.cx ≤ i ∧ i < tile v.cy v.cx + s.length
          then s.getD (i - tile v.cy v.cx).toNat 0 ^^^ v.revvideo else v.TILEMAP i),
        cx := v.cx + s.length } := by
  induction s generalizing v with
  | nil =>
    simp only [puts_loop, List.length_nil, Nat.cast_zero, add_zero]
    have : (fun i : Int => if tile v.cy v.cx ≤ i ∧ i < tile v.cy v.cx
        then ([] : List Nat).getD (i - tile v.cy v.cx).toNat 0 ^^^ v.revvideo
        else v.TILEMAP i) = v.TILEMAP := by
      funext i
      rw [if_neg (by omega)]
    rw [this]
  | cons c cs ih =>
    have hc := hs c (List.mem_cons_self _ _)
    simp only [List.length_cons, Nat.cast_add, Nat.cast_one, TILES_WIDE] at hfit ⊢
    have hl : (0 : Int) ≤ (cs.length : Int) := Int.ofNat_nonneg _
    simp only [puts_loop]
    rw [if_neg hc.1, _video_putc_plain c v hc.2 ⟨hx, by simp only [TILES_WIDE]; omega⟩,
      ih _ (fun d hd => hs d (List.mem_cons_of_mem _ hd)) (by simp only; omega)
        (by simp only [TILES_WIDE]; omega)]
    simp only [Video.mk.injEq, and_true, true_and]
    constructor
    · funext i
      simp only [poke, tile]
      by_cases h0 : i = v.cy * TILES_WIDE + v.cx
      · subst h0
        rw [if_neg (by omega), if_pos rfl, if_pos (by omega)]
        simp
      · by_cases h1 : v.cy * TILES_WIDE + (v.cx + 1) ≤ i ∧
            i < v.cy * TILES_WIDE + (v.cx + 1) + (cs.length : Int)
        · rw [if_pos h1, if_pos (by omega)]
          have e : (i - (v.cy * TILES_WIDE + v.cx)).toNat =
              (i - (v.cy * TILES_WIDE + (v.cx + 1))).toNat + 1 := by omega
          rw [e, List.getD_cons_succ]
        · rw [if_neg h1, if_neg h0, if_neg (by omega)]
    · omega

/-- An absolute move to a cell of the screen, between the two cursor toggles. -/
theorem video_gotoxy_in_range (x y : Int) (v : Video) (hx : 0 ≤ x ∧ x < TILES_WIDE)
    (hy : 0 ≤ y ∧ y < TILES_HIGH) :
    video_gotoxy x y v = CURSOR_INVERT { CURSOR_INVERT v with cx := x, cy := y } := by
  simp only [TILES_WIDE, TILES_HIGH] at hx hy
  have h1 : ¬ x < 0 := by omega
  have h2 : ¬ x ≥ 54 := by omega
  have h3 : ¬ y < 0 := by omega
  have h4 : ¬ y ≥ 24 := by omega
  simp only [video_gotoxy, TILES_WIDE, TILES_HIGH, if_neg h1, if_neg h2, if_neg h3, if_neg h4]

/-- Printing a string from column 0 of a row and printing it again from there gives the
state of the first printing, before the closing cursor toggle. -/
theorem puts_loop_twice (s : List Nat) (y : Int) (u : Video)
    (hs : ∀ c ∈ s, c ≠ 0 ∧ c ≠ 0x0D ∧ c ≠ 0x0A) (hlen : (s.length : Int) < TILES_WIDE)
    (hx : u.cx = 0) (hy : u.cy = y) :
    puts_loop s { puts_loop s u with cx := 0, cy := y } = puts_loop s u := by
  have h1 := puts_loop_line s u hs (by omega) (by simp only [TILES_WIDE] at hlen ⊢; omega)
  rw [h1]
  have h2 := puts_loop_line s
    { u with
      TILEMAP := (fun i =>
        if tile u.cy u.cx ≤ i ∧ i < tile u.cy u.cx + s.length
        then s.getD (i - tile u.cy u.cx).toNat 0 ^^^ u.revvideo else u.TILEMAP i),
      cx := 0, cy := y } hs (le_refl _) (by simp only [TILES_WIDE] at hlen ⊢; omega)
  rw [h2]
  simp only [Video.mk.injEq, and_true, hx, hy, true_and]
  funext i
  by_cases hi : tile y 0 ≤ i ∧ i < tile y 0 + (s.length : Int)
  · simp only [if_pos hi]
  · simp only [if_neg hi]

/-- C26: for every string `s` without NUL, CR or LF of length below `TILES_WIDE` and
every row `y`, starting with the cursor at column 0 of row `y`, the calls
`video_puts(s); video_gotoxy(0, y); video_puts(s)` leave the same video state (buffer,
cursor, margins, flags) as the single call `video_puts(s)`, which leaves the cursor on
row `y` in the column `length s`. -/
theorem puts_twice_same (s : List Nat) (y : Int) (v : Video)
    (hs : ∀ c ∈ s, c ≠ 0 ∧ c ≠ 0x0D ∧ c ≠ 0x0A) (hlen : (s.length : Int) < TILES_WIDE)
    (hy : 0 ≤ y ∧ y < TILES_HIGH) (hcx : v.cx = 0) (hcy : v.cy = y) :
    video_puts s (video_gotoxy 0 y (video_puts s v)) = video_puts s v ∧
    (video_puts s v).cx = s.length ∧ (video_puts s v).cy = y := by
  have hl := puts_loop_line s (CURSOR_INVERT v) hs (by simp only [CURSOR_INVERT_cx]; omega)
    (by simp only [CURSOR_INVERT_cx, TILES_WIDE] at hlen ⊢; omega)
  constructor
  · rw [video_gotoxy_in_range 0 y _ (by decide) hy]
    unfold video_puts
    rw [CURSOR_INVERT_twice, CURSOR_INVERT_twice,
      puts_loop_twice s y (CURSOR_INVERT v) hs hlen hcx hcy]
  · unfold video_puts
    rw [hl]
    simp only [CURSOR_INVERT_cx, CURSOR_INVERT_cy, hcx, hcy, zero_add, and_self]

/-- C26 (witness): on the sample state moved to column 0 of row 4, printing `Hi!` twice
from column 0 gives the state of printing it once, with the cursor at column 3. -/
theorem puts_twice_same_witness :
    video_puts [0x48, 0x69, 0x21]
        (video_gotoxy 0 4 (video_puts [0x48, 0x69, 0x21] { demo_video with cx := 0 })) =
      video_puts [0x48, 0x69, 0x21] { demo_video with cx := 0 } ∧
    (video_puts [0x48, 0x69, 0x21] { demo_video with cx := 0 }).cx = 3 :=
  have h := puts_twice_same [0x48, 0x69, 0x21] 4 { demo_video with cx := 0 } (by decide)
    (by decide) (by decide) rfl rfl
  ⟨h.1, h.2.1⟩

/-! ### The receive ring buffer (C27) -/

/-- After `buf_clear` the buffer is consistent and holds nothing. -/
theorem buf_clear_inv (r : RingBuf) :
    RingInv (buf_clear r) ∧ ring_contents (buf_clear r) = [] := by
  unfold RingInv buf_clear ring_contents
  simp

/-- The buffer left by `buf_enqueue` when the buffer is consistent and not full. -/
theorem buf_enqueue_eq (c : Nat) (r : RingBuf) (h : RingInv r) (hroom : r.bufsize < MAX_BUF) :
    buf_enqueue c r =
      { buf := fun i => if i = r.buftail then c else r.buf i, bufhead := r.bufhead,
        buftail := (r.buftail + 1) % MAX_BUF, bufsize := r.bufsize + 1 } := by
  obtain ⟨h1, h2, h3, h4⟩ := h
  simp only [MAX_BUF] at h1 h2 h3 h4 hroom ⊢
  have e1 : (r.buftail + 1) % 256 = r.buftail + 1 := by omega
  have e2 : (r.bufsize + 1) % 256 = r.bufsize + 1 := by omega
  simp only [buf_enqueue, MAX_BUF, if_pos hroom, e1]
  by_cases hge : r.buftail + 1 ≥ 254
  · simp only [if_pos hge, e2, RingBuf.mk.injEq, true_and, and_true]
    omega
  · simp only [if_neg hge, e2, RingBuf.mk.injEq, true_and, and_true]
    omega

/-- Enqueueing on a consistent buffer that is not full appends the byte. -/
theorem buf_enqueue_room (c : Nat) (r : RingBuf) (h : RingInv r) (hroom : r.bufsize < MAX_BUF) :
    RingInv (buf_enqueue c r) ∧ ring_contents (buf_enqueue c r) = ring_contents r ++ [c] := by
  rw [buf_enqueue_eq c r h hroom]
  obtain ⟨h1, h2, h3, h4⟩ := h
  simp only [MAX_BUF] at h1 h2 h3 h4 hroom
  refine ⟨⟨h1, ?_, ?_, ?_⟩, ?_⟩
  · simp only [MAX_BUF]; omega
  · simp only [MAX_BUF]; omega
  · simp only [MAX_BUF]; omega
  · unfold ring_contents
    simp only [List.range_succ, List.map_append, MAX_BUF]
    congr 1
    · apply List.map_congr_left
      intro i hi
      have hi2 : i < r.bufsize := List.mem_range.1 hi
      rw [if_neg (by omega)]
    · simp only [List.map_cons, List.map_nil]
      rw [if_pos (by omega)]

/-- Enqueueing on a full buffer changes nothing. -/
theorem buf_enqueue_full (c : Nat) (r : RingBuf) (hfull : ¬ r.bufsize < MAX_BUF) :
    buf_enqueue c r = r := by
  simp only [buf_enqueue, if_neg hfull]

/-- The pair returned by `buf_dequeue` on a consistent buffer that is not empty. -/
theorem buf_dequeue_eq (r : RingBuf) (h : RingInv r) (hpos : 0 < r.bufsize) :
    buf_dequeue r =
      (r.buf r.bufhead,
        { buf := r.buf, bufhead := (r.bufhead + 1) % MAX_BUF, buftail := r.buftail,
          bufsize := r.bufsize - 1 }) := by
  obtain ⟨h1, h2, h3, h4⟩ := h
  simp only [MAX_BUF] at h1 h2 h3 h4 ⊢
  have e1 : (r.bufhead + 1) % 256 = r.bufhead + 1 := by omega
  have e2 : (r.bufsize + 255) % 256 = r.bufsize - 1 := by omega
  simp only [buf_dequeue, MAX_BUF, gt_iff_lt, if_pos hpos, e1]
  by_cases hge : r.bufhead + 1 ≥ 254
  · simp only [if_pos hge, e2, Prod.mk.injEq, RingBuf.mk.injEq, true_and, and_true]
    omega
  · simp only [if_neg hge, e2, Prod.mk.injEq, RingBuf.mk.injEq, true_and, and_true]
    omega

/-- Dequeueing from a consistent buffer that is not empty returns the oldest byte and
leaves the others in order. -/
theorem buf_dequeue_some (r : RingBuf) (h : RingInv r) (hpos : 0 < r.bufsize) :
    RingInv (buf_dequeue r).2 ∧
    ring_contents r = (buf_dequeue r).1 :: ring_contents (buf_dequeue r).2 := by
  rw [buf_dequeue_eq r h hpos]
  obtain ⟨h1, h2, h3, h4⟩ := h
  simp only [MAX_BUF] at h1 h2 h3 h4
  refine ⟨⟨?_, h2, ?_, ?_⟩, ?_⟩
  · simp only [MAX_BUF]; omega
  · simp only [MAX_BUF]; omega
  · simp only [MAX_BUF]; omega
  · unfold ring_contents
    obtain ⟨n, hn⟩ : ∃ n, r.bufsize = n + 1 := ⟨r.bufsize - 1, by omega⟩
    simp only [hn, List.range_succ_eq_map, List.map_cons, List.map_map, MAX_BUF,
      Nat.add_sub_cancel, add_zero, Nat.mod_eq_of_lt h1]
    congr 1
    apply List.map_congr_left
    intro i _
    simp only [Function.comp_apply]
    congr 1
    omega

/-- The ring buffer holds `bufsize` bytes. -/
theorem ring_contents_length (r : RingBuf) : (ring_contents r).length = r.bufsize := by
  unfold ring_contents
  simp

/-- Enqueueing refines the bounded queue of the specification. -/
theorem buf_enqueue_refines (c : Nat) (r : RingBuf) (h : RingInv r) :
    RingInv (buf_enqueue c r) ∧
    ring_contents (buf_enqueue c r) = fifo_enqueue c (ring_contents r) := by
  unfold fifo_enqueue
  rw [ring_contents_length]
  by_cases hroom : r.bufsize < MAX_BUF
  · have hr := buf_enqueue_room c r h hroom
    simp only [MAX_BUF] at hroom
    rw [if_pos hroom]
    exact hr
  · rw [buf_enqueue_full c r hroom]
    simp only [MAX_BUF] at hroom
    rw [if_neg hroom]
    exact ⟨h, rfl⟩

/-- Dequeueing refines the bounded queue of the specification. -/
theorem buf_dequeue_refines (r : RingBuf) (h : RingInv r) :
    RingInv (buf_dequeue r).2 ∧
    ((buf_dequeue r).1, ring_contents (buf_dequeue r).2) = fifo_dequeue (ring_contents r) ∧
    (r.bufsize = 0 → buf_dequeue r = (0, r)) := by
  by_cases hpos : 0 < r.bufsize
  · obtain ⟨hi, hc⟩ := buf_dequeue_some r h hpos
    refine ⟨hi, ?_, fun h0 => absurd h0 (by omega)⟩
    rw [hc]
    rfl
  · have h0 : r.bufsize = 0 := by omega
    have e : buf_dequeue r = (0, r) := by
      simp only [buf_dequeue, gt_iff_lt, if_neg hpos]
    have hnil : ring_contents r = [] := by
      unfold ring_contents
      rw [h0]
      rfl
    rw [e, hnil]
    exact ⟨h, rfl, fun _ => rfl⟩

/-- Pushing a list of bytes on the bounded queue keeps the bytes that fit, in order. -/
theorem fifo_enqueue_foldl (bs l : List Nat) :
    bs.foldl (fun q c => fifo_enqueue c q) l = l ++ bs.take (254 - l.length) := by
  induction bs generalizing l with
  | nil => simp
  | cons b bs ih =>
    simp only [List.foldl_cons]
    rw [ih]
    unfold fifo_enqueue
    by_cases hl : l.length < 254
    · rw [if_pos hl]
      obtain ⟨k, hk⟩ : ∃ k, 254 - l.length = k + 1 := ⟨253 - l.length, by omega⟩
      have hk2 : 254 - (l ++ [b]).length = k := by
        simp only [List.length_append, List.length_cons, List.length_nil]
        omega
      rw [hk, hk2, List.take_succ_cons, List.append_assoc]
      rfl
    · rw [if_neg hl]
      have hz : 254 - l.length = 0 := by omega
      rw [hz, List.take_zero, List.take_zero]

/-- Filling the buffer from empty keeps it consistent; it holds the first 254 bytes. -/
theorem ring_filled_contents (bs : List Nat) (r : RingBuf) :
    RingInv (ring_filled bs r) ∧ ring_contents (ring_filled bs r) = bs.take 254 := by
  have key : ∀ (cs : List Nat) (s : RingBuf), RingInv s →
      RingInv (cs.foldl (fun s c => buf_enqueue c s) s) ∧
      ring_contents (cs.foldl (fun s c => buf_enqueue c s) s) =
        cs.foldl (fun q c => fifo_enqueue c q) (ring_contents s) := by
    intro cs
    induction cs with
    | nil => intro s hs; exact ⟨hs, rfl⟩
    | cons c cs ih =>
      intro s hs
      obtain ⟨h1, h2⟩ := buf_enqueue_refines c s hs
      obtain ⟨h3, h4⟩ := ih (buf_enqueue c s) h1
      simp only [List.foldl_cons]
      exact ⟨h3, by rw [h4, h2]⟩
  obtain ⟨hc1, hc2⟩ := buf_clear_inv r
  obtain ⟨k1, k2⟩ := key bs (buf_clear r) hc1
  refine ⟨k1, ?_⟩
  unfold ring_filled
  rw [k2, hc2, fifo_enqueue_foldl]
  simp

/-- The consumer loop, given enough iterations, hands over the bytes held, oldest first. -/
theorem ring_drain_contents (fuel : Nat) (r : RingBuf) (h : RingInv r)
    (hfuel : r.bufsize ≤ fuel) : ring_drain fuel r = ring_contents r := by
  induction fuel generalizing r with
  | zero =>
    have h0 : r.bufsize = 0 := by omega
    unfold ring_contents
    rw [h0]
    rfl
  | succ n ih =>
    unfold ring_drain
    by_cases hz : r.bufsize ≠ 0
    · rw [if_pos hz]
      have hpos : 0 < r.bufsize := by omega
      obtain ⟨hi, hc⟩ := buf_dequeue_some r h hpos
      have hsz : (buf_dequeue r).2.bufsize = r.bufsize - 1 := by
        rw [buf_dequeue_eq r h hpos]
      rw [ih (buf_dequeue r).2 hi (by omega), hc]
    · rw [if_neg hz]
      have h0 : r.bufsize = 0 := by omega
      unfold ring_contents
      rw [h0]
      rfl

/-- C27: on every consistent ring buffer (`RingInv`, which `buf_clear` establishes and
both operations keep) the bytes held form a list of at most 254 bytes and the operations
refine the bounded queue of the specification: `buf_enqueue(c)` appends `c` when fewer
than 254 bytes are held and otherwise leaves the whole buffer state unchanged;
`buf_dequeue` removes and returns the oldest byte, and returns 0 changing nothing when
the buffer is empty; `buf_size` is the length of the list.  Hence the bytes enqueued
after `buf_clear` are handed to the consumer loop in the order accepted, the first 254
of them when more are sent without a dequeue. -/
theorem ring_buffer_refines_fifo (r : RingBuf) (c : Nat) (h : RingInv r) :
    RingInv (buf_enqueue c r) ∧
    ring_contents (buf_enqueue c r) = fifo_enqueue c (ring_contents r) ∧
    (254 ≤ (ring_contents r).length → buf_enqueue c r = r) ∧
    RingInv (buf_dequeue r).2 ∧
    ((buf_dequeue r).1, ring_contents (buf_dequeue r).2) = fifo_dequeue (ring_contents r) ∧
    (ring_contents r = [] → buf_dequeue r = (0, r)) ∧
    buf_size r = (ring_contents r).length ∧
    (ring_contents r).length ≤ 254 ∧
    (∀ r0 : RingBuf, RingInv (buf_clear r0) ∧ ring_contents (buf_clear r0) = []) ∧
    (∀ (bs : List Nat) (r0 : RingBuf),
      ring_drain MAX_BUF (ring_filled bs r0) = bs.take 254) := by
  obtain ⟨e1, e2⟩ := buf_enqueue_refines c r h
  obtain ⟨d1, d2, d3⟩ := buf_dequeue_refines r h
  have hl := ring_contents_length r
  refine ⟨e1, e2, ?_, d1, d2, ?_, ?_, ?_, buf_clear_inv, ?_⟩
  · intro hfull
    exact buf_enqueue_full c r (by simp only [MAX_BUF]; omega)
  · intro hnil
    apply d3
    rw [← hl, hnil]
    rfl
  · exact hl.symm
  · rw [hl]
    exact h.2.2.1
  · intro bs r0
    obtain ⟨f1, f2⟩ := ring_filled_contents bs r0
    rw [ring_drain_contents MAX_BUF _ f1 f1.2.2.1, f2]

/-- C27 (witness): after `buf_clear` and the bytes 7, 8, 9 the buffer is consistent and
holds `[7, 8, 9]`; enqueueing 10 gives `[7, 8, 9, 10]` and dequeueing returns 7 and
leaves `[8, 9]`. -/
theorem ring_buffer_refines_fifo_witness :
    RingInv (ring_filled [7, 8, 9] ⟨fun _ => 0, 0, 0, 0⟩) ∧
    ring_contents (buf_enqueue 10 (ring_filled [7, 8, 9] ⟨fun _ => 0, 0, 0, 0⟩)) =
      [7, 8, 9, 10] ∧
    (buf_dequeue (ring_filled [7, 8, 9] ⟨fun _ => 0, 0, 0, 0⟩)).1 = 7 ∧
    ring_contents (buf_dequeue (ring_filled [7, 8, 9] ⟨fun _ => 0, 0, 0, 0⟩)).2 = [8, 9] :=
  have h := ring_buffer_refines_fifo (ring_filled [7, 8, 9] ⟨fun _ => 0, 0, 0, 0⟩) 10
    (by decide)
  ⟨by decide, h.2.1.trans (by decide), by decide, by decide⟩

/-! ### Save and restore (C21) -/

/-- The idle dispatcher writes neither the saved-state slot nor the configuration
switch. -/
theorem receive_idle_slot (c : Nat) (t : Terminal) :
    (receive_idle c t).savedstate = t.savedstate ∧
    (receive_idle c t).process_escseqs = t.process_escseqs := by
  unfold receive_idle
  refine ite_prop (fun s : Terminal => s.savedstate = t.savedstate ∧
    s.process_escseqs = t.process_escseqs) (fun _ => ⟨rfl, rfl⟩) (fun _ => ?_)
  refine ite_prop (fun s : Terminal => s.savedstate = t.savedstate ∧
    s.process_escseqs = t.process_escseqs) (fun _ => ⟨rfl, rfl⟩) (fun _ => ?_)
  refine ite_prop (fun s : Terminal => s.savedstate = t.savedstate ∧
    s.process_escseqs = t.process_escseqs) (fun _ => ⟨rfl, rfl⟩) (fun _ => ?_)
  refine ite_prop (fun s : Terminal => s.savedstate = t.savedstate ∧
    s.process_escseqs = t.process_escseqs) (fun _ => ⟨rfl, rfl⟩) (fun _ => ?_)
  refine ite_prop (fun s : Terminal => s.savedstate = t.savedstate ∧
    s.process_escseqs = t.process_escseqs) (fun _ => ⟨rfl, rfl⟩) (fun _ => ?_)
  refine ite_prop (fun s : Terminal => s.savedstate = t.savedstate ∧
    s.process_escseqs = t.process_escseqs) (fun _ => ⟨rfl, rfl⟩) (fun _ => ?_)
  refine ite_prop (fun s : Terminal => s.savedstate = t.savedstate ∧
    s.process_escseqs = t.process_escseqs) (fun _ => ⟨rfl, rfl⟩) (fun _ => ?_)
  refine ite_prop (fun s : Terminal => s.savedstate = t.savedstate ∧
    s.process_escseqs = t.process_escseqs) (fun _ => ⟨rfl, rfl⟩) (fun _ => ?_)
  exact ite_prop (fun s : Terminal => s.savedstate = t.savedstate ∧
    s.process_escseqs = t.process_escseqs) (fun _ => ⟨rfl, rfl⟩) (fun _ => ⟨rfl, rfl⟩)

theorem esc_index_slot (t : Terminal) :
    (esc_index t).savedstate = t.savedstate ∧
    (esc_index t).process_escseqs = t.process_escseqs := by
  unfold esc_index
  split_ifs <;> exact ⟨rfl, rfl⟩

theorem esc_reverse_index_slot (t : Terminal) :
    (esc_reverse_index t).savedstate = t.savedstate ∧
    (esc_reverse_index t).process_escseqs = t.process_escseqs := by
  unfold esc_reverse_index
  split_ifs <;> exact ⟨rfl, rfl⟩

/-- The non-CSI switch never writes the configuration switch, and writes the saved-state
slot only on `7` and `c`. -/
theorem escseq_process_noncsi_slot (c : Nat) (t : Terminal) :
    (escseq_process_noncsi c t).process_escseqs = t.process_escseqs ∧
    (¬ (c = 0x37 ∨ c = 0x63) → (escseq_process_noncsi c t).savedstate = t.savedstate) := by
  unfold escseq_process_noncsi
  have i1 := esc_index_slot t
  have i2 := esc_index_slot { t with video := video_movesol t.video }
  have i3 := esc_reverse_index_slot t
  split_ifs with h1 h2 h3 h4 h5 h6 h7 h8
  · exact ⟨rfl, fun _ => rfl⟩
  · exact ⟨rfl, fun _ => rfl⟩
  · exact ⟨rfl, fun h => absurd (Or.inl h3) h⟩
  · exact ⟨rfl, fun _ => rfl⟩
  · exact ⟨i2.2, fun _ => i2.1⟩
  · exact ⟨i1.2, fun _ => i1.1⟩
  · exact ⟨i3.2, fun _ => i3.1⟩
  · exact ⟨rfl, fun h => absurd (Or.inr h8) h⟩
  · exact ⟨rfl, fun _ => rfl⟩

/-- The CSI switch writes neither the saved-state slot nor the configuration switch. -/
theorem escseq_process_csi_slot (c : Nat) (t : Terminal) :
    (escseq_process_csi c t).savedstate = t.savedstate ∧
    (escseq_process_csi c t).process_escseqs = t.process_escseqs := by
  have f := csi_dispatch_frame c t
  unfold escseq_process_csi
  split_ifs
  · exact ⟨rfl, rfl⟩
  · exact ⟨rfl, rfl⟩
  · exact ⟨f.2.2.2.2.1, f.2.2.1⟩

/-- A byte that does not complete `ESC 7` or `ESC c` leaves the saved-state slot as it
is, and no byte changes the configuration switch. -/
theorem receive_char_slot (c : Nat) (t : Terminal) :
    (receive_char c t).process_escseqs = t.process_escseqs ∧
    (¬ saves_state c t → (receive_char c t).savedstate = t.savedstate) := by
  have hi := receive_idle_slot c t
  have hc := escseq_process_csi_slot c t
  have hn := escseq_process_noncsi_slot c { t with in_esc := ESC_NONCSI }
  unfold saves_state
  unfold receive_char escseq_process
  split_ifs with h1 h2 h3 h4 h5 h6 h7
  · exact ⟨rfl, fun _ => rfl⟩
  · exact ⟨rfl, fun _ => rfl⟩
  · exact ⟨hc.2, fun _ => hc.1⟩
  · exact ⟨rfl, fun _ => rfl⟩
  · exact ⟨hn.1, fun h => hn.2 (fun hs => h ⟨h1, h7, hs⟩)⟩
  · exact ⟨rfl, fun _ => rfl⟩
  · exact ⟨hi.2, fun _ => hi.1⟩
  · exact ⟨rfl, fun _ => rfl⟩

/-- Along bytes none of which completes `ESC 7` or `ESC c`, the saved-state slot and the
configuration switch stay as they are. -/
theorem feed_slot (bs : List Nat) (t : Terminal) (h : no_save bs t) :
    (feed bs t).savedstate = t.savedstate ∧
    (feed bs t).process_escseqs = t.process_escseqs := by
  induction bs generalizing t with
  | nil => exact ⟨rfl, rfl⟩
  | cons c cs ih =>
    obtain ⟨h1, h2⟩ := h
    obtain ⟨i1, i2⟩ := ih (receive_char c t) h2
    have hs := receive_char_slot c t
    exact ⟨i1.trans (hs.2 h1), i2.trans hs.1⟩

/-- The terminal after `ESC 7` received in an idle state. -/
theorem feed_save (t : Terminal) (hesc : t.process_escseqs ≠ 0)
    (hidle : t.in_esc = NOT_IN_ESC) :
    feed [0x1B, 0x37] t =
      { t with in_esc := NOT_IN_ESC,
               savedstate := { cx := t.video.cx, cy := t.video.cy,
                               graphicchars := t.graphicchars, revvideo := t.revvideo } } := by
  rw [feed_esc 0x37 t hesc hidle (by decide) (by decide), escseq_process_noncsi_save]
  rfl

/-- The terminal after `ESC 8` received in an idle state. -/
theorem feed_restore (t : Terminal) (hesc : t.process_escseqs ≠ 0)
    (hidle : t.in_esc = NOT_IN_ESC) :
    feed [0x1B, 0x38] t =
      { t with video := video_gotoxy t.savedstate.cx t.savedstate.cy t.video,
               in_esc := NOT_IN_ESC, graphicchars := t.savedstate.graphicchars,
               revvideo := t.savedstate.revvideo } := by
  rw [feed_esc 0x38 t hesc hidle (by decide) (by decide), escseq_process_noncsi_restore]
  rfl

/-- C21 (counterexample): after start-up and `ESC [ 5 ; 5 H` the cursor is at column 4 of
row 4; `ESC 7`, then `ESC c`, then `ESC 8` leave it at column 0 of row 0, the position
that the reset saved, not the one held at `ESC 7`.  And with the cursor in the
pending-wrap column 54 after 54 printed bytes, `ESC 7` immediately followed by `ESC 8`
leaves it in column 53. -/
theorem restore_after_reset_or_pending_wrap :
    (feed [0x1B, 0x5B, 0x35, 0x3B, 0x35, 0x48] boot).video.cx = 4 ∧
    (feed [0x1B, 0x5B, 0x35, 0x3B, 0x35, 0x48] boot).video.cy = 4 ∧
    (feed [0x1B, 0x5B, 0x35, 0x3B, 0x35, 0x48, 0x1B, 0x37, 0x1B, 0x63, 0x1B, 0x38]
      boot).video.cx = 0 ∧
    (feed [0x1B, 0x5B, 0x35, 0x3B, 0x35, 0x48, 0x1B, 0x37, 0x1B, 0x63, 0x1B, 0x38]
      boot).video.cy = 0 ∧
    (feed (List.replicate 54 0x41) boot).video.cx = 54 ∧
    (feed (List.replicate 54 0x41 ++ [0x1B, 0x37, 0x1B, 0x38]) boot).video.cx = 53 := by
  decide

/-- C21 (amended): from every idle state with escape processing enabled whose cursor is
on a cell of the screen (not in the pending-wrap column), after `ESC 7`, any bytes none
of which completes a further `ESC 7` or an `ESC c`, and `ESC 8` received when the parser
is idle again, the cursor column, cursor row, graphic-character-set flag and SGR
reverse-video flag are those held at the `ESC 7`. -/
theorem save_restore_round_trip (t : Terminal) (bs : List Nat)
    (hesc : t.process_escseqs ≠ 0) (hidle : t.in_esc = NOT_IN_ESC)
    (hx : 0 ≤ t.video.cx ∧ t.video.cx < TILES_WIDE)
    (hy : 0 ≤ t.video.cy ∧ t.video.cy < TILES_HIGH)
    (hns : no_save bs (feed [0x1B, 0x37] t))
    (hidle2 : (feed bs (feed [0x1B, 0x37] t)).in_esc = NOT_IN_ESC) :
    (feed (0x1B :: 0x37 :: (bs ++ [0x1B, 0x38])) t).video.cx = t.video.cx ∧
    (feed (0x1B :: 0x37 :: (bs ++ [0x1B, 0x38])) t).video.cy = t.video.cy ∧
    (feed (0x1B :: 0x37 :: (bs ++ [0x1B, 0x38])) t).graphicchars = t.graphicchars ∧
    (feed (0x1B :: 0x37 :: (bs ++ [0x1B, 0x38])) t).revvideo = t.revvideo := by
  have e : feed (0x1B :: 0x37 :: (bs ++ [0x1B, 0x38])) t =
      feed [0x1B, 0x38] (feed bs (feed [0x1B, 0x37] t)) := by
    have : 0x1B :: 0x37 :: (bs ++ [0x1B, 0x38]) = [0x1B, 0x37] ++ (bs ++ [0x1B, 0x38]) := rfl
    rw [this, feed_append, feed_append]
  obtain ⟨s1, s2⟩ := feed_slot bs (feed [0x1B, 0x37] t) hns
  have hsv := feed_save t hesc hidle
  have hesc2 : (feed bs (feed [0x1B, 0x37] t)).process_escseqs ≠ 0 := by
    rw [s2, hsv]
    exact hesc
  have hslot : (feed bs (feed [0x1B, 0x37] t)).savedstate =
      { cx := t.video.cx, cy := t.video.cy, graphicchars := t.graphicchars,
        revvideo := t.revvideo } := by
    rw [s1, hsv]
  rw [e, feed_restore _ hesc2 hidle2, hslot]
  have hg := video_gotoxy_cursor t.video.cx t.video.cy
    (feed bs (feed [0x1B, 0x37] t)).video hx hy
  exact ⟨hg.1, hg.2, rfl, rfl⟩

/-- C21 (witness): on the sample terminal with the graphic character set on (cursor at
column 3 of row 4), `ESC 7`, then a line feed, `Hi`, `ESC [ 7 m`, SI and `ESC [ H`, then
`ESC 8`: the cursor is back at column 3 of row 4, the graphic character set is on and the
SGR attribute is off.  Before the `ESC 8` the cursor is at the origin with the flag
cleared and the attribute on. -/
theorem save_restore_round_trip_witness :
    (feed (0x1B :: 0x37 :: ([0x0A, 0x48, 0x69, 0x1B, 0x5B, 0x37, 0x6D, 0x0F, 0x1B, 0x5B, 0x48] ++
      [0x1B, 0x38])) { demo_term with graphicchars := 1 }).video.cx = 3 ∧
    (feed (0x1B :: 0x37 :: ([0x0A, 0x48, 0x69, 0x1B, 0x5B, 0x37, 0x6D, 0x0F, 0x1B, 0x5B, 0x48] ++
      [0x1B, 0x38])) { demo_term with graphicchars := 1 }).video.cy = 4 ∧
    (feed (0x1B :: 0x37 :: ([0x0A, 0x48, 0x69, 0x1B, 0x5B, 0x37, 0x6D, 0x0F, 0x1B, 0x5B, 0x48] ++
      [0x1B, 0x38])) { demo_term with graphicchars := 1 }).graphicchars = 1 ∧
    (feed (0x1B :: 0x37 :: ([0x0A, 0x48, 0x69, 0x1B, 0x5B, 0x37, 0x6D, 0x0F, 0x1B, 0x5B, 0x48] ++
      [0x1B, 0x38])) { demo_term with graphicchars := 1 }).revvideo = 0 ∧
    (feed [0x1B, 0x37, 0x0A, 0x48, 0x69, 0x1B, 0x5B, 0x37, 0x6D, 0x0F, 0x1B, 0x5B, 0x48]
      { demo_term with graphicchars := 1 }).video.cx = 0 ∧
    (feed [0x1B, 0x37, 0x0A, 0x48, 0x69, 0x1B, 0x5B, 0x37, 0x6D, 0x0F, 0x1B, 0x5B, 0x48]
      { demo_term with graphicchars := 1 }).graphicchars = 0 ∧
    (feed [0x1B, 0x37, 0x0A, 0x48, 0x69, 0x1B, 0x5B, 0x37, 0x6D, 0x0F, 0x1B, 0x5B, 0x48]
      { demo_term with graphicchars := 1 }).revvideo = 0x80 :=
  have h := save_restore_round_trip { demo_term with graphicchars := 1 }
    [0x0A, 0x48, 0x69, 0x1B, 0x5B, 0x37, 0x6D, 0x0F, 0x1B, 0x5B, 0x48]
    (by decide) (by decide) (by decide) (by decide) (by decide) (by decide)
  ⟨h.1, h.2.1, h.2.2.1, h.2.2.2, by decide, by decide, by decide⟩

/-! ### The screen reverse-video byte is 0 or 0x80 -/

theorem _video_lfwd_revvideo (v : Video) : (_video_lfwd v).revvideo = v.revvideo := by
  simp only [_video_lfwd]
  split_ifs <;> rfl

theorem _video_cfwd_revvideo (v : Video) : (_video_cfwd v).revvideo = v.revvideo := by
  simp only [_video_cfwd]
  split_ifs
  · exact _video_lfwd_revvideo _
  · rfl

theorem pending_wrap_revvideo (v : Video) :
    (if v.cx ≥ TILES_WIDE then _video_lfwd v else v).revvideo = v.revvideo := by
  split_ifs
  · exact _video_lfwd_revvideo v
  · rfl

theorem _video_putc_revvideo (c : Nat) (v : Video) :
    (_video_putc c v).revvideo = v.revvideo := by
  have h1 := pending_wrap_revvideo v
  unfold _video_putc
  generalize (if v.cx ≥ TILES_WIDE then _video_lfwd v else v) = w at h1
  simp only
  split_ifs
  · exact h1
  · exact (_video_lfwd_revvideo w).trans h1
  · exact (_video_cfwd_revvideo _).trans h1

theorem puts_loop_revvideo (str : List Nat) (v : Video) :
    (puts_loop str v).revvideo = v.revvideo := by
  induction str generalizing v with
  | nil => rfl
  | cons c cs ih =>
    unfold puts_loop
    split_ifs
    · rfl
    · exact (ih _).trans (_video_putc_revvideo c v)

theorem video_putc_raw_revvideo (c : Nat) (v : Video) :
    (video_putc_raw c v).revvideo = v.revvideo := by
  have h1 := pending_wrap_revvideo (CURSOR_INVERT v)
  exact (_video_cfwd_revvideo _).trans h1

theorem video_putcxy_revvideo (x y : Int) (c : Nat) (v : Video) :
    (video_putcxy x y c v).revvideo = v.revvideo := by
  simp only [video_putcxy]
  split_ifs <;> rfl

theorem video_putsxy_revvideo (x y : Int) (str : List Nat) (v : Video) :
    (video_putsxy x y str v).revvideo = v.revvideo := by
  simp only [video_putsxy]
  split_ifs <;> rfl

theorem video_putline_revvideo (y : Int) (str : List Nat) (v : Video) :
    (video_putline y str v).revvideo = v.revvideo := by
  simp only [video_putline]
  split_ifs <;> rfl

theorem welcome_border_revvideo (l : List Nat) (v : Video) :
    (l.foldl (fun (w : Video) (j : Nat) =>
      video_putcxy (j + 1) 2 0x12 (video_putcxy (j + 1) 0 0x12 w)) v).revvideo = v.revvideo := by
  induction l generalizing v with
  | nil => rfl
  | cons j js ih =>
    simp only [List.foldl_cons]
    rw [ih, video_putcxy_revvideo, video_putcxy_revvideo]

theorem video_clrscr_revvideo (v : Video) : (video_clrscr v).revvideo = v.revvideo := by
  have h := video_reset_margins_fields (CURSOR_INVERT v)
  simp only [video_clrscr, CURSOR_INVERT_revvideo]
  exact h.2.2.1

theorem video_welcome_revvideo (v : Video) : (video_welcome v).revvideo = v.revvideo := by
  simp only [video_welcome, video_putsxy_revvideo, video_putcxy_revvideo,
    welcome_border_revvideo, video_clrscr_revvideo]

theorem video_erase_revvideo (m : Int) (v : Video) :
    (video_erase m v).revvideo = v.revvideo := by
  simp only [video_erase, CURSOR_INVERT_revvideo]
  split_ifs <;> rfl

theorem video_eraseline_revvideo (m : Int) (v : Video) :
    (video_eraseline m v).revvideo = v.revvideo := by
  simp only [video_eraseline, CURSOR_INVERT_revvideo]
  split_ifs <;> rfl

theorem video_movex_revvideo (dx : Int) (v : Video) :
    (video_movex dx v).revvideo = v.revvideo := by
  simp only [video_movex, CURSOR_INVERT_revvideo]
  split_ifs <;> rfl

theorem video_movey_revvideo (dy : Int) (v : Video) :
    (video_movey dy v).revvideo = v.revvideo := by
  simp only [video_movey, CURSOR_INVERT_revvideo]
  split_ifs <;> rfl

theorem video_setx_revvideo (x : Int) (v : Video) :
    (video_setx x v).revvideo = v.revvideo := by
  simp only [video_setx, CURSOR_INVERT_revvideo]
  split_ifs <;> rfl

theorem video_lf_revvideo (v : Video) : (video_lf v).revvideo = v.revvideo := by
  simp only [video_lf, CURSOR_INVERT_revvideo]
  split_ifs <;> rfl

theorem video_lfwd_revvideo (v : Video) : (video_lfwd v).revvideo = v.revvideo := by
  simp only [video_lfwd, CURSOR_INVERT_revvideo]
  split_ifs <;> rfl

theorem video_lback_revvideo (v : Video) : (video_lback v).revvideo = v.revvideo := by
  simp only [video_lback, CURSOR_INVERT_revvideo]
  split_ifs <;> rfl

theorem video_cback_revvideo (v : Video) : (video_cback v).revvideo = v.revvideo := by
  simp only [video_cback, _video_lback, CURSOR_INVERT_revvideo]
  split_ifs <;> rfl

theorem video_set_margins_revvideo (top bottom : Int) (v : Video) :
    (video_set_margins top bottom v).revvideo = v.revvideo := by
  have h := video_gotoxy_fields
  unfold video_set_margins
  simp only [(h _ _ _).2.2.2.2.2.2.1]

theorem video_show_cursor_revvideo (v : Video) :
    (video_show_cursor v).revvideo = v.revvideo := by
  simp only [video_show_cursor]
  split_ifs <;> rfl

theorem video_hide_cursor_revvideo (v : Video) :
    (video_hide_cursor v).revvideo = v.revvideo := by
  simp only [video_hide_cursor]
  split_ifs <;> rfl

/-- Every exported video operation keeps the screen reverse-video byte 0 or 0x80. -/
theorem revok_onVideo (o : Op) (v : Video) (h : RevOk v) : RevOk (o.onVideo v) := by
  have key : ∀ w : Video, w.revvideo = v.revvideo → RevOk w := by
    intro w hw
    unfold RevOk at *
    rw [hw]
    exact h
  cases o with
  | receive_char c => exact h
  | video_set_margins top bottom => exact key _ (video_set_margins_revvideo top bottom v)
  | video_reset_margins => exact key _ (video_set_margins_revvideo _ _ v)
  | video_set_reverse val =>
    show (if val ≠ 0 then 0x80 else 0) = 0 ∨ (if val ≠ 0 then 0x80 else 0) = 0x80
    split_ifs
    · exact Or.inr rfl
    · exact Or.inl rfl
  | video_clrscr => exact key _ (video_clrscr_revvideo v)
  | video_clrline => exact key _ rfl
  | video_clreol => exact key _ rfl
  | video_erase m => exact key _ (video_erase_revvideo m v)
  | video_eraseline m => exact key _ (video_eraseline_revvideo m v)
  | video_setc c => exact key _ rfl
  | video_putc c => exact key _ (_video_putc_revvideo c (CURSOR_INVERT v))
  | video_putc_raw c => exact key _ (video_putc_raw_revvideo c v)
  | video_puts str => exact key _ (puts_loop_revvideo str (CURSOR_INVERT v))
  | video_putcxy x y c => exact key _ (video_putcxy_revvideo x y c v)
  | video_putsxy x y str => exact key _ (video_putsxy_revvideo x y str v)
  | video_putline y str => exact key _ (video_putline_revvideo y str v)
  | video_gotoxy x y => exact key _ (video_gotoxy_fields x y v).2.2.2.2.2.2.1
  | video_movex dx => exact key _ (video_movex_revvideo dx v)
  | video_movey dy => exact key _ (video_movey_revvideo dy v)
  | video_movesol => exact key _ rfl
  | video_setx x => exact key _ (video_setx_revvideo x v)
  | video_cfwd => exact key _ (_video_cfwd_revvideo (CURSOR_INVERT v))
  | video_lfwd => exact key _ (video_lfwd_revvideo v)
  | video_lf => exact key _ (video_lf_revvideo v)
  | video_cback => exact key _ (video_cback_revvideo v)
  | video_lback => exact key _ (video_lback_revvideo v)
  | video_scrollup => exact key _ rfl
  | video_scrolldown => exact key _ rfl
  | video_show_cursor => exact key _ (video_show_cursor_revvideo v)
  | video_hide_cursor => exact key _ (video_hide_cursor_revvideo v)
  | video_invert_range x y n => exact key _ rfl
  | video_welcome => exact key _ (video_welcome_revvideo v)

/-- The terminator switch leaves the screen reverse-video byte alone. -/
theorem csi_dispatch_revvideo (c : Nat) (t : Terminal) :
    (csi_dispatch c t).video.revvideo = t.video.revvideo := by
  have s := sgr_loop_frame (t.paramstr.length + 1) t
  rcases csi_terminator_cases c with
    rfl | rfl | rfl | rfl | rfl | rfl | rfl | hc | rfl | rfl | rfl | rfl | hc
  · rw [csi_dispatch_A]
    simp only [escseq_get_param_video, video_movey_revvideo]
  · rw [csi_dispatch_B]
    simp only [escseq_get_param_video, video_movey_revvideo]
  · rw [csi_dispatch_C]
    simp only [escseq_get_param_video, video_movex_revvideo]
  · rw [csi_dispatch_D]
    simp only [escseq_get_param_video, video_movex_revvideo]
  · rw [csi_dispatch_E]
    simp only [escseq_get_param_video]
    exact (video_movey_revvideo _ t.video)
  · rw [csi_dispatch_F]
    simp only [escseq_get_param_video]
    exact (video_movey_revvideo _ t.video)
  · rw [csi_dispatch_G]
    simp only [escseq_get_param_video, video_setx_revvideo]
  · rw [csi_dispatch_H c hc]
    simp only [escseq_get_param_video, (video_gotoxy_fields _ _ _).2.2.2.2.2.2.1]
  · rw [csi_dispatch_J]
    simp only [escseq_get_param_video, video_erase_revvideo]
  · rw [csi_dispatch_K]
    simp only [escseq_get_param_video, video_eraseline_revvideo]
  · rw [csi_dispatch_m, s.1]
  · rw [csi_dispatch_r]
    simp only [escseq_get_param_video, video_set_margins_revvideo]
  · rw [csi_dispatch_unknown c t hc]

/-- No byte changes the screen reverse-video byte. -/
theorem receive_char_revvideo (c : Nat) (t : Terminal) :
    (receive_char c t).video.revvideo = t.video.revvideo := by
  have hd := csi_dispatch_revvideo c t
  have hidle : (receive_idle c t).video.revvideo = t.video.revvideo := by
    unfold receive_idle
    refine ite_prop (fun s : Terminal => s.video.revvideo = t.video.revvideo)
      (fun _ => rfl) (fun _ => ?_)
    refine ite_prop (fun s : Terminal => s.video.revvideo = t.video.revvideo)
      (fun _ => video_cback_revvideo _) (fun _ => ?_)
    refine ite_prop (fun s : Terminal => s.video.revvideo = t.video.revvideo)
      (fun _ => video_lf_revvideo _) (fun _ => ?_)
    refine ite_prop (fun s : Terminal => s.video.revvideo = t.video.revvideo)
      (fun _ => video_setx_revvideo _ _) (fun _ => ?_)
    refine ite_prop (fun s : Terminal => s.video.revvideo = t.video.revvideo)
      (fun _ => rfl) (fun _ => ?_)
    refine ite_prop (fun s : Terminal => s.video.revvideo = t.video.revvideo)
      (fun _ => rfl) (fun _ => ?_)
    refine ite_prop (fun s : Terminal => s.video.revvideo = t.video.revvideo)
      (fun _ => rfl) (fun _ => ?_)
    refine ite_prop (fun s : Terminal => s.video.revvideo = t.video.revvideo)
      (fun _ => rfl) (fun _ => ?_)
    exact ite_prop (fun s : Terminal => s.video.revvideo = t.video.revvideo)
      (fun _ => video_putc_raw_revvideo _ _) (fun _ => rfl)
  have hidx : ∀ s : Terminal, (esc_index s).video.revvideo = s.video.revvideo := by
    intro s
    unfold esc_index
    split_ifs
    · rfl
    · exact video_movey_revvideo _ _
  have hrix : (esc_reverse_index { t with in_esc := ESC_NONCSI }).video.revvideo =
      t.video.revvideo := by
    unfold esc_reverse_index
    split_ifs
    · rfl
    · exact video_movey_revvideo _ _
  have hnon : (escseq_process_noncsi c { t with in_esc := ESC_NONCSI }).video.revvideo =
      t.video.revvideo := by
    unfold escseq_process_noncsi
    split_ifs
    · rfl
    · rfl
    · rfl
    · exact (video_gotoxy_fields _ _ _).2.2.2.2.2.2.1
    · exact hidx _
    · exact hidx _
    · exact hrix
    · exact video_clrscr_revvideo _
    · rfl
  have hcsi : (escseq_process_csi c t).video.revvideo = t.video.revvideo := by
    unfold escseq_process_csi
    split_ifs
    · rfl
    · rfl
    · exact hd
  unfold receive_char escseq_process
  split_ifs
  · exact video_putc_raw_revvideo _ _
  · rfl
  · exact hcsi
  · rfl
  · exact hnon
  · rfl
  · exact hidle
  · rfl

/-- In every state reached from one whose screen reverse-video byte is 0 or 0x80 (as it
is once the statics are zero-initialised) by bytes given to `receive_char` and calls of
the `video_*` operations, that byte is 0 or 0x80. -/
theorem run_ops_revok (ops : List Op) (t : Terminal) (h : RevOk t.video) :
    RevOk (run_ops ops t).video := by
  induction ops generalizing t with
  | nil => exact h
  | cons o os ih =>
    apply ih
    cases o with
    | receive_char c =>
      unfold RevOk at *
      show (receive_char c t).video.revvideo = 0 ∨ (receive_char c t).video.revvideo = 0x80
      rw [receive_char_revvideo]
      exact h
    | _ => exact revok_onVideo _ t.video h

/-! ### Index and line feed (C31) -/

theorem video_lf_in_region (v : Video) (hinv : Inv v) (hlt : v.cy < v.mbottom) :
    video_lf v = CURSOR_INVERT { CURSOR_INVERT v with cy := v.cy + 1 } := by
  obtain ⟨h1, h2, h3, h4, h5, h6, h7⟩ := hinv
  simp only [TILES_WIDE, TILES_HIGH] at h1 h2 h3 h4 h5 h6 h7
  have hwrap : int8_t (v.cy + 1) = v.cy + 1 := by unfold int8_t; omega
  simp only [video_lf, CURSOR_INVERT_cy, CURSOR_INVERT_mbottom, hwrap]
  rw [if_neg (by omega)]

theorem video_lf_at_bottom (v : Video) (hinv : Inv v) (hcy : v.cy = v.mbottom) :
    video_lf v = video_scrollup v := by
  obtain ⟨h1, h2, h3, h4, h5, h6, h7⟩ := hinv
  simp only [TILES_WIDE, TILES_HIGH] at h1 h2 h3 h4 h5 h6 h7
  have hwrap : int8_t (v.cy + 1) = v.cy + 1 := by unfold int8_t; omega
  have hsame : { CURSOR_INVERT v with cy := v.mbottom } = CURSOR_INVERT v := by
    rw [← hcy]
    rfl
  simp only [video_lf, video_scrollup, CURSOR_INVERT_cy, CURSOR_INVERT_mbottom, hwrap]
  rw [if_pos (by omega)]
  exact congrArg (fun w => CURSOR_INVERT (_video_scrollup w)) hsame

theorem video_movey_one_in_region (v : Video) (hinv : Inv v) (hge : v.mtop ≤ v.cy)
    (hlt : v.cy < v.mbottom) :
    video_movey 1 v = CURSOR_INVERT { CURSOR_INVERT v with cy := v.cy + 1 } := by
  obtain ⟨h1, h2, h3, h4, h5, h6, h7⟩ := hinv
  simp only [TILES_WIDE, TILES_HIGH] at h1 h2 h3 h4 h5 h6 h7
  have hwrap : int8_t (v.cy + 1) = v.cy + 1 := by unfold int8_t; omega
  simp only [video_movey, CURSOR_INVERT_cy, CURSOR_INVERT_mbottom, CURSOR_INVERT_mtop, hwrap]
  rw [if_neg (show ¬ v.cy + 1 < v.mtop by omega), if_neg (show ¬ v.cy + 1 > v.mbottom by omega)]

/-- C31 (counterexample): with the cursor outside the scroll region ESC D and LF differ.
After `ESC [ 6 ; 11 r` (region rows 5 to 10, cursor on row 0) ESC D puts the cursor on
row 5 and LF on row 1.  After `A`, `ESC [ 1 ; 5 r`, `ESC [ 10 ; 1 H` (region rows 0 to 4,
cursor on row 9, an `A` in the top left cell) both put the cursor on row 4, but LF scrolls
the region and ESC D does not: the top left cell is 0 after LF and still `A` after
ESC D. -/
theorem index_differs_outside_region :
    (feed [0x1B, 0x5B, 0x36, 0x3B, 0x31, 0x31, 0x72] boot).video.cy = 0 ∧
    (feed [0x1B, 0x5B, 0x36, 0x3B, 0x31, 0x31, 0x72] boot).video.mtop = 5 ∧
    (feed [0x1B, 0x5B, 0x36, 0x3B, 0x31, 0x31, 0x72] boot).video.mbottom = 10 ∧
    (feed [0x1B, 0x5B, 0x36, 0x3B, 0x31, 0x31, 0x72, 0x1B, 0x44] boot).video.cy = 5 ∧
    (feed [0x1B, 0x5B, 0x36, 0x3B, 0x31, 0x31, 0x72, 0x0A] boot).video.cy = 1 ∧
    (feed [0x41, 0x1B, 0x5B, 0x31, 0x3B, 0x35, 0x72, 0x1B, 0x5B, 0x31, 0x30, 0x3B, 0x31, 0x48]
      boot).video.cy = 9 ∧
    (feed [0x41, 0x1B, 0x5B, 0x31, 0x3B, 0x35, 0x72, 0x1B, 0x5B, 0x31, 0x30, 0x3B, 0x31, 0x48]
      boot).video.mbottom = 4 ∧
    (feed [0x41, 0x1B, 0x5B, 0x31, 0x3B, 0x35, 0x72, 0x1B, 0x5B, 0x31, 0x30, 0x3B, 0x31, 0x48,
      0x1B, 0x44] boot).video.cy = 4 ∧
    (feed [0x41, 0x1B, 0x5B, 0x31, 0x3B, 0x35, 0x72, 0x1B, 0x5B, 0x31, 0x30, 0x3B, 0x31, 0x48,
      0x1B, 0x44] boot).video.TILEMAP (tile 0 0) = 0x41 ∧
    (feed [0x41, 0x1B, 0x5B, 0x31, 0x3B, 0x35, 0x72, 0x1B, 0x5B, 0x31, 0x30, 0x3B, 0x31, 0x48,
      0x0A] boot).video.cy = 4 ∧
    (feed [0x41, 0x1B, 0x5B, 0x31, 0x3B, 0x35, 0x72, 0x1B, 0x5B, 0x31, 0x30, 0x3B, 0x31, 0x48,
      0x0A] boot).video.TILEMAP (tile 0 0) = 0 := by
  decide

/-- C31 (amended): in idle mode with escape processing on and the cursor row inside the
scroll region (`mtop ≤ cy ≤ mbottom`), the sequence ESC D leaves the terminal in exactly
the state a line feed byte 0x0A leaves it in. -/
theorem index_is_line_feed_in_region (t : Terminal) (hesc : t.process_escseqs ≠ 0)
    (hidle : t.in_esc = NOT_IN_ESC) (hinv : Inv t.video)
    (hin : t.video.mtop ≤ t.video.cy ∧ t.video.cy ≤ t.video.mbottom) :
    feed [0x1B, 0x44] t = receive_char 0x0A t := by
  rw [feed_esc 0x44 t hesc hidle (by decide) (by decide),
    receive_char_idle 0x0A t hesc hidle (by decide), receive_idle_lf 0x0A t (Or.inl rfl)]
  have hstep : escseq_process_noncsi 0x44 { t with in_esc := ESC_NONCSI } =
      { esc_index { t with in_esc := ESC_NONCSI } with in_esc := NOT_IN_ESC } := rfl
  rw [hstep]
  have hv : (esc_index { t with in_esc := ESC_NONCSI }) =
      { t with in_esc := ESC_NONCSI, video := video_lf t.video } := by
    unfold esc_index
    simp only [video_gety, video_bottom_margin]
    by_cases hcy : t.video.cy = t.video.mbottom
    · rw [if_pos hcy, video_lf_at_bottom t.video hinv hcy]
    · rw [if_neg hcy, video_movey_one_in_region t.video hinv hin.1 (by omega),
        video_lf_in_region t.video hinv (by omega)]
  rw [hv]
  cases t
  simp only [NOT_IN_ESC] at hidle
  subst hidle
  rfl

/-- C31 (amended, witness): on the sample terminal (cursor on row 4, region rows 2 to 5)
ESC D and LF give the same state, with the cursor on row 5. -/
theorem index_is_line_feed_in_region_witness :
    demo_term.process_escseqs ≠ 0 ∧ demo_term.in_esc = NOT_IN_ESC ∧ Inv demo_term.video ∧
    (demo_term.video.mtop ≤ demo_term.video.cy ∧
      demo_term.video.cy ≤ demo_term.video.mbottom) ∧
    feed [0x1B, 0x44] demo_term = receive_char 0x0A demo_term :=
  ⟨by decide, rfl, by decide, by decide,
    index_is_line_feed_in_region demo_term (by decide) rfl (by decide) (by decide)⟩

/-! ### Reverse index (C32) -/

theorem feed_reverse_index (t : Terminal) (hesc : t.process_escseqs ≠ 0)
    (hidle : t.in_esc = NOT_IN_ESC) :
    feed [0x1B, 0x4D] t =
      { t with video := (if t.video.cy = t.video.mtop then video_scrolldown t.video
                         else video_movey (-1) t.video) } := by
  rw [feed_esc 0x4D t hesc hidle (by decide) (by decide)]
  have hstep : escseq_process_noncsi 0x4D { t with in_esc := ESC_NONCSI } =
      { esc_reverse_index { t with in_esc := ESC_NONCSI } with in_esc := NOT_IN_ESC } := rfl
  rw [hstep]
  unfold esc_reverse_index
  simp only [video_gety, video_top_margin]
  cases t
  simp only [NOT_IN_ESC] at hidle
  subst hidle
  split_ifs <;> rfl

theorem video_movey_back_in_region (v : Video) (hinv : Inv v) (hgt : v.mtop < v.cy)
    (hle : v.cy ≤ v.mbottom) :
    video_movey (-1) v = CURSOR_INVERT { CURSOR_INVERT v with cy := v.cy - 1 } := by
  obtain ⟨h1, h2, h3, h4, h5, h6, h7⟩ := hinv
  simp only [TILES_WIDE, TILES_HIGH] at h1 h2 h3 h4 h5 h6 h7
  have hwrap : int8_t (v.cy + -1) = v.cy - 1 := by unfold int8_t; omega
  simp only [video_movey, CURSOR_INVERT_cy, CURSOR_INVERT_mbottom, CURSOR_INVERT_mtop, hwrap]
  rw [if_neg (show ¬ v.cy - 1 < v.mtop by omega),
    if_neg (show ¬ v.cy - 1 > v.mbottom by omega)]

/-- C32: in idle mode with escape processing on and the cursor row inside the scroll
region (`mtop ≤ cy ≤ mbottom`), ESC M acts on the video state only and keeps the cursor
column; when `cy > mtop` the row is decremented and the buffer is unchanged; when
`cy = mtop` the row stays and the region is scrolled down one line: rows
`mtop .. mbottom - 1` move to `mtop + 1 .. mbottom`, row `mtop` is filled with the screen
reverse-video byte and every cell outside the region is kept.  The buffer is compared with
the cursor mask removed (`CURSOR_INVERT`), which is the buffer itself when the cursor is
hidden. -/
theorem reverse_index_spec (t : Terminal) (hesc : t.process_escseqs ≠ 0)
    (hidle : t.in_esc = NOT_IN_ESC) (hinv : Inv t.video)
    (hin : t.video.mtop ≤ t.video.cy ∧ t.video.cy ≤ t.video.mbottom) :
    feed [0x1B, 0x4D] t = { t with video := (feed [0x1B, 0x4D] t).video } ∧
    (feed [0x1B, 0x4D] t).video.cx = t.video.cx ∧
    (feed [0x1B, 0x4D] t).video.mtop = t.video.mtop ∧
    (feed [0x1B, 0x4D] t).video.mbottom = t.video.mbottom ∧
    (t.video.cy > t.video.mtop →
      (feed [0x1B, 0x4D] t).video.cy = t.video.cy - 1 ∧
      (CURSOR_INVERT (feed [0x1B, 0x4D] t).video).TILEMAP = (CURSOR_INVERT t.video).TILEMAP ∧
      (t.video.showcursor = 0 → (feed [0x1B, 0x4D] t).video.TILEMAP = t.video.TILEMAP)) ∧
    (t.video.cy = t.video.mtop →
      (feed [0x1B, 0x4D] t).video.cy = t.video.mtop ∧
      ScrolledDown (CURSOR_INVERT t.video).TILEMAP
        (CURSOR_INVERT (feed [0x1B, 0x4D] t).video).TILEMAP
        t.video.mtop t.video.mbottom t.video.revvideo ∧
      (t.video.showcursor = 0 →
        ScrolledDown t.video.TILEMAP (feed [0x1B, 0x4D] t).video.TILEMAP
          t.video.mtop t.video.mbottom t.video.revvideo)) := by
  rw [feed_reverse_index t hesc hidle]
  have hm := hinv.2.2.2.2
  by_cases hcy : t.video.cy = t.video.mtop
  · rw [if_pos hcy]
    refine ⟨rfl, rfl, rfl, rfl, fun h => absurd hcy (by omega), fun _ => ⟨hcy, ?_, ?_⟩⟩
    · unfold video_scrolldown
      rw [CURSOR_INVERT_twice]
      exact _video_scrolldown_rows (CURSOR_INVERT t.video) hm
    · intro hs
      unfold video_scrolldown
      rw [CURSOR_INVERT_hidden t.video hs, CURSOR_INVERT_hidden (_video_scrolldown t.video) hs]
      exact _video_scrolldown_rows t.video hm
  · rw [if_neg hcy]
    rw [video_movey_back_in_region t.video hinv (by omega) hin.2]
    refine ⟨rfl, rfl, rfl, rfl, fun _ => ⟨rfl, ?_, ?_⟩, fun h => absurd h hcy⟩
    · rw [CURSOR_INVERT_twice]
    · intro hs
      rw [CURSOR_INVERT_hidden t.video hs,
        CURSOR_INVERT_hidden { t.video with cy := t.video.cy - 1 } hs]

/-- C32 (witness): on the sample terminal (cursor on row 4, region rows 2 to 5) ESC M
keeps column 3 and moves to row 3; with the cursor moved to the top margin, row 2, the row
stays 2 and row 3 receives the old row 2. -/
theorem reverse_index_spec_witness :
    demo_term.process_escseqs ≠ 0 ∧ demo_term.in_esc = NOT_IN_ESC ∧ Inv demo_term.video ∧
    (demo_term.video.mtop ≤ demo_term.video.cy ∧
      demo_term.video.cy ≤ demo_term.video.mbottom) ∧
    (feed [0x1B, 0x4D] demo_term).video.cx = 3 ∧
    (feed [0x1B, 0x4D] demo_term).video.cy = 3 ∧
    (feed [0x1B, 0x4D] { demo_term with video := { demo_video with cy := 2 } }).video.cy = 2 ∧
    (feed [0x1B, 0x4D] { demo_term with video := { demo_video with cy := 2 } }).video.TILEMAP
      (tile 3 7) = demo_video.TILEMAP (tile 2 7) :=
  ⟨by decide, rfl, by decide, by decide,
    (reverse_index_spec demo_term (by decide) rfl (by decide) (by decide)).2.1,
    ((reverse_index_spec demo_term (by decide) rfl (by decide) (by decide)).2.2.2.2.1
      (by decide)).1,
    ((reverse_index_spec { demo_term with video := { demo_video with cy := 2 } } (by decide)
      rfl (by decide) (by decide)).2.2.2.2.2 rfl).1,
    (((reverse_index_spec { demo_term with video := { demo_video with cy := 2 } } (by decide)
      rfl (by decide) (by decide)).2.2.2.2.2 rfl).2.2 rfl).1 2 7 (by decide) (by decide)
      (by decide) (by decide)⟩

/-! ### A runaway CSI sequence (C33) -/

theorem receive_idle_paramch (c : Nat) (t : Terminal) :
    (receive_idle c t).paramch = t.paramch := by
  unfold receive_idle
  refine ite_prop (fun s : Terminal => s.paramch = t.paramch) (fun _ => rfl) (fun _ => ?_)
  refine ite_prop (fun s : Terminal => s.paramch = t.paramch) (fun _ => rfl) (fun _ => ?_)
  refine ite_prop (fun s : Terminal => s.paramch = t.paramch) (fun _ => rfl) (fun _ => ?_)
  refine ite_prop (fun s : Terminal => s.paramch = t.paramch) (fun _ => rfl) (fun _ => ?_)
  refine ite_prop (fun s : Terminal => s.paramch = t.paramch) (fun _ => rfl) (fun _ => ?_)
  refine ite_prop (fun s : Terminal => s.paramch = t.paramch) (fun _ => rfl) (fun _ => ?_)
  refine ite_prop (fun s : Terminal => s.paramch = t.paramch) (fun _ => rfl) (fun _ => ?_)
  refine ite_prop (fun s : Terminal => s.paramch = t.paramch) (fun _ => rfl) (fun _ => ?_)
  exact ite_prop (fun s : Terminal => s.paramch = t.paramch) (fun _ => rfl) (fun _ => rfl)

theorem escseq_process_noncsi_paramch (c : Nat) (t : Terminal) :
    (escseq_process_noncsi c t).paramch ≤ t.paramch := by
  unfold escseq_process_noncsi esc_index esc_reverse_index
  split_ifs <;> first | exact Nat.le_refl _ | exact Nat.zero_le _

theorem escseq_process_csi_paramch (c : Nat) (t : Terminal) (h : t.paramch ≤ MAX_ESC_LEN) :
    (escseq_process_csi c t).paramch ≤ MAX_ESC_LEN := by
  have f := (csi_dispatch_frame c t).2.1
  unfold escseq_process_csi
  split_ifs with h1 h2
  · exact h
  · show t.paramch + 1 ≤ MAX_ESC_LEN
    omega
  · show (csi_dispatch c t).paramch ≤ MAX_ESC_LEN
    rw [f]
    exact h

/-- The write index of the parameter buffer never passes `MAX_ESC_LEN`. -/
theorem receive_char_paramch (c : Nat) (t : Terminal) (h : t.paramch ≤ MAX_ESC_LEN) :
    (receive_char c t).paramch ≤ MAX_ESC_LEN := by
  have hi := receive_idle_paramch c t
  have hc := escseq_process_csi_paramch c t h
  have hn := escseq_process_noncsi_paramch c { t with in_esc := ESC_NONCSI }
  unfold receive_char escseq_process
  split_ifs
  · exact h
  · exact h
  · exact hc
  · exact h
  · exact Nat.le_trans hn h
  · exact h
  · rw [hi]; exact h
  · exact h

theorem feed_paramch (bs : List Nat) (t : Terminal) (h : t.paramch ≤ MAX_ESC_LEN) :
    (feed bs t).paramch ≤ MAX_ESC_LEN := by
  induction bs generalizing t with
  | nil => exact h
  | cons b bs ih => exact ih (receive_char b t) (receive_char_paramch b t h)

theorem feed_process_escseqs (bs : List Nat) (t : Terminal) :
    (feed bs t).process_escseqs = t.process_escseqs := by
  induction bs generalizing t with
  | nil => rfl
  | cons b bs ih => exact (ih (receive_char b t)).trans (receive_char_slot b t).1

/-- In CSI mode every nonzero byte that is not stored returns the parser to idle. -/
theorem receive_char_csi_idle (c : Nat) (t : Terminal) (hesc : t.process_escseqs ≠ 0)
    (hmode : t.in_esc = ESC_CSI) (hc0 : c ≠ 0)
    (hc : ¬ (is_param c ∧ t.paramch < MAX_ESC_LEN)) :
    (receive_char c t).in_esc = NOT_IN_ESC := by
  by_cases hp : is_param c
  · rw [receive_char_overflow c t hesc hmode hp (Nat.le_of_not_lt (fun h => hc ⟨hp, h⟩))]
  · by_cases hcan : c = 0x18 ∨ c = 0x1A
    · rw [receive_char_in_esc c t hesc (by rw [hmode]; decide) hc0,
        escseq_process_cancel c t hcan]
    · rw [receive_char_terminator c t hesc hmode hp hc0 (by omega)]

/-- From CSI mode, a run of nonzero bytes longer than the room left in the parameter
buffer reaches idle mode within `MAX_ESC_LEN + 1 - paramch` bytes. -/
theorem feed_csi_idle_within (bs : List Nat) (t : Terminal) (hesc : t.process_escseqs ≠ 0)
    (hmode : t.in_esc = ESC_CSI) (hroom : t.paramch ≤ MAX_ESC_LEN) (hnz : ∀ b ∈ bs, b ≠ 0)
    (hlen : MAX_ESC_LEN < t.paramch + bs.length) :
    ∃ k, 1 ≤ k ∧ k + t.paramch ≤ MAX_ESC_LEN + 1 ∧ k ≤ bs.length ∧
      (feed (bs.take k) t).in_esc = NOT_IN_ESC := by
  induction bs generalizing t with
  | nil =>
    simp only [List.length_nil] at hlen
    omega
  | cons b bs ih =>
    have hb0 : b ≠ 0 := hnz b (List.mem_cons_self b bs)
    by_cases hst : is_param b ∧ t.paramch < MAX_ESC_LEN
    · have hstep := receive_char_store b t hesc hmode hst.1 hst.2
      have hlen2 : MAX_ESC_LEN < (receive_char b t).paramch + bs.length := by
        rw [hstep]
        simp only [List.length_cons] at hlen
        show MAX_ESC_LEN < t.paramch + 1 + bs.length
        omega
      obtain ⟨k, hk1, hk2, hk3, hk4⟩ := ih (receive_char b t)
        (by rw [hstep]; exact hesc) (by rw [hstep]; exact hmode)
        (by rw [hstep]; exact hst.2)
        (fun x hx => hnz x (List.mem_cons_of_mem b hx)) hlen2
      refine ⟨k + 1, by omega, ?_, by simp only [List.length_cons]; omega, hk4⟩
      rw [hstep] at hk2
      have hk2b : k + (t.paramch + 1) ≤ MAX_ESC_LEN + 1 := hk2
      omega
    · exact ⟨1, Nat.le_refl 1, by omega, by simp only [List.length_cons]; omega,
        receive_char_csi_idle b t hesc hmode hb0 hst⟩

/-- C33: after `ESC [` received in idle mode with escape processing on,
(1) along every run of at least 49 nonzero bytes the parser is idle again after some
`k ≤ 49` of them;
(2) up to `MAX_ESC_LEN = 48` parameter bytes (digits, `;`, `?`) are stored in order from
index 0, and a following terminator executes its command on them;
(3) after 48 stored parameter bytes a 49th parameter byte only sets the mode to idle: it is
not stored, and the video state (cursor, buffer, margins) and the attribute state are
those from before the sequence;
(4) whatever bytes follow `ESC [`, the write index stays at most 48, and a parameter byte
received in CSI mode is stored at the write index only when that index is at most 47, the
only other outcome being the return to idle with nothing stored. -/
theorem runaway_csi_bounded (t : Terminal) (hesc : t.process_escseqs ≠ 0)
    (hidle : t.in_esc = NOT_IN_ESC) :
    (∀ bs : List Nat, (∀ b ∈ bs, b ≠ 0) → MAX_ESC_LEN + 1 ≤ bs.length →
      ∃ k, 1 ≤ k ∧ k ≤ MAX_ESC_LEN + 1 ∧
        (feed (0x1B :: 0x5B :: bs.take k) t).in_esc = NOT_IN_ESC) ∧
    (∀ ps : List Nat, (∀ d ∈ ps, is_param d) → ps.length ≤ MAX_ESC_LEN →
      feed (0x1B :: 0x5B :: ps) t = csi_collected ps t ∧
      ∀ c, ¬ is_param c → c ≠ 0 → c ≠ 0x18 ∧ c ≠ 0x1A →
        feed (0x1B :: 0x5B :: (ps ++ [c])) t =
          { csi_dispatch c (csi_collected ps t) with in_esc := NOT_IN_ESC }) ∧
    (∀ (ps : List Nat) (c : Nat), (∀ d ∈ ps, is_param d) → ps.length = MAX_ESC_LEN →
      is_param c →
      feed (0x1B :: 0x5B :: (ps ++ [c])) t =
        { csi_collected ps t with in_esc := NOT_IN_ESC } ∧
      (feed (0x1B :: 0x5B :: (ps ++ [c])) t).paramstr = ps ++ [0] ∧
      (feed (0x1B :: 0x5B :: (ps ++ [c])) t).video = t.video ∧
      (feed (0x1B :: 0x5B :: (ps ++ [c])) t).revvideo = t.revvideo ∧
      (feed (0x1B :: 0x5B :: (ps ++ [c])) t).graphicchars = t.graphicchars) ∧
    (∀ (bs : List Nat) (c : Nat),
      (feed (0x1B :: 0x5B :: bs) t).paramch ≤ MAX_ESC_LEN ∧
      ((feed (0x1B :: 0x5B :: bs) t).in_esc = ESC_CSI → is_param c →
        ((feed (0x1B :: 0x5B :: bs) t).paramch ≤ MAX_ESC_LEN - 1 ∧
          receive_char c (feed (0x1B :: 0x5B :: bs) t) =
            { feed (0x1B :: 0x5B :: bs) t with
              paramstr := (feed (0x1B :: 0x5B :: bs) t).paramstr.set
                (feed (0x1B :: 0x5B :: bs) t).paramch c,
              paramch := (feed (0x1B :: 0x5B :: bs) t).paramch + 1 }) ∨
        ((feed (0x1B :: 0x5B :: bs) t).paramch = MAX_ESC_LEN ∧
          receive_char c (feed (0x1B :: 0x5B :: bs) t) =
            { feed (0x1B :: 0x5B :: bs) t with in_esc := NOT_IN_ESC }))) := by
  have hsplit : ∀ bs : List Nat,
      feed (0x1B :: 0x5B :: bs) t = feed bs (feed [0x1B, 0x5B] t) := fun _ => rfl
  have hintro := feed_csi_intro t hesc hidle
  refine ⟨?_, ?_, ?_, ?_⟩
  · intro bs hnz hlen
    obtain ⟨k, hk1, hk2, _, hk4⟩ := feed_csi_idle_within bs (feed [0x1B, 0x5B] t)
      (by rw [hintro]; exact hesc) (by rw [hintro]) (by rw [hintro]; exact Nat.zero_le _) hnz
      (by rw [hintro]; show MAX_ESC_LEN < 0 + bs.length; omega)
    rw [hintro] at hk2
    have hk2b : k + 0 ≤ MAX_ESC_LEN + 1 := hk2
    exact ⟨k, hk1, by omega, by rw [hsplit]; exact hk4⟩
  · intro ps hps hfit
    exact ⟨feed_csi_params ps t hesc hidle hps hfit,
      fun c hc hc0 hcan => feed_csi_sequence ps c t hesc hidle hps hfit hc hc0 hcan⟩
  · intro ps c hps hlen hc
    have happ : feed (0x1B :: 0x5B :: (ps ++ [c])) t =
        receive_char c (feed (0x1B :: 0x5B :: ps) t) :=
      feed_append (0x1B :: 0x5B :: ps) [c] t
    have hcol : feed (0x1B :: 0x5B :: ps) t = csi_collected ps t :=
      feed_csi_params ps t hesc hidle hps (by omega)
    have heq : feed (0x1B :: 0x5B :: (ps ++ [c])) t =
        { csi_collected ps t with in_esc := NOT_IN_ESC } := by
      rw [happ, hcol]
      exact receive_char_overflow c (csi_collected ps t) hesc rfl hc
        (by show MAX_ESC_LEN ≤ ps.length; omega)
    refine ⟨heq, ?_, ?_, ?_, ?_⟩
    · rw [heq]
      show ps ++ List.replicate (MAX_ESC_LEN + 1 - ps.length) 0 = ps ++ [0]
      rw [hlen]
      rfl
    · rw [heq]; rfl
    · rw [heq]; rfl
    · rw [heq]; rfl
  · intro bs c
    have hroom : (feed (0x1B :: 0x5B :: bs) t).paramch ≤ MAX_ESC_LEN := by
      rw [hsplit]
      exact feed_paramch bs _ (by rw [hintro]; exact Nat.zero_le _)
    have hon : (feed (0x1B :: 0x5B :: bs) t).process_escseqs ≠ 0 := by
      rw [feed_process_escseqs]
      exact hesc
    refine ⟨hroom, fun hmode hc => ?_⟩
    by_cases hfit : (feed (0x1B :: 0x5B :: bs) t).paramch < MAX_ESC_LEN
    · exact Or.inl ⟨by omega, receive_char_store c _ hon hmode hc hfit⟩
    · exact Or.inr ⟨by omega, receive_char_overflow c _ hon hmode hc (by omega)⟩

/-- C33 (witness): from start-up, `ESC [ 5 B` executes its command on the stored
parameter, and 49 digits `1` after `ESC [` leave the parser idle with the video state
untouched. -/
theorem runaway_csi_bounded_witness :
    boot.process_escseqs ≠ 0 ∧ boot.in_esc = NOT_IN_ESC ∧
    feed (0x1B :: 0x5B :: ([0x35] ++ [0x42])) boot =
      { csi_dispatch 0x42 (csi_collected [0x35] boot) with in_esc := NOT_IN_ESC } ∧
    (feed (0x1B :: 0x5B :: (List.replicate 48 0x31 ++ [0x31])) boot).video = boot.video ∧
    (feed (0x1B :: 0x5B :: (List.replicate 48 0x31 ++ [0x31])) boot).paramstr =
      List.replicate 48 0x31 ++ [0] :=
  ⟨by decide, rfl,
    ((runaway_csi_bounded boot (by decide) rfl).2.1 [0x35]
      (fun d hd => by rw [List.mem_singleton.mp hd]; unfold is_param; decide)
      (by decide)).2 0x42 (by unfold is_param; decide) (by decide) (by decide),
    ((runaway_csi_bounded boot (by decide) rfl).2.2.1 (List.replicate 48 0x31) 0x31
      (fun d hd => by rw [List.eq_of_mem_replicate hd]; unfold is_param; decide)
      (by decide) (by unfold is_param; decide)).2.2.1,
    ((runaway_csi_bounded boot (by decide) rfl).2.2.1 (List.replicate 48 0x31) 0x31
      (fun d hd => by rw [List.eq_of_mem_replicate hd]; unfold is_param; decide)
      (by decide) (by unfold is_param; decide)).2.1⟩

/-! ### Clearing to the end of the line with the cursor shown (C34) -/

/-- C34 (evaluation): `video_clreol` writes the fill byte over the cursor cell without
removing and reapplying the cursor mask.  On the cleared start-up screen with the cursor
shown at the top left cell (fill byte 0) the cursor cell holds the mask 0x80 before the
call and 0 after it, whereas hiding the cursor, calling `video_clreol` and showing the
cursor again leaves 0x80 there, as does `video_eraseline 0`; a following move of the
cursor to column 5 then sets the 0x80 bit in the cell the cursor has left. -/
theorem clreol_drops_cursor_mask :
    (video_show_cursor boot.video).showcursor = 0x80 ∧
    (video_show_cursor boot.video).cx = 0 ∧ (video_show_cursor boot.video).cy = 0 ∧
    (video_show_cursor boot.video).revvideo = 0 ∧
    (video_show_cursor boot.video).TILEMAP (tile 0 0) = 0x80 ∧
    (video_clreol (video_show_cursor boot.video)).showcursor = 0x80 ∧
    (video_clreol (video_show_cursor boot.video)).TILEMAP (tile 0 0) = 0 ∧
    (video_show_cursor (video_clreol (video_hide_cursor
      (video_show_cursor boot.video)))).TILEMAP (tile 0 0) = 0x80 ∧
    (video_eraseline 0 (video_show_cursor boot.video)).TILEMAP (tile 0 0) = 0x80 ∧
    (video_gotoxy 5 0 (video_clreol (video_show_cursor boot.video))).TILEMAP (tile 0 0) = 0x80 ∧
    (video_gotoxy 5 0 (video_clreol (video_show_cursor boot.video))).TILEMAP (tile 0 5) = 0x80 ∧
    (video_gotoxy 5 0 (video_show_cursor (video_clreol (video_hide_cursor
      (video_show_cursor boot.video))))).TILEMAP (tile 0 0) = 0 := by
  decide

/-! ### Accesses stay inside the tile map (C35) -/

@[simp] theorem with_outside_cx (v : Video) (g : Int → Nat) : (with_outside v g).cx = v.cx := rfl
@[simp] theorem with_outside_cy (v : Video) (g : Int → Nat) : (with_outside v g).cy = v.cy := rfl
@[simp] theorem with_outside_mtop (v : Video) (g : Int → Nat) :
    (with_outside v g).mtop = v.mtop := rfl
@[simp] theorem with_outside_mbottom (v : Video) (g : Int → Nat) :
    (with_outside v g).mbottom = v.mbottom := rfl
@[simp] theorem with_outside_showcursor (v : Video) (g : Int → Nat) :
    (with_outside v g).showcursor = v.showcursor := rfl
@[simp] theorem with_outside_revvideo (v : Video) (g : Int → Nat) :
    (with_outside v g).revvideo = v.revvideo := rfl

theorem graft_inside (m g : Int → Nat) (i : Int) (h : 0 ≤ i ∧ i < TILEMAP_SIZE) :
    graft m g i = m i := by
  unfold graft
  rw [if_pos h]

theorem graft_outside (m g : Int → Nat) (i : Int) (h : i < 0 ∨ TILEMAP_SIZE ≤ i) :
    graft m g i = g i := by
  unfold graft
  rw [if_neg (by omega)]

theorem graft_self (m : Int → Nat) : graft m m = m := by
  funext i
  unfold graft
  split_ifs <;> rfl

/-- A store inside the tile map neither reads nor writes outside it. -/
theorem poke_graft (m g : Int → Nat) (k : Int) (b : Nat) (hk : 0 ≤ k ∧ k < TILEMAP_SIZE) :
    poke (graft m g) k b = graft (poke m k b) g := by
  funext i
  simp only [poke, graft]
  by_cases hi : i = k
  · rw [if_pos hi, if_pos (by omega), if_pos hi]
  · rw [if_neg hi, if_neg hi]

/-- A `memset` whose range lies inside the tile map. -/
theorem memset_graft (m g : Int → Nat) (dst : Int) (val : Nat) (n : Int)
    (h : 0 ≤ dst ∧ dst + n ≤ TILEMAP_SIZE) :
    memset (graft m g) dst val n = graft (memset m dst val n) g := by
  funext i
  simp only [memset, graft]
  by_cases hi : dst ≤ i ∧ i < dst + n
  · rw [if_pos hi, if_pos (by omega), if_pos hi]
  · rw [if_neg hi, if_neg hi]

/-- A `memmove` whose source and destination ranges lie inside the tile map. -/
theorem memmove_graft (m g : Int → Nat) (dst src n : Int)
    (h : 0 ≤ dst ∧ dst + n ≤ TILEMAP_SIZE ∧ 0 ≤ src ∧ src + n ≤ TILEMAP_SIZE) :
    memmove (graft m g) dst src n = graft (memmove m dst src n) g := by
  funext i
  simp only [memmove, graft]
  by_cases hi : dst ≤ i ∧ i < dst + n
  · rw [if_pos hi, if_pos (show 0 ≤ i - dst + src ∧ i - dst + src < TILEMAP_SIZE by omega),
      if_pos (show 0 ≤ i ∧ i < TILEMAP_SIZE by omega), if_pos hi]
  · rw [if_neg hi, if_neg hi]

/-- Under the bounds the cursor cell lies inside the tile map (its last row included). -/
theorem cursor_cell_inside (v : Video) (h : Inv v) :
    0 ≤ tile v.cy v.cx ∧ tile v.cy v.cx < TILEMAP_SIZE := by
  obtain ⟨h1, h2, h3, h4, _⟩ := h
  simp only [tile, TILEMAP_SIZE, TILES_WIDE, TILES_HIGH] at *
  omega

theorem CURSOR_INVERT_outside (v : Video) (g : Int → Nat)
    (h : 0 ≤ tile v.cy v.cx ∧ tile v.cy v.cx < TILEMAP_SIZE) :
    CURSOR_INVERT (with_outside v g) = with_outside (CURSOR_INVERT v) g := by
  unfold CURSOR_INVERT with_outside
  simp only [graft_inside v.TILEMAP g _ h, poke_graft v.TILEMAP g _ _ h]

/-- An operation of the form toggle, body, toggle commutes with the replacement of the
memory outside the tile map when its body does and the cursor cell is inside before and
after. -/
theorem sandwich_outside (body : Video → Video) (v : Video) (g : Int → Nat) (h : Inv v)
    (hb : body (with_outside (CURSOR_INVERT v) g) = with_outside (body (CURSOR_INVERT v)) g)
    (hout : Inv (body (CURSOR_INVERT v))) :
    CURSOR_INVERT (body (CURSOR_INVERT (with_outside v g))) =
      with_outside (CURSOR_INVERT (body (CURSOR_INVERT v))) g := by
  rw [CURSOR_INVERT_outside v g (cursor_cell_inside v h), hb,
    CURSOR_INVERT_outside _ g (cursor_cell_inside _ hout)]

theorem video_movesol_outside (v : Video) (g : Int → Nat) (h : Inv v) :
    video_movesol (with_outside v g) = with_outside (video_movesol v) g :=
  sandwich_outside (fun w : Video => { w with cx := 0 }) v g h rfl (video_movesol_inv v h)

theorem video_setx_outside (x : Int) (v : Video) (g : Int → Nat) (h : Inv v) :
    video_setx x (with_outside v g) = with_outside (video_setx x v) g :=
  sandwich_outside (fun w : Video =>
    let w1 : Video := { w with cx := x }
    let w2 : Video := if w1.cx < 0 then { w1 with cx := 0 } else w1
    if w2.cx ≥ TILES_WIDE then { w2 with cx := TILES_WIDE - 1 } else w2) v g h
    (by simp only []; split_ifs <;> rfl) (video_setx_inv x v h)

theorem video_movex_outside (dx : Int) (v : Video) (g : Int → Nat) (h : Inv v) :
    video_movex dx (with_outside v g) = with_outside (video_movex dx v) g :=
  sandwich_outside (fun w : Video =>
    let w1 : Video := { w with cx := int8_t (w.cx + dx) }
    let w2 : Video := if w1.cx < 0 then { w1 with cx := 0 } else w1
    if w2.cx ≥ TILES_WIDE then { w2 with cx := TILES_WIDE - 1 } else w2) v g h
    (by
      simp only [with_outside_cx, with_outside_cy, with_outside_mtop, with_outside_mbottom]
      split_ifs <;> rfl) (video_movex_inv dx v h)

theorem video_movey_outside (dy : Int) (v : Video) (g : Int → Nat) (h : Inv v) :
    video_movey dy (with_outside v g) = with_outside (video_movey dy v) g :=
  sandwich_outside (fun w : Video =>
    let w1 : Video := { w with cy := int8_t (w.cy + dy) }
    let w2 : Video := if w1.cy < w1.mtop then { w1 with cy := w1.mtop } else w1
    if w2.cy > w2.mbottom then { w2 with cy := w2.mbottom } else w2) v g h
    (by
      simp only [with_outside_cx, with_outside_cy, with_outside_mtop, with_outside_mbottom]
      split_ifs <;> rfl) (video_movey_inv dy v h)

/-- Closed form of `video_gotoxy`: both coordinates are clamped between the toggles. -/
theorem video_gotoxy_clamped (x y : Int) (v : Video) :
    video_gotoxy x y v =
      CURSOR_INVERT { CURSOR_INVERT v with
        cx := (if x < 0 then 0 else if x ≥ TILES_WIDE then TILES_WIDE - 1 else x),
        cy := (if y < 0 then 0 else if y ≥ TILES_HIGH then TILES_HIGH - 1 else y) } := by
  simp only [video_gotoxy, TILES_WIDE, TILES_HIGH]
  by_cases hx1 : x < 0 <;> by_cases hx2 : x ≥ 54 <;> by_cases hy1 : y < 0 <;>
    by_cases hy2 : y ≥ 24 <;> simp [hx1, hx2, hy1, hy2]

theorem video_gotoxy_outside (x y : Int) (v : Video) (g : Int → Nat) (h : Inv v) :
    video_gotoxy x y (with_outside v g) = with_outside (video_gotoxy x y v) g := by
  have hout := video_gotoxy_inv x y v h
  rw [video_gotoxy_clamped] at hout
  rw [video_gotoxy_clamped, video_gotoxy_clamped]
  exact sandwich_outside (fun w : Video => { w with
    cx := (if x < 0 then 0 else if x ≥ TILES_WIDE then TILES_WIDE - 1 else x),
    cy := (if y < 0 then 0 else if y ≥ TILES_HIGH then TILES_HIGH - 1 else y) })
    v g h rfl hout

theorem video_set_margins_outside (top bottom : Int) (v : Video) (g : Int → Nat) (h : Inv v) :
    video_set_margins top bottom (with_outside v g) =
      with_outside (video_set_margins top bottom v) g := by
  have hm := (video_set_margins_inv top bottom v).2.2.2.2
  have e1 := video_set_margins_eq top bottom v
  have e2 := video_set_margins_eq top bottom (with_outside v g)
  have s1 := video_set_margins_stored top bottom v
  have s2 := video_set_margins_stored top bottom (with_outside v g)
  rw [s1.1, s1.2] at hm e1
  rw [s2.1, s2.2] at e2
  rw [e2, e1]
  exact video_gotoxy_outside _ 0
    { v with mtop := (if max top 0 < min bottom (TILES_HIGH - 1) then max top 0 else 0),
             mbottom := (if max top 0 < min bottom (TILES_HIGH - 1)
               then min bottom (TILES_HIGH - 1) else TILES_HIGH - 1) } g
    ⟨h.1, h.2.1, h.2.2.1, h.2.2.2.1, hm⟩

theorem video_cback_outside (v : Video) (g : Int → Nat) (h : Inv v) :
    video_cback (with_outside v g) = with_outside (video_cback v) g :=
  sandwich_outside (fun w : Video =>
    let w1 : Video := { w with cx := int8_t (w.cx - 1) }
    if w1.cx < 0 then _video_lback w1 else w1) v g h
    (by
      simp only [_video_lback, with_outside_cx, with_outside_cy, with_outside_mtop,
        with_outside_mbottom]
      split_ifs <;> rfl) (video_cback_inv v h)

/-- Both scroll moves and fills lie inside rows `0 .. TILES_HIGH - 1`. -/
theorem _video_scrollup_outside (v : Video) (g : Int → Nat)
    (hm : 0 ≤ v.mtop ∧ v.mtop < v.mbottom ∧ v.mbottom ≤ TILES_HIGH - 1) :
    _video_scrollup (with_outside v g) = with_outside (_video_scrollup v) g := by
  obtain ⟨h0, h1, h2⟩ := hm
  simp only [TILES_HIGH] at h2
  have hn : size_t ((v.mbottom - v.mtop) * TILES_WIDE) = (v.mbottom - v.mtop) * TILES_WIDE := by
    simp only [size_t, TILES_WIDE]
    exact Int.emod_eq_of_lt (by omega) (by omega)
  unfold _video_scrollup with_outside
  simp only [hn]
  rw [memmove_graft _ g _ _ _
      (by simp only [tile, TILEMAP_SIZE, TILES_WIDE, TILES_HIGH]; omega),
    memset_graft _ g _ _ _
      (by simp only [tile, size_t, TILEMAP_SIZE, TILES_WIDE, TILES_HIGH]; omega)]

theorem _video_scrolldown_outside (v : Video) (g : Int → Nat)
    (hm : 0 ≤ v.mtop ∧ v.mtop < v.mbottom ∧ v.mbottom ≤ TILES_HIGH - 1) :
    _video_scrolldown (with_outside v g) = with_outside (_video_scrolldown v) g := by
  obtain ⟨h0, h1, h2⟩ := hm
  simp only [TILES_HIGH] at h2
  have hn : size_t ((v.mbottom - v.mtop) * TILES_WIDE) = (v.mbottom - v.mtop) * TILES_WIDE := by
    simp only [size_t, TILES_WIDE]
    exact Int.emod_eq_of_lt (by omega) (by omega)
  unfold _video_scrolldown with_outside
  simp only [hn]
  rw [memmove_graft _ g _ _ _
      (by simp only [tile, TILEMAP_SIZE, TILES_WIDE, TILES_HIGH]; omega),
    memset_graft _ g _ _ _
      (by simp only [tile, size_t, TILEMAP_SIZE, TILES_WIDE, TILES_HIGH]; omega)]

theorem video_scrollup_outside (v : Video) (g : Int → Nat) (h : Inv v) :
    video_scrollup (with_outside v g) = with_outside (video_scrollup v) g :=
  sandwich_outside _video_scrollup v g h (_video_scrollup_outside _ g h.2.2.2.2)
    (video_scrollup_inv v h)

theorem video_scrolldown_outside (v : Video) (g : Int → Nat) (h : Inv v) :
    video_scrolldown (with_outside v g) = with_outside (video_scrolldown v) g :=
  sandwich_outside _video_scrolldown v g h (_video_scrolldown_outside _ g h.2.2.2.2)
    (video_scrolldown_inv v h)

theorem video_lf_outside (v : Video) (g : Int → Nat) (h : Inv v) :
    video_lf (with_outside v g) = with_outside (video_lf v) g :=
  sandwich_outside (fun w : Video =>
    let w1 : Video := { w with cy := int8_t (w.cy + 1) }
    if w1.cy > w1.mbottom then _video_scrollup { w1 with cy := w1.mbottom } else w1) v g h
    (by
      simp only [with_outside_cx, with_outside_cy, with_outside_mtop, with_outside_mbottom]
      split_ifs
      · exact _video_scrollup_outside
          { CURSOR_INVERT v with cy := (CURSOR_INVERT v).mbottom } g h.2.2.2.2
      · rfl)
    (video_lf_inv v h)

theorem _video_lfwd_outside (v : Video) (g : Int → Nat)
    (hm : 0 ≤ v.mtop ∧ v.mtop < v.mbottom ∧ v.mbottom ≤ TILES_HIGH - 1) :
    _video_lfwd (with_outside v g) = with_outside (_video_lfwd v) g := by
  unfold _video_lfwd
  simp only [with_outside_cx, with_outside_cy, with_outside_mtop, with_outside_mbottom]
  split_ifs
  · exact _video_scrollup_outside { v with cx := 0, cy := v.mbottom } g hm
  · rfl

theorem _video_cfwd_outside (v : Video) (g : Int → Nat)
    (hm : 0 ≤ v.mtop ∧ v.mtop < v.mbottom ∧ v.mbottom ≤ TILES_HIGH - 1) :
    _video_cfwd (with_outside v g) = with_outside (_video_cfwd v) g := by
  unfold _video_cfwd
  simp only [with_outside_cx, with_outside_cy, with_outside_mtop, with_outside_mbottom]
  split_ifs
  · exact _video_lfwd_outside { v with cx := int8_t (v.cx + 1) } g hm
  · rfl

theorem size_t_small (n : Int) (h : 0 ≤ n ∧ n < 65536) : size_t n = n :=
  Int.emod_eq_of_lt h.1 h.2

theorem place_outside (b : Nat) (w : Video) (g : Int → Nat) (h : Inv w) :
    ({ with_outside w g with
        TILEMAP := poke (with_outside w g).TILEMAP (tile w.cy w.cx) b } : Video) =
      with_outside { w with TILEMAP := poke w.TILEMAP (tile w.cy w.cx) b } g := by
  unfold with_outside
  simp only [poke_graft w.TILEMAP g _ b (cursor_cell_inside w h)]

theorem memset_outside (w : Video) (g : Int → Nat) (dst : Int) (val : Nat) (n : Int)
    (h : 0 ≤ dst ∧ dst + n ≤ TILEMAP_SIZE) :
    ({ with_outside w g with TILEMAP := memset (with_outside w g).TILEMAP dst val n } : Video) =
      with_outside { w with TILEMAP := memset w.TILEMAP dst val n } g := by
  unfold with_outside
  simp only [memset_graft w.TILEMAP g dst val n h]

theorem video_putc_raw_outside (c : Nat) (v : Video) (g : Int → Nat) (h : Inv v) :
    video_putc_raw c (with_outside v g) = with_outside (video_putc_raw c v) g := by
  have hw := CURSOR_INVERT_inv v h
  have h1 := pending_wrap_inv (CURSOR_INVERT v) hw
  have e1 : (if (with_outside (CURSOR_INVERT v) g).cx ≥ TILES_WIDE
        then _video_lfwd (with_outside (CURSOR_INVERT v) g)
        else with_outside (CURSOR_INVERT v) g) =
      with_outside (if (CURSOR_INVERT v).cx ≥ TILES_WIDE then _video_lfwd (CURSOR_INVERT v)
        else CURSOR_INVERT v) g := by
    simp only [with_outside_cx]
    split_ifs
    · exact _video_lfwd_outside _ g hw.2.2.2.2
    · rfl
  refine sandwich_outside (fun w : Video =>
    let w1 : Video := if w.cx ≥ TILES_WIDE then _video_lfwd w else w
    let w2 : Video :=
      { w1 with TILEMAP := poke w1.TILEMAP (tile w1.cy w1.cx) (c ^^^ w1.revvideo) }
    _video_cfwd w2) v g h ?_ (_video_cfwd_inv _ (poke_inv _ _ h1))
  simp only []
  rw [e1]
  generalize (if (CURSOR_INVERT v).cx ≥ TILES_WIDE then _video_lfwd (CURSOR_INVERT v)
    else CURSOR_INVERT v) = u at h1
  exact (congrArg _video_cfwd (place_outside (c ^^^ u.revvideo) u g h1)).trans
    (_video_cfwd_outside _ g h1.2.2.2.2)

theorem video_erase_outside (m : Int) (v : Video) (g : Int → Nat) (h : Inv v) :
    video_erase m (with_outside v g) = with_outside (video_erase m v) g := by
  have hh := h
  obtain ⟨h1, h2, h3, h4, _⟩ := hh
  simp only [TILES_WIDE, TILES_HIGH] at h1 h2 h3 h4
  refine sandwich_outside (fun w : Video =>
    if m = 0 then
      { w with TILEMAP := (memset w.TILEMAP (tile w.cy w.cx) w.revvideo
          (size_t (TILES_WIDE * TILES_HIGH - (w.cy * TILES_WIDE + w.cx)))) }
    else if m = 1 then
      { w with TILEMAP := memset w.TILEMAP 0 w.revvideo (size_t (w.cy * TILES_WIDE + w.cx + 1)) }
    else if m = 2 then
      { w with TILEMAP := memset w.TILEMAP 0 w.revvideo (size_t (TILES_WIDE * TILES_HIGH)) }
    else w) v g h ?_ (video_erase_inv m v h)
  simp only [with_outside_cx, with_outside_cy, with_outside_revvideo, CURSOR_INVERT_cx,
    CURSOR_INVERT_cy]
  split_ifs
  · refine memset_outside _ g _ _ _ ?_
    rw [size_t_small _ (by simp only [TILES_WIDE, TILES_HIGH]; omega)]
    simp only [tile, TILEMAP_SIZE, TILES_WIDE, TILES_HIGH]
    omega
  · refine memset_outside _ g _ _ _ ?_
    rw [size_t_small _ (by simp only [TILES_WIDE, TILES_HIGH]; omega)]
    simp only [tile, TILEMAP_SIZE, TILES_WIDE, TILES_HIGH]
    omega
  · refine memset_outside _ g _ _ _ ?_
    rw [size_t_small _ (by simp only [TILES_WIDE, TILES_HIGH]; omega)]
    simp only [tile, TILEMAP_SIZE, TILES_WIDE, TILES_HIGH]
    omega
  · rfl

theorem video_eraseline_outside (m : Int) (v : Video) (g : Int → Nat) (h : Inv v) :
    video_eraseline m (with_outside v g) = with_outside (video_eraseline m v) g := by
  have hh := h
  obtain ⟨h1, h2, h3, h4, _⟩ := hh
  simp only [TILES_WIDE, TILES_HIGH] at h1 h2 h3 h4
  refine sandwich_outside (fun w : Video =>
    if m = 0 then
      { w with TILEMAP := memset w.TILEMAP (tile w.cy w.cx) w.revvideo (size_t (TILES_WIDE - w.cx)) }
    else if m = 1 then
      { w with TILEMAP := memset w.TILEMAP (tile w.cy 0) w.revvideo (size_t (w.cx + 1)) }
    else if m = 2 then
      { w with TILEMAP := memset w.TILEMAP (tile w.cy 0) w.revvideo (size_t TILES_WIDE) }
    else w) v g h ?_ (video_eraseline_inv m v h)
  simp only [with_outside_cx, with_outside_cy, with_outside_revvideo, CURSOR_INVERT_cx,
    CURSOR_INVERT_cy]
  split_ifs
  · refine memset_outside _ g _ _ _ ?_
    rw [size_t_small _ (by simp only [TILES_WIDE]; omega)]
    simp only [tile, TILEMAP_SIZE, TILES_WIDE, TILES_HIGH]
    omega
  · refine memset_outside _ g _ _ _ ?_
    rw [size_t_small _ (by omega)]
    simp only [tile, TILEMAP_SIZE, TILES_WIDE, TILES_HIGH]
    omega
  · refine memset_outside _ g _ _ _ ?_
    rw [size_t_small _ (by simp only [TILES_WIDE]; omega)]
    simp only [tile, TILEMAP_SIZE, TILES_WIDE, TILES_HIGH]
    omega
  · rfl

theorem video_clrscr_outside (v : Video) (g : Int → Nat) (h : Inv v) :
    video_clrscr (with_outside v g) = with_outside (video_clrscr v) g := by
  have hw := CURSOR_INVERT_inv v h
  have e1 : video_reset_margins (with_outside (CURSOR_INVERT v) g) =
      with_outside (video_reset_margins (CURSOR_INVERT v)) g :=
    video_set_margins_outside 0 (TILES_HIGH - 1) (CURSOR_INVERT v) g hw
  refine sandwich_outside (fun w : Video =>
    let w1 : Video := video_reset_margins w
    let w2 : Video :=
      { w1 with TILEMAP := memset w1.TILEMAP 0 w1.revvideo (size_t (TILES_WIDE * TILES_HIGH)) }
    { w2 with cx := 0, cy := 0 }) v g h ?_ (video_clrscr_inv v)
  simp only []
  rw [e1]
  generalize video_reset_margins (CURSOR_INVERT v) = u
  have e2 := memset_outside u g 0 u.revvideo (size_t (TILES_WIDE * TILES_HIGH)) (by decide)
  exact congrArg (fun w : Video => ({ w with cx := 0, cy := 0 } : Video)) e2

/-! #### The byte dispatcher -/

theorem video_step_outside (F : Video → Video) (p : Terminal) (g : Int → Nat)
    (hF : F (with_outside p.video g) = with_outside (F p.video) g) :
    ({ term_outside p g with video := F (term_outside p g).video } : Terminal) =
      term_outside { p with video := F p.video } g := by
  unfold term_outside
  simp only [hF]

theorem escseq_get_param_outside (d : Int) (t : Terminal) (g : Int → Nat) :
    escseq_get_param d (term_outside t g) =
      ((escseq_get_param d t).1, term_outside (escseq_get_param d t).2 g) := by
  cases t with
  | mk video in_esc paramstr paramptr paramch process_escseqs graphicchars revvideo savedstate =>
    cases paramptr with
    | none => rfl
    | some p =>
      unfold escseq_get_param term_outside
      simp only []
      cases strchr paramstr p 0x3B <;> rfl

theorem sgr_step_outside (t : Terminal) (g : Int → Nat) :
    sgr_step (term_outside t g) = term_outside (sgr_step t) g := by
  unfold sgr_step
  simp only [escseq_get_param_outside]
  split_ifs <;> rfl

theorem sgr_loop_outside (fuel : Nat) (t : Terminal) (g : Int → Nat) :
    sgr_loop fuel (term_outside t g) = term_outside (sgr_loop fuel t) g := by
  induction fuel generalizing t with
  | zero => rfl
  | succ n ih =>
    cases hp : t.paramptr with
    | none =>
      have e1 : sgr_loop (n + 1) t = t := by
        simp only [sgr_loop, hp]
      have e2 : sgr_loop (n + 1) (term_outside t g) = term_outside t g := by
        have hp2 : (term_outside t g).paramptr = none := hp
        simp only [sgr_loop, hp2]
      rw [e1, e2]
    | some p =>
      have e1 : sgr_loop (n + 1) t = sgr_loop n (sgr_step t) := by
        simp only [sgr_loop, hp]
      have e2 : sgr_loop (n + 1) (term_outside t g) =
          sgr_loop n (sgr_step (term_outside t g)) := by
        have hp2 : (term_outside t g).paramptr = some p := hp
        simp only [sgr_loop, hp2]
      rw [e1, e2, sgr_step_outside, ih]

theorem csi_dispatch_outside (c : Nat) (t : Terminal) (g : Int → Nat) (h : Inv t.video) :
    csi_dispatch c (term_outside t g) = term_outside (csi_dispatch c t) g := by
  have h1 : ∀ d, Inv (escseq_get_param d t).2.video := fun d => by simpa using h
  have h2 : ∀ d e, Inv (escseq_get_param d (escseq_get_param e t).2).2.video :=
    fun d e => by simpa using h
  rcases csi_terminator_cases c with
    rfl | rfl | rfl | rfl | rfl | rfl | rfl | hc | rfl | rfl | rfl | rfl | hc
  · rw [csi_dispatch_A, csi_dispatch_A, escseq_get_param_outside]
    exact video_step_outside (video_movey _) _ g (video_movey_outside _ _ g (h1 1))
  · rw [csi_dispatch_B, csi_dispatch_B, escseq_get_param_outside]
    exact video_step_outside (video_movey _) _ g (video_movey_outside _ _ g (h1 1))
  · rw [csi_dispatch_C, csi_dispatch_C, escseq_get_param_outside]
    exact video_step_outside (video_movex _) _ g (video_movex_outside _ _ g (h1 1))
  · rw [csi_dispatch_D, csi_dispatch_D, escseq_get_param_outside]
    exact video_step_outside (video_movex _) _ g (video_movex_outside _ _ g (h1 1))
  · rw [csi_dispatch_E, csi_dispatch_E, escseq_get_param_outside]
    exact video_step_outside (fun w => video_movesol (video_movey _ w)) _ g
      ((congrArg video_movesol (video_movey_outside _ _ g (h1 1))).trans
        (video_movesol_outside _ g (video_movey_inv _ _ (h1 1))))
  · rw [csi_dispatch_F, csi_dispatch_F, escseq_get_param_outside]
    exact video_step_outside (fun w => video_movesol (video_movey _ w)) _ g
      ((congrArg video_movesol (video_movey_outside _ _ g (h1 1))).trans
        (video_movesol_outside _ g (video_movey_inv _ _ (h1 1))))
  · rw [csi_dispatch_G, csi_dispatch_G, escseq_get_param_outside]
    exact video_step_outside (video_setx _) _ g (video_setx_outside _ _ g (h1 1))
  · rw [csi_dispatch_H c hc, csi_dispatch_H c hc, escseq_get_param_outside]
    simp only [escseq_get_param_outside]
    exact video_step_outside (video_gotoxy _ _) _ g (video_gotoxy_outside _ _ _ g (h2 1 1))
  · rw [csi_dispatch_J, csi_dispatch_J, escseq_get_param_outside]
    exact video_step_outside (video_erase _) _ g (video_erase_outside _ _ g (h1 0))
  · rw [csi_dispatch_K, csi_dispatch_K, escseq_get_param_outside]
    exact video_step_outside (video_eraseline _) _ g (video_eraseline_outside _ _ g (h1 0))
  · rw [csi_dispatch_m, csi_dispatch_m]
    exact sgr_loop_outside _ t g
  · rw [csi_dispatch_r, csi_dispatch_r, escseq_get_param_outside]
    simp only [escseq_get_param_outside]
    exact video_step_outside (video_set_margins _ _) _ g
      (video_set_margins_outside _ _ _ g (h2 _ 1))
  · rw [csi_dispatch_unknown c _ hc, csi_dispatch_unknown c _ hc]

theorem escseq_process_csi_outside (c : Nat) (t : Terminal) (g : Int → Nat)
    (h : Inv t.video) :
    escseq_process_csi c (term_outside t g) = term_outside (escseq_process_csi c t) g := by
  have hd := csi_dispatch_outside c t g h
  unfold escseq_process_csi
  have hp : (term_outside t g).paramch = t.paramch := rfl
  simp only [hp]
  split_ifs
  · rfl
  · rfl
  · rw [hd]
    rfl

theorem esc_index_outside (t : Terminal) (g : Int → Nat) (h : Inv t.video) :
    esc_index (term_outside t g) = term_outside (esc_index t) g := by
  unfold esc_index
  have hy : video_gety (term_outside t g).video = video_gety t.video := rfl
  have hb : video_bottom_margin (term_outside t g).video = video_bottom_margin t.video := rfl
  simp only [hy, hb]
  split_ifs
  · exact video_step_outside video_scrollup t g (video_scrollup_outside _ g h)
  · exact video_step_outside (video_movey 1) t g (video_movey_outside _ _ g h)

theorem esc_reverse_index_outside (t : Terminal) (g : Int → Nat) (h : Inv t.video) :
    esc_reverse_index (term_outside t g) = term_outside (esc_reverse_index t) g := by
  unfold esc_reverse_index
  have hy : video_gety (term_outside t g).video = video_gety t.video := rfl
  have hb : video_top_margin (term_outside t g).video = video_top_margin t.video := rfl
  simp only [hy, hb]
  split_ifs
  · exact video_step_outside video_scrolldown t g (video_scrolldown_outside _ g h)
  · exact video_step_outside (video_movey (-1)) t g (video_movey_outside _ _ g h)

theorem set_mode_outside (t : Terminal) (g : Int → Nat) (m : Nat) :
    ({ term_outside t g with in_esc := m } : Terminal) = term_outside { t with in_esc := m } g :=
  rfl

theorem escseq_process_noncsi_outside (c : Nat) (t : Terminal) (g : Int → Nat)
    (h : Inv t.video) :
    escseq_process_noncsi c (term_outside t g) =
      term_outside (escseq_process_noncsi c t) g := by
  unfold escseq_process_noncsi
  split_ifs
  · rfl
  · rfl
  · rfl
  · have e : restore_term_state (term_outside t g) = term_outside (restore_term_state t) g := by
      unfold restore_term_state term_outside
      simp only [video_gotoxy_outside _ _ _ g h]
    rw [e]
    rfl
  · have e1 : ({ term_outside t g with video := video_movesol (term_outside t g).video } :
          Terminal) = term_outside { t with video := video_movesol t.video } g :=
      video_step_outside video_movesol t g (video_movesol_outside _ g h)
    rw [e1, esc_index_outside _ g (video_movesol_inv _ h)]
    rfl
  · rw [esc_index_outside t g h]
    rfl
  · rw [esc_reverse_index_outside t g h]
    rfl
  · have e1 : ({ term_outside t g with video := video_clrscr (term_outside t g).video } :
          Terminal) = term_outside { t with video := video_clrscr t.video } g :=
      video_step_outside video_clrscr t g (video_clrscr_outside _ g h)
    rw [e1]
    rfl
  · rfl

theorem escseq_process_outside (c : Nat) (t : Terminal) (g : Int → Nat) (h : Inv t.video) :
    escseq_process c (term_outside t g) = term_outside (escseq_process c t) g := by
  have hc := escseq_process_csi_outside c t g h
  have hn := escseq_process_noncsi_outside c { t with in_esc := ESC_NONCSI } g h
  unfold escseq_process
  have hm : (term_outside t g).in_esc = t.in_esc := rfl
  simp only [hm]
  split_ifs
  · rfl
  · exact hc
  · rfl
  · exact hn
  · rfl

theorem ite_outside {c : Prop} [Decidable c] (a b a1 b1 : Terminal) (g : Int → Nat)
    (ha : c → a1 = term_outside a g) (hb : ¬ c → b1 = term_outside b g) :
    (if c then a1 else b1) = term_outside (if c then a else b) g := by
  by_cases hc : c
  · rw [if_pos hc, if_pos hc]; exact ha hc
  · rw [if_neg hc, if_neg hc]; exact hb hc

theorem receive_idle_outside (c : Nat) (t : Terminal) (g : Int → Nat) (h : Inv t.video) :
    receive_idle c (term_outside t g) = term_outside (receive_idle c t) g := by
  unfold receive_idle
  refine ite_outside _ _ _ _ g (fun _ => rfl) (fun _ => ?_)
  refine ite_outside _ _ _ _ g
    (fun _ => video_step_outside video_cback t g (video_cback_outside _ g h)) (fun _ => ?_)
  refine ite_outside _ _ _ _ g
    (fun _ => video_step_outside video_lf t g (video_lf_outside _ g h)) (fun _ => ?_)
  refine ite_outside _ _ _ _ g
    (fun _ => video_step_outside (video_setx 0) t g (video_setx_outside _ _ g h)) (fun _ => ?_)
  refine ite_outside _ _ _ _ g (fun _ => rfl) (fun _ => ?_)
  refine ite_outside _ _ _ _ g (fun _ => rfl) (fun _ => ?_)
  refine ite_outside _ _ _ _ g (fun _ => rfl) (fun _ => ?_)
  refine ite_outside _ _ _ _ g (fun _ => rfl) (fun _ => ?_)
  exact ite_outside _ _ _ _ g
    (fun _ => video_step_outside (video_putc_raw _) t g (video_putc_raw_outside _ _ g h))
    (fun _ => rfl)

/-- One byte given to `receive_char` neither reads nor writes outside the tile map: the
step commutes with any replacement of the memory outside it. -/
theorem receive_char_outside (c : Nat) (t : Terminal) (g : Int → Nat) (h : Inv t.video) :
    receive_char c (term_outside t g) = term_outside (receive_char c t) g := by
  have hi := receive_idle_outside c t g h
  have he := escseq_process_outside c t g h
  unfold receive_char
  have hp : (term_outside t g).process_escseqs = t.process_escseqs := rfl
  have hm : (term_outside t g).in_esc = t.in_esc := rfl
  simp only [hp, hm]
  split_ifs
  · exact video_step_outside (video_putc_raw c) t g (video_putc_raw_outside _ _ g h)
  · exact he
  · exact hi
  · rfl

theorem feed_outside (bs : List Nat) (t : Terminal) (g : Int → Nat) (h : Inv t.video) :
    feed bs (term_outside t g) = term_outside (feed bs t) g := by
  induction bs generalizing t with
  | nil => rfl
  | cons b bs ih =>
    show feed bs (receive_char b (term_outside t g)) = term_outside (feed bs (receive_char b t)) g
    rw [receive_char_outside b t g h]
    exact ih (receive_char b t) (receive_char_inv b t h)

theorem term_outside_self (t : Terminal) : term_outside t t.video.TILEMAP = t := by
  unfold term_outside with_outside
  rw [graft_self]

/-- C35: from every state that satisfies the bounds `Inv` (the start-up state does, and
every state reached from it; escape processing on or off, cursor shown or hidden) and for
every sequence of bytes given to `receive_char`:
(1) the run neither reads nor writes a cell outside the offsets
`0 .. (TILES_HIGH + 1) * TILES_WIDE - 1` of the tile map: it commutes with replacing the
memory outside the array by arbitrary contents `g`;
(2) in particular every offset outside the array holds after the run what it held before;
(3) the reached state satisfies the bounds again, and its cursor cell, the one the mask
toggle and the glyph write address, lies inside the array;
(4) in the reached state the byte count `(mbottom - mtop) * TILES_WIDE` of the scroll
moves is not truncated by `size_t`, the source and destination ranges of both moves lie
inside rows `0 .. TILES_HIGH - 1`, and so does the row filled by either scroll. -/
theorem buffer_index_safety (t : Terminal) (bs : List Nat) (hinv : Inv t.video) :
    (∀ g : Int → Nat, feed bs (term_outside t g) = term_outside (feed bs t) g) ∧
    (∀ i : Int, (i < 0 ∨ TILEMAP_SIZE ≤ i) →
      (feed bs t).video.TILEMAP i = t.video.TILEMAP i) ∧
    (Inv (feed bs t).video ∧
      0 ≤ tile (feed bs t).video.cy (feed bs t).video.cx ∧
      tile (feed bs t).video.cy (feed bs t).video.cx < TILEMAP_SIZE) ∧
    (size_t (((feed bs t).video.mbottom - (feed bs t).video.mtop) * TILES_WIDE) =
        ((feed bs t).video.mbottom - (feed bs t).video.mtop) * TILES_WIDE ∧
      0 ≤ tile (feed bs t).video.mtop 0 ∧
      tile ((feed bs t).video.mtop + 1) 0 +
          ((feed bs t).video.mbottom - (feed bs t).video.mtop) * TILES_WIDE ≤
        TILES_HIGH * TILES_WIDE ∧
      tile (feed bs t).video.mbottom 0 + size_t TILES_WIDE ≤ TILES_HIGH * TILES_WIDE) := by
  have hr := feed_inv bs t hinv
  refine ⟨fun g => feed_outside bs t g hinv, ?_, ⟨hr, cursor_cell_inside _ hr⟩, ?_⟩
  · intro i hi
    have e := feed_outside bs t t.video.TILEMAP hinv
    rw [term_outside_self] at e
    have e2 : (feed bs t).video.TILEMAP i =
        (term_outside (feed bs t) t.video.TILEMAP).video.TILEMAP i := by rw [← e]
    rw [e2]
    exact graft_outside _ _ i hi
  · obtain ⟨_, _, _, _, h5, h6, h7⟩ := hr
    simp only [TILES_HIGH] at h7
    refine ⟨size_t_small _ (by simp only [TILES_WIDE]; omega), ?_, ?_, ?_⟩
    · simp only [tile, TILES_WIDE]; omega
    · simp only [tile, TILES_WIDE, TILES_HIGH]; omega
    · simp only [tile, size_t, TILES_WIDE, TILES_HIGH]; omega

/-- C35 (witness): from start-up, the bytes `A`, LF, `ESC [ 2 J` leave the memory just
past the tile map as it was, whatever it holds. -/
theorem buffer_index_safety_witness :
    Inv boot.video ∧
    feed [0x41, 0x0A, 0x1B, 0x5B, 0x32, 0x4A] (term_outside boot (fun _ => 7)) =
      term_outside (feed [0x41, 0x0A, 0x1B, 0x5B, 0x32, 0x4A] boot) (fun _ => 7) ∧
    (feed [0x41, 0x0A, 0x1B, 0x5B, 0x32, 0x4A] boot).video.TILEMAP TILEMAP_SIZE =
      boot.video.TILEMAP TILEMAP_SIZE :=
  ⟨by decide,
    (buffer_index_safety boot [0x41, 0x0A, 0x1B, 0x5B, 0x32, 0x4A] (by decide)).1 (fun _ => 7),
    (buffer_index_safety boot [0x41, 0x0A, 0x1B, 0x5B, 0x32, 0x4A] (by decide)).2.1
      TILEMAP_SIZE (Or.inr (Int.le_refl _))⟩

end Terminalscope
